import Mathlib

/-!
# Tour cost sharing: the settlements computation

A shallow embedding of the `GET /settlements` handler of `routes/expenses.js`
and of `getFamiliesSorted` of `utils/familyHelper.js`.

The computation is given twice. The definitions of the first part read the
arithmetic of the handler exactly: numbers are rationals (`ℚ`) and `+`, `-`,
`*`, `/` are the operations of `ℚ`. The host language computes in IEEE 754
binary64; the definitions of the namespace `F64` are the same lines with every
operation rounded as the host language rounds it, and what is said of the
unrounded sums, shares, balances and running totals of the code is said on
them. The exact reading carries the properties that rest on the shape of the
computation (filters, sorts, the order and number of the loop passes), which
the rounding does not change, and the identities that hold before rounding.

A family's member count is a natural number (the `Family` schema bounds it
below by 0 and the family routes accept integers only).  Arrays are lists,
`reduce` with an initial value is `List.foldl`, `filter` and `map` are the list
functions, and `Array.prototype.sort` with a comparator is a stable sort.
-/

namespace TourCostSharing

/-! ## Data model -/

/-- A family document as the handler reads it (`models/Family.js`). -/
structure Family where
  name : String
  members : ℕ
  deriving DecidableEq, Repr

/-- An expense document as the handler reads it. -/
structure Expense where
  familyName : String
  amount : ℚ
  deriving DecidableEq, Repr

/-- One entry of `familyBalances` (expenses.js, lines 94-100). -/
structure FamilyBalance where
  family : String
  members : ℕ
  share : ℚ
  paid : ℚ
  balance : ℚ
  deriving DecidableEq, Repr

/-- The transfer made in one pass of the inner loop body, before rounding:
`debtor.family`, `creditor.family` and the local `amount` (lines 116-120). -/
structure Transfer where
  from_ : String
  to_ : String
  amount : ℚ
  deriving DecidableEq, Repr

/-- A record pushed on `settlements` (lines 118-122); `from_` and `to_` are the
fields `from` and `to` of the source, `amount` is the string made by
`toFixed(2)`. -/
structure Settlement where
  from_ : String
  to_ : String
  amount : String
  deriving DecidableEq, Repr

/-- The JSON body of the response (lines 130-136). -/
structure Response where
  totalExpenses : ℚ
  totalMembers : ℕ
  perPersonShare : ℚ
  familyBalances : List FamilyBalance
  settlements : List Settlement
  deriving DecidableEq, Repr

/-! ## Library functions of the host language -/

/-- The insertion step of a stable comparator sort: `a`, which stood before
every element of the list, goes before the first element `b` for which
`cmp a b ≤ 0` (it stays ahead of an element it compares equal to). -/
def insertSorted {α : Type} (cmp : α → α → ℚ) (a : α) : List α → List α
  | [] => [a]
  | b :: l => if cmp a b ≤ 0 then a :: b :: l else b :: insertSorted cmp a l

/-- Comparator sort `Array.prototype.sort(cmp)`: elements are ordered so that
`cmp a b ≤ 0` for `a` before `b`, and elements that compare equal keep their
input order (the sort is stable). -/
def sortBy {α : Type} (cmp : α → α → ℚ) : List α → List α
  | [] => []
  | a :: l => insertSorted cmp a (sortBy cmp l)

/-- The integer `n` of `Number.prototype.toFixed(2)` for `x ≥ 0`: the integer
for which `n / 100 - x` is closest to zero, the larger one on a tie. -/
def roundCents (x : ℚ) : ℤ := ⌊x * 100 + 1 / 2⌋

/-- The digits of `toFixed(2)` for a number of cents `n`: the integer part, a
point, and two decimals. -/
def renderCents (n : ℕ) : String :=
  toString (n / 100) ++ "." ++ toString (n % 100 / 10) ++ toString (n % 10)

/-- The string of `x.toFixed(2)`, for `|x| < 10^21` (above that bound the host
language switches to exponent notation, which is outside this model). -/
def toFixed2 (x : ℚ) : String :=
  if x < 0 then
    "-" ++ renderCents (roundCents (-x)).toNat
  else renderCents (roundCents x).toNat

/-! ## `getFamiliesSorted` (utils/familyHelper.js) -/

/-- Insertion of a family in a list ordered by ascending `name`. -/
def insertByName (f : Family) : List Family → List Family
  | [] => [f]
  | g :: l => if f.name ≤ g.name then f :: g :: l else g :: insertByName f l

/-- The families of a group in ascending order of `name`
(`Family.find({ group }).sort({ name: 1 })`); the argument is the group's
families in the order the store holds them. -/
def getFamiliesSorted : List Family → List Family
  | [] => []
  | f :: l => insertByName f (getFamiliesSorted l)

/-! ## The handler `GET /settlements` (routes/expenses.js, lines 74-140) -/

/-- Line 83: `families.reduce((sum, family) => sum + family.members, 0)`. -/
def totalMembers (families : List Family) : ℕ :=
  families.foldl (fun sum family => sum + family.members) 0

/-- Line 84: `expenses.reduce((sum, expense) => sum + expense.amount, 0)`, the
additions exact; `F64.totalExpenses` is the sum with every addition rounded,
which depends on the order of the expenses. -/
def totalExpenses (expenses : List Expense) : ℚ :=
  expenses.foldl (fun sum expense => sum + expense.amount) 0

/-- Division of the host language on the rationals: a zero divisor has no
rational result (`Infinity` or `NaN` in the source), which is `none`. -/
def divide (a b : ℚ) : Option ℚ :=
  if b = 0 then none else some (a / b)

/-- Line 85 with the division made explicit:
`totalMembers > 0 ? totalExpenses / totalMembers : 0`. -/
def perPersonShareChecked (families : List Family) (expenses : List Expense) : Option ℚ :=
  if 0 < totalMembers families then
    divide (totalExpenses expenses) (totalMembers families)
  else some 0

/-- Line 85: the value bound to `perPersonShare` (the checked share is always a
value, see `perPersonShareChecked_eq`, so the default is never taken), the
quotient exact; `F64.perPersonShare` is the rounded quotient of the rounded
sums. -/
def perPersonShare (families : List Family) (expenses : List Expense) : ℚ :=
  (perPersonShareChecked families expenses).getD 0

/-- Lines 90-92: the amounts of the expenses whose `familyName` is the family's
name, summed exactly; `F64.familyPaid` is the sum with every addition
rounded. -/
def familyPaid (expenses : List Expense) (family : Family) : ℚ :=
  (expenses.filter (fun expense => expense.familyName = family.name)).foldl
    (fun sum expense => sum + expense.amount) 0

/-- Lines 88-101: the callback of `families.map`, the product and the
difference exact; `F64.familyBalance` rounds both, so that its balances need
not add up to 0. -/
def familyBalance (share : ℚ) (expenses : List Expense) (family : Family) : FamilyBalance :=
  let familyShare := share * family.members
  let paid := familyPaid expenses family
  { family := family.name
    members := family.members
    share := familyShare
    paid := paid
    balance := paid - familyShare }

/-- Lines 88-101: `familyBalances`. -/
def familyBalances (families : List Family) (expenses : List Expense) : List FamilyBalance :=
  families.map (familyBalance (perPersonShare families expenses) expenses)

/-- Line 107: the entries with `balance < 0`, sorted by `a.balance - b.balance`. -/
def debtors (balances : List FamilyBalance) : List FamilyBalance :=
  sortBy (fun a b => a.balance - b.balance) (balances.filter (fun f => f.balance < 0))

/-- Line 108: the entries with `balance > 0`, sorted by `b.balance - a.balance`. -/
def creditors (balances : List FamilyBalance) : List FamilyBalance :=
  sortBy (fun a b => b.balance - a.balance) (balances.filter (fun f => f.balance > 0))

/-- Lines 113-127: the inner loop for one debtor.  It walks the creditors in
order with the running `remainingDebt`; each creditor is passed on with its
`balance` field as the loop leaves it.  The result is the creditors after the
loop, the transfers made (in order) and the final `remainingDebt`.  The two
subtractions of lines 124-125 are exact here; `F64.payDebtor` rounds them. -/
def payDebtor (debtor : String) :
    ℚ → List FamilyBalance → List FamilyBalance × List Transfer × ℚ
  | remainingDebt, [] => ([], [], remainingDebt)
  | remainingDebt, creditor :: rest =>
    if remainingDebt ≤ 0 ∨ creditor.balance ≤ 0 then
      let r := payDebtor debtor remainingDebt rest
      (creditor :: r.1, r.2.1, r.2.2)
    else
      let amount := min remainingDebt creditor.balance
      if amount > 0 then
        let r := payDebtor debtor (remainingDebt - amount) rest
        ({ creditor with balance := creditor.balance - amount } :: r.1,
          { from_ := debtor, to_ := creditor.family, amount := amount } :: r.2.1, r.2.2)
      else
        let r := payDebtor debtor remainingDebt rest
        (creditor :: r.1, r.2.1, r.2.2)

/-- Lines 110-128: the outer loop.  The state carried from one debtor to the
next is the creditors array (whose `balance` fields the inner loop updates) and
the transfers made so far. -/
def settleLoop :
    List FamilyBalance → List FamilyBalance → List FamilyBalance × List Transfer
  | [], creditors => (creditors, [])
  | debtor :: rest, creditors =>
    let r := payDebtor debtor.family |debtor.balance| creditors
    let s := settleLoop rest r.1
    (s.1, r.2.1 ++ s.2)

/-- The transfers of lines 104-128, before rounding, for given
`familyBalances`: `settlementBalances` is a deep copy of them, so the loop
works on the same values and leaves `familyBalances` as it was. -/
def transfersOf (balances : List FamilyBalance) : List Transfer :=
  (settleLoop (debtors balances) (creditors balances)).2

/-- Lines 118-122: the record pushed for a transfer. -/
def emit (t : Transfer) : Settlement :=
  { from_ := t.from_, to_ := t.to_, amount := toFixed2 t.amount }

/-- The unrounded transfers of the handler for the families and expenses read
at lines 79-80. -/
def transfers (families : List Family) (expenses : List Expense) : List Transfer :=
  transfersOf (familyBalances families expenses)

/-- Lines 83-136: the response computed from `families` (as returned by
`getFamiliesSorted`) and `expenses`. -/
def settlementsOf (families : List Family) (expenses : List Expense) : Response :=
  { totalExpenses := totalExpenses expenses
    totalMembers := totalMembers families
    perPersonShare := perPersonShare families expenses
    familyBalances := familyBalances families expenses
    settlements := (transfers families expenses).map emit }

/-- The documents of one group in the store. -/
structure Store where
  families : List Family
  expenses : List Expense
  deriving DecidableEq, Repr

/-- Lines 79-136: the handler on the store of a resolved group.  It reads the
expenses, reads the families through `getFamiliesSorted`, and answers; the
second component is the store after the request. -/
def getSettlements (store : Store) : Response × Store :=
  (settlementsOf (getFamiliesSorted store.families) store.expenses, store)

/-! ## Quantities the properties are stated with -/

/-- The total of the `amount` fields of a list of transfers. -/
def totalAmount (ts : List Transfer) : ℚ := (ts.map (fun t => t.amount)).sum

/-- What the transfers of `ts` take from the family named `n`. -/
def sentBy (n : String) (ts : List Transfer) : ℚ :=
  totalAmount (ts.filter (fun t => t.from_ = n))

/-- What the transfers of `ts` give to the family named `n`. -/
def receivedBy (n : String) (ts : List Transfer) : ℚ :=
  totalAmount (ts.filter (fun t => t.to_ = n))

/-- The total of the `balance` fields. -/
def totalBalance (bs : List FamilyBalance) : ℚ := (bs.map (fun b => b.balance)).sum

/-- The input contract of the settlements computation: family names are
pairwise distinct, every expense names a listed family, amounts are not
negative and there is at least one member. -/
structure ValidInput (families : List Family) (expenses : List Expense) : Prop where
  distinct : (families.map (fun f => f.name)).Nodup
  listed : ∀ e ∈ expenses, e.familyName ∈ families.map (fun f => f.name)
  nonneg : ∀ e ∈ expenses, 0 ≤ e.amount
  members : 0 < totalMembers families

/-- The part of the total balance of `cs` held by the entries named `n`. -/
def creditOf (n : String) (cs : List FamilyBalance) : ℚ :=
  totalBalance (cs.filter (fun c => c.family = n))

/-- The number of entries that still have credit. -/
def openCredits (cs : List FamilyBalance) : ℕ :=
  (cs.filter (fun c => 0 < c.balance)).length

/-- The debts of a list of debtors, as the outer loop reads them. -/
def totalDebt (ds : List FamilyBalance) : ℚ := (ds.map (fun d => |d.balance|)).sum

/-- The value of `remainingDebt` at the end of each debtor's inner loop, in the
order of the debtors: the third component of `payDebtor` along the outer loop
of `settleLoop`. -/
def remainingDebts : List FamilyBalance → List FamilyBalance → List ℚ
  | [], _ => []
  | debtor :: rest, creditors =>
    let r := payDebtor debtor.family |debtor.balance| creditors
    r.2.2 :: remainingDebts rest r.1

/-- Two families and one expense (Scenario A of the specification). -/
def sampleFamilies : List Family := [⟨"Alpha", 2⟩, ⟨"Beta", 2⟩]

/-- The expense of Scenario A. -/
def sampleExpenses : List Expense := [⟨"Alpha", 100⟩]

/-- The settlement of Scenario A. -/
def sampleSettlement : Settlement := { from_ := "Beta", to_ := "Alpha", amount := "50.00" }

/-- The number that the string `x.toFixed(2)` denotes, for `x ≥ 0`. -/
def fixedValue (x : ℚ) : ℚ := (roundCents x : ℚ) / 100

/-- A list of debtor-to-creditor transfers with positive amounts that brings
every balance of `bs` to 0: each transfer goes from the name of an entry with
negative balance to the name of an entry with positive balance, and for every
entry the balance plus what its name sends minus what it receives is 0. -/
def Settles (bs : List FamilyBalance) (ts : List Transfer) : Prop :=
  (∀ t ∈ ts, 0 < t.amount ∧ (∃ d ∈ bs, d.family = t.from_ ∧ d.balance < 0) ∧
    (∃ c ∈ bs, c.family = t.to_ ∧ 0 < c.balance)) ∧
  (∀ b ∈ bs, b.balance + sentBy b.family ts - receivedBy b.family ts = 0)

/-- Five families of one member each. -/
def fiveFamilies : List Family := [⟨"A", 1⟩, ⟨"B", 1⟩, ⟨"C", 1⟩, ⟨"D", 1⟩, ⟨"E", 1⟩]

/-- Expenses that leave `A` with +6, `B` with +4, `C` with -4 and `D`, `E` with -3. -/
def fiveExpenses : List Expense := [⟨"A", 10⟩, ⟨"B", 8⟩, ⟨"D", 1⟩, ⟨"E", 1⟩]

/-- Three transfers that settle `fiveFamilies` with `fiveExpenses`. -/
def threeTransfers : List Transfer := [⟨"C", "B", 4⟩, ⟨"D", "A", 3⟩, ⟨"E", "A", 3⟩]

/-- Two families of one member each. -/
def tinyFamilies : List Family := [⟨"A", 1⟩, ⟨"B", 1⟩]

/-- One expense of 0.008. -/
def tinyExpenses : List Expense := [⟨"A", 1 / 125⟩]

/-- Four families, two creditors and two debtors with equal balances. -/
def tieFamilies : List Family := [⟨"A", 1⟩, ⟨"B", 1⟩, ⟨"C", 1⟩, ⟨"D", 1⟩]

/-- The families of `tieFamilies` in another order. -/
def tieFamiliesShuffled : List Family := [⟨"D", 1⟩, ⟨"B", 1⟩, ⟨"A", 1⟩, ⟨"C", 1⟩]

/-- Expenses that leave `A` and `B` with +20 and `C` and `D` with -20. -/
def tieExpenses : List Expense := [⟨"A", 40⟩, ⟨"B", 30⟩, ⟨"B", 10⟩]

/-- The expenses of `tieExpenses` in another order. -/
def tieExpensesShuffled : List Expense := [⟨"B", 10⟩, ⟨"A", 40⟩, ⟨"B", 30⟩]

/-! ## Inputs and quantities of the further properties -/

/-- The families of Scenario B. -/
def evenFamilies : List Family := [⟨"A", 1⟩, ⟨"B", 1⟩, ⟨"C", 1⟩]

/-- The expenses of Scenario B. -/
def evenExpenses : List Expense := [⟨"A", 30⟩, ⟨"B", 30⟩, ⟨"C", 30⟩]

/-- The families of Scenario C. -/
def idleFamilies : List Family := [⟨"A", 1⟩, ⟨"B", 1⟩]

/-- Two families without members. -/
def memberlessFamilies : List Family := [⟨"A", 0⟩, ⟨"B", 0⟩]

/-- One expense of 40 by `A`. -/
def memberlessExpenses : List Expense := [⟨"A", 40⟩]

/-- One expense of 0.000000002 by `A`. -/
def nanoExpenses : List Expense := [⟨"A", 2 / 1000000000⟩]

/-- What the emitted amounts of the settlements from the family named `n` add
up to: the sum of the rounded amounts of the transfers whose `from` is `n`. -/
def emittedSentBy (n : String) (ts : List Transfer) : ℚ :=
  ((ts.filter (fun t => t.from_ = n)).map (fun t => fixedValue t.amount)).sum

/-- What the emitted amounts of the settlements to the family named `n` add up
to. -/
def emittedReceivedBy (n : String) (ts : List Transfer) : ℚ :=
  ((ts.filter (fun t => t.to_ = n)).map (fun t => fixedValue t.amount)).sum

/-- An expense of a family that is not listed in `sampleFamilies`. -/
def orphanExpense : Expense := ⟨"Zeta", 50⟩

/-! ## The passes of the loop body -/

/-- One pass of the loop body that makes a transfer (lines 116-125): the
transfer, and the values of `remainingDebt` and of `creditor.balance` that line
116 reads. -/
structure Step where
  transfer : Transfer
  remainingDebt : ℚ
  credit : ℚ
  deriving DecidableEq, Repr

/-- The passes of the inner loop for one debtor that make a transfer, in
order: `payDebtor` with the values read kept beside each transfer. -/
def payDebtorSteps (debtor : String) : ℚ → List FamilyBalance → List Step
  | _, [] => []
  | remainingDebt, creditor :: rest =>
    if remainingDebt ≤ 0 ∨ creditor.balance ≤ 0 then
      payDebtorSteps debtor remainingDebt rest
    else
      let amount := min remainingDebt creditor.balance
      if amount > 0 then
        { transfer := { from_ := debtor, to_ := creditor.family, amount := amount }
          remainingDebt := remainingDebt
          credit := creditor.balance }
          :: payDebtorSteps debtor (remainingDebt - amount) rest
      else
        payDebtorSteps debtor remainingDebt rest

/-- The passes of the whole loop that make a transfer, in order. -/
def settleSteps : List FamilyBalance → List FamilyBalance → List Step
  | [], _ => []
  | debtor :: rest, creditors =>
    payDebtorSteps debtor.family |debtor.balance| creditors
      ++ settleSteps rest (payDebtor debtor.family |debtor.balance| creditors).1

/-- The families of Scenario D. -/
def unequalFamilies : List Family := [⟨"A", 0⟩, ⟨"B", 2⟩]

/-- The expenses of Scenario D. -/
def unequalExpenses : List Expense := [⟨"B", 40⟩]

/-! ## The two-cursor matching of the specification -/

/-- The two-cursor algorithm as the specification words it (§4.1 step 7 and
§9): the heads of the two lists are the debtor and the creditor the cursors
point at, each with what remains of its debt or credit; a step transfers the
smaller of the two remainders and advances each side that reached 0. Every
step advances at least one cursor, so `fuel` steps are enough when `fuel` is
the number of debtors and creditors. -/
def twoCursorFuel : ℕ → List (String × ℚ) → List (String × ℚ) → List Transfer
  | 0, _, _ => []
  | _ + 1, [], _ => []
  | _ + 1, _ :: _, [] => []
  | fuel + 1, (debtor, debt) :: debtors, (creditor, credit) :: creditors =>
    let amount := min debt credit
    { from_ := debtor, to_ := creditor, amount := amount } ::
      twoCursorFuel fuel
        (if debt - amount = 0 then debtors else (debtor, debt - amount) :: debtors)
        (if credit - amount = 0 then creditors else (creditor, credit - amount) :: creditors)

/-- The two-cursor matching of debtors `(name, debt)` and creditors
`(name, credit)`. -/
def twoCursor (debtors creditors : List (String × ℚ)) : List Transfer :=
  twoCursorFuel (debtors.length + creditors.length) debtors creditors

/-- The debtors as the two-cursor matching takes them: the name and the debt. -/
def debtPairs (ds : List FamilyBalance) : List (String × ℚ) :=
  ds.map (fun d => (d.family, |d.balance|))

/-- The creditors as the two-cursor matching takes them: the name and the
credit. -/
def creditPairs (cs : List FamilyBalance) : List (String × ℚ) :=
  cs.map (fun c => (c.family, c.balance))

/-! ## Expenses of families that are not listed -/

/-- The total amount of the expenses whose `familyName` is the name of no
listed family. -/
def orphanTotal (families : List Family) (expenses : List Expense) : ℚ :=
  ((expenses.filter (fun e => e.familyName ∉ families.map (fun f => f.name))).map
    (fun e => e.amount)).sum

/-- Three families of one member each. -/
def threeFamilies : List Family := [⟨"A", 1⟩, ⟨"B", 1⟩, ⟨"C", 1⟩]

/-- An expense of 9 by `A` and an expense of 6 by a family that is not listed. -/
def strayExpenses : List Expense := [⟨"A", 9⟩, ⟨"Zeta", 6⟩]

/-! ## The numbers of the host language

The numbers of the handler are IEEE 754 binary64 values, and `+`, `-`, `*` and
`/` give the binary64 value nearest to the exact result, the one with the even
significand on a tie. A finite binary64 value is a rational, so the model
keeps `ℚ` and rounds after every operation. It covers the finite values:
a result beyond the largest finite value (`Infinity` in the source) and `NaN`
are outside it, and so is the sign of zero, which no comparison, `Math.min`
or `toFixed` of the handler tells apart. -/

/-- The power `2 ^ e` for an integer exponent. -/
def pow2 (e : ℤ) : ℚ :=
  if 0 ≤ e then ((2 ^ e.toNat : ℕ) : ℚ) else 1 / ((2 ^ (-e).toNat : ℕ) : ℚ)

/-- The number of halvings that bring `n` below 2, at most `fuel` of them. -/
def halvings : ℕ → ℕ → ℕ
  | 0, _ => 0
  | fuel + 1, n => if n < 2 then 0 else halvings fuel (n / 2) + 1

/-- The position of the leading binary digit of `n ≥ 1`. -/
def bitLength (n : ℕ) : ℕ := halvings n n

/-- The exponent of `x > 0`: the integer `e` with `2 ^ e ≤ x < 2 ^ (e + 1)`. -/
def exponentOf (x : ℚ) : ℤ :=
  let e : ℤ := (bitLength x.num.natAbs : ℤ) - (bitLength x.den : ℤ)
  if x < pow2 e then e - 1 else e

/-- The integer nearest to `x ≥ 0`, the even one on a tie. -/
def roundHalfEven (x : ℚ) : ℤ :=
  if x - ⌊x⌋ < 1 / 2 then ⌊x⌋
  else if 1 / 2 < x - ⌊x⌋ then ⌊x⌋ + 1
  else if ⌊x⌋ % 2 = 0 then ⌊x⌋
  else ⌊x⌋ + 1

/-- The spacing of the binary64 values around `x ≠ 0`: 53 significant bits, and
`2 ^ (-1074)` for the smallest (subnormal) values. -/
def spacing (x : ℚ) : ℚ := pow2 (max (exponentOf |x| - 52) (-1074))

/-- The binary64 value nearest to `x` (round to nearest, ties to even), with
the gradual underflow of the format; the exponent is not bounded above, so the
result is the one of the host language as long as that is finite. -/
def binary64 (x : ℚ) : ℚ :=
  if x = 0 then 0
  else if x < 0 then -(roundHalfEven (-x / spacing x) * spacing x)
  else roundHalfEven (x / spacing x) * spacing x

/-- The numbers the rounding produces: an integer of at most 53 bits times a
power of 2 that is not below `2 ^ (-1074)`. -/
def IsBinary64 (y : ℚ) : Prop :=
  ∃ m e : ℤ, -1074 ≤ e ∧ |m| ≤ 2 ^ 53 ∧ y = m * pow2 e

/-! ## The handler `GET /settlements` in the numbers of the host language

Lines 83-128 once more, every arithmetic operation rounded as the host
language rounds it. The definitions of this section have the names of the ones
above, in the namespace `F64`; the comparisons, `Math.abs`, `Math.min` and
`toFixed(2)` are exact on binary64 values and are the ones used above, and the
copy of line 105 (`JSON.parse(JSON.stringify(...))`) gives back every finite
number as it was. -/

namespace F64

/-- The sum `a + b` of the host language. -/
def add (a b : ℚ) : ℚ := binary64 (a + b)

/-- The difference `a - b` of the host language. -/
def sub (a b : ℚ) : ℚ := binary64 (a - b)

/-- The product `a * b` of the host language. -/
def mul (a b : ℚ) : ℚ := binary64 (a * b)

/-- The quotient `a / b` of the host language; a zero divisor has no finite
result, which is `none`. -/
def divide (a b : ℚ) : Option ℚ :=
  if b = 0 then none else some (binary64 (a / b))

/-- Line 83: `families.reduce((sum, family) => sum + family.members, 0)`. -/
def totalMembers (families : List Family) : ℚ :=
  families.foldl (fun sum family => add sum family.members) 0

/-- Line 84: `expenses.reduce((sum, expense) => sum + expense.amount, 0)`, the
additions made from left to right. -/
def totalExpenses (expenses : List Expense) : ℚ :=
  expenses.foldl (fun sum expense => add sum expense.amount) 0

/-- Line 85 with the division made explicit:
`totalMembers > 0 ? totalExpenses / totalMembers : 0`. -/
def perPersonShareChecked (families : List Family) (expenses : List Expense) : Option ℚ :=
  if 0 < totalMembers families then
    divide (totalExpenses expenses) (totalMembers families)
  else some 0

/-- Line 85: the value bound to `perPersonShare`. -/
def perPersonShare (families : List Family) (expenses : List Expense) : ℚ :=
  (perPersonShareChecked families expenses).getD 0

/-- Lines 90-92: the amounts of the expenses whose `familyName` is the family's
name, added from left to right. -/
def familyPaid (expenses : List Expense) (family : Family) : ℚ :=
  (expenses.filter (fun expense => expense.familyName = family.name)).foldl
    (fun sum expense => add sum expense.amount) 0

/-- Lines 88-101: the callback of `families.map`. -/
def familyBalance (share : ℚ) (expenses : List Expense) (family : Family) : FamilyBalance :=
  let familyShare := mul share family.members
  let paid := familyPaid expenses family
  { family := family.name
    members := family.members
    share := familyShare
    paid := paid
    balance := sub paid familyShare }

/-- Lines 88-101: `familyBalances`. -/
def familyBalances (families : List Family) (expenses : List Expense) : List FamilyBalance :=
  families.map (familyBalance (perPersonShare families expenses) expenses)

/-- Line 107: the entries with `balance < 0`, sorted by `a.balance - b.balance`. -/
def debtors (balances : List FamilyBalance) : List FamilyBalance :=
  sortBy (fun a b => sub a.balance b.balance) (balances.filter (fun f => f.balance < 0))

/-- Line 108: the entries with `balance > 0`, sorted by `b.balance - a.balance`. -/
def creditors (balances : List FamilyBalance) : List FamilyBalance :=
  sortBy (fun a b => sub b.balance a.balance) (balances.filter (fun f => f.balance > 0))

/-- Lines 113-127: the inner loop for one debtor. The result is the creditors
after the loop, the transfers made (in order) and the final `remainingDebt`. -/
def payDebtor (debtor : String) :
    ℚ → List FamilyBalance → List FamilyBalance × List Transfer × ℚ
  | remainingDebt, [] => ([], [], remainingDebt)
  | remainingDebt, creditor :: rest =>
    if remainingDebt ≤ 0 ∨ creditor.balance ≤ 0 then
      let r := payDebtor debtor remainingDebt rest
      (creditor :: r.1, r.2.1, r.2.2)
    else
      let amount := min remainingDebt creditor.balance
      if amount > 0 then
        let r := payDebtor debtor (sub remainingDebt amount) rest
        ({ creditor with balance := sub creditor.balance amount } :: r.1,
          { from_ := debtor, to_ := creditor.family, amount := amount } :: r.2.1, r.2.2)
      else
        let r := payDebtor debtor remainingDebt rest
        (creditor :: r.1, r.2.1, r.2.2)

/-- Lines 110-128: the outer loop. -/
def settleLoop :
    List FamilyBalance → List FamilyBalance → List FamilyBalance × List Transfer
  | [], creditors => (creditors, [])
  | debtor :: rest, creditors =>
    let r := payDebtor debtor.family |debtor.balance| creditors
    let s := settleLoop rest r.1
    (s.1, r.2.1 ++ s.2)

/-- The value of `remainingDebt` at the end of each debtor's inner loop, in the
order of the debtors. -/
def remainingDebts : List FamilyBalance → List FamilyBalance → List ℚ
  | [], _ => []
  | debtor :: rest, creditors =>
    let r := payDebtor debtor.family |debtor.balance| creditors
    r.2.2 :: remainingDebts rest r.1

/-- The transfers of lines 104-128, before `toFixed(2)`, for given
`familyBalances`. -/
def transfersOf (balances : List FamilyBalance) : List Transfer :=
  (settleLoop (debtors balances) (creditors balances)).2

/-- The unrounded transfers of the handler for the families and expenses read
at lines 79-80. -/
def transfers (families : List Family) (expenses : List Expense) : List Transfer :=
  transfersOf (familyBalances families expenses)

/-- The JSON body of the response (lines 130-136). -/
structure Response where
  totalExpenses : ℚ
  totalMembers : ℚ
  perPersonShare : ℚ
  familyBalances : List FamilyBalance
  settlements : List Settlement
  deriving DecidableEq, Repr

/-- Lines 83-136: the response computed from `families` (as returned by
`getFamiliesSorted`) and `expenses`. -/
def settlementsOf (families : List Family) (expenses : List Expense) : Response :=
  { totalExpenses := totalExpenses expenses
    totalMembers := totalMembers families
    perPersonShare := perPersonShare families expenses
    familyBalances := familyBalances families expenses
    settlements := (transfers families expenses).map emit }

/-- Lines 79-136: the handler on the store of a resolved group. -/
def getSettlements (store : Store) : Response × Store :=
  (settlementsOf (getFamiliesSorted store.families) store.expenses, store)

end F64

/-! ## Inputs on which the rounding shows

The amounts are the binary64 values of the decimal numbers written, as the
store holds them. -/

/-- Four families: `A` with 3 members, `B` and `C` with 2, `D` with 1. -/
def residueFamilies : List Family := [⟨"A", 3⟩, ⟨"B", 2⟩, ⟨"C", 2⟩, ⟨"D", 1⟩]

/-- Expenses of 0.30 by `B` and of 0.23 and 0.07 by `A`. -/
def residueExpenses : List Expense :=
  [⟨"B", binary64 (30 / 100)⟩, ⟨"A", binary64 (23 / 100)⟩, ⟨"A", binary64 (7 / 100)⟩]

/-- Three families: `A` with 3 members, `B` and `C` with 2. -/
def driftFamilies : List Family := [⟨"A", 3⟩, ⟨"B", 2⟩, ⟨"C", 2⟩]

/-- Expenses of 0.9 and 2.3 by `C`, of 2 by `A` and of 1.1 by `B`. -/
def driftExpenses : List Expense :=
  [⟨"C", binary64 (9 / 10)⟩, ⟨"C", binary64 (23 / 10)⟩, ⟨"A", 2⟩, ⟨"B", binary64 (11 / 10)⟩]

/-- The expenses as the store holds them: every amount is the binary64 value
nearest to the decimal number written. -/
def stored (expenses : List Expense) : List Expense :=
  expenses.map (fun e => { e with amount := binary64 e.amount })

/-- Two families: `A` with 1 member and `B` with 3. -/
def orderFamilies : List Family := [⟨"A", 1⟩, ⟨"B", 3⟩]

/-- Expenses of 1.7, 0.7 and 3.7 by `A`, in this order. -/
def orderExpenses : List Expense := stored [⟨"A", 17 / 10⟩, ⟨"A", 7 / 10⟩, ⟨"A", 37 / 10⟩]

/-- Two families: `A` with 1 member and `B` with 5. -/
def eighthFamilies : List Family := [⟨"A", 1⟩, ⟨"B", 5⟩]

/-- One expense of 0.15 by `A`. -/
def eighthExpenses : List Expense := stored [⟨"A", 15 / 100⟩]

/-- Three families: `A` and `B` with 1 member, `C` with 5. -/
def headFamilies : List Family := [⟨"A", 1⟩, ⟨"B", 1⟩, ⟨"C", 5⟩]

/-- Expenses in which every family pays 1.76 for each of its members: 1.38 and
0.38 by `A`, 1.37 and 0.39 by `B`, 8.80 by `C`. -/
def headAmounts : List Expense :=
  [⟨"A", 138 / 100⟩, ⟨"A", 38 / 100⟩, ⟨"B", 137 / 100⟩, ⟨"B", 39 / 100⟩, ⟨"C", 880 / 100⟩]

/-- Four families: `A`, `B` and `C` with 1 member, `D` with 2. -/
def centFamilies : List Family := [⟨"A", 1⟩, ⟨"B", 1⟩, ⟨"C", 1⟩, ⟨"D", 2⟩]

/-- Expenses of 0.04 by `A`, `B` and `C`: each is owed 0.016 and `D` owes 0.048. -/
def centAmounts : List Expense := [⟨"A", 4 / 100⟩, ⟨"B", 4 / 100⟩, ⟨"C", 4 / 100⟩]

/-! ## The matching pass on an object store

Lines 104-128 once more, with the objects made explicit. The store is a list
of objects and a reference is an index in it. The objects of `familyBalances`
are the references `0 .. n-1`; the deep copy of line 105 allocates the objects
`n .. 2n-1`; `debtors` and `creditors` are arrays of references to the copies,
and line 125 writes the `balance` field of the object a creditor reference
points to. -/

/-- The object a reference points to. -/
def readRef (heap : List FamilyBalance) (ref : ℕ) : FamilyBalance :=
  heap.getD ref { family := "", members := 0, share := 0, paid := 0, balance := 0 }

/-- Assignment to the `balance` field of the object at `ref`. -/
def writeBalance (heap : List FamilyBalance) (ref : ℕ) (balance : ℚ) : List FamilyBalance :=
  heap.set ref { readRef heap ref with balance := balance }

/-- Lines 113-127 on the store: the inner loop for one debtor over the creditor
references. The result is the store after the loop, the transfers made and the
final `remainingDebt`. -/
def payDebtorRef (debtor : String) :
    ℚ → List ℕ → List FamilyBalance → List FamilyBalance × List Transfer × ℚ
  | remainingDebt, [], heap => (heap, [], remainingDebt)
  | remainingDebt, creditor :: rest, heap =>
    if remainingDebt ≤ 0 ∨ (readRef heap creditor).balance ≤ 0 then
      payDebtorRef debtor remainingDebt rest heap
    else
      let amount := min remainingDebt (readRef heap creditor).balance
      if amount > 0 then
        let r := payDebtorRef debtor (remainingDebt - amount) rest
          (writeBalance heap creditor ((readRef heap creditor).balance - amount))
        (r.1, { from_ := debtor, to_ := (readRef heap creditor).family, amount := amount }
          :: r.2.1, r.2.2)
      else
        payDebtorRef debtor remainingDebt rest heap

/-- Lines 110-128 on the store: the outer loop over the debtor references. -/
def settleLoopRef :
    List ℕ → List ℕ → List FamilyBalance → List FamilyBalance × List Transfer
  | [], _, heap => (heap, [])
  | debtor :: rest, creditors, heap =>
    let r := payDebtorRef (readRef heap debtor).family |(readRef heap debtor).balance|
      creditors heap
    let s := settleLoopRef rest creditors r.1
    (s.1, r.2.1 ++ s.2)

/-- Line 105: the references of `settlementBalances`, the copies of the `n`
objects of `familyBalances`. -/
def copyRefs (n : ℕ) : List ℕ := (List.range n).map (fun i => n + i)

/-- Line 107 on the store. -/
def debtorRefs (heap : List FamilyBalance) (refs : List ℕ) : List ℕ :=
  sortBy (fun a b => (readRef heap a).balance - (readRef heap b).balance)
    (refs.filter (fun f => (readRef heap f).balance < 0))

/-- Line 108 on the store. -/
def creditorRefs (heap : List FamilyBalance) (refs : List ℕ) : List ℕ :=
  sortBy (fun a b => (readRef heap b).balance - (readRef heap a).balance)
    (refs.filter (fun f => (readRef heap f).balance > 0))

/-- Lines 104-128 on the store that holds the objects of `familyBalances`: the
store after the loop and the transfers made. -/
def matchingPass (balances : List FamilyBalance) : List FamilyBalance × List Transfer :=
  let heap := balances ++ balances
  let settlementBalances := copyRefs balances.length
  settleLoopRef (debtorRefs heap settlementBalances) (creditorRefs heap settlementBalances) heap

/-- Lines 83-136 with the object store: `familyBalances` is read back from the
store after the matching pass, as `res.json` does at line 134. -/
def settlementsOnHeap (families : List Family) (expenses : List Expense) : Response :=
  let balances := familyBalances families expenses
  let result := matchingPass balances
  { totalExpenses := totalExpenses expenses
    totalMembers := totalMembers families
    perPersonShare := perPersonShare families expenses
    familyBalances := (List.range balances.length).map (readRef result.1)
    settlements := result.2.map emit }

/-! ## The handler in a running process

What one run of the handler can leave to the next is the database and the
memory of the process. The handler calls `Group.findById`, `Expense.find` and
`Family.find` and no function that writes to the database; in memory it
allocates the objects of `familyBalances` (line 88) and their copies
(line 105) and writes the `balance` fields of the copies (line 125). The
objects stay where they are when the run ends, and the next run allocates its
own after them. -/

/-- What a run finds and leaves: the documents of the group in the database
and the objects in the memory of the process. -/
structure Process where
  store : Store
  memory : List FamilyBalance
  deriving DecidableEq, Repr

/-- The references of `count` objects allocated one after the other, the first
at `first`. -/
def freshRefs (first count : ℕ) : List ℕ := (List.range count).map (fun i => first + i)

/-- Lines 88-128 on a memory that already holds objects: the objects of
`familyBalances` are allocated after them, the copies of line 105 after these,
and the loop runs on the references of the copies. The result is the memory
after the loop and the transfers made. -/
def matchingPassIn (memory : List FamilyBalance) (balances : List FamilyBalance) :
    List FamilyBalance × List Transfer :=
  let allocated := memory ++ balances
  let copied := allocated ++ balances
  let settlementBalances := freshRefs allocated.length balances.length
  settleLoopRef (debtorRefs copied settlementBalances) (creditorRefs copied settlementBalances)
    copied

/-- Lines 79-136 in a process: the response, read from the memory as
`res.json` reads it at lines 130-136, and the process after the run. -/
def getSettlementsIn (process : Process) : Response × Process :=
  let families := getFamiliesSorted process.store.families
  let expenses := process.store.expenses
  let balances := familyBalances families expenses
  let result := matchingPassIn process.memory balances
  ({ totalExpenses := totalExpenses expenses
     totalMembers := totalMembers families
     perPersonShare := perPersonShare families expenses
     familyBalances := (freshRefs process.memory.length balances.length).map (readRef result.1)
     settlements := result.2.map emit },
    { store := process.store, memory := result.1 })

/-- The store of Scenario A. -/
def sampleStore : Store := { families := sampleFamilies, expenses := sampleExpenses }

/-! ## The document store and the routes that write to it

`routes/families.js`, `routes/expenses.js` and `routes/groups.js` over the
three collections. In this section a handler is one step on the store: it
runs from the request to the response without another handler in between, as
it does when the server gets its requests one at a time; handlers that give way
to one another at an `await` are the matter of the section on overlapping
requests. Document identifiers are natural numbers handed out by a counter, and
a query on a field finds the documents whose stored field is the value
given. -/

/-- The `status` of a group (`models/Group.js`, line 45). -/
inductive GroupStatus where
  | active
  | closed
  deriving DecidableEq, Repr

/-- A group document (`models/Group.js`). -/
structure GroupDoc where
  id : ℕ
  name : String
  description : Option String
  status : GroupStatus
  deriving DecidableEq, Repr

/-- A family document (`models/Family.js`); `group` is the identifier of its
group. -/
structure FamilyDoc where
  id : ℕ
  name : String
  members : ℕ
  group : ℕ
  deriving DecidableEq, Repr

/-- An expense document, with the fields the routes write (lines 59-64 of
`routes/expenses.js`); the schema of the model is not among the sources. -/
structure ExpenseDoc where
  id : ℕ
  description : String
  amount : ℚ
  familyName : String
  group : ℕ
  deriving DecidableEq, Repr

/-- The three collections and the next fresh identifier. -/
structure Db where
  groups : List GroupDoc
  families : List FamilyDoc
  expenses : List ExpenseDoc
  nextId : ℕ
  deriving DecidableEq, Repr

/-- The store before any request. -/
def emptyDb : Db := { groups := [], families := [], expenses := [], nextId := 0 }

/-- What the routes take from their surroundings: the constant `PASSWORD`
(`process.env.ADMIN_PASSWORD || '123'`), `String.prototype.trim`, the letter-case
folding under which the store matches a regular expression with the `i` flag,
the match of the pattern `^name$` built from an unescaped group name
(`groups.js`, lines 101 and 136; `none` when the pattern does not compile), and
the validation of the expense schema (`none` when the document is valid, the
error message otherwise). -/
structure Host where
  password : String
  trim : String → String
  fold : String → String
  groupPattern : String → Option (String → Bool)
  expenseError : ExpenseDoc → Option String

/-- The body of a response: a message or a document. -/
inductive Body where
  | message (text : String)
  | family (doc : FamilyDoc)
  | expense (doc : ExpenseDoc)
  | group (doc : GroupDoc)
  deriving DecidableEq, Repr

/-- A response: the status and the JSON body. -/
structure Reply where
  status : ℕ
  body : Body
  deriving DecidableEq, Repr

/-- The body of `POST /families`; `members` is `Number(req.body.members)`, with
`none` for a value that is not a finite number. -/
structure AddFamilyRequest where
  groupId : Option ℕ
  password : Option String
  name : Option String
  members : Option ℚ
  deriving DecidableEq, Repr

/-- The parameters of `PATCH /families/:id`. -/
structure UpdateFamilyRequest where
  id : ℕ
  members : Option ℚ
  deriving DecidableEq, Repr

/-- The parameters of `DELETE /families/:id`. -/
structure DeleteFamilyRequest where
  id : ℕ
  password : Option String
  deriving DecidableEq, Repr

/-- The body of `POST /expenses`. -/
structure AddExpenseRequest where
  groupId : Option ℕ
  description : String
  amount : ℚ
  familyName : String
  deriving DecidableEq, Repr

/-- The parameters of `PATCH /expenses/:id`; `amount` is `none` when the field
is undefined, `some none` when `Number(amount)` is `NaN`, and the number
otherwise. -/
structure UpdateExpenseRequest where
  id : ℕ
  amount : Option (Option ℚ)
  familyName : Option String
  deriving DecidableEq, Repr

/-- The parameters of `DELETE /expenses/:id`. -/
structure DeleteExpenseRequest where
  id : ℕ
  deriving DecidableEq, Repr

/-- The body of `POST /groups`. -/
structure CreateGroupRequest where
  password : Option String
  name : Option String
  description : Option String
  deriving DecidableEq, Repr

/-- The parameters of `PATCH /groups/:id`; `status` is the string sent. -/
structure UpdateGroupRequest where
  id : ℕ
  password : Option String
  name : Option String
  description : Option String
  status : Option String
  deriving DecidableEq, Repr

/-- A response that carries a message. -/
def fail (status : ℕ) (text : String) : Reply := { status := status, body := Body.message text }

/-- The function `resolveGroup` of `families.js` (lines 16-38) and `expenses.js`
(lines 8-26): the group of the request, or the response that ends it. -/
def resolveGroup (db : Db) (groupId : Option ℕ) : Except Reply GroupDoc :=
  match groupId with
  | none => Except.error (fail 400 "groupId is required.")
  | some id =>
    match db.groups.find? (fun g => g.id = id) with
    | none => Except.error (fail 404 "Group not found.")
    | some group => Except.ok group

/-- The test of lines 97 and 162 of `families.js`: the member count when the
number is an integer between 0 and 10. -/
def validMembers (members : Option ℚ) : Option ℕ :=
  match members with
  | none => none
  | some m => if ¬ m.isInt ∨ m < 0 ∨ m > 10 then none else some m.num.toNat

/-- The route `POST /families` (families.js, lines 77-141). -/
def addFamily (host : Host) (db : Db) (req : AddFamilyRequest) : Reply × Db :=
  match resolveGroup db req.groupId with
  | Except.error reply => (reply, db)
  | Except.ok group =>
    if group.status = GroupStatus.closed then
      (fail 400 "Cannot modify a closed group.", db)
    else if req.password ≠ some host.password then
      (fail 403 "Invalid password for adding family.", db)
    else
      let name := host.trim (req.name.getD "")
      if name = "" then
        (fail 400 "Family name is required.", db)
      else
        match validMembers req.members with
        | none => (fail 400 "Members must be an integer between 0 and 10.", db)
        | some members =>
          let family : FamilyDoc :=
            { id := db.nextId, name := name, members := members, group := group.id }
          let created : Reply × Db :=
            ({ status := 201, body := Body.family family },
              { db with families := db.families ++ [family], nextId := db.nextId + 1 })
          match db.families.find?
              (fun f => host.fold f.name = host.fold name ∧ f.group = group.id) with
          | none => created
          | some existing =>
            if existing.group ≠ group.id then created
            else (fail 409 "Family already exists in this group.", db)

/-- The route `PATCH /families/:id` (families.js, lines 144-174). -/
def updateFamily (db : Db) (req : UpdateFamilyRequest) : Reply × Db :=
  match db.families.find? (fun f => f.id = req.id) with
  | none => (fail 404 "Family not found.", db)
  | some family =>
    match db.groups.find? (fun g => g.id = family.group) with
    | none => (fail 404 "Group not found.", db)
    | some group =>
      if group.status = GroupStatus.closed then
        (fail 400 "Cannot modify a closed group.", db)
      else
        match validMembers req.members with
        | none => (fail 400 "Members must be an integer between 0 and 10.", db)
        | some members =>
          let updated : FamilyDoc := { family with members := members }
          ({ status := 200, body := Body.family updated },
            { db with families := (db.families.map
                (fun f => if f.id = family.id then updated else f)) })

/-- The route `DELETE /families/:id` (families.js, lines 177-210). -/
def deleteFamily (host : Host) (db : Db) (req : DeleteFamilyRequest) : Reply × Db :=
  match db.families.find? (fun f => f.id = req.id) with
  | none => (fail 404 "Family not found.", db)
  | some family =>
    match db.groups.find? (fun g => g.id = family.group) with
    | none => (fail 404 "Group not found.", db)
    | some group =>
      if group.status = GroupStatus.closed then
        (fail 400 "Cannot modify a closed group.", db)
      else if req.password ≠ some host.password then
        (fail 403 "Invalid password for deleting family.", db)
      else if db.expenses.any
          (fun e => e.familyName = family.name ∧ e.group = family.group) then
        (fail 400 "Cannot delete a family that has recorded expenses.", db)
      else
        (fail 200 "Family deleted successfully.",
          { db with families := db.families.filter (fun f => f.id ≠ family.id) })

/-- The route `POST /expenses` (expenses.js, lines 41-71). -/
def addExpense (host : Host) (db : Db) (req : AddExpenseRequest) : Reply × Db :=
  match resolveGroup db req.groupId with
  | Except.error reply => (reply, db)
  | Except.ok group =>
    if group.status = GroupStatus.closed then
      (fail 400 "Cannot modify a closed group.", db)
    else
      match db.families.find? (fun f => f.name = req.familyName ∧ f.group = group.id) with
      | none => (fail 400 "Family does not exist in this group.", db)
      | some _ =>
        let expense : ExpenseDoc :=
          { id := db.nextId, description := req.description, amount := req.amount,
            familyName := req.familyName, group := group.id }
        match host.expenseError expense with
        | some text => (fail 400 text, db)
        | none =>
          ({ status := 201, body := Body.expense expense },
            { db with expenses := db.expenses ++ [expense], nextId := db.nextId + 1 })

/-- Lines 159-176 of `expenses.js`: the `updates` object when both checks pass
(the new amount and the new family name, each if given), or the response of the
check that fails. -/
def expenseUpdates (db : Db) (group : GroupDoc) (req : UpdateExpenseRequest) :
    Except Reply (Option ℚ × Option String) :=
  let amount : Except Reply (Option ℚ) :=
    match req.amount with
    | none => Except.ok none
    | some none => Except.error (fail 400 "Amount must be a positive number.")
    | some (some parsedAmount) =>
      if parsedAmount < 0 then Except.error (fail 400 "Amount must be a positive number.")
      else Except.ok (some parsedAmount)
  match amount with
  | Except.error reply => Except.error reply
  | Except.ok newAmount =>
    match req.familyName with
    | none => Except.ok (newAmount, none)
    | some familyName =>
      if familyName = "" then Except.ok (newAmount, none)
      else if db.families.any (fun f => f.name = familyName ∧ f.group = group.id) then
        Except.ok (newAmount, some familyName)
      else Except.error (fail 400 "Family does not exist.")

/-- The route `PATCH /expenses/:id` (expenses.js, lines 143-190). -/
def updateExpense (host : Host) (db : Db) (req : UpdateExpenseRequest) : Reply × Db :=
  match db.expenses.find? (fun e => e.id = req.id) with
  | none => (fail 404 "Expense not found.", db)
  | some expense =>
    match db.groups.find? (fun g => g.id = expense.group) with
    | none => (fail 404 "Group not found.", db)
    | some group =>
      if group.status = GroupStatus.closed then
        (fail 400 "Cannot modify a closed group.", db)
      else
        match expenseUpdates db group req with
        | Except.error reply => (reply, db)
        | Except.ok (none, none) => (fail 400 "Nothing to update.", db)
        | Except.ok (newAmount, newFamilyName) =>
          let updated : ExpenseDoc :=
            { expense with
              amount := newAmount.getD expense.amount
              familyName := newFamilyName.getD expense.familyName }
          match host.expenseError updated with
          | some _ => (fail 500 "Unable to update expense.", db)
          | none =>
            ({ status := 200, body := Body.expense updated },
              { db with expenses := (db.expenses.map
                  (fun e => if e.id = expense.id then updated else e)) })

/-- The route `DELETE /expenses/:id` (expenses.js, lines 193-216). -/
def deleteExpense (db : Db) (req : DeleteExpenseRequest) : Reply × Db :=
  match db.expenses.find? (fun e => e.id = req.id) with
  | none => (fail 404 "Expense not found.", db)
  | some expense =>
    match db.groups.find? (fun g => g.id = expense.group) with
    | none => (fail 404 "Group not found.", db)
    | some group =>
      if group.status = GroupStatus.closed then
        (fail 400 "Cannot modify a closed group.", db)
      else
        (fail 200 "Expense deleted successfully.",
          { db with expenses := db.expenses.filter (fun e => e.id ≠ expense.id) })

/-- The route `POST /groups` (groups.js, lines 88-117); the unique index on the
group name (`models/Group.js`, line 36) makes `Group.create` fail on a name that
is already stored. -/
def createGroup (host : Host) (db : Db) (req : CreateGroupRequest) : Reply × Db :=
  if req.password ≠ some host.password then
    (fail 403 "Invalid password for creating group.", db)
  else
    let name := host.trim (req.name.getD "")
    if name = "" then
      (fail 400 "Group name is required.", db)
    else
      match host.groupPattern name with
      | none => (fail 500 "Unable to create group.", db)
      | some isMatch =>
        if db.groups.any (fun g => isMatch g.name) then
          (fail 409 "Group with this name already exists.", db)
        else if db.groups.any (fun g => g.name = name) then
          (fail 500 "Unable to create group.", db)
        else
          let group : GroupDoc :=
            { id := db.nextId, name := name, description := req.description.map host.trim,
              status := GroupStatus.active }
          ({ status := 201, body := Body.group group },
            { db with groups := db.groups ++ [group], nextId := db.nextId + 1 })

/-- Lines 148-167 of `groups.js`: the new status when the request changes it,
`none` when it leaves it, or the response of the check that fails. -/
def statusUpdate (host : Host) (group : GroupDoc) (req : UpdateGroupRequest) :
    Except Reply (Option GroupStatus) :=
  match req.status with
  | none => Except.ok none
  | some text =>
    if text = "" then Except.ok none
    else
      let nextStatus : Option GroupStatus :=
        if text = "active" then some GroupStatus.active
        else if text = "closed" then some GroupStatus.closed
        else none
      match nextStatus with
      | none => Except.error (fail 400 "Invalid status.")
      | some next =>
        if group.status = next then Except.ok none
        else if req.password ≠ some host.password then
          Except.error (fail 403
            (if next = GroupStatus.closed then "Invalid password for closing group."
             else "Invalid password for reopening group."))
        else Except.ok (some next)

/-- Lines 128-142 of `groups.js`: the new name when the request gives one, or
the response of the check that fails. -/
def nameUpdate (host : Host) (db : Db) (group : GroupDoc) (req : UpdateGroupRequest) :
    Except Reply (Option String) :=
  match req.name with
  | none => Except.ok none
  | some text =>
    if text = "" then Except.ok none
    else
      let name := host.trim text
      if name = "" then Except.error (fail 400 "Group name cannot be empty.")
      else
        match host.groupPattern name with
        | none => Except.error (fail 500 "Unable to update group.")
        | some isMatch =>
          if db.groups.any (fun g => g.id ≠ group.id ∧ isMatch g.name) then
            Except.error (fail 409 "Another group already has this name.")
          else Except.ok (some name)

/-- The route `PATCH /groups/:id` (groups.js, lines 119-179). -/
def updateGroup (host : Host) (db : Db) (req : UpdateGroupRequest) : Reply × Db :=
  match db.groups.find? (fun g => g.id = req.id) with
  | none => (fail 404 "Group not found.", db)
  | some group =>
    match nameUpdate host db group req with
    | Except.error reply => (reply, db)
    | Except.ok newName =>
      match statusUpdate host group req with
      | Except.error reply => (reply, db)
      | Except.ok newStatus =>
        if newName = none ∧ req.description = none ∧ newStatus = none then
          (fail 400 "No changes provided.", db)
        else if db.groups.any
            (fun g => g.id ≠ group.id ∧ some g.name = newName) then
          (fail 500 "Unable to update group.", db)
        else
          let updated : GroupDoc :=
            { group with
              name := newName.getD group.name
              description :=
                match req.description with
                | none => group.description
                | some text => some (host.trim text)
              status := newStatus.getD group.status }
          ({ status := 200, body := Body.group updated },
            { db with groups := (db.groups.map
                (fun g => if g.id = group.id then updated else g)) })

/-- A request to one of the routes that write to the store. -/
inductive Request where
  | addFamily (req : AddFamilyRequest)
  | updateFamily (req : UpdateFamilyRequest)
  | deleteFamily (req : DeleteFamilyRequest)
  | addExpense (req : AddExpenseRequest)
  | updateExpense (req : UpdateExpenseRequest)
  | deleteExpense (req : DeleteExpenseRequest)
  | createGroup (req : CreateGroupRequest)
  | updateGroup (req : UpdateGroupRequest)
  deriving DecidableEq, Repr

/-- The server on one request: the response and the store after it. -/
def handle (host : Host) (db : Db) : Request → Reply × Db
  | Request.addFamily req => addFamily host db req
  | Request.updateFamily req => updateFamily db req
  | Request.deleteFamily req => deleteFamily host db req
  | Request.addExpense req => addExpense host db req
  | Request.updateExpense req => updateExpense host db req
  | Request.deleteExpense req => deleteExpense db req
  | Request.createGroup req => createGroup host db req
  | Request.updateGroup req => updateGroup host db req

/-- The stores the server can be in when it handles its requests one at a
time: the empty store, and the store after any request handled from its first
line to its last in such a store. Requests whose handlers overlap are the
matter of `overlap` below. -/
inductive Reachable (host : Host) : Db → Prop where
  | empty : Reachable host emptyDb
  | step (db : Db) (req : Request) : Reachable host db → Reachable host (handle host db req).2

/-- What `GET /settlements` reads for a group (expenses.js, lines 79-80): its
families and its expenses. -/
def groupStore (db : Db) (group : ℕ) : Store :=
  { families := (db.families.filter (fun f => f.group = group)).map
      (fun f => { name := f.name, members := f.members })
    expenses := (db.expenses.filter (fun e => e.group = group)).map
      (fun e => { familyName := e.familyName, amount := e.amount }) }

/-- Every expense names a family of its own group. -/
def Referential (db : Db) : Prop :=
  ∀ e ∈ db.expenses, ∃ f ∈ db.families, f.name = e.familyName ∧ f.group = e.group

/-- No two families of one group have names that are equal ignoring letter
case. -/
def CaseUnique (host : Host) (db : Db) : Prop :=
  db.families.Pairwise (fun f g => f.group = g.group → host.fold f.name ≠ host.fold g.name)

/-- Family identifiers are distinct and below the counter. -/
def FreshIds (db : Db) : Prop :=
  (db.families.map (fun f => f.id)).Nodup ∧ ∀ f ∈ db.families, f.id < db.nextId

/-- A host for the examples: password `123`, white space and letter case as
the string library has them, group patterns that match the same name ignoring
case, and an expense schema that accepts every document. -/
def sampleHost : Host :=
  { password := "123"
    trim := String.trim
    fold := String.toLower
    groupPattern := fun name => some (fun stored => stored.toLower = name.toLower)
    expenseError := fun _ => none }

/-- The requests that build the example store: a group, the two families of
Scenario A and the expense of Scenario A. -/
def sampleRequests : List Request :=
  [Request.createGroup { password := some "123", name := some "Trip", description := none },
   Request.addFamily
     { groupId := some 0, password := some "123", name := some " Alpha ", members := some 2 },
   Request.addFamily
     { groupId := some 0, password := some "123", name := some "Beta", members := some 2 },
   Request.addExpense
     { groupId := some 0, description := "Hotel", amount := 100, familyName := "Alpha" }]

/-- The store after a list of requests. -/
def run (host : Host) (db : Db) : List Request → Db
  | [] => db
  | req :: rest => run host (handle host db req).2 rest

/-- The example store. -/
def sampleDb : Db := run sampleHost emptyDb sampleRequests

/-- The three properties the routes keep together. -/
def Consistent (host : Host) (db : Db) : Prop :=
  FreshIds db ∧ Referential db ∧ CaseUnique host db

/-! ## Further properties of the store -/

/-- Every stored family has at most 10 members. -/
def MembersBounded (db : Db) : Prop := ∀ f ∈ db.families, f.members ≤ 10

/-- Group and expense identifiers are distinct and below the counter. -/
def DocsFresh (db : Db) : Prop :=
  (db.groups.map (fun g => g.id)).Nodup ∧ (∀ g ∈ db.groups, g.id < db.nextId) ∧
  (db.expenses.map (fun e => e.id)).Nodup ∧ (∀ e ∈ db.expenses, e.id < db.nextId)

/-- The example store with its group closed. -/
def closedDb : Db :=
  run sampleHost sampleDb
    [Request.updateGroup
      { id := 0, password := some "123", name := none, description := none,
        status := some "closed" }]

/-- The example store with one more family, which has no expense. -/
def widerDb : Db :=
  run sampleHost sampleDb
    [Request.addFamily
      { groupId := some 0, password := some "123", name := some "Gamma", members := some 0 }]

/-! ## Overlapping requests

A handler gives way to the other requests at every `await`. `POST /expenses`
looks the family up at line 50 and saves the expense at line 66;
`POST /families` looks for a family of the same name at line 107 and saves at
line 126. Here each of the two is cut at the `await` of its save: the first
part reads the store and decides, the second part saves, and other requests can
be handled in between. The other routes are taken in one piece here; they have
awaits of their own (`DELETE /families/:id` at lines 197 and 204), which give
further interleavings of the same kind. Nothing in the database ties an expense
to a family, and the unique index of `models/Family.js` (line 24) is on the
group and the exact name. -/

/-- A handler that has passed its checks and is at the `await` of its save,
with the fields of the document it is about to save. -/
inductive Pending where
  | family (name : String) (members : ℕ) (group : ℕ)
  | expense (description : String) (amount : ℚ) (familyName : String) (group : ℕ)
  deriving DecidableEq, Repr

/-- Lines 79-124 of `families.js`: `POST /families` up to `family.save()`. The
result is the response when a check ends the request, or the family to save. -/
def addFamilyChecks (host : Host) (db : Db) (req : AddFamilyRequest) : Except Reply Pending :=
  match resolveGroup db req.groupId with
  | Except.error reply => Except.error reply
  | Except.ok group =>
    if group.status = GroupStatus.closed then
      Except.error (fail 400 "Cannot modify a closed group.")
    else if req.password ≠ some host.password then
      Except.error (fail 403 "Invalid password for adding family.")
    else
      let name := host.trim (req.name.getD "")
      if name = "" then
        Except.error (fail 400 "Family name is required.")
      else
        match validMembers req.members with
        | none => Except.error (fail 400 "Members must be an integer between 0 and 10.")
        | some members =>
          match db.families.find?
              (fun f => host.fold f.name = host.fold name ∧ f.group = group.id) with
          | none => Except.ok (Pending.family name members group.id)
          | some existing =>
            if existing.group ≠ group.id then Except.ok (Pending.family name members group.id)
            else Except.error (fail 409 "Family already exists in this group.")

/-- Lines 43-64 of `expenses.js`: `POST /expenses` up to `expense.save()`. -/
def addExpenseChecks (db : Db) (req : AddExpenseRequest) : Except Reply Pending :=
  match resolveGroup db req.groupId with
  | Except.error reply => Except.error reply
  | Except.ok group =>
    if group.status = GroupStatus.closed then
      Except.error (fail 400 "Cannot modify a closed group.")
    else
      match db.families.find? (fun f => f.name = req.familyName ∧ f.group = group.id) with
      | none => Except.error (fail 400 "Family does not exist in this group.")
      | some _ => Except.ok (Pending.expense req.description req.amount req.familyName group.id)

/-- The save a handler was waiting for, on the store as it is then, and the
response. `family.save()` (families.js, lines 126-139) is refused by the unique
index when the group has a family of exactly this name (error code 11000,
answered with 409); `expense.save()` (expenses.js, lines 66-70) is refused when
the schema rejects the document. -/
def save (host : Host) (db : Db) : Pending → Reply × Db
  | Pending.family name members group =>
    if db.families.any (fun f => f.group = group ∧ f.name = name) then
      (fail 409 "Family already exists in this group.", db)
    else
      let family : FamilyDoc :=
        { id := db.nextId, name := name, members := members, group := group }
      ({ status := 201, body := Body.family family },
        { db with families := db.families ++ [family], nextId := db.nextId + 1 })
  | Pending.expense description amount familyName group =>
    let expense : ExpenseDoc :=
      { id := db.nextId, description := description, amount := amount,
        familyName := familyName, group := group }
    match host.expenseError expense with
    | some text => (fail 400 text, db)
    | none =>
      ({ status := 201, body := Body.expense expense },
        { db with expenses := db.expenses ++ [expense], nextId := db.nextId + 1 })

/-- The server between two events: the store, and the handlers that wait for
their save, the one that has waited longest first. -/
structure Server where
  db : Db
  waiting : List Pending
  deriving DecidableEq, Repr

/-- What happens at the server, in order of time: a request handled from its
first line to its last; the first part of a `POST /families` or of a
`POST /expenses`, up to the `await` of its save; the save of the handler that
has waited longest. -/
inductive Event where
  | request (req : Request)
  | familyChecks (req : AddFamilyRequest)
  | expenseChecks (req : AddExpenseRequest)
  | save
  deriving DecidableEq, Repr

/-- The server after one event. -/
def step (host : Host) (server : Server) : Event → Server
  | Event.request req => { server with db := (handle host server.db req).2 }
  | Event.familyChecks req =>
    match addFamilyChecks host server.db req with
    | Except.error _ => server
    | Except.ok pending => { server with waiting := server.waiting ++ [pending] }
  | Event.expenseChecks req =>
    match addExpenseChecks server.db req with
    | Except.error _ => server
    | Except.ok pending => { server with waiting := server.waiting ++ [pending] }
  | Event.save =>
    match server.waiting with
    | [] => server
    | pending :: rest => { db := (save host server.db pending).2, waiting := rest }

/-- The server after a list of events. -/
def overlap (host : Host) (server : Server) (events : List Event) : Server :=
  events.foldl (step host) server

/-- While a `POST /expenses` for `Gamma` waits for its save, the family `Gamma`
is deleted. -/
def deleteBeforeSave : List Event :=
  [Event.expenseChecks
     { groupId := some 0, description := "Taxi", amount := 30, familyName := "Gamma" },
   Event.request (Request.deleteFamily { id := 4, password := some "123" }),
   Event.save]

/-- Two `POST /families` for names that differ in letter case only, each at its
save before the other has saved. -/
def twoSpellings : List Event :=
  [Event.familyChecks
     { groupId := some 0, password := some "123", name := some "Gamma", members := some 1 },
   Event.familyChecks
     { groupId := some 0, password := some "123", name := some "GAMMA", members := some 1 },
   Event.save,
   Event.save]

/-! ## Sums -/

theorem foldl_amount (es : List Expense) (init : ℚ) :
    es.foldl (fun sum expense => sum + expense.amount) init
      = init + (es.map (fun e => e.amount)).sum := by
  induction es generalizing init with
  | nil => simp
  | cons e es ih => simp [List.foldl_cons, ih, add_assoc]

theorem foldl_members (fs : List Family) (init : ℕ) :
    fs.foldl (fun sum family => sum + family.members) init
      = init + (fs.map (fun f => f.members)).sum := by
  induction fs generalizing init with
  | nil => simp
  | cons f fs ih => simp [List.foldl_cons, ih, add_assoc]

theorem totalExpenses_eq_sum (es : List Expense) :
    totalExpenses es = (es.map (fun e => e.amount)).sum := by
  simp [totalExpenses, foldl_amount]

theorem totalMembers_eq_sum (fs : List Family) :
    totalMembers fs = (fs.map (fun f => f.members)).sum := by
  simp [totalMembers, foldl_members]

theorem perPersonShareChecked_eq (fs : List Family) (es : List Expense) :
    perPersonShareChecked fs es
      = some (if 0 < totalMembers fs then totalExpenses es / (totalMembers fs : ℚ) else 0) := by
  unfold perPersonShareChecked divide
  by_cases h : 0 < totalMembers fs
  · have h0 : ((totalMembers fs : ℕ) : ℚ) ≠ 0 := by
      exact_mod_cast (Nat.pos_iff_ne_zero.mp h)
    simp [h, h0]
  · simp [h]

theorem perPersonShare_eq (fs : List Family) (es : List Expense) :
    perPersonShare fs es
      = if 0 < totalMembers fs then totalExpenses es / (totalMembers fs : ℚ) else 0 := by
  simp [perPersonShare, perPersonShareChecked_eq]

theorem familyPaid_eq_sum (es : List Expense) (f : Family) :
    familyPaid es f
      = ((es.filter (fun e => e.familyName = f.name)).map (fun e => e.amount)).sum := by
  simp [familyPaid, foldl_amount]

theorem familyPaid_cons (e : Expense) (es : List Expense) (f : Family) :
    familyPaid (e :: es) f
      = (if e.familyName = f.name then e.amount else 0) + familyPaid es f := by
  rw [familyPaid_eq_sum, familyPaid_eq_sum]
  by_cases h : e.familyName = f.name <;> simp [List.filter_cons, h]

/-- One expense is counted by exactly one family when the names are distinct and
its family is listed. -/
theorem sum_indicator (n : String) (a : ℚ) (fs : List Family)
    (hd : (fs.map (fun f => f.name)).Nodup) (hn : n ∈ fs.map (fun f => f.name)) :
    (fs.map (fun f => if n = f.name then a else 0)).sum = a := by
  induction fs with
  | nil => simp at hn
  | cons f fs ih =>
    simp only [List.map_cons, List.nodup_cons, List.mem_cons] at hd hn
    simp only [List.map_cons, List.sum_cons]
    by_cases h : n = f.name
    · have hz : (fs.map (fun g => if n = g.name then a else 0)).sum = 0 := by
        apply List.sum_eq_zero
        intro x hx
        simp only [List.mem_map] at hx
        obtain ⟨g, hg, rfl⟩ := hx
        have : n ≠ g.name := by
          intro hng
          apply hd.1
          rw [← h, hng]
          exact List.mem_map_of_mem _ hg
        simp [this]
      rw [hz]; simp [h]
    · have hn2 : n ∈ fs.map (fun f => f.name) := by
        rcases hn with hn | hn
        · exact absurd hn h
        · exact hn
      simp [h, ih hd.2 hn2]

theorem sum_familyPaid (fs : List Family) (es : List Expense)
    (hd : (fs.map (fun f => f.name)).Nodup)
    (hl : ∀ e ∈ es, e.familyName ∈ fs.map (fun f => f.name)) :
    (fs.map (familyPaid es)).sum = totalExpenses es := by
  induction es with
  | nil =>
    simp only [totalExpenses_eq_sum, List.map_nil, List.sum_nil]
    apply List.sum_eq_zero
    intro x hx
    simp only [List.mem_map] at hx
    obtain ⟨f, _, rfl⟩ := hx
    simp [familyPaid]
  | cons e es ih =>
    have h1 : fs.map (familyPaid (e :: es))
        = fs.map (fun f => (if e.familyName = f.name then e.amount else 0) + familyPaid es f) := by
      apply List.map_congr_left
      intro f _
      exact familyPaid_cons e es f
    rw [h1, List.sum_map_add, sum_indicator e.familyName e.amount fs hd (hl e (by simp)),
      ih (fun x hx => hl x (by simp [hx]))]
    simp [totalExpenses_eq_sum]

theorem sum_share (fs : List Family) (p : ℚ) :
    (fs.map (fun f => p * (f.members : ℚ))).sum = p * (totalMembers fs : ℚ) := by
  rw [totalMembers_eq_sum]
  induction fs with
  | nil => simp
  | cons f fs ih => simp [ih, mul_add]

theorem totalBalance_map_familyBalance (p : ℚ) (es : List Expense) (l : List Family) :
    totalBalance (l.map (familyBalance p es))
      = (l.map (familyPaid es)).sum - (l.map (fun f => p * (f.members : ℚ))).sum := by
  induction l with
  | nil => simp [totalBalance]
  | cons f l ih =>
    simp only [totalBalance] at ih
    simp only [totalBalance, List.map_cons, List.sum_cons, ih, familyBalance]
    ring

theorem totalBalance_familyBalances (fs : List Family) (es : List Expense) :
    totalBalance (familyBalances fs es)
      = (fs.map (familyPaid es)).sum - perPersonShare fs es * (totalMembers fs : ℚ) := by
  rw [← sum_share]
  exact totalBalance_map_familyBalance _ es fs

/-- Conservation as a lemma: the balances of a valid input sum to zero. -/
theorem totalBalance_eq_zero (fs : List Family) (es : List Expense)
    (hd : (fs.map (fun f => f.name)).Nodup)
    (hl : ∀ e ∈ es, e.familyName ∈ fs.map (fun f => f.name))
    (hm : 0 < totalMembers fs) :
    totalBalance (familyBalances fs es) = 0 := by
  have h0 : ((totalMembers fs : ℕ) : ℚ) ≠ 0 := by
    exact_mod_cast (Nat.pos_iff_ne_zero.mp hm)
  rw [totalBalance_familyBalances, sum_familyPaid fs es hd hl, perPersonShare_eq, if_pos hm,
    div_mul_cancel₀ _ h0, sub_self]

/-! ## The inner loop -/

theorem payDebtor_nil (d : String) (r : ℚ) : payDebtor d r [] = ([], [], r) := rfl

theorem payDebtor_skip (d : String) (r : ℚ) (c : FamilyBalance) (cs : List FamilyBalance)
    (h : r ≤ 0 ∨ c.balance ≤ 0) :
    payDebtor d r (c :: cs)
      = (c :: (payDebtor d r cs).1, (payDebtor d r cs).2.1, (payDebtor d r cs).2.2) := by
  rw [payDebtor]; simp [h]

theorem payDebtor_pay (d : String) (r : ℚ) (c : FamilyBalance) (cs : List FamilyBalance)
    (hr : 0 < r) (hc : 0 < c.balance) :
    payDebtor d r (c :: cs)
      = ({ c with balance := c.balance - min r c.balance }
            :: (payDebtor d (r - min r c.balance) cs).1,
          { from_ := d, to_ := c.family, amount := min r c.balance }
            :: (payDebtor d (r - min r c.balance) cs).2.1,
          (payDebtor d (r - min r c.balance) cs).2.2) := by
  have h1 : ¬ (r ≤ 0 ∨ c.balance ≤ 0) := by
    push_neg; exact ⟨hr, hc⟩
  have h2 : min r c.balance > 0 := lt_min hr hc
  rw [payDebtor]; simp only [h1, h2, if_true, if_false]

/-- A debtor with nothing left to pay leaves the creditors as they are. -/
theorem payDebtor_done (d : String) (r : ℚ) (hr : r ≤ 0) (cs : List FamilyBalance) :
    payDebtor d r cs = (cs, [], r) := by
  induction cs with
  | nil => rfl
  | cons c cs ih => rw [payDebtor_skip d r c cs (Or.inl hr), ih]

/-- The two cases of one pass of the inner loop body. -/
theorem payDebtor_cases (d : String) (r : ℚ) (c : FamilyBalance) (cs : List FamilyBalance) :
    ((r ≤ 0 ∨ c.balance ≤ 0) ∧
      payDebtor d r (c :: cs)
        = (c :: (payDebtor d r cs).1, (payDebtor d r cs).2.1, (payDebtor d r cs).2.2)) ∨
    ((0 < r ∧ 0 < c.balance) ∧
      payDebtor d r (c :: cs)
        = ({ c with balance := c.balance - min r c.balance }
              :: (payDebtor d (r - min r c.balance) cs).1,
            { from_ := d, to_ := c.family, amount := min r c.balance }
              :: (payDebtor d (r - min r c.balance) cs).2.1,
            (payDebtor d (r - min r c.balance) cs).2.2)) := by
  by_cases h : r ≤ 0 ∨ c.balance ≤ 0
  · exact Or.inl ⟨h, payDebtor_skip d r c cs h⟩
  · push_neg at h
    exact Or.inr ⟨h, payDebtor_pay d r c cs h.1 h.2⟩

theorem payDebtor_families (d : String) (cs : List FamilyBalance) (r : ℚ) :
    (payDebtor d r cs).1.map (fun c => c.family) = cs.map (fun c => c.family) := by
  induction cs generalizing r with
  | nil => rfl
  | cons c cs ih =>
    rcases payDebtor_cases d r c cs with ⟨_, h⟩ | ⟨_, h⟩
    · rw [h]; simp [ih]
    · rw [h]; simp [ih]

theorem payDebtor_transfer (d : String) (cs : List FamilyBalance) (r : ℚ) :
    ∀ t ∈ (payDebtor d r cs).2.1,
      t.from_ = d ∧ 0 < t.amount ∧ ∃ c ∈ cs, c.family = t.to_ ∧ 0 < c.balance := by
  induction cs generalizing r with
  | nil => intro t ht; simp [payDebtor_nil] at ht
  | cons c cs ih =>
    intro t ht
    rcases payDebtor_cases d r c cs with ⟨_, h⟩ | ⟨⟨hr, hc⟩, h⟩
    · rw [h] at ht
      obtain ⟨h1, h2, c', hc', h3⟩ := ih r t ht
      exact ⟨h1, h2, c', List.mem_cons_of_mem _ hc', h3⟩
    · rw [h] at ht
      simp only [List.mem_cons] at ht
      rcases ht with rfl | ht
      · exact ⟨rfl, lt_min hr hc, c, List.mem_cons_self _ _, rfl, hc⟩
      · obtain ⟨h1, h2, c', hc', h3⟩ := ih _ t ht
        exact ⟨h1, h2, c', List.mem_cons_of_mem _ hc', h3⟩

/-- The accounts of the inner loop: the debt paid is the total transferred and
is taken off the creditors' total; nothing goes negative; and the loop ends
with the debt paid off or the credit used up. -/
theorem payDebtor_spec (d : String) (cs : List FamilyBalance) (r : ℚ)
    (hr : 0 ≤ r) (hcs : ∀ c ∈ cs, 0 ≤ c.balance) :
    0 ≤ (payDebtor d r cs).2.2 ∧
    totalAmount (payDebtor d r cs).2.1 = r - (payDebtor d r cs).2.2 ∧
    totalBalance (payDebtor d r cs).1 = totalBalance cs - (r - (payDebtor d r cs).2.2) ∧
    (∀ c ∈ (payDebtor d r cs).1, 0 ≤ c.balance) ∧
    ((payDebtor d r cs).2.2 = 0 ∨ totalBalance (payDebtor d r cs).1 = 0) := by
  induction cs generalizing r with
  | nil => simp [payDebtor_nil, totalAmount, totalBalance, hr]
  | cons c cs ih =>
    have hc0 : 0 ≤ c.balance := hcs c (List.mem_cons_self _ _)
    have hcs' : ∀ x ∈ cs, 0 ≤ x.balance := fun x hx => hcs x (List.mem_cons_of_mem _ hx)
    rcases payDebtor_cases d r c cs with ⟨hskip, h⟩ | ⟨⟨hr1, hc1⟩, h⟩
    · obtain ⟨i1, i2, i3, i4, i5⟩ := ih r hr hcs'
      rw [h]
      refine ⟨i1, i2, ?_, ?_, ?_⟩
      · simp only [totalBalance, List.map_cons, List.sum_cons] at i3 ⊢
        rw [i3]; ring
      · intro x hx
        simp only [List.mem_cons] at hx
        rcases hx with rfl | hx
        · exact hc0
        · exact i4 x hx
      · rcases hskip with hr0 | hcle
        · left
          have : r = 0 := le_antisymm hr0 hr
          rw [payDebtor_done d r hr0 cs]
          exact this
        · have hcz : c.balance = 0 := le_antisymm hcle hc0
          rcases i5 with i5 | i5
          · exact Or.inl i5
          · right
            simp only [totalBalance, List.map_cons, List.sum_cons] at i5 ⊢
            rw [i5, hcz]; ring
    · have hmin_le_r : min r c.balance ≤ r := min_le_left _ _
      have hmin_le_c : min r c.balance ≤ c.balance := min_le_right _ _
      obtain ⟨i1, i2, i3, i4, i5⟩ := ih (r - min r c.balance) (by linarith) hcs'
      rw [h]
      refine ⟨i1, ?_, ?_, ?_, ?_⟩
      · simp only [totalAmount, List.map_cons, List.sum_cons] at i2 ⊢
        rw [i2]; ring
      · simp only [totalBalance, List.map_cons, List.sum_cons] at i3 ⊢
        rw [i3]; ring
      · intro x hx
        simp only [List.mem_cons] at hx
        rcases hx with rfl | hx
        · show 0 ≤ c.balance - min r c.balance
          linarith
        · exact i4 x hx
      · rcases le_total r c.balance with hle | hle
        · left
          have hz : r - min r c.balance ≤ 0 := by rw [min_eq_left hle]; linarith
          rw [payDebtor_done d _ hz cs]
          show r - min r c.balance = 0
          rw [min_eq_left hle]; ring
        · rcases i5 with i5 | i5
          · exact Or.inl i5
          · right
            simp only [totalBalance, List.map_cons, List.sum_cons] at i5 ⊢
            rw [i5, min_eq_right hle]; ring

/-- What a creditor name receives in the inner loop is what its entries lose. -/
theorem payDebtor_received (d n : String) (cs : List FamilyBalance) (r : ℚ) :
    receivedBy n (payDebtor d r cs).2.1 = creditOf n cs - creditOf n (payDebtor d r cs).1 := by
  induction cs generalizing r with
  | nil => simp [payDebtor_nil, receivedBy, creditOf, totalAmount, totalBalance]
  | cons c cs ih =>
    rcases payDebtor_cases d r c cs with ⟨_, h⟩ | ⟨_, h⟩
    · rw [h]
      have := ih r
      simp only [receivedBy, creditOf, totalAmount, totalBalance] at this ⊢
      by_cases hn : c.family = n
      · simp only [List.filter_cons, hn, decide_True, if_true, List.map_cons, List.sum_cons]
        rw [this]; ring
      · simp only [List.filter_cons, hn, decide_False, Bool.false_eq_true, if_false]
        rw [this]
    · rw [h]
      have := ih (r - min r c.balance)
      simp only [receivedBy, creditOf, totalAmount, totalBalance] at this ⊢
      by_cases hn : c.family = n
      · simp only [List.filter_cons, hn, decide_True, if_true, List.map_cons, List.sum_cons]
        rw [this]; ring
      · simp only [List.filter_cons, hn, decide_False, Bool.false_eq_true, if_false]
        rw [this]

/-- The count of the inner loop: every transfer but possibly the last uses up a
creditor, and a last transfer that does not leaves that creditor open. -/
theorem payDebtor_count (d : String) (cs : List FamilyBalance) (r : ℚ) :
    (payDebtor d r cs).2.1.length + openCredits (payDebtor d r cs).1 ≤ openCredits cs + 1 ∧
    (openCredits (payDebtor d r cs).1 = 0 → (payDebtor d r cs).2.1.length ≤ openCredits cs) := by
  induction cs generalizing r with
  | nil => simp [payDebtor_nil, openCredits]
  | cons c cs ih =>
    rcases payDebtor_cases d r c cs with ⟨_, h⟩ | ⟨⟨hr1, hc1⟩, h⟩
    · obtain ⟨i1, i2⟩ := ih r
      rw [h]
      simp only [openCredits] at i1 i2 ⊢
      by_cases hc : 0 < c.balance
      · simp only [List.filter_cons, hc, decide_True, if_true, List.length_cons]
        constructor
        · omega
        · intro h0; omega
      · simp only [List.filter_cons, hc, decide_False, Bool.false_eq_true, if_false]
        exact ⟨i1, i2⟩
    · rw [h]
      rcases le_total c.balance r with hle | hle
      · obtain ⟨i1, i2⟩ := ih (r - min r c.balance)
        have hz : ¬ (0 < c.balance - min r c.balance) := by
          rw [min_eq_right hle]; simp
        simp only [openCredits] at i1 i2 ⊢
        simp only [List.filter_cons, hc1, hz, decide_True, decide_False, Bool.false_eq_true, if_true, if_false,
          List.length_cons]
        constructor
        · omega
        · intro h0; have := i2 h0; omega
      · rcases eq_or_lt_of_le hle with heq | hlt
        · obtain ⟨i1, i2⟩ := ih (r - min r c.balance)
          have hz : ¬ (0 < c.balance - min r c.balance) := by
            rw [min_eq_left hle, heq]; simp
          simp only [openCredits] at i1 i2 ⊢
          simp only [List.filter_cons, hc1, hz, decide_True, decide_False, Bool.false_eq_true, if_true, if_false,
            List.length_cons]
          constructor
          · omega
          · intro h0; have := i2 h0; omega
        · have hz : r - min r c.balance ≤ 0 := by rw [min_eq_left hle]; linarith
          have hp : 0 < c.balance - min r c.balance := by rw [min_eq_left hle]; linarith
          rw [payDebtor_done d _ hz cs]
          simp only [openCredits]
          simp only [List.filter_cons, hc1, hp, decide_True, if_true, List.length_cons,
            List.length_nil]
          constructor
          · omega
          · intro h0; omega

/-! ## The outer loop -/

theorem settleLoop_nil (cs : List FamilyBalance) : settleLoop [] cs = (cs, []) := rfl

theorem settleLoop_cons (d : FamilyBalance) (ds cs : List FamilyBalance) :
    settleLoop (d :: ds) cs
      = ((settleLoop ds (payDebtor d.family |d.balance| cs).1).1,
          (payDebtor d.family |d.balance| cs).2.1
            ++ (settleLoop ds (payDebtor d.family |d.balance| cs).1).2) := rfl

theorem totalAmount_append (a b : List Transfer) :
    totalAmount (a ++ b) = totalAmount a + totalAmount b := by
  simp [totalAmount]

theorem sentBy_append (n : String) (a b : List Transfer) :
    sentBy n (a ++ b) = sentBy n a + sentBy n b := by
  simp [sentBy, totalAmount_append]

theorem receivedBy_append (n : String) (a b : List Transfer) :
    receivedBy n (a ++ b) = receivedBy n a + receivedBy n b := by
  simp [receivedBy, totalAmount_append]

theorem sentBy_eq_zero (n : String) (ts : List Transfer) (h : ∀ t ∈ ts, t.from_ ≠ n) :
    sentBy n ts = 0 := by
  have : ts.filter (fun t => t.from_ = n) = [] := by
    rw [List.filter_eq_nil_iff]
    intro t ht
    simpa using h t ht
  simp [sentBy, this, totalAmount]

theorem sentBy_eq_total (n : String) (ts : List Transfer) (h : ∀ t ∈ ts, t.from_ = n) :
    sentBy n ts = totalAmount ts := by
  have : ts.filter (fun t => t.from_ = n) = ts := by
    rw [List.filter_eq_self]
    intro t ht
    simpa using h t ht
  simp [sentBy, this]

theorem totalAmount_nonneg (ts : List Transfer) (h : ∀ t ∈ ts, 0 < t.amount) :
    0 ≤ totalAmount ts := by
  apply List.sum_nonneg
  intro x hx
  simp only [List.mem_map] at hx
  obtain ⟨t, ht, rfl⟩ := hx
  exact le_of_lt (h t ht)

/-- An entry the inner loop hands on is an entry it was given, with the same
name and no more balance. -/
theorem payDebtor_mem (d : String) (cs : List FamilyBalance) (r : ℚ) :
    ∀ c' ∈ (payDebtor d r cs).1, ∃ c ∈ cs, c.family = c'.family ∧ c'.balance ≤ c.balance := by
  induction cs generalizing r with
  | nil => intro c' h; simp [payDebtor_nil] at h
  | cons c cs ih =>
    intro c' hc'
    rcases payDebtor_cases d r c cs with ⟨_, h⟩ | ⟨⟨hr, hc⟩, h⟩
    · rw [h] at hc'
      simp only [List.mem_cons] at hc'
      rcases hc' with rfl | hc'
      · exact ⟨c', List.mem_cons_self _ _, rfl, le_refl _⟩
      · obtain ⟨x, hx, h1, h2⟩ := ih r c' hc'
        exact ⟨x, List.mem_cons_of_mem _ hx, h1, h2⟩
    · rw [h] at hc'
      simp only [List.mem_cons] at hc'
      rcases hc' with rfl | hc'
      · refine ⟨c, List.mem_cons_self _ _, rfl, ?_⟩
        show c.balance - min r c.balance ≤ c.balance
        have := lt_min hr hc
        linarith
      · obtain ⟨x, hx, h1, h2⟩ := ih _ c' hc'
        exact ⟨x, List.mem_cons_of_mem _ hx, h1, h2⟩

/-- Every transfer of the loop goes from a listed debtor to a listed creditor
that had credit, and moves a positive amount. -/
theorem settleLoop_transfer (ds : List FamilyBalance) (cs : List FamilyBalance) :
    ∀ t ∈ (settleLoop ds cs).2,
      (∃ d ∈ ds, d.family = t.from_) ∧ 0 < t.amount ∧
      ∃ c ∈ cs, c.family = t.to_ ∧ 0 < c.balance := by
  induction ds generalizing cs with
  | nil => intro t ht; simp [settleLoop_nil] at ht
  | cons d ds ih =>
    intro t ht
    rw [settleLoop_cons] at ht
    simp only [List.mem_append] at ht
    rcases ht with ht | ht
    · obtain ⟨h1, h2, h3⟩ := payDebtor_transfer d.family cs _ t ht
      exact ⟨⟨d, List.mem_cons_self _ _, h1.symm⟩, h2, h3⟩
    · obtain ⟨⟨x, hx, h1⟩, h2, c', hc', h3, h4⟩ := ih _ t ht
      obtain ⟨c, hc, h5, h6⟩ := payDebtor_mem d.family cs _ c' hc'
      exact ⟨⟨x, List.mem_cons_of_mem _ hx, h1⟩, h2, c, hc, h5.trans h3, lt_of_lt_of_le h4 h6⟩

/-- What a creditor name receives over the whole loop is what its entries lose. -/
theorem settleLoop_received (n : String) (ds : List FamilyBalance) (cs : List FamilyBalance) :
    receivedBy n (settleLoop ds cs).2 = creditOf n cs - creditOf n (settleLoop ds cs).1 := by
  induction ds generalizing cs with
  | nil => simp [settleLoop_nil, receivedBy, totalAmount]
  | cons d ds ih =>
    rw [settleLoop_cons, receivedBy_append, payDebtor_received, ih]
    ring

/-- When the credit covers the debts, the loop takes exactly the debts off the
creditors' total and leaves no creditor negative. -/
theorem settleLoop_credit (ds : List FamilyBalance) (cs : List FamilyBalance)
    (hcs : ∀ c ∈ cs, 0 ≤ c.balance) (hcover : totalDebt ds ≤ totalBalance cs) :
    totalBalance (settleLoop ds cs).1 = totalBalance cs - totalDebt ds ∧
    ∀ c ∈ (settleLoop ds cs).1, 0 ≤ c.balance := by
  induction ds generalizing cs with
  | nil => exact ⟨by simp [settleLoop_nil, totalDebt], hcs⟩
  | cons d ds ih =>
    have hds : 0 ≤ totalDebt ds := by
      apply List.sum_nonneg
      intro x hx
      simp only [List.mem_map] at hx
      obtain ⟨y, _, rfl⟩ := hx
      exact abs_nonneg _
    have hsplit : totalDebt (d :: ds) = |d.balance| + totalDebt ds := by
      simp [totalDebt]
    obtain ⟨p1, _, p3, p4, p5⟩ := payDebtor_spec d.family cs |d.balance| (abs_nonneg _) hcs
    have hrem : (payDebtor d.family |d.balance| cs).2.2 = 0 := by
      rcases p5 with p5 | p5
      · exact p5
      · rw [p5] at p3
        linarith
    rw [hrem] at p3
    obtain ⟨q1, q2⟩ := ih _ p4 (by rw [p3]; linarith)
    rw [settleLoop_cons]
    refine ⟨?_, q2⟩
    show totalBalance (settleLoop ds (payDebtor d.family |d.balance| cs).1).1 = _
    rw [q1, p3, hsplit]; ring

/-- When the credit covers the debts and the debtors have distinct names, each
debtor sends exactly its debt. -/
theorem settleLoop_sent (ds : List FamilyBalance) (cs : List FamilyBalance)
    (hcs : ∀ c ∈ cs, 0 ≤ c.balance) (hcover : totalDebt ds ≤ totalBalance cs)
    (hnd : (ds.map (fun d => d.family)).Nodup) :
    ∀ d ∈ ds, sentBy d.family (settleLoop ds cs).2 = |d.balance| := by
  induction ds generalizing cs with
  | nil => intro d hd; simp at hd
  | cons d ds ih =>
    have hds : 0 ≤ totalDebt ds := by
      apply List.sum_nonneg
      intro x hx
      simp only [List.mem_map] at hx
      obtain ⟨y, _, rfl⟩ := hx
      exact abs_nonneg _
    have hsplit : totalDebt (d :: ds) = |d.balance| + totalDebt ds := by
      simp [totalDebt]
    simp only [List.map_cons, List.nodup_cons] at hnd
    obtain ⟨p1, p2, p3, p4, p5⟩ := payDebtor_spec d.family cs |d.balance| (abs_nonneg _) hcs
    have hrem : (payDebtor d.family |d.balance| cs).2.2 = 0 := by
      rcases p5 with p5 | p5
      · exact p5
      · rw [p5] at p3
        linarith
    rw [hrem] at p3 p2
    have hcover' : totalDebt ds ≤ totalBalance (payDebtor d.family |d.balance| cs).1 := by
      rw [p3]; linarith
    intro x hx
    rw [settleLoop_cons]
    show sentBy x.family ((payDebtor d.family |d.balance| cs).2.1
      ++ (settleLoop ds (payDebtor d.family |d.balance| cs).1).2) = _
    rw [sentBy_append]
    simp only [List.mem_cons] at hx
    rcases hx with rfl | hx
    · rw [sentBy_eq_total _ _ (fun t ht => (payDebtor_transfer _ cs _ t ht).1), p2,
        sentBy_eq_zero]
      · ring
      · intro t ht habs
        obtain ⟨⟨y, hy, hyt⟩, _⟩ := settleLoop_transfer ds _ t ht
        apply hnd.1
        rw [← habs, ← hyt]
        exact List.mem_map_of_mem _ hy
    · rw [sentBy_eq_zero, ih _ p4 hcover' hnd.2 x hx]
      · ring
      · intro t ht habs
        have h1 := (payDebtor_transfer _ cs _ t ht).1
        apply hnd.1
        rw [← h1, habs]
        exact List.mem_map_of_mem _ hx

/-- When the credit covers the debts, every debtor's inner loop ends with
nothing left to pay. -/
theorem remainingDebts_zero (ds : List FamilyBalance) (cs : List FamilyBalance)
    (hcs : ∀ c ∈ cs, 0 ≤ c.balance) (hcover : totalDebt ds ≤ totalBalance cs) :
    ∀ r ∈ remainingDebts ds cs, r = 0 := by
  induction ds generalizing cs with
  | nil => intro r hr; simp [remainingDebts] at hr
  | cons d ds ih =>
    have hds : 0 ≤ totalDebt ds := by
      apply List.sum_nonneg
      intro x hx
      simp only [List.mem_map] at hx
      obtain ⟨y, _, rfl⟩ := hx
      exact abs_nonneg _
    have hsplit : totalDebt (d :: ds) = |d.balance| + totalDebt ds := by
      simp [totalDebt]
    obtain ⟨p1, _, p3, p4, p5⟩ := payDebtor_spec d.family cs |d.balance| (abs_nonneg _) hcs
    have hrem : (payDebtor d.family |d.balance| cs).2.2 = 0 := by
      rcases p5 with p5 | p5
      · exact p5
      · rw [p5] at p3
        linarith
    have p3' := p3
    rw [hrem] at p3'
    intro r hr
    simp only [remainingDebts, List.mem_cons] at hr
    rcases hr with rfl | hr
    · exact hrem
    · exact ih _ p4 (by rw [p3']; linarith) r hr

/-- The count of the whole loop: each debtor adds at most one transfer beyond
the creditors it uses up. -/
theorem settleLoop_count (ds : List FamilyBalance) (cs : List FamilyBalance) :
    (settleLoop ds cs).2.length + max (openCredits (settleLoop ds cs).1) 1
      ≤ max (openCredits cs) 1 + ds.length := by
  induction ds generalizing cs with
  | nil => simp [settleLoop_nil]
  | cons d ds ih =>
    have h1 := payDebtor_count d.family cs |d.balance|
    have h2 := ih (payDebtor d.family |d.balance| cs).1
    rw [settleLoop_cons]
    simp only [List.length_append, List.length_cons]
    rcases Nat.eq_zero_or_pos (openCredits (payDebtor d.family |d.balance| cs).1) with h0 | h0
    · have := h1.2 h0
      rw [h0] at h2
      omega
    · have := h1.1
      omega

/-! ## Sorting and the two sides of the matching -/

theorem insertSorted_perm {α : Type} (cmp : α → α → ℚ) (a : α) (l : List α) :
    (insertSorted cmp a l).Perm (a :: l) := by
  induction l with
  | nil => exact List.Perm.refl _
  | cons b l ih =>
    unfold insertSorted
    split_ifs
    · exact List.Perm.refl _
    · exact (List.Perm.cons b ih).trans (List.Perm.swap a b l)

theorem sortBy_perm {α : Type} (cmp : α → α → ℚ) (l : List α) : (sortBy cmp l).Perm l := by
  induction l with
  | nil => exact List.Perm.refl _
  | cons a l ih => exact (insertSorted_perm cmp a (sortBy cmp l)).trans (List.Perm.cons a ih)

theorem debtors_perm (bs : List FamilyBalance) :
    (debtors bs).Perm (bs.filter (fun f => f.balance < 0)) := sortBy_perm _ _

theorem creditors_perm (bs : List FamilyBalance) :
    (creditors bs).Perm (bs.filter (fun f => f.balance > 0)) := sortBy_perm _ _

theorem mem_debtors (bs : List FamilyBalance) (b : FamilyBalance) :
    b ∈ debtors bs ↔ b ∈ bs ∧ b.balance < 0 := by
  rw [(debtors_perm bs).mem_iff]; simp

theorem mem_creditors (bs : List FamilyBalance) (b : FamilyBalance) :
    b ∈ creditors bs ↔ b ∈ bs ∧ 0 < b.balance := by
  rw [(creditors_perm bs).mem_iff]; simp

theorem totalBalance_split (bs : List FamilyBalance) :
    totalBalance bs
      = totalBalance (bs.filter (fun f => f.balance < 0))
        + totalBalance (bs.filter (fun f => f.balance > 0)) := by
  induction bs with
  | nil => simp [totalBalance]
  | cons b bs ih =>
    simp only [totalBalance] at ih ⊢
    rcases lt_trichotomy b.balance 0 with h | h | h
    · have h2 : ¬ (b.balance > 0) := not_lt.mpr (le_of_lt h)
      simp only [List.filter_cons, h, h2, decide_True, decide_False, Bool.false_eq_true,
        if_true, if_false, List.map_cons, List.sum_cons, ih]
      ring
    · have h1 : ¬ (b.balance < 0) := by rw [h]; exact lt_irrefl _
      have h2 : ¬ (b.balance > 0) := by rw [h]; exact lt_irrefl _
      simp only [List.filter_cons, h1, h2, decide_False, Bool.false_eq_true,
        if_false, List.map_cons, List.sum_cons, ih]
      rw [h]; ring
    · have h1 : ¬ (b.balance < 0) := not_lt.mpr (le_of_lt h)
      have h2 : b.balance > 0 := h
      simp only [List.filter_cons, h1, h2, decide_True, decide_False, Bool.false_eq_true,
        if_true, if_false, List.map_cons, List.sum_cons, ih]
      ring

theorem totalDebt_of_neg (ds : List FamilyBalance) (h : ∀ d ∈ ds, d.balance < 0) :
    totalDebt ds = - totalBalance ds := by
  induction ds with
  | nil => simp [totalDebt, totalBalance]
  | cons d ds ih =>
    have hd : d.balance < 0 := h d (List.mem_cons_self _ _)
    have := ih (fun x hx => h x (List.mem_cons_of_mem _ hx))
    simp only [totalDebt, totalBalance, List.map_cons, List.sum_cons] at this ⊢
    rw [this, abs_of_neg hd]; ring

theorem totalDebt_debtors (bs : List FamilyBalance) :
    totalDebt (debtors bs) = - totalBalance (bs.filter (fun f => f.balance < 0)) := by
  rw [totalDebt_of_neg _ (fun d hd => ((mem_debtors bs d).mp hd).2)]
  congr 1
  exact ((debtors_perm bs).map _).sum_eq

theorem totalBalance_creditors (bs : List FamilyBalance) :
    totalBalance (creditors bs) = totalBalance (bs.filter (fun f => f.balance > 0)) :=
  ((creditors_perm bs).map _).sum_eq

/-- With balances that sum to zero the credit is exactly the debt. -/
theorem totalDebt_eq_credit (bs : List FamilyBalance) (h : totalBalance bs = 0) :
    totalDebt (debtors bs) = totalBalance (creditors bs) := by
  rw [totalDebt_debtors, totalBalance_creditors]
  have := totalBalance_split bs
  linarith

theorem creditors_nonneg (bs : List FamilyBalance) : ∀ c ∈ creditors bs, 0 ≤ c.balance :=
  fun c hc => le_of_lt ((mem_creditors bs c).mp hc).2

theorem familyBalances_names (fs : List Family) (es : List Expense) :
    (familyBalances fs es).map (fun b => b.family) = fs.map (fun f => f.name) := by
  simp [familyBalances, familyBalance, Function.comp]

theorem nodup_filter_names (bs : List FamilyBalance) (p : FamilyBalance → Bool)
    (h : (bs.map (fun b => b.family)).Nodup) :
    ((bs.filter p).map (fun b => b.family)).Nodup :=
  h.sublist ((List.filter_sublist bs).map _)

theorem debtors_nodup (bs : List FamilyBalance) (h : (bs.map (fun b => b.family)).Nodup) :
    ((debtors bs).map (fun b => b.family)).Nodup :=
  (((debtors_perm bs).map _).nodup_iff).mpr (nodup_filter_names bs _ h)

theorem creditors_nodup (bs : List FamilyBalance) (h : (bs.map (fun b => b.family)).Nodup) :
    ((creditors bs).map (fun b => b.family)).Nodup :=
  (((creditors_perm bs).map _).nodup_iff).mpr (nodup_filter_names bs _ h)

/-- With distinct names, the entries named `c.family` are `c` alone. -/
theorem creditOf_of_nodup (cs : List FamilyBalance) (h : (cs.map (fun b => b.family)).Nodup)
    (c : FamilyBalance) (hc : c ∈ cs) : creditOf c.family cs = c.balance := by
  induction cs with
  | nil => simp at hc
  | cons x cs ih =>
    simp only [List.map_cons, List.nodup_cons] at h
    simp only [List.mem_cons] at hc
    simp only [creditOf, totalBalance] at ih ⊢
    rcases hc with rfl | hc
    · have hnil : cs.filter (fun y => y.family = c.family) = [] := by
        rw [List.filter_eq_nil_iff]
        intro y hy
        have : y.family ≠ c.family := by
          intro hyc
          apply h.1
          rw [← hyc]
          exact List.mem_map_of_mem _ hy
        simpa using this
      simp [List.filter_cons, hnil]
    · have hx : x.family ≠ c.family := by
        intro hxc
        apply h.1
        rw [hxc]
        exact List.mem_map_of_mem _ hc
      simp only [List.filter_cons, hx, decide_False, Bool.false_eq_true, if_false]
      exact ih h.2 hc

/-- A list of non-negative balances with total zero has every balance zero. -/
theorem balance_zero_of_total_zero (cs : List FamilyBalance) (h0 : ∀ c ∈ cs, 0 ≤ c.balance)
    (ht : totalBalance cs = 0) : ∀ c ∈ cs, c.balance = 0 := by
  induction cs with
  | nil => intro c hc; simp at hc
  | cons x cs ih =>
    have hx : 0 ≤ x.balance := h0 x (List.mem_cons_self _ _)
    have hcs : ∀ c ∈ cs, 0 ≤ c.balance := fun c hc => h0 c (List.mem_cons_of_mem _ hc)
    have hsum : 0 ≤ totalBalance cs := by
      apply List.sum_nonneg
      intro y hy
      simp only [List.mem_map] at hy
      obtain ⟨z, hz, rfl⟩ := hy
      exact hcs z hz
    have hsplit : totalBalance (x :: cs) = x.balance + totalBalance cs := by
      simp [totalBalance]
    rw [hsplit] at ht
    intro c hc
    simp only [List.mem_cons] at hc
    rcases hc with rfl | hc
    · linarith
    · exact ih hcs (by linarith) c hc

theorem creditOf_eq_zero (n : String) (cs : List FamilyBalance)
    (h : ∀ c ∈ cs, c.balance = 0) : creditOf n cs = 0 := by
  apply List.sum_eq_zero
  intro x hx
  simp only [List.mem_map, List.mem_filter] at hx
  obtain ⟨c, ⟨hc, _⟩, rfl⟩ := hx
  exact h c hc

/-! ## The transfers of the handler -/

theorem transfers_mem (fs : List Family) (es : List Expense) :
    ∀ t ∈ transfers fs es,
      (∃ d ∈ familyBalances fs es, d.family = t.from_ ∧ d.balance < 0) ∧ 0 < t.amount ∧
      ∃ c ∈ familyBalances fs es, c.family = t.to_ ∧ 0 < c.balance := by
  intro t ht
  obtain ⟨⟨d, hd, h1⟩, h2, c, hc, h3, h4⟩ := settleLoop_transfer _ _ t ht
  rw [mem_debtors] at hd
  rw [mem_creditors] at hc
  exact ⟨⟨d, hd.1, h1, hd.2⟩, h2, c, hc.1, h3, h4⟩

theorem familyBalances_nodup (fs : List Family) (es : List Expense)
    (h : (fs.map (fun f => f.name)).Nodup) :
    ((familyBalances fs es).map (fun b => b.family)).Nodup := by
  rw [familyBalances_names]; exact h

theorem mem_settlements (fs : List Family) (es : List Expense) (s : Settlement) :
    s ∈ (settlementsOf fs es).settlements ↔ ∃ t ∈ transfers fs es, emit t = s := by
  simp [settlementsOf]

/-! ## Claims -/

/-- C1. Conservation: when family names are pairwise distinct, every expense
names a listed family and `totalMembers > 0`, the paid amounts sum to
`totalExpenses`, the shares sum to `totalExpenses`, every balance is
`paid - share`, and the balances sum to exactly 0. -/
theorem conservation (families : List Family) (expenses : List Expense)
    (hdistinct : (families.map (fun f => f.name)).Nodup)
    (hlisted : ∀ e ∈ expenses, e.familyName ∈ families.map (fun f => f.name))
    (hmembers : 0 < totalMembers families) :
    ((familyBalances families expenses).map (fun b => b.paid)).sum = totalExpenses expenses ∧
    ((familyBalances families expenses).map (fun b => b.share)).sum = totalExpenses expenses ∧
    (∀ b ∈ familyBalances families expenses, b.balance = b.paid - b.share) ∧
    ((familyBalances families expenses).map (fun b => b.balance)).sum = 0 := by
  have h0 : ((totalMembers families : ℕ) : ℚ) ≠ 0 := by
    exact_mod_cast (Nat.pos_iff_ne_zero.mp hmembers)
  refine ⟨?_, ?_, ?_, totalBalance_eq_zero families expenses hdistinct hlisted hmembers⟩
  · rw [← sum_familyPaid families expenses hdistinct hlisted]
    simp only [familyBalances, List.map_map]
    rfl
  · have h1 : (familyBalances families expenses).map (fun b => b.share)
        = families.map (fun f => perPersonShare families expenses * (f.members : ℚ)) := by
      simp only [familyBalances, List.map_map]
      rfl
    rw [h1, sum_share, perPersonShare_eq, if_pos hmembers, div_mul_cancel₀ _ h0]
  · intro b hb
    simp only [familyBalances, List.mem_map] at hb
    obtain ⟨f, _, rfl⟩ := hb
    rfl

theorem conservation_witness :
    (sampleFamilies.map (fun f => f.name)).Nodup ∧
    (∀ e ∈ sampleExpenses, e.familyName ∈ sampleFamilies.map (fun f => f.name)) ∧
    0 < totalMembers sampleFamilies ∧
    ((familyBalances sampleFamilies sampleExpenses).map (fun b => b.paid)).sum
        = totalExpenses sampleExpenses ∧
    ((familyBalances sampleFamilies sampleExpenses).map (fun b => b.share)).sum
        = totalExpenses sampleExpenses ∧
    (∀ b ∈ familyBalances sampleFamilies sampleExpenses, b.balance = b.paid - b.share) ∧
    ((familyBalances sampleFamilies sampleExpenses).map (fun b => b.balance)).sum = 0 :=
  ⟨by decide!, by decide!, by decide!,
    conservation sampleFamilies sampleExpenses (by decide!) (by decide!) (by decide!)⟩

/-- In exact arithmetic, for a valid input, every family with a negative
balance sends, over the unrounded transfers whose `from` is that family,
exactly the absolute value of its balance, and every debtor's remaining debt
is 0 at the end of its inner loop. -/
theorem debtors_settle_exactly (families : List Family) (expenses : List Expense)
    (hvalid : ValidInput families expenses) :
    (∀ b ∈ familyBalances families expenses, b.balance < 0 →
      sentBy b.family (transfers families expenses) = |b.balance|) ∧
    (∀ r ∈ remainingDebts (debtors (familyBalances families expenses))
        (creditors (familyBalances families expenses)), r = 0) := by
  have hsum := totalBalance_eq_zero families expenses hvalid.distinct hvalid.listed hvalid.members
  have hcover := le_of_eq (totalDebt_eq_credit _ hsum)
  refine ⟨?_, remainingDebts_zero _ _ (creditors_nonneg _) hcover⟩
  intro b hb hneg
  exact settleLoop_sent _ _ (creditors_nonneg _) hcover
    (debtors_nodup _ (familyBalances_nodup families expenses hvalid.distinct)) b
    ((mem_debtors _ b).mpr ⟨hb, hneg⟩)

/-- In exact arithmetic, for a valid input, every family with a positive
balance receives, over the unrounded transfers whose `to` is that family,
exactly its balance, and when the loop ends every creditor's working balance
is 0. -/
theorem creditors_settle_exactly (families : List Family) (expenses : List Expense)
    (hvalid : ValidInput families expenses) :
    (∀ b ∈ familyBalances families expenses, 0 < b.balance →
      receivedBy b.family (transfers families expenses) = b.balance) ∧
    (∀ c ∈ (settleLoop (debtors (familyBalances families expenses))
        (creditors (familyBalances families expenses))).1, c.balance = 0) := by
  have hsum := totalBalance_eq_zero families expenses hvalid.distinct hvalid.listed hvalid.members
  have heq := totalDebt_eq_credit _ hsum
  obtain ⟨h1, h2⟩ := settleLoop_credit (debtors (familyBalances families expenses))
    (creditors (familyBalances families expenses)) (creditors_nonneg _) (le_of_eq heq)
  have hzero := balance_zero_of_total_zero _ h2 (by rw [h1, heq]; ring)
  refine ⟨?_, hzero⟩
  intro b hb hpos
  have hmem : b ∈ creditors (familyBalances families expenses) :=
    (mem_creditors _ b).mpr ⟨hb, hpos⟩
  show receivedBy b.family (settleLoop _ _).2 = _
  rw [settleLoop_received, creditOf_eq_zero _ _ hzero,
    creditOf_of_nodup _
      (creditors_nodup _ (familyBalances_nodup families expenses hvalid.distinct)) b hmem]
  ring

/-- C6. No self-settlement: when family names are pairwise distinct, no record
of the settlements list has `from` equal to `to`. -/
theorem no_self_settlement (families : List Family) (expenses : List Expense)
    (hdistinct : (families.map (fun f => f.name)).Nodup) :
    ∀ s ∈ (settlementsOf families expenses).settlements, s.from_ ≠ s.to_ := by
  intro s hs heq
  obtain ⟨t, ht, rfl⟩ := (mem_settlements families expenses s).mp hs
  obtain ⟨⟨d, hd, h1, h2⟩, _, c, hc, h3, h4⟩ := transfers_mem families expenses t ht
  have hdc : d = c :=
    List.inj_on_of_nodup_map (familyBalances_nodup families expenses hdistinct) hd hc
      (by rw [h1, h3]; exact heq)
  rw [hdc] at h2
  exact lt_asymm h2 h4

theorem no_self_settlement_witness :
    (sampleFamilies.map (fun f => f.name)).Nodup ∧
    sampleSettlement ∈ (settlementsOf sampleFamilies sampleExpenses).settlements ∧
    sampleSettlement.from_ ≠ sampleSettlement.to_ :=
  ⟨by decide!, by decide!,
    no_self_settlement sampleFamilies sampleExpenses (by decide!) sampleSettlement (by decide!)⟩

/-- C7. Settlement direction: when family names are pairwise distinct, the
`from` of every settlement is the name of a family of `familyBalances`, the
entry of that name has `balance < 0`, and likewise its `to` names a family
whose entry has `balance > 0`. -/
theorem settlement_direction (families : List Family) (expenses : List Expense)
    (hdistinct : (families.map (fun f => f.name)).Nodup) :
    ∀ s ∈ (settlementsOf families expenses).settlements,
      (∃ b ∈ familyBalances families expenses, b.family = s.from_ ∧ b.balance < 0) ∧
      (∀ b ∈ familyBalances families expenses, b.family = s.from_ → b.balance < 0) ∧
      (∃ c ∈ familyBalances families expenses, c.family = s.to_ ∧ 0 < c.balance) ∧
      (∀ c ∈ familyBalances families expenses, c.family = s.to_ → 0 < c.balance) := by
  intro s hs
  obtain ⟨t, ht, rfl⟩ := (mem_settlements families expenses s).mp hs
  obtain ⟨⟨d, hd, h1, h2⟩, _, c, hc, h3, h4⟩ := transfers_mem families expenses t ht
  have hnd := familyBalances_nodup families expenses hdistinct
  refine ⟨⟨d, hd, h1, h2⟩, ?_, ⟨c, hc, h3, h4⟩, ?_⟩
  · intro b hb hbn
    have : b = d := List.inj_on_of_nodup_map hnd hb hd (by rw [h1]; exact hbn)
    rw [this]; exact h2
  · intro b hb hbn
    have : b = c := List.inj_on_of_nodup_map hnd hb hc (by rw [h3]; exact hbn)
    rw [this]; exact h4

theorem settlement_direction_witness :
    (sampleFamilies.map (fun f => f.name)).Nodup ∧
    sampleSettlement ∈ (settlementsOf sampleFamilies sampleExpenses).settlements ∧
    (∃ b ∈ familyBalances sampleFamilies sampleExpenses,
      b.family = sampleSettlement.from_ ∧ b.balance < 0) ∧
    (∀ b ∈ familyBalances sampleFamilies sampleExpenses,
      b.family = sampleSettlement.from_ → b.balance < 0) ∧
    (∃ c ∈ familyBalances sampleFamilies sampleExpenses,
      c.family = sampleSettlement.to_ ∧ 0 < c.balance) ∧
    (∀ c ∈ familyBalances sampleFamilies sampleExpenses,
      c.family = sampleSettlement.to_ → 0 < c.balance) :=
  ⟨by decide!, by decide!,
    settlement_direction sampleFamilies sampleExpenses (by decide!) sampleSettlement
      (by decide!)⟩

/-! ## The number of transfers -/

theorem receivedBy_eq_zero (n : String) (ts : List Transfer) (h : ∀ t ∈ ts, t.to_ ≠ n) :
    receivedBy n ts = 0 := by
  have : ts.filter (fun t => t.to_ = n) = [] := by
    rw [List.filter_eq_nil_iff]
    intro t ht
    simpa using h t ht
  simp [receivedBy, this, totalAmount]

theorem sentBy_nonneg (n : String) (ts : List Transfer) (h : ∀ t ∈ ts, 0 < t.amount) :
    0 ≤ sentBy n ts :=
  totalAmount_nonneg _ (fun t ht => h t (List.mem_of_mem_filter ht))

theorem receivedBy_nonneg (n : String) (ts : List Transfer) (h : ∀ t ∈ ts, 0 < t.amount) :
    0 ≤ receivedBy n ts :=
  totalAmount_nonneg _ (fun t ht => h t (List.mem_of_mem_filter ht))

theorem openCredits_creditors (bs : List FamilyBalance) :
    openCredits (creditors bs) = (creditors bs).length := by
  unfold openCredits
  rw [List.filter_eq_self.mpr]
  intro c hc
  simpa using ((mem_creditors bs c).mp hc).2

/-- The greedy matching makes at most `D + C - 1` transfers. -/
theorem transfersOf_length_le (bs : List FamilyBalance) :
    (transfersOf bs).length ≤ (debtors bs).length + (creditors bs).length - 1 := by
  have h := settleLoop_count (debtors bs) (creditors bs)
  rw [openCredits_creditors] at h
  rcases Nat.eq_zero_or_pos (creditors bs).length with h0 | h0
  · have hnil : transfersOf bs = [] := by
      rw [List.eq_nil_iff_forall_not_mem]
      intro t ht
      obtain ⟨_, _, c, hc, _⟩ := settleLoop_transfer _ _ t ht
      rw [List.length_eq_zero] at h0
      rw [h0] at hc
      simp at hc
    simp [hnil]
  · unfold transfersOf
    omega

/-- A settling list has a transfer out of every debtor. -/
theorem debtors_length_le (bs : List FamilyBalance) (ts : List Transfer)
    (hnd : (bs.map (fun b => b.family)).Nodup) (hs : Settles bs ts) :
    (debtors bs).length ≤ ts.length := by
  have hsub : (debtors bs).map (fun b => b.family) ⊆ ts.map (fun t => t.from_) := by
    intro n hn
    simp only [List.mem_map] at hn
    obtain ⟨d, hd, rfl⟩ := hn
    rw [mem_debtors] at hd
    by_contra hcon
    have hz : sentBy d.family ts = 0 := by
      apply sentBy_eq_zero
      intro t ht heq
      apply hcon
      rw [← heq]
      exact List.mem_map_of_mem _ ht
    have h1 := hs.2 d hd.1
    have h2 := receivedBy_nonneg d.family ts (fun t ht => (hs.1 t ht).1)
    rw [hz] at h1
    linarith [hd.2]
  have := (List.subperm_of_subset (debtors_nodup bs hnd) hsub).length_le
  simpa using this

/-- A settling list has a transfer into every creditor. -/
theorem creditors_length_le (bs : List FamilyBalance) (ts : List Transfer)
    (hnd : (bs.map (fun b => b.family)).Nodup) (hs : Settles bs ts) :
    (creditors bs).length ≤ ts.length := by
  have hsub : (creditors bs).map (fun b => b.family) ⊆ ts.map (fun t => t.to_) := by
    intro n hn
    simp only [List.mem_map] at hn
    obtain ⟨c, hc, rfl⟩ := hn
    rw [mem_creditors] at hc
    by_contra hcon
    have hz : receivedBy c.family ts = 0 := by
      apply receivedBy_eq_zero
      intro t ht heq
      apply hcon
      rw [← heq]
      exact List.mem_map_of_mem _ ht
    have h1 := hs.2 c hc.1
    have h2 := sentBy_nonneg c.family ts (fun t ht => (hs.1 t ht).1)
    rw [hz] at h1
    linarith [hc.2]
  have := (List.subperm_of_subset (creditors_nodup bs hnd) hsub).length_le
  simpa using this

theorem settlements_length (fs : List Family) (es : List Expense) :
    (settlementsOf fs es).settlements.length = (transfersOf (familyBalances fs es)).length := by
  simp [settlementsOf, transfers]

/-- C4, as the code has it. For a valid input with `D` debtors and `C`
creditors, every list of debtor-to-creditor transfers that settles the balances
has at least `max D C` entries, the returned list has at most `D + C - 1`, and
so the returned list is a smallest one whenever there is at most one debtor or
at most one creditor. -/
theorem settlements_minimal_single_side (families : List Family) (expenses : List Expense)
    (hvalid : ValidInput families expenses) (ts : List Transfer)
    (hsettles : Settles (familyBalances families expenses) ts) :
    max (debtors (familyBalances families expenses)).length
        (creditors (familyBalances families expenses)).length ≤ ts.length ∧
    (settlementsOf families expenses).settlements.length
      ≤ (debtors (familyBalances families expenses)).length
        + (creditors (familyBalances families expenses)).length - 1 ∧
    ((debtors (familyBalances families expenses)).length ≤ 1 ∨
        (creditors (familyBalances families expenses)).length ≤ 1 →
      (settlementsOf families expenses).settlements.length ≤ ts.length) := by
  have hnd := familyBalances_nodup families expenses hvalid.distinct
  have hD := debtors_length_le _ ts hnd hsettles
  have hC := creditors_length_le _ ts hnd hsettles
  have hle := transfersOf_length_le (familyBalances families expenses)
  rw [settlements_length]
  refine ⟨max_le hD hC, hle, ?_⟩
  intro h
  rcases h with h | h <;> omega

theorem settlements_minimal_single_side_witness :
    ValidInput sampleFamilies sampleExpenses ∧
    Settles (familyBalances sampleFamilies sampleExpenses) [⟨"Beta", "Alpha", 50⟩] ∧
    max (debtors (familyBalances sampleFamilies sampleExpenses)).length
        (creditors (familyBalances sampleFamilies sampleExpenses)).length
      ≤ [(⟨"Beta", "Alpha", 50⟩ : Transfer)].length ∧
    (settlementsOf sampleFamilies sampleExpenses).settlements.length
      ≤ (debtors (familyBalances sampleFamilies sampleExpenses)).length
        + (creditors (familyBalances sampleFamilies sampleExpenses)).length - 1 ∧
    ((debtors (familyBalances sampleFamilies sampleExpenses)).length ≤ 1 ∨
        (creditors (familyBalances sampleFamilies sampleExpenses)).length ≤ 1 →
      (settlementsOf sampleFamilies sampleExpenses).settlements.length
        ≤ [(⟨"Beta", "Alpha", 50⟩ : Transfer)].length) :=
  ⟨⟨by decide!, by decide!, by decide!, by decide!⟩, by unfold Settles; decide!,
    settlements_minimal_single_side sampleFamilies sampleExpenses
      ⟨by decide!, by decide!, by decide!, by decide!⟩ [⟨"Beta", "Alpha", 50⟩]
      (by unfold Settles; decide!)⟩

/-- C4 as stated fails: five families with balances +6, +4, -4, -3, -3 form a
valid input, three debtor-to-creditor transfers settle them, and the returned
list has four entries. -/
theorem greedy_not_minimal :
    ValidInput fiveFamilies fiveExpenses ∧
    Settles (familyBalances fiveFamilies fiveExpenses) threeTransfers ∧
    threeTransfers.length = 3 ∧
    (settlementsOf fiveFamilies fiveExpenses).settlements.length = 4 ∧
    ¬ (∀ ts, Settles (familyBalances fiveFamilies fiveExpenses) ts →
        (settlementsOf fiveFamilies fiveExpenses).settlements.length ≤ ts.length) := by
  have hs : Settles (familyBalances fiveFamilies fiveExpenses) threeTransfers := by
    unfold Settles; decide!
  have h4 : (settlementsOf fiveFamilies fiveExpenses).settlements.length = 4 := by decide!
  refine ⟨⟨by decide!, by decide!, by decide!, by decide!⟩, hs, rfl, h4, ?_⟩
  intro h
  have := h threeTransfers hs
  rw [h4] at this
  exact absurd this (by decide)

/-! ## Rounding of the emitted amount -/

theorem roundCents_nonneg (x : ℚ) (hx : 0 ≤ x) : 0 ≤ roundCents x := by
  unfold roundCents
  rw [Int.floor_nonneg]
  linarith

theorem roundCents_pos_iff (x : ℚ) : 0 < roundCents x ↔ 1 / 200 ≤ x := by
  unfold roundCents
  rw [Int.floor_pos]
  constructor <;> intro h <;> linarith

theorem toFixed2_of_pos (x : ℚ) (hx : 0 < x) :
    toFixed2 x = renderCents (roundCents x).toNat := by
  unfold toFixed2
  rw [if_neg (not_lt.mpr (le_of_lt hx))]

/-- C5, as the code has it. Every settlement record comes from a transfer whose
unrounded amount is greater than 0; the emitted amount is that amount rounded
to cents, it is never negative, and it is greater than 0 exactly when the
unrounded amount is at least 0.005. -/
theorem emitted_amount_nonneg (families : List Family) (expenses : List Expense) :
    ∀ s ∈ (settlementsOf families expenses).settlements,
      ∃ t ∈ transfers families expenses,
        s = emit t ∧ 0 < t.amount ∧
        s.amount = renderCents (roundCents t.amount).toNat ∧
        0 ≤ fixedValue t.amount ∧
        (0 < fixedValue t.amount ↔ 1 / 200 ≤ t.amount) := by
  intro s hs
  obtain ⟨t, ht, rfl⟩ := (mem_settlements families expenses s).mp hs
  have hpos := (transfers_mem families expenses t ht).2.1
  refine ⟨t, ht, rfl, hpos, toFixed2_of_pos _ hpos, ?_, ?_⟩
  · unfold fixedValue
    have : (0 : ℚ) ≤ (roundCents t.amount : ℚ) := by
      exact_mod_cast roundCents_nonneg _ (le_of_lt hpos)
    positivity
  · unfold fixedValue
    rw [← roundCents_pos_iff]
    constructor
    · intro h
      have h1 : (0 : ℚ) < (roundCents t.amount : ℚ) := by
        by_contra hcon
        push_neg at hcon
        have : (roundCents t.amount : ℚ) / 100 ≤ 0 :=
          div_nonpos_of_nonpos_of_nonneg hcon (by norm_num)
        linarith
      exact_mod_cast h1
    · intro h
      have h1 : (0 : ℚ) < (roundCents t.amount : ℚ) := by exact_mod_cast h
      positivity

theorem emitted_amount_nonneg_witness :
    sampleSettlement ∈ (settlementsOf sampleFamilies sampleExpenses).settlements ∧
    ∃ t ∈ transfers sampleFamilies sampleExpenses,
      sampleSettlement = emit t ∧ 0 < t.amount ∧
      sampleSettlement.amount = renderCents (roundCents t.amount).toNat ∧
      0 ≤ fixedValue t.amount ∧
      (0 < fixedValue t.amount ↔ 1 / 200 ≤ t.amount) :=
  ⟨by decide!,
    emitted_amount_nonneg sampleFamilies sampleExpenses sampleSettlement (by decide!)⟩

/-- C5 as stated fails: one expense of 0.008 shared by two families of one
member gives the single settlement from `B` to `A` of 0.004, which is emitted
as `"0.00"`, an amount that is not greater than 0. -/
theorem emitted_amount_zero :
    (settlementsOf tinyFamilies tinyExpenses).settlements = [⟨"B", "A", "0.00"⟩] ∧
    transfers tinyFamilies tinyExpenses = [⟨"B", "A", 1 / 250⟩] ∧
    ¬ (∀ t ∈ transfers tinyFamilies tinyExpenses, 0 < fixedValue t.amount) := by
  refine ⟨by decide!, by decide!, by decide!⟩

/-! ## Order of the input -/

theorem insertByName_perm (f : Family) (l : List Family) :
    (insertByName f l).Perm (f :: l) := by
  induction l with
  | nil => exact List.Perm.refl _
  | cons g l ih =>
    unfold insertByName
    split_ifs
    · exact List.Perm.refl _
    · exact (List.Perm.cons g ih).trans (List.Perm.swap f g l)

theorem getFamiliesSorted_perm (l : List Family) : (getFamiliesSorted l).Perm l := by
  induction l with
  | nil => exact List.Perm.refl _
  | cons f l ih =>
    exact (insertByName_perm f (getFamiliesSorted l)).trans (List.Perm.cons f ih)

theorem insertByName_sorted (f : Family) (l : List Family)
    (h : l.Pairwise (fun a b => a.name ≤ b.name)) :
    (insertByName f l).Pairwise (fun a b => a.name ≤ b.name) := by
  induction l with
  | nil => simp [insertByName]
  | cons g l ih =>
    rw [List.pairwise_cons] at h
    unfold insertByName
    split_ifs with hfg
    · rw [List.pairwise_cons]
      refine ⟨?_, List.pairwise_cons.mpr h⟩
      intro x hx
      simp only [List.mem_cons] at hx
      rcases hx with rfl | hx
      · exact hfg
      · exact le_trans hfg (h.1 x hx)
    · rw [List.pairwise_cons]
      refine ⟨?_, ih h.2⟩
      intro x hx
      rw [(insertByName_perm f l).mem_iff] at hx
      simp only [List.mem_cons] at hx
      rcases hx with rfl | hx
      · exact le_of_lt (not_le.mp hfg)
      · exact h.1 x hx

theorem getFamiliesSorted_sorted (l : List Family) :
    (getFamiliesSorted l).Pairwise (fun a b => a.name ≤ b.name) := by
  induction l with
  | nil => exact List.Pairwise.nil
  | cons f l ih => exact insertByName_sorted f _ ih

/-- With distinct names the sorted list is strictly ascending. -/
theorem getFamiliesSorted_strict (l : List Family) (hnd : (l.map (fun f => f.name)).Nodup) :
    (getFamiliesSorted l).Pairwise (fun a b => a.name < b.name) := by
  have hs := getFamiliesSorted_sorted l
  have hnd' : ((getFamiliesSorted l).map (fun f => f.name)).Nodup :=
    (((getFamiliesSorted_perm l).map _).nodup_iff).mpr hnd
  rw [List.Nodup, List.pairwise_map] at hnd'
  exact (hs.and hnd').imp (fun h => lt_of_le_of_ne h.1 h.2)

/-- The families read by the handler do not depend on the order the store
holds them in, when names are distinct. -/
theorem getFamiliesSorted_eq_of_perm (l l' : List Family) (hp : l.Perm l')
    (hnd : (l.map (fun f => f.name)).Nodup) :
    getFamiliesSorted l = getFamiliesSorted l' := by
  have hnd' : (l'.map (fun f => f.name)).Nodup := ((hp.map _).nodup_iff).mp hnd
  haveI : IsAntisymm Family (fun a b => a.name < b.name) :=
    ⟨fun a b h1 h2 => absurd h2 (lt_asymm h1)⟩
  apply List.eq_of_perm_of_sorted _ (getFamiliesSorted_strict l hnd)
    (getFamiliesSorted_strict l' hnd')
  exact ((getFamiliesSorted_perm l).trans hp).trans (getFamiliesSorted_perm l').symm

theorem totalExpenses_perm (es es' : List Expense) (hp : es.Perm es') :
    totalExpenses es = totalExpenses es' := by
  rw [totalExpenses_eq_sum, totalExpenses_eq_sum]
  exact (hp.map _).sum_eq

theorem familyPaid_perm (es es' : List Expense) (hp : es.Perm es') (f : Family) :
    familyPaid es f = familyPaid es' f := by
  rw [familyPaid_eq_sum, familyPaid_eq_sum]
  exact ((hp.filter _).map _).sum_eq

theorem settlementsOf_perm (fs : List Family) (es es' : List Expense) (hp : es.Perm es') :
    settlementsOf fs es = settlementsOf fs es' := by
  have h1 : totalExpenses es = totalExpenses es' := totalExpenses_perm es es' hp
  have h2 : perPersonShare fs es = perPersonShare fs es' := by
    rw [perPersonShare_eq, perPersonShare_eq, h1]
  have h3 : familyBalances fs es = familyBalances fs es' := by
    unfold familyBalances
    rw [h2]
    apply List.map_congr_left
    intro f _
    unfold familyBalance
    rw [familyPaid_perm es es' hp f]
  unfold settlementsOf transfers
  rw [h1, h2, h3]

/-- In exact arithmetic, for a valid input, the handler gives the same
response on any permutation of the stored families and any permutation of the
stored expenses; equal balances are no exception, because the families are
read in ascending order of name and the two sorts are stable. -/
theorem response_order_independent_exactly (families families' : List Family)
    (expenses expenses' : List Expense) (hvalid : ValidInput families expenses)
    (hfamilies : families.Perm families') (hexpenses : expenses.Perm expenses') :
    (getSettlements ⟨families, expenses⟩).1 = (getSettlements ⟨families', expenses'⟩).1 ∧
    (getSettlements ⟨families, expenses⟩).1.settlements
      = (getSettlements ⟨families', expenses'⟩).1.settlements := by
  have h : (getSettlements ⟨families, expenses⟩).1
      = (getSettlements ⟨families', expenses'⟩).1 := by
    show settlementsOf (getFamiliesSorted families) expenses
      = settlementsOf (getFamiliesSorted families') expenses'
    rw [getFamiliesSorted_eq_of_perm families families' hfamilies hvalid.distinct,
      settlementsOf_perm _ expenses expenses' hexpenses]
  exact ⟨h, by rw [h]⟩

/-! ## Purity and the guarded division -/

/-- C10. Per-person share with guarded division: `totalMembers` is the sum of
the members, `totalExpenses` the sum of the amounts, the division of line 85 is
never made with a zero divisor (the checked share is always a value), and
`perPersonShare` is `totalExpenses / totalMembers` when `totalMembers > 0` and 0
otherwise; with no families, with no members or with no expenses the share is
a value all the same, 0 in each case. -/
theorem perPersonShare_guarded (families : List Family) (expenses : List Expense) :
    (settlementsOf families expenses).totalMembers = (families.map (fun f => f.members)).sum ∧
    (settlementsOf families expenses).totalExpenses = (expenses.map (fun e => e.amount)).sum ∧
    perPersonShareChecked families expenses
      = some (if 0 < totalMembers families
          then totalExpenses expenses / (totalMembers families : ℚ) else 0) ∧
    (0 < totalMembers families →
      (totalMembers families : ℚ) ≠ 0 ∧
      (settlementsOf families expenses).perPersonShare
        = totalExpenses expenses / (totalMembers families : ℚ)) ∧
    (¬ 0 < totalMembers families → (settlementsOf families expenses).perPersonShare = 0) ∧
    perPersonShareChecked [] expenses = some 0 ∧
    ((∀ f ∈ families, f.members = 0) → perPersonShareChecked families expenses = some 0) ∧
    perPersonShareChecked families [] = some 0 := by
  refine ⟨totalMembers_eq_sum families, totalExpenses_eq_sum expenses,
    perPersonShareChecked_eq families expenses, ?_, ?_, ?_, ?_, ?_⟩
  · intro h
    refine ⟨by exact_mod_cast (Nat.pos_iff_ne_zero.mp h), ?_⟩
    show perPersonShare families expenses = _
    rw [perPersonShare_eq, if_pos h]
  · intro h
    show perPersonShare families expenses = _
    rw [perPersonShare_eq, if_neg h]
  · rw [perPersonShareChecked_eq]; simp [totalMembers]
  · intro h
    have hz : totalMembers families = 0 := by
      rw [totalMembers_eq_sum]
      apply List.sum_eq_zero
      intro x hx
      simp only [List.mem_map] at hx
      obtain ⟨f, hf, rfl⟩ := hx
      exact h f hf
    rw [perPersonShareChecked_eq, hz]; simp
  · rw [perPersonShareChecked_eq]; simp [totalExpenses]

/-! ## The balances entry by entry -/

/-- C11. Family balance definition: `familyBalances` has one entry per family,
in the order of the families, with the family's name and members,
`share = perPersonShare * members`, `paid` the sum of the amounts of the
expenses whose `familyName` is the same string as the family's name (a name
that differs in letter case is another name), and `balance = paid - share`. -/
theorem familyBalances_definition (families : List Family) (expenses : List Expense) :
    familyBalances families expenses
      = families.map (fun f =>
          { family := f.name
            members := f.members
            share := perPersonShare families expenses * (f.members : ℚ)
            paid := ((expenses.filter (fun e => e.familyName = f.name)).map
              (fun e => e.amount)).sum
            balance := ((expenses.filter (fun e => e.familyName = f.name)).map
              (fun e => e.amount)).sum - perPersonShare families expenses * (f.members : ℚ) }) ∧
    (familyBalances families expenses).length = families.length ∧
    (∀ b ∈ familyBalances families expenses, b.balance = b.paid - b.share) ∧
    familyPaid [⟨"alpha", 5⟩, ⟨"Alpha", 7⟩] ⟨"Alpha", 1⟩ = 7 := by
  refine ⟨?_, by simp [familyBalances], ?_, by decide!⟩
  · unfold familyBalances
    apply List.map_congr_left
    intro f _
    simp only [familyBalance, familyPaid_eq_sum]
  · intro b hb
    simp only [familyBalances, List.mem_map] at hb
    obtain ⟨f, _, rfl⟩ := hb
    rfl

/-! ## Scenarios -/

theorem sortBy_singleton {α : Type} (cmp : α → α → ℚ) (a : α) : sortBy cmp [a] = [a] := rfl

/-- In exact arithmetic, for a valid input whose only entry of negative
balance is `d` and whose only entry of positive balance is `c`, the settlements
are the one record from `d` to `c` with the creditor's balance written with 2
decimals; and Scenario A gives the response of the specification. -/
theorem single_pair_exactly (families : List Family) (expenses : List Expense)
    (d c : FamilyBalance) (hvalid : ValidInput families expenses)
    (hdebtor : (familyBalances families expenses).filter (fun f => f.balance < 0) = [d])
    (hcreditor : (familyBalances families expenses).filter (fun f => f.balance > 0) = [c]) :
    (settlementsOf families expenses).settlements
      = [{ from_ := d.family, to_ := c.family, amount := toFixed2 c.balance }] ∧
    settlementsOf sampleFamilies sampleExpenses
      = { totalExpenses := 100
          totalMembers := 4
          perPersonShare := 25
          familyBalances :=
            [{ family := "Alpha", members := 2, share := 50, paid := 100, balance := 50 },
             { family := "Beta", members := 2, share := 50, paid := 0, balance := -50 }]
          settlements := [{ from_ := "Beta", to_ := "Alpha", amount := "50.00" }] } := by
  refine ⟨?_, by decide!⟩
  have hsum := totalBalance_eq_zero families expenses hvalid.distinct hvalid.listed hvalid.members
  have hsplit := totalBalance_split (familyBalances families expenses)
  rw [hsum, hdebtor, hcreditor] at hsplit
  simp only [totalBalance, List.map_cons, List.map_nil, List.sum_cons, List.sum_nil,
    add_zero] at hsplit
  have hd : d.balance < 0 := by
    have : d ∈ (familyBalances families expenses).filter (fun f => f.balance < 0) := by
      rw [hdebtor]; exact List.mem_cons_self _ _
    simpa using (List.mem_filter.mp this).2
  have hc : 0 < c.balance := by
    have : c ∈ (familyBalances families expenses).filter (fun f => f.balance > 0) := by
      rw [hcreditor]; exact List.mem_cons_self _ _
    simpa using (List.mem_filter.mp this).2
  have habs : |d.balance| = c.balance := by rw [abs_of_neg hd]; linarith
  have hts : transfers families expenses
      = [{ from_ := d.family, to_ := c.family, amount := c.balance }] := by
    unfold transfers transfersOf debtors creditors
    rw [hdebtor, hcreditor, sortBy_singleton, sortBy_singleton, settleLoop_cons,
      settleLoop_nil, habs, payDebtor_pay d.family c.balance c [] hc hc]
    simp [payDebtor_nil]
  simp [settlementsOf, hts, emit]

theorem transfersOf_of_balance_zero (bs : List FamilyBalance) (h : ∀ b ∈ bs, b.balance = 0) :
    transfersOf bs = [] := by
  have hD : bs.filter (fun f => f.balance < 0) = [] := by
    rw [List.filter_eq_nil_iff]
    intro b hb
    simp [h b hb]
  unfold transfersOf debtors
  rw [hD]
  rfl

theorem perPersonShare_no_expenses (fs : List Family) : perPersonShare fs [] = 0 := by
  rw [perPersonShare_eq]
  simp [totalExpenses]

/-- In exact arithmetic, when every family's paid equals its share, every
balance is 0 and the settlements list is empty; this is so whenever there are
no expenses (then `perPersonShare = 0` as well), and in Scenarios B and C. -/
theorem already_even_exactly (families : List Family) (expenses : List Expense)
    (heven : ∀ b ∈ familyBalances families expenses, b.paid = b.share) :
    (∀ b ∈ familyBalances families expenses, b.balance = 0) ∧
    (settlementsOf families expenses).settlements = [] ∧
    (perPersonShare families [] = 0 ∧
      (∀ b ∈ familyBalances families [], b.paid = b.share ∧ b.balance = 0) ∧
      (settlementsOf families []).settlements = []) ∧
    ((∀ b ∈ familyBalances evenFamilies evenExpenses, b.paid = 30 ∧ b.share = 30 ∧ b.balance = 0) ∧
      (settlementsOf evenFamilies evenExpenses).settlements = []) ∧
    (totalMembers idleFamilies = 2 ∧ perPersonShare idleFamilies [] = 0 ∧
      (∀ b ∈ familyBalances idleFamilies [], b.balance = 0) ∧
      (settlementsOf idleFamilies []).settlements = []) := by
  have key : ∀ (fs : List Family) (es : List Expense),
      (∀ b ∈ familyBalances fs es, b.paid = b.share) →
      (∀ b ∈ familyBalances fs es, b.balance = 0) ∧ (settlementsOf fs es).settlements = [] := by
    intro fs es h
    have h0 : ∀ b ∈ familyBalances fs es, b.balance = 0 := by
      intro b hb
      have hps := h b hb
      simp only [familyBalances, List.mem_map] at hb
      obtain ⟨f, _, rfl⟩ := hb
      show familyPaid es f - perPersonShare fs es * (f.members : ℚ) = 0
      have : familyPaid es f = perPersonShare fs es * (f.members : ℚ) := hps
      rw [this, sub_self]
    refine ⟨h0, ?_⟩
    simp [settlementsOf, transfers, transfersOf_of_balance_zero _ h0]
  have hnone : ∀ b ∈ familyBalances families [], b.paid = b.share := by
    intro b hb
    simp only [familyBalances, List.mem_map] at hb
    obtain ⟨f, _, rfl⟩ := hb
    show familyPaid [] f = perPersonShare families [] * (f.members : ℚ)
    rw [perPersonShare_no_expenses]
    simp [familyPaid]
  refine ⟨(key families expenses heven).1, (key families expenses heven).2,
    ⟨perPersonShare_no_expenses families, ?_, (key families [] hnone).2⟩,
    ⟨by decide!, by decide!⟩, ⟨by decide!, by decide!, by decide!, by decide!⟩⟩
  intro b hb
  exact ⟨hnone b hb, (key families [] hnone).1 b hb⟩

/-! ## A group without members -/

theorem familyPaid_nonneg (es : List Expense) (f : Family) (h : ∀ e ∈ es, 0 ≤ e.amount) :
    0 ≤ familyPaid es f := by
  rw [familyPaid_eq_sum]
  apply List.sum_nonneg
  intro x hx
  simp only [List.mem_map, List.mem_filter] at hx
  obtain ⟨e, ⟨he, _⟩, rfl⟩ := hx
  exact h e he

theorem totalMembers_eq_zero (fs : List Family) (h : fs = [] ∨ ∀ f ∈ fs, f.members = 0) :
    totalMembers fs = 0 := by
  rw [totalMembers_eq_sum]
  apply List.sum_eq_zero
  intro x hx
  simp only [List.mem_map] at hx
  obtain ⟨f, hf, rfl⟩ := hx
  rcases h with h | h
  · rw [h] at hf; simp at hf
  · exact h f hf

/-- C14. Zero total members: when the amounts are not negative and the families
list is empty or every family has `members = 0`, then `perPersonShare = 0`,
every share is 0 and every balance is the paid amount, the creditors are
exactly the entries with `paid > 0`, there are no debtors and the settlements
list is empty. The balances then sum to the total paid, not to 0: the sum is
not 0 as soon as some family has paid something (40 for one expense of 40). -/
theorem zero_total_members (families : List Family) (expenses : List Expense)
    (hnonneg : ∀ e ∈ expenses, 0 ≤ e.amount)
    (hzero : families = [] ∨ ∀ f ∈ families, f.members = 0) :
    (settlementsOf families expenses).perPersonShare = 0 ∧
    (∀ b ∈ familyBalances families expenses, b.share = 0 ∧ b.balance = b.paid) ∧
    (∀ b, b ∈ creditors (familyBalances families expenses)
      ↔ b ∈ familyBalances families expenses ∧ 0 < b.paid) ∧
    debtors (familyBalances families expenses) = [] ∧
    (settlementsOf families expenses).settlements = [] ∧
    totalBalance (familyBalances families expenses)
      = ((familyBalances families expenses).map (fun b => b.paid)).sum ∧
    ((∃ b ∈ familyBalances families expenses, 0 < b.paid) →
      totalBalance (familyBalances families expenses) ≠ 0) ∧
    totalBalance (familyBalances memberlessFamilies memberlessExpenses) = 40 := by
  have hm : totalMembers families = 0 := totalMembers_eq_zero families hzero
  have hp : perPersonShare families expenses = 0 := by
    rw [perPersonShare_eq, hm]; simp
  have hb : ∀ b ∈ familyBalances families expenses,
      b.share = 0 ∧ b.balance = b.paid ∧ 0 ≤ b.paid := by
    intro b hb
    simp only [familyBalances, List.mem_map] at hb
    obtain ⟨f, _, rfl⟩ := hb
    refine ⟨?_, ?_, familyPaid_nonneg expenses f hnonneg⟩
    · show perPersonShare families expenses * (f.members : ℚ) = 0
      rw [hp, zero_mul]
    · show familyPaid expenses f - perPersonShare families expenses * (f.members : ℚ)
        = familyPaid expenses f
      rw [hp, zero_mul, sub_zero]
  have hD : debtors (familyBalances families expenses) = [] := by
    have : (familyBalances families expenses).filter (fun f => f.balance < 0) = [] := by
      rw [List.filter_eq_nil_iff]
      intro b hb'
      obtain ⟨_, h2, h3⟩ := hb b hb'
      simp only [decide_eq_true_eq, not_lt]
      rw [h2]; exact h3
    unfold debtors
    rw [this]; rfl
  have hsum : totalBalance (familyBalances families expenses)
      = ((familyBalances families expenses).map (fun b => b.paid)).sum := by
    unfold totalBalance
    congr 1
    apply List.map_congr_left
    intro b hb'
    exact (hb b hb').2.1
  refine ⟨hp, fun b hb' => ⟨(hb b hb').1, (hb b hb').2.1⟩, ?_, hD, ?_, hsum, ?_, by decide!⟩
  · intro b
    rw [mem_creditors]
    constructor
    · rintro ⟨h1, h2⟩
      exact ⟨h1, by rw [← (hb b h1).2.1]; exact h2⟩
    · rintro ⟨h1, h2⟩
      exact ⟨h1, by rw [(hb b h1).2.1]; exact h2⟩
  · simp [settlementsOf, transfers, transfersOf, hD, settleLoop_nil]
  · rintro ⟨b, hb', hpos⟩
    rw [hsum]
    have hle : ∀ x ∈ (familyBalances families expenses).map (fun b => b.paid), 0 ≤ x := by
      intro x hx
      simp only [List.mem_map] at hx
      obtain ⟨y, hy, rfl⟩ := hx
      exact (hb y hy).2.2
    have hmem : b.paid ∈ (familyBalances families expenses).map (fun b => b.paid) :=
      List.mem_map_of_mem _ hb'
    have := List.single_le_sum hle b.paid hmem
    linarith

theorem zero_total_members_witness :
    (∀ e ∈ memberlessExpenses, 0 ≤ e.amount) ∧
    (memberlessFamilies = [] ∨ ∀ f ∈ memberlessFamilies, f.members = 0) ∧
    (settlementsOf memberlessFamilies memberlessExpenses).perPersonShare = 0 ∧
    debtors (familyBalances memberlessFamilies memberlessExpenses) = [] ∧
    (settlementsOf memberlessFamilies memberlessExpenses).settlements = [] ∧
    totalBalance (familyBalances memberlessFamilies memberlessExpenses) ≠ 0 :=
  ⟨by decide!, by decide!,
    (zero_total_members memberlessFamilies memberlessExpenses (by decide!) (by decide!)).1,
    (zero_total_members memberlessFamilies memberlessExpenses
      (by decide!) (by decide!)).2.2.2.1,
    (zero_total_members memberlessFamilies memberlessExpenses
      (by decide!) (by decide!)).2.2.2.2.1,
    (zero_total_members memberlessFamilies memberlessExpenses
      (by decide!) (by decide!)).2.2.2.2.2.2.1 (by decide!)⟩

/-! ## The comparisons of the inner loop -/

/-- C15, as the code has it. The loop compares with 0 exactly and has no
tolerance: for a debtor with remaining debt `r` and a creditor, a transfer of
`min r balance` is made exactly when `r > 0` and the creditor's balance is
`> 0`, however small they are, and none is made otherwise. -/
theorem exact_zero_comparison (debtor : String) (r : ℚ) (creditor : FamilyBalance)
    (rest : List FamilyBalance) :
    (0 < r ∧ 0 < creditor.balance →
      (payDebtor debtor r (creditor :: rest)).2.1
        = { from_ := debtor, to_ := creditor.family, amount := min r creditor.balance }
            :: (payDebtor debtor (r - min r creditor.balance) rest).2.1) ∧
    (¬ (0 < r ∧ 0 < creditor.balance) →
      (payDebtor debtor r (creditor :: rest)).2.1 = (payDebtor debtor r rest).2.1) := by
  constructor
  · rintro ⟨hr, hc⟩
    rw [payDebtor_pay debtor r creditor rest hr hc]
  · intro h
    have : r ≤ 0 ∨ creditor.balance ≤ 0 := by
      by_contra hcon
      push_neg at hcon
      exact h hcon
    rw [payDebtor_skip debtor r creditor rest this]

/-- C15 as stated fails: with one expense of 0.000000002 shared by two families
of one member, the remaining debt of `B` and the remaining credit of `A` are
both 0.000000001, which is at most 1e-9, and a settlement is emitted for the
pair. -/
theorem epsilon_not_applied :
    debtors (familyBalances tinyFamilies nanoExpenses)
      = [{ family := "B", members := 1, share := 1 / 1000000000, paid := 0,
           balance := -(1 / 1000000000) }] ∧
    creditors (familyBalances tinyFamilies nanoExpenses)
      = [{ family := "A", members := 1, share := 1 / 1000000000, paid := 2 / 1000000000,
           balance := 1 / 1000000000 }] ∧
    (1 / 1000000000 : ℚ) ≤ 1 / 1000000000 ∧
    transfers tinyFamilies nanoExpenses = [⟨"B", "A", 1 / 1000000000⟩] ∧
    (settlementsOf tinyFamilies nanoExpenses).settlements = [⟨"B", "A", "0.00"⟩] := by
  refine ⟨by decide!, by decide!, by decide!, by decide!, by decide!⟩

/-! ## Rounded amounts against balances -/

/-- Rounding to cents moves an amount by at most half a cent. -/
theorem fixedValue_error (x : ℚ) : |fixedValue x - x| ≤ 1 / 200 := by
  unfold fixedValue roundCents
  have h1 : ((⌊x * 100 + 1 / 2⌋ : ℤ) : ℚ) ≤ x * 100 + 1 / 2 := Int.floor_le _
  have h2 : x * 100 + 1 / 2 < ((⌊x * 100 + 1 / 2⌋ : ℤ) : ℚ) + 1 := Int.lt_floor_add_one _
  rw [abs_le]
  constructor <;> linarith

theorem fixedValue_sum_error (ts : List Transfer) :
    |(ts.map (fun t => fixedValue t.amount)).sum - totalAmount ts| ≤ (ts.length : ℚ) / 200 := by
  induction ts with
  | nil => simp [totalAmount]
  | cons t ts ih =>
    have h := fixedValue_error t.amount
    simp only [totalAmount] at ih
    simp only [totalAmount, List.map_cons, List.sum_cons, List.length_cons, Nat.cast_add,
      Nat.cast_one]
    rw [abs_le] at h ih ⊢
    constructor <;> linarith [h.1, h.2, ih.1, ih.2]

/-- For a valid input every family sends its deficit: the absolute balance of a
debtor, nothing for the others. -/
theorem sentBy_eq_deficit (fs : List Family) (es : List Expense) (hvalid : ValidInput fs es) :
    ∀ b ∈ familyBalances fs es, sentBy b.family (transfers fs es) = max (-b.balance) 0 := by
  intro b hb
  rcases lt_or_le b.balance 0 with hneg | hge
  · have hsum := totalBalance_eq_zero fs es hvalid.distinct hvalid.listed hvalid.members
    have h := settleLoop_sent _ _ (creditors_nonneg _) (le_of_eq (totalDebt_eq_credit _ hsum))
      (debtors_nodup _ (familyBalances_nodup fs es hvalid.distinct)) b
      ((mem_debtors _ b).mpr ⟨hb, hneg⟩)
    have h' : sentBy b.family (transfers fs es) = |b.balance| := h
    rw [h', abs_of_neg hneg, max_eq_left (by linarith)]
  · rw [max_eq_right (by linarith)]
    apply sentBy_eq_zero
    intro t ht heq
    obtain ⟨⟨d, hd, h1, h2⟩, _⟩ := transfers_mem fs es t ht
    have hdb : d = b :=
      List.inj_on_of_nodup_map (familyBalances_nodup fs es hvalid.distinct) hd hb
        (by rw [h1]; exact heq)
    rw [hdb] at h2
    linarith

/-- For a valid input every family receives its surplus: the balance of a
creditor, nothing for the others. -/
theorem receivedBy_eq_surplus (fs : List Family) (es : List Expense)
    (hvalid : ValidInput fs es) :
    ∀ b ∈ familyBalances fs es, receivedBy b.family (transfers fs es) = max b.balance 0 := by
  intro b hb
  rcases lt_or_le 0 b.balance with hpos | hle
  · have hsum := totalBalance_eq_zero fs es hvalid.distinct hvalid.listed hvalid.members
    have heq := totalDebt_eq_credit _ hsum
    obtain ⟨h1, h2⟩ := settleLoop_credit (debtors (familyBalances fs es))
      (creditors (familyBalances fs es)) (creditors_nonneg _) (le_of_eq heq)
    have hzero := balance_zero_of_total_zero _ h2 (by rw [h1, heq]; ring)
    have hmem : b ∈ creditors (familyBalances fs es) := (mem_creditors _ b).mpr ⟨hb, hpos⟩
    show receivedBy b.family (settleLoop _ _).2 = _
    rw [settleLoop_received, creditOf_eq_zero _ _ hzero,
      creditOf_of_nodup _ (creditors_nodup _ (familyBalances_nodup fs es hvalid.distinct)) b hmem,
      max_eq_left (le_of_lt hpos)]
    ring
  · rw [max_eq_right hle]
    apply receivedBy_eq_zero
    intro t ht heq
    obtain ⟨_, _, c, hc, h3, h4⟩ := transfers_mem fs es t ht
    have hcb : c = b :=
      List.inj_on_of_nodup_map (familyBalances_nodup fs es hvalid.distinct) hc hb
        (by rw [h3]; exact heq)
    rw [hcb] at h4
    linarith

/-- In exact arithmetic, for a valid input and every family, the emitted
amounts of its settlements grouped by `from` differ from its deficit by at most
half a cent for each of these settlements, and grouped by `to` from its surplus
by at most half a cent for each of those; so by less than one cent when the
family has at most one settlement on that side. -/
theorem emitted_reconciliation_exactly (families : List Family) (expenses : List Expense)
    (hvalid : ValidInput families expenses) :
    ∀ b ∈ familyBalances families expenses,
      |emittedSentBy b.family (transfers families expenses) - max (-b.balance) 0|
        ≤ (((transfers families expenses).filter (fun t => t.from_ = b.family)).length : ℚ)
            / 200 ∧
      |emittedReceivedBy b.family (transfers families expenses) - max b.balance 0|
        ≤ (((transfers families expenses).filter (fun t => t.to_ = b.family)).length : ℚ)
            / 200 ∧
      (((transfers families expenses).filter (fun t => t.from_ = b.family)).length ≤ 1 →
        |emittedSentBy b.family (transfers families expenses) - max (-b.balance) 0|
          < 1 / 100) ∧
      (((transfers families expenses).filter (fun t => t.to_ = b.family)).length ≤ 1 →
        |emittedReceivedBy b.family (transfers families expenses) - max b.balance 0|
          < 1 / 100) := by
  intro b hb
  have hs : |emittedSentBy b.family (transfers families expenses) - max (-b.balance) 0|
      ≤ (((transfers families expenses).filter (fun t => t.from_ = b.family)).length : ℚ)
          / 200 := by
    rw [← sentBy_eq_deficit families expenses hvalid b hb]
    exact fixedValue_sum_error _
  have hr : |emittedReceivedBy b.family (transfers families expenses) - max b.balance 0|
      ≤ (((transfers families expenses).filter (fun t => t.to_ = b.family)).length : ℚ)
          / 200 := by
    rw [← receivedBy_eq_surplus families expenses hvalid b hb]
    exact fixedValue_sum_error _
  refine ⟨hs, hr, ?_, ?_⟩
  · intro h1
    have : (((transfers families expenses).filter (fun t => t.from_ = b.family)).length : ℚ)
        ≤ 1 := by exact_mod_cast h1
    linarith
  · intro h1
    have : (((transfers families expenses).filter (fun t => t.to_ = b.family)).length : ℚ)
        ≤ 1 := by exact_mod_cast h1
    linarith

/-! ## Expenses of a family that is not listed -/

theorem familyPaid_append_single (es : List Expense) (e : Expense) (f : Family) :
    familyPaid (es ++ [e]) f
      = familyPaid es f + (if e.familyName = f.name then e.amount else 0) := by
  rw [familyPaid_eq_sum, familyPaid_eq_sum]
  by_cases h : e.familyName = f.name <;> simp [List.filter_append, List.filter_cons, h]

theorem totalExpenses_append_single (es : List Expense) (e : Expense) :
    totalExpenses (es ++ [e]) = totalExpenses es + e.amount := by
  simp [totalExpenses_eq_sum]

/-- C18, as the code has it. An expense whose `familyName` matches no listed
family, added to the expenses, does not make the computation fail and leaves
every family's paid as it was; it raises `totalExpenses` by its amount and, when
`totalMembers > 0`, `perPersonShare` by `amount / totalMembers`, so that every
share rises by `amount / totalMembers * members` and every balance falls by as
much. The balances and the settlements are those without the expense when
`totalMembers = 0` or the amount is 0. -/
theorem orphan_expense_effect (families : List Family) (expenses : List Expense)
    (e : Expense) (horphan : e.familyName ∉ families.map (fun f => f.name)) :
    (∀ f ∈ families, familyPaid (expenses ++ [e]) f = familyPaid expenses f) ∧
    totalExpenses (expenses ++ [e]) = totalExpenses expenses + e.amount ∧
    perPersonShare families (expenses ++ [e])
      = perPersonShare families expenses
        + (if 0 < totalMembers families then e.amount / (totalMembers families : ℚ) else 0) ∧
    (∀ f ∈ families,
      (familyBalance (perPersonShare families (expenses ++ [e])) (expenses ++ [e]) f).share
        = (familyBalance (perPersonShare families expenses) expenses f).share
          + (if 0 < totalMembers families
              then e.amount / (totalMembers families : ℚ) * (f.members : ℚ) else 0) ∧
      (familyBalance (perPersonShare families (expenses ++ [e])) (expenses ++ [e]) f).balance
        = (familyBalance (perPersonShare families expenses) expenses f).balance
          - (if 0 < totalMembers families
              then e.amount / (totalMembers families : ℚ) * (f.members : ℚ) else 0)) ∧
    (totalMembers families = 0 ∨ e.amount = 0 →
      (settlementsOf families (expenses ++ [e])).familyBalances
        = (settlementsOf families expenses).familyBalances ∧
      (settlementsOf families (expenses ++ [e])).settlements
        = (settlementsOf families expenses).settlements) := by
  have hpaid : ∀ f ∈ families, familyPaid (expenses ++ [e]) f = familyPaid expenses f := by
    intro f hf
    have hne : e.familyName ≠ f.name := by
      intro h
      apply horphan
      rw [h]
      exact List.mem_map_of_mem _ hf
    rw [familyPaid_append_single, if_neg hne, add_zero]
  have hshare : perPersonShare families (expenses ++ [e])
      = perPersonShare families expenses
        + (if 0 < totalMembers families
            then e.amount / (totalMembers families : ℚ) else 0) := by
    rw [perPersonShare_eq, perPersonShare_eq, totalExpenses_append_single]
    by_cases hm : 0 < totalMembers families
    · simp only [hm, if_true]; ring
    · simp only [hm, if_false]; ring
  refine ⟨hpaid, totalExpenses_append_single expenses e, hshare, ?_, ?_⟩
  · intro f hf
    simp only [familyBalance]
    rw [hpaid f hf, hshare]
    by_cases hm : 0 < totalMembers families
    · simp only [hm, if_true]; constructor <;> ring
    · simp only [hm, if_false]; constructor <;> ring
  · intro h
    have hsame : perPersonShare families (expenses ++ [e])
        = perPersonShare families expenses := by
      rw [hshare]
      rcases h with h | h
      · simp [h]
      · simp [h]
    have hbal : familyBalances families (expenses ++ [e]) = familyBalances families expenses := by
      unfold familyBalances
      rw [hsame]
      apply List.map_congr_left
      intro f hf
      simp only [familyBalance]
      rw [hpaid f hf]
    constructor
    · exact hbal
    · simp only [settlementsOf, transfers, hbal]

theorem orphan_expense_effect_witness :
    orphanExpense.familyName ∉ sampleFamilies.map (fun f => f.name) ∧
    (∀ f ∈ sampleFamilies,
      familyPaid (sampleExpenses ++ [orphanExpense]) f = familyPaid sampleExpenses f) ∧
    totalExpenses (sampleExpenses ++ [orphanExpense])
      = totalExpenses sampleExpenses + orphanExpense.amount :=
  ⟨by decide!, (orphan_expense_effect sampleFamilies sampleExpenses orphanExpense (by decide!)).1,
    (orphan_expense_effect sampleFamilies sampleExpenses orphanExpense (by decide!)).2.1⟩

/-- C18 as stated fails: an expense of 50 by `Zeta`, a family that is not
listed, added to Scenario A raises each share from 50 to 75, turns the balances
+50 and -50 into +25 and -75 and the settlement of `"50.00"` into one of
`"25.00"`. -/
theorem orphan_expense_changes_balances :
    orphanExpense.familyName ∉ sampleFamilies.map (fun f => f.name) ∧
    (settlementsOf sampleFamilies sampleExpenses).familyBalances
      = [{ family := "Alpha", members := 2, share := 50, paid := 100, balance := 50 },
         { family := "Beta", members := 2, share := 50, paid := 0, balance := -50 }] ∧
    (settlementsOf sampleFamilies (sampleExpenses ++ [orphanExpense])).familyBalances
      = [{ family := "Alpha", members := 2, share := 75, paid := 100, balance := 25 },
         { family := "Beta", members := 2, share := 75, paid := 0, balance := -75 }] ∧
    (settlementsOf sampleFamilies sampleExpenses).settlements
      = [⟨"Beta", "Alpha", "50.00"⟩] ∧
    (settlementsOf sampleFamilies (sampleExpenses ++ [orphanExpense])).settlements
      = [⟨"Beta", "Alpha", "25.00"⟩] := by
  refine ⟨by decide!, by decide!, by decide!, by decide!, by decide!⟩

/-! ## The matching pass leaves `familyBalances` alone -/

theorem length_writeBalance (h : List FamilyBalance) (c : ℕ) (v : ℚ) :
    (writeBalance h c v).length = h.length := by
  simp [writeBalance]

theorem readRef_writeBalance_ne (h : List FamilyBalance) (c x : ℕ) (v : ℚ) (hx : x ≠ c) :
    readRef (writeBalance h c v) x = readRef h x := by
  simp [readRef, writeBalance, List.getElem?_set_ne (Ne.symm hx)]

theorem readRef_writeBalance_eq (h : List FamilyBalance) (c : ℕ) (v : ℚ) (hc : c < h.length) :
    readRef (writeBalance h c v) c = { readRef h c with balance := v } := by
  simp [readRef, writeBalance, List.getElem?_set, hc]

theorem take_writeBalance (h : List FamilyBalance) (c n : ℕ) (v : ℚ) (hn : n ≤ c) :
    (writeBalance h c v).take n = h.take n := by
  apply List.ext_getElem?
  intro i
  by_cases hi : i < n
  · rw [List.getElem?_take_of_lt hi, List.getElem?_take_of_lt hi]
    unfold writeBalance
    rw [List.getElem?_set_ne (by omega)]
  · rw [List.getElem?_take_eq_none (by omega), List.getElem?_take_eq_none (by omega)]

theorem payDebtorRef_nil (d : String) (r : ℚ) (h : List FamilyBalance) :
    payDebtorRef d r [] h = (h, [], r) := rfl

theorem payDebtorRef_skip (d : String) (r : ℚ) (c : ℕ) (cs : List ℕ) (h : List FamilyBalance)
    (hs : r ≤ 0 ∨ (readRef h c).balance ≤ 0) :
    payDebtorRef d r (c :: cs) h = payDebtorRef d r cs h := by
  rw [payDebtorRef]; simp [hs]

theorem payDebtorRef_pay (d : String) (r : ℚ) (c : ℕ) (cs : List ℕ) (h : List FamilyBalance)
    (hr : 0 < r) (hc : 0 < (readRef h c).balance) :
    payDebtorRef d r (c :: cs) h
      = ((payDebtorRef d (r - min r (readRef h c).balance) cs
            (writeBalance h c ((readRef h c).balance - min r (readRef h c).balance))).1,
          { from_ := d, to_ := (readRef h c).family, amount := min r (readRef h c).balance }
            :: (payDebtorRef d (r - min r (readRef h c).balance) cs
              (writeBalance h c ((readRef h c).balance - min r (readRef h c).balance))).2.1,
          (payDebtorRef d (r - min r (readRef h c).balance) cs
            (writeBalance h c ((readRef h c).balance - min r (readRef h c).balance))).2.2) := by
  have h1 : ¬ (r ≤ 0 ∨ (readRef h c).balance ≤ 0) := by
    push_neg; exact ⟨hr, hc⟩
  have h2 : min r (readRef h c).balance > 0 := lt_min hr hc
  rw [payDebtorRef]; simp only [h1, h2, if_true, if_false]

theorem payDebtorRef_cases (d : String) (r : ℚ) (c : ℕ) (cs : List ℕ)
    (h : List FamilyBalance) :
    ((r ≤ 0 ∨ (readRef h c).balance ≤ 0) ∧
      payDebtorRef d r (c :: cs) h = payDebtorRef d r cs h) ∨
    ((0 < r ∧ 0 < (readRef h c).balance) ∧
      payDebtorRef d r (c :: cs) h
        = ((payDebtorRef d (r - min r (readRef h c).balance) cs
              (writeBalance h c ((readRef h c).balance - min r (readRef h c).balance))).1,
            { from_ := d, to_ := (readRef h c).family, amount := min r (readRef h c).balance }
              :: (payDebtorRef d (r - min r (readRef h c).balance) cs
                (writeBalance h c ((readRef h c).balance - min r (readRef h c).balance))).2.1,
            (payDebtorRef d (r - min r (readRef h c).balance) cs
              (writeBalance h c
                ((readRef h c).balance - min r (readRef h c).balance))).2.2)) := by
  by_cases hs : r ≤ 0 ∨ (readRef h c).balance ≤ 0
  · exact Or.inl ⟨hs, payDebtorRef_skip d r c cs h hs⟩
  · push_neg at hs
    exact Or.inr ⟨hs, payDebtorRef_pay d r c cs h hs.1 hs.2⟩

/-- The inner loop writes only to the objects of its creditor references: the
store keeps its length, and every other object is as before. -/
theorem payDebtorRef_frame (d : String) (cs : List ℕ) (r : ℚ) (h : List FamilyBalance) :
    (payDebtorRef d r cs h).1.length = h.length ∧
    (∀ x, x ∉ cs → readRef (payDebtorRef d r cs h).1 x = readRef h x) ∧
    (∀ n, (∀ c ∈ cs, n ≤ c) → (payDebtorRef d r cs h).1.take n = h.take n) := by
  induction cs generalizing r h with
  | nil => simp [payDebtorRef_nil]
  | cons c cs ih =>
    rcases payDebtorRef_cases d r c cs h with ⟨_, e⟩ | ⟨_, e⟩
    · rw [e]
      obtain ⟨i1, i2, i3⟩ := ih r h
      refine ⟨i1, ?_, ?_⟩
      · intro x hx
        exact i2 x (fun hmem => hx (List.mem_cons_of_mem _ hmem))
      · intro n hn
        exact i3 n (fun y hy => hn y (List.mem_cons_of_mem _ hy))
    · rw [e]
      obtain ⟨i1, i2, i3⟩ := ih (r - min r (readRef h c).balance)
        (writeBalance h c ((readRef h c).balance - min r (readRef h c).balance))
      refine ⟨?_, ?_, ?_⟩
      · show (payDebtorRef d _ cs _).1.length = _
        rw [i1, length_writeBalance]
      · intro x hx
        show readRef (payDebtorRef d _ cs _).1 x = _
        rw [i2 x (fun hmem => hx (List.mem_cons_of_mem _ hmem)),
          readRef_writeBalance_ne _ _ _ _ (fun hxc => hx (by rw [hxc]; exact List.mem_cons_self _ _))]
      · intro n hn
        show (payDebtorRef d _ cs _).1.take n = _
        rw [i3 n (fun y hy => hn y (List.mem_cons_of_mem _ hy)),
          take_writeBalance _ _ _ _ (hn c (List.mem_cons_self _ _))]

theorem settleLoopRef_nil (cs : List ℕ) (h : List FamilyBalance) :
    settleLoopRef [] cs h = (h, []) := rfl

theorem settleLoopRef_cons (d : ℕ) (ds cs : List ℕ) (h : List FamilyBalance) :
    settleLoopRef (d :: ds) cs h
      = ((settleLoopRef ds cs
            (payDebtorRef (readRef h d).family |(readRef h d).balance| cs h).1).1,
          (payDebtorRef (readRef h d).family |(readRef h d).balance| cs h).2.1
            ++ (settleLoopRef ds cs
              (payDebtorRef (readRef h d).family |(readRef h d).balance| cs h).1).2) := rfl

/-- The outer loop writes only to the objects of the creditor references. -/
theorem settleLoopRef_frame (ds cs : List ℕ) (h : List FamilyBalance) :
    (settleLoopRef ds cs h).1.length = h.length ∧
    (∀ n, (∀ c ∈ cs, n ≤ c) → (settleLoopRef ds cs h).1.take n = h.take n) := by
  induction ds generalizing h with
  | nil => simp [settleLoopRef_nil]
  | cons d ds ih =>
    rw [settleLoopRef_cons]
    obtain ⟨p1, _, p3⟩ := payDebtorRef_frame (readRef h d).family cs |(readRef h d).balance| h
    obtain ⟨i1, i2⟩ := ih (payDebtorRef (readRef h d).family |(readRef h d).balance| cs h).1
    refine ⟨?_, ?_⟩
    · show (settleLoopRef ds cs _).1.length = _
      rw [i1, p1]
    · intro n hn
      show (settleLoopRef ds cs _).1.take n = _
      rw [i2 n hn, p3 n hn]

theorem mem_copyRefs (n x : ℕ) : x ∈ copyRefs n ↔ n ≤ x ∧ x < n + n := by
  simp only [copyRefs, List.mem_map, List.mem_range]
  constructor
  · rintro ⟨i, hi, rfl⟩
    omega
  · rintro ⟨h1, h2⟩
    exact ⟨x - n, by omega, by omega⟩

theorem mem_creditorRefs (heap : List FamilyBalance) (refs : List ℕ) (x : ℕ) :
    x ∈ creditorRefs heap refs ↔ x ∈ refs ∧ 0 < (readRef heap x).balance := by
  unfold creditorRefs
  rw [(sortBy_perm _ _).mem_iff]
  simp

theorem mem_debtorRefs (heap : List FamilyBalance) (refs : List ℕ) (x : ℕ) :
    x ∈ debtorRefs heap refs ↔ x ∈ refs ∧ (readRef heap x).balance < 0 := by
  unfold debtorRefs
  rw [(sortBy_perm _ _).mem_iff]
  simp

/-- Reading the first `n` references of a store gives its first `n` objects. -/
theorem map_readRef_range (h : List FamilyBalance) (n : ℕ) (hn : n ≤ h.length) :
    (List.range n).map (readRef h) = h.take n := by
  apply List.ext_getElem?
  intro i
  by_cases hi : i < n
  · rw [List.getElem?_take_of_lt hi]
    have hi2 : i < h.length := by omega
    simp [readRef, hi, List.getElem?_eq_getElem hi2]
  · rw [List.getElem?_take_eq_none (by omega)]
    simp only [List.getElem?_map, List.getElem?_range, Option.map_eq_none']
    rw [List.getElem?_eq_none_iff]
    simp only [List.length_range]
    omega

/-- The matching pass leaves the objects of `familyBalances` as they were. -/
theorem matchingPass_frame (bs : List FamilyBalance) :
    (List.range bs.length).map (readRef (matchingPass bs).1) = bs := by
  obtain ⟨h1, h2⟩ := settleLoopRef_frame (debtorRefs (bs ++ bs) (copyRefs bs.length))
    (creditorRefs (bs ++ bs) (copyRefs bs.length)) (bs ++ bs)
  have hge : ∀ c ∈ creditorRefs (bs ++ bs) (copyRefs bs.length), bs.length ≤ c := by
    intro c hc
    rw [mem_creditorRefs, mem_copyRefs] at hc
    exact hc.1.1
  unfold matchingPass
  rw [map_readRef_range _ _ (by rw [h1]; simp), h2 _ hge, List.take_left]

/-! ## The object store and the value model make the same transfers -/

theorem map_readRef_congr (h h' : List FamilyBalance) (l : List ℕ)
    (hl : ∀ x ∈ l, readRef h' x = readRef h x) : l.map (readRef h') = l.map (readRef h) :=
  List.map_congr_left hl

/-- The inner loop on the store is the inner loop on the values the creditor
references point to, when these references are distinct and in the store. -/
theorem payDebtorRef_refines (d : String) (cs : List ℕ) (r : ℚ) (h : List FamilyBalance)
    (hnd : cs.Nodup) (hin : ∀ c ∈ cs, c < h.length) :
    (payDebtorRef d r cs h).2.1 = (payDebtor d r (cs.map (readRef h))).2.1 ∧
    (payDebtorRef d r cs h).2.2 = (payDebtor d r (cs.map (readRef h))).2.2 ∧
    cs.map (readRef (payDebtorRef d r cs h).1) = (payDebtor d r (cs.map (readRef h))).1 := by
  induction cs generalizing r h with
  | nil => simp [payDebtorRef_nil, payDebtor_nil]
  | cons c cs ih =>
    rw [List.nodup_cons] at hnd
    have hc : c < h.length := hin c (List.mem_cons_self _ _)
    have hin' : ∀ x ∈ cs, x < h.length := fun x hx => hin x (List.mem_cons_of_mem _ hx)
    rw [List.map_cons]
    rcases payDebtorRef_cases d r c cs h with ⟨hs, e⟩ | ⟨⟨hr, hb⟩, e⟩
    · obtain ⟨i1, i2, i3⟩ := ih r h hnd.2 hin'
      rw [e, payDebtor_skip d r (readRef h c) _ hs]
      refine ⟨i1, i2, ?_⟩
      rw [List.map_cons, i3, (payDebtorRef_frame d cs r h).2.1 c hnd.1]
    · have hlen : ∀ x ∈ cs, x < (writeBalance h c
          ((readRef h c).balance - min r (readRef h c).balance)).length := by
        intro x hx
        rw [length_writeBalance]
        exact hin' x hx
      obtain ⟨i1, i2, i3⟩ := ih (r - min r (readRef h c).balance)
        (writeBalance h c ((readRef h c).balance - min r (readRef h c).balance)) hnd.2 hlen
      have hsame : cs.map (readRef (writeBalance h c
          ((readRef h c).balance - min r (readRef h c).balance))) = cs.map (readRef h) := by
        apply map_readRef_congr
        intro x hx
        apply readRef_writeBalance_ne
        intro hxc
        rw [hxc] at hx
        exact hnd.1 hx
      rw [hsame] at i1 i2 i3
      rw [e, payDebtor_pay d r (readRef h c) _ hr hb]
      refine ⟨by rw [i1], i2, ?_⟩
      rw [List.map_cons, i3]
      congr 1
      show readRef (payDebtorRef d _ cs _).1 c = _
      rw [(payDebtorRef_frame d cs _ _).2.1 c hnd.1, readRef_writeBalance_eq _ _ _ hc]

/-- The outer loop on the store is the outer loop on the values, when the
creditor references are distinct and in the store and no debtor reference is a
creditor reference. -/
theorem settleLoopRef_refines (ds cs : List ℕ) (h : List FamilyBalance)
    (hnd : cs.Nodup) (hin : ∀ c ∈ cs, c < h.length) (hdis : ∀ d ∈ ds, d ∉ cs) :
    (settleLoopRef ds cs h).2 = (settleLoop (ds.map (readRef h)) (cs.map (readRef h))).2 := by
  induction ds generalizing h with
  | nil => rfl
  | cons d ds ih =>
    obtain ⟨p1, _, p3⟩ := payDebtorRef_refines (readRef h d).family cs |(readRef h d).balance|
      h hnd hin
    obtain ⟨f1, f2, _⟩ := payDebtorRef_frame (readRef h d).family cs |(readRef h d).balance| h
    have hin' : ∀ c ∈ cs,
        c < (payDebtorRef (readRef h d).family |(readRef h d).balance| cs h).1.length := by
      intro c hc
      rw [f1]
      exact hin c hc
    have hds : ds.map (readRef (payDebtorRef (readRef h d).family |(readRef h d).balance|
        cs h).1) = ds.map (readRef h) := by
      apply map_readRef_congr
      intro x hx
      exact f2 x (hdis x (List.mem_cons_of_mem _ hx))
    have i := ih (payDebtorRef (readRef h d).family |(readRef h d).balance| cs h).1 hin'
      (fun x hx => hdis x (List.mem_cons_of_mem _ hx))
    rw [hds, p3] at i
    rw [settleLoopRef_cons, List.map_cons, settleLoop_cons]
    show (payDebtorRef _ _ cs h).2.1 ++ (settleLoopRef ds cs _).2 = _
    rw [p1, i]

theorem map_insertSorted {α β : Type} (f : α → β) (cmp : β → β → ℚ) (a : α) (l : List α) :
    (insertSorted (fun x y => cmp (f x) (f y)) a l).map f = insertSorted cmp (f a) (l.map f) := by
  induction l with
  | nil => rfl
  | cons b l ih =>
    simp only [insertSorted, List.map_cons]
    split_ifs
    · rfl
    · rw [List.map_cons, ih]

theorem map_sortBy {α β : Type} (f : α → β) (cmp : β → β → ℚ) (l : List α) :
    (sortBy (fun x y => cmp (f x) (f y)) l).map f = sortBy cmp (l.map f) := by
  induction l with
  | nil => rfl
  | cons a l ih =>
    simp only [sortBy, List.map_cons]
    rw [map_insertSorted, ih]

/-- The copies hold the values of `familyBalances`. -/
theorem map_readRef_copyRefs (bs : List FamilyBalance) :
    (copyRefs bs.length).map (readRef (bs ++ bs)) = bs := by
  apply List.ext_getElem?
  intro i
  by_cases hi : i < bs.length
  · have hr : (bs ++ bs)[bs.length + i]? = bs[i]? := by
      rw [List.getElem?_append_right (by omega)]
      congr 1
      omega
    have hlt : i < (List.range bs.length).length := by simpa using hi
    simp only [copyRefs, List.map_map, List.getElem?_map]
    rw [List.getElem?_eq_getElem hlt, List.getElem_range]
    simp only [Option.map_some', Function.comp, readRef, List.getD_eq_getElem?_getD, hr,
      List.getElem?_eq_getElem hi, Option.getD_some]
  · have h1 : bs[i]? = none := by
      rw [List.getElem?_eq_none_iff]; omega
    rw [h1]
    simp only [copyRefs, List.map_map, List.getElem?_map, List.getElem?_range,
      Option.map_eq_none']
    rw [List.getElem?_eq_none_iff]
    simp only [List.length_range]
    omega

theorem map_readRef_debtorRefs (heap : List FamilyBalance) (refs : List ℕ) :
    (debtorRefs heap refs).map (readRef heap) = debtors (refs.map (readRef heap)) := by
  unfold debtorRefs debtors
  rw [map_sortBy (readRef heap) (fun a b => a.balance - b.balance), List.filter_map]
  rfl

theorem map_readRef_creditorRefs (heap : List FamilyBalance) (refs : List ℕ) :
    (creditorRefs heap refs).map (readRef heap) = creditors (refs.map (readRef heap)) := by
  unfold creditorRefs creditors
  rw [map_sortBy (readRef heap) (fun a b => b.balance - a.balance), List.filter_map]
  rfl

theorem copyRefs_nodup (n : ℕ) : (copyRefs n).Nodup := by
  unfold copyRefs
  apply List.Nodup.map
  · intro a b hab
    simpa using hab
  · exact List.nodup_range n

/-- The matching pass on the store makes the transfers of the value model. -/
theorem matchingPass_transfers (bs : List FamilyBalance) :
    (matchingPass bs).2 = transfersOf bs := by
  have hnd : (creditorRefs (bs ++ bs) (copyRefs bs.length)).Nodup := by
    unfold creditorRefs
    rw [(sortBy_perm _ _).nodup_iff]
    exact (copyRefs_nodup bs.length).sublist (List.filter_sublist _)
  have hin : ∀ c ∈ creditorRefs (bs ++ bs) (copyRefs bs.length), c < (bs ++ bs).length := by
    intro c hc
    rw [mem_creditorRefs, mem_copyRefs] at hc
    rw [List.length_append]
    exact hc.1.2
  have hdis : ∀ d ∈ debtorRefs (bs ++ bs) (copyRefs bs.length),
      d ∉ creditorRefs (bs ++ bs) (copyRefs bs.length) := by
    intro d hd hc
    rw [mem_debtorRefs] at hd
    rw [mem_creditorRefs] at hc
    exact lt_asymm hd.2 hc.2
  unfold matchingPass transfersOf
  rw [settleLoopRef_refines _ _ _ hnd hin hdis, map_readRef_debtorRefs,
    map_readRef_creditorRefs, map_readRef_copyRefs]

/-- C16. Purity of the matching pass: with the objects of lines 88-128 in a
store, the loop writes only to the copies made at line 105, so the
`familyBalances` read back for the response are the ones computed before the
loop, each still with `balance = paid - share`, and the response is the one of
the value model; in Scenario A the copy of `Alpha` ends with balance 0 while
the returned entry keeps its surplus of 50. -/
theorem matching_pass_pure (families : List Family) (expenses : List Expense) :
    (settlementsOnHeap families expenses).familyBalances = familyBalances families expenses ∧
    (matchingPass (familyBalances families expenses)).1.take
        (familyBalances families expenses).length = familyBalances families expenses ∧
    (∀ b ∈ (settlementsOnHeap families expenses).familyBalances, b.balance = b.paid - b.share) ∧
    settlementsOnHeap families expenses = settlementsOf families expenses ∧
    (matchingPass (familyBalances sampleFamilies sampleExpenses)).1
      = [{ family := "Alpha", members := 2, share := 50, paid := 100, balance := 50 },
         { family := "Beta", members := 2, share := 50, paid := 0, balance := -50 },
         { family := "Alpha", members := 2, share := 50, paid := 100, balance := 0 },
         { family := "Beta", members := 2, share := 50, paid := 0, balance := -50 }] ∧
    (settlementsOnHeap sampleFamilies sampleExpenses).familyBalances
      = [{ family := "Alpha", members := 2, share := 50, paid := 100, balance := 50 },
         { family := "Beta", members := 2, share := 50, paid := 0, balance := -50 }] := by
  have hframe : (settlementsOnHeap families expenses).familyBalances
      = familyBalances families expenses := matchingPass_frame _
  have hlen := (settleLoopRef_frame
    (debtorRefs (familyBalances families expenses ++ familyBalances families expenses)
      (copyRefs (familyBalances families expenses).length))
    (creditorRefs (familyBalances families expenses ++ familyBalances families expenses)
      (copyRefs (familyBalances families expenses).length))
    (familyBalances families expenses ++ familyBalances families expenses)).1
  refine ⟨hframe, ?_, ?_, ?_, by decide!, by decide!⟩
  · rw [← map_readRef_range _ _ (by unfold matchingPass; rw [hlen]; simp)]
    exact matchingPass_frame _
  · intro b hb
    rw [hframe] at hb
    simp only [familyBalances, List.mem_map] at hb
    obtain ⟨f, _, rfl⟩ := hb
    rfl
  · have h2 : (settlementsOnHeap families expenses).settlements
        = (settlementsOf families expenses).settlements := by
      show (matchingPass (familyBalances families expenses)).2.map emit = _
      rw [matchingPass_transfers]
      rfl
    have h1 : (settlementsOnHeap families expenses).familyBalances
        = (settlementsOf families expenses).familyBalances := hframe
    calc settlementsOnHeap families expenses
        = { totalExpenses := totalExpenses expenses
            totalMembers := totalMembers families
            perPersonShare := perPersonShare families expenses
            familyBalances := (settlementsOnHeap families expenses).familyBalances
            settlements := (settlementsOnHeap families expenses).settlements } := rfl
      _ = settlementsOf families expenses := by rw [h1, h2]; rfl

/-! ## What each route does to the store -/

theorem resolveGroup_ok (db : Db) (groupId : Option ℕ) (group : GroupDoc)
    (h : resolveGroup db groupId = Except.ok group) :
    group ∈ db.groups ∧ groupId = some group.id := by
  unfold resolveGroup at h
  cases groupId with
  | none => simp at h
  | some id =>
    simp only at h
    cases hf : db.groups.find? (fun g => g.id = id) with
    | none => rw [hf] at h; simp at h
    | some g =>
      rw [hf] at h
      simp only [Except.ok.injEq] at h
      subst h
      have h1 := List.find?_some hf
      simp only [decide_eq_true_eq] at h1
      exact ⟨List.mem_of_find?_eq_some hf, by rw [h1]⟩

theorem resolveGroup_error (db : Db) (groupId : Option ℕ) (reply : Reply)
    (h : resolveGroup db groupId = Except.error reply) :
    reply.status ≠ 200 ∧ reply.status ≠ 201 := by
  unfold resolveGroup at h
  cases groupId with
  | none =>
    simp only [Except.error.injEq] at h
    subst h
    simp [fail]
  | some id =>
    simp only at h
    cases hf : db.groups.find? (fun g => g.id = id) with
    | none =>
      rw [hf] at h
      simp only [Except.error.injEq] at h
      subst h
      simp [fail]
    | some g => rw [hf] at h; simp at h

/-- `POST /families` leaves the store as it is, or appends one family with a
fresh identifier to an open group that has no family of the same name up to
letter case. -/
theorem addFamily_effect (host : Host) (db : Db) (req : AddFamilyRequest) :
    ((addFamily host db req).2 = db ∧ (addFamily host db req).1.status ≠ 201) ∨
    ∃ family : FamilyDoc,
      family.id = db.nextId ∧
      family.name = host.trim (req.name.getD "") ∧ family.name ≠ "" ∧
      validMembers req.members = some family.members ∧
      (∃ group ∈ db.groups, group.id = family.group ∧ group.status ≠ GroupStatus.closed ∧
        req.groupId = some group.id) ∧
      req.password = some host.password ∧
      (∀ f ∈ db.families, f.group = family.group → host.fold f.name ≠ host.fold family.name) ∧
      addFamily host db req
        = ({ status := 201, body := Body.family family },
            { db with families := db.families ++ [family], nextId := db.nextId + 1 }) := by
  unfold addFamily
  cases hg : resolveGroup db req.groupId with
  | error reply => left; exact ⟨rfl, (resolveGroup_error db req.groupId reply hg).2⟩
  | ok group =>
    obtain ⟨hmem, hid⟩ := resolveGroup_ok db req.groupId group hg
    simp only
    by_cases hclosed : group.status = GroupStatus.closed
    · left; simp [hclosed, fail]
    · by_cases hpw : req.password ≠ some host.password
      · left; simp [hclosed, hpw, fail]
      · by_cases hname : host.trim (req.name.getD "") = ""
        · left; simp [hclosed, hpw, hname, fail]
        · cases hm : validMembers req.members with
          | none => left; simp [hclosed, hpw, hname, fail]
          | some members =>
            cases hf : db.families.find?
                (fun f => host.fold f.name = host.fold (host.trim (req.name.getD ""))
                  ∧ f.group = group.id) with
            | some existing =>
              have hex := List.find?_some hf
              simp only [decide_eq_true_eq] at hex
              left
              simp [hclosed, hpw, hname, hf, hex.2, fail]
            | none =>
              right
              rw [List.find?_eq_none] at hf
              refine ⟨⟨db.nextId, host.trim (req.name.getD ""), members, group.id⟩,
                rfl, rfl, hname, rfl,
                ⟨group, hmem, rfl, hclosed, hid⟩, not_not.mp hpw, ?_, ?_⟩
              · intro f hfm hgrp hfold
                have := hf f hfm
                simp only [decide_eq_true_eq, not_and] at this
                exact this hfold hgrp
              · simp [hclosed, hpw, hname]

theorem find?_id_some {α : Type} (l : List α) (p : α → Bool) (a : α) (h : l.find? p = some a) :
    a ∈ l ∧ p a = true :=
  ⟨List.mem_of_find?_eq_some h, List.find?_some h⟩

/-- `PATCH /families/:id` leaves the store as it is, or sets the member count
of the family found by the identifier, in an open group. -/
theorem updateFamily_effect (db : Db) (req : UpdateFamilyRequest) :
    ((updateFamily db req).2 = db ∧ (updateFamily db req).1.status ≠ 200) ∨
    ∃ family ∈ db.families, ∃ members : ℕ,
      family.id = req.id ∧ validMembers req.members = some members ∧
      (∃ group ∈ db.groups, group.id = family.group ∧ group.status ≠ GroupStatus.closed) ∧
      updateFamily db req
        = ({ status := 200, body := Body.family { family with members := members } },
            { db with families := (db.families.map
                (fun f => if f.id = family.id then { family with members := members }
                  else f)) }) := by
  unfold updateFamily
  cases hf : db.families.find? (fun f => f.id = req.id) with
  | none => left; simp [fail]
  | some family =>
    obtain ⟨hfm, hfid⟩ := find?_id_some _ _ _ hf
    simp only [decide_eq_true_eq] at hfid
    simp only
    cases hg : db.groups.find? (fun g => g.id = family.group) with
    | none => left; simp [fail]
    | some group =>
      obtain ⟨hgm, hgid⟩ := find?_id_some _ _ _ hg
      simp only [decide_eq_true_eq] at hgid
      simp only
      by_cases hclosed : group.status = GroupStatus.closed
      · left; simp [hclosed, fail]
      · cases hm : validMembers req.members with
        | none => left; simp [hclosed, fail]
        | some members =>
          right
          refine ⟨family, hfm, members, hfid, rfl, ⟨group, hgm, hgid, hclosed⟩, ?_⟩
          simp [hclosed]

/-- `DELETE /families/:id` leaves the store as it is, or removes the family
found by the identifier, which no expense of its group names. -/
theorem deleteFamily_effect (host : Host) (db : Db) (req : DeleteFamilyRequest) :
    ((deleteFamily host db req).2 = db ∧ (deleteFamily host db req).1.status ≠ 200) ∨
    ∃ family ∈ db.families,
      family.id = req.id ∧
      (∀ e ∈ db.expenses, ¬ (e.familyName = family.name ∧ e.group = family.group)) ∧
      (∃ group ∈ db.groups, group.id = family.group ∧ group.status ≠ GroupStatus.closed) ∧
      req.password = some host.password ∧
      deleteFamily host db req
        = (fail 200 "Family deleted successfully.",
            { db with families := db.families.filter (fun f => f.id ≠ family.id) }) := by
  unfold deleteFamily
  cases hf : db.families.find? (fun f => f.id = req.id) with
  | none => left; simp [fail]
  | some family =>
    obtain ⟨hfm, hfid⟩ := find?_id_some _ _ _ hf
    simp only [decide_eq_true_eq] at hfid
    simp only
    cases hg : db.groups.find? (fun g => g.id = family.group) with
    | none => left; simp [fail]
    | some group =>
      obtain ⟨hgm, hgid⟩ := find?_id_some _ _ _ hg
      simp only [decide_eq_true_eq] at hgid
      simp only
      by_cases hclosed : group.status = GroupStatus.closed
      · left; simp [hclosed, fail]
      · by_cases hpw : req.password ≠ some host.password
        · left; simp [hclosed, hpw, fail]
        · by_cases hex : db.expenses.any
              (fun e => e.familyName = family.name ∧ e.group = family.group) = true
          · left
            have hex' : ∃ x ∈ db.expenses,
                x.familyName = family.name ∧ x.group = family.group := by
              simpa using hex
            simp [hclosed, hpw, hex', fail]
          · right
            refine ⟨family, hfm, hfid, ?_, ⟨group, hgm, hgid, hclosed⟩, not_not.mp hpw, ?_⟩
            · intro e he hcon
              apply hex
              rw [List.any_eq_true]
              exact ⟨e, he, by simpa using hcon⟩
            · simp only [hclosed, hpw, hex, if_false]
              rfl

/-- `POST /expenses` leaves the store as it is, or appends one expense with a
fresh identifier that names a family of the open group of the request. -/
theorem addExpense_effect (host : Host) (db : Db) (req : AddExpenseRequest) :
    ((addExpense host db req).2 = db ∧ (addExpense host db req).1.status ≠ 201) ∨
    ∃ expense : ExpenseDoc,
      expense.id = db.nextId ∧ expense.familyName = req.familyName ∧
      expense.amount = req.amount ∧
      (∃ f ∈ db.families, f.name = expense.familyName ∧ f.group = expense.group) ∧
      (∃ group ∈ db.groups, group.id = expense.group ∧ group.status ≠ GroupStatus.closed ∧
        req.groupId = some group.id) ∧
      addExpense host db req
        = ({ status := 201, body := Body.expense expense },
            { db with expenses := db.expenses ++ [expense], nextId := db.nextId + 1 }) := by
  unfold addExpense
  cases hg : resolveGroup db req.groupId with
  | error reply => left; exact ⟨rfl, (resolveGroup_error db req.groupId reply hg).2⟩
  | ok group =>
    obtain ⟨hmem, hid⟩ := resolveGroup_ok db req.groupId group hg
    simp only
    by_cases hclosed : group.status = GroupStatus.closed
    · left; simp [hclosed, fail]
    · cases hf : db.families.find?
          (fun f => f.name = req.familyName ∧ f.group = group.id) with
      | none => left; simp [hclosed, fail]
      | some f =>
        obtain ⟨hfm, hfp⟩ := find?_id_some _ _ _ hf
        simp only [decide_eq_true_eq] at hfp
        cases he : host.expenseError
            { id := db.nextId, description := req.description, amount := req.amount,
              familyName := req.familyName, group := group.id } with
        | some text => left; simp [hclosed, he, fail]
        | none =>
          right
          refine ⟨⟨db.nextId, req.description, req.amount, req.familyName, group.id⟩,
            rfl, rfl, rfl, ⟨f, hfm, hfp.1, hfp.2⟩, ⟨group, hmem, rfl, hclosed, hid⟩, ?_⟩
          simp [hclosed, he]

theorem expenseUpdates_name (db : Db) (group : GroupDoc) (req : UpdateExpenseRequest)
    (newAmount : Option ℚ) (name : String)
    (h : expenseUpdates db group req = Except.ok (newAmount, some name)) :
    ∃ f ∈ db.families, f.name = name ∧ f.group = group.id := by
  unfold expenseUpdates at h
  simp only at h
  split at h
  · simp at h
  · rename_i a _
    split at h
    · simp at h
    · rename_i familyName _
      split_ifs at h with h1 h2
      · simp at h
      · simp only [Except.ok.injEq, Prod.mk.injEq, Option.some.injEq] at h
        rw [List.any_eq_true] at h2
        obtain ⟨f, hf, hp⟩ := h2
        simp only [decide_eq_true_eq] at hp
        exact ⟨f, hf, by rw [← h.2]; exact hp.1, hp.2⟩

theorem expenseUpdates_error (db : Db) (group : GroupDoc) (req : UpdateExpenseRequest)
    (reply : Reply) (h : expenseUpdates db group req = Except.error reply) :
    reply.status = 400 := by
  unfold expenseUpdates at h
  simp only at h
  split at h
  · simp only [Except.error.injEq] at h
    rename_i r hr
    split at hr
    · simp at hr
    · simp only [Except.error.injEq] at hr
      rw [← h, ← hr]; rfl
    · split_ifs at hr
      · simp only [Except.error.injEq] at hr
        rw [← h, ← hr]; rfl
  · split at h
    · simp at h
    · split_ifs at h
      · simp only [Except.error.injEq] at h
        rw [← h]; rfl

theorem expenseUpdates_given (db : Db) (group : GroupDoc) (req : UpdateExpenseRequest)
    (newAmount : Option ℚ) (newName : Option String)
    (h : expenseUpdates db group req = Except.ok (newAmount, newName))
    (name : String) (hreq : req.familyName = some name) (hname : name ≠ "") :
    newName = some name := by
  unfold expenseUpdates at h
  simp only [hreq, hname, if_false] at h
  split at h
  · simp at h
  · split_ifs at h
    · simp only [Except.ok.injEq, Prod.mk.injEq] at h
      exact h.2.symm

/-- `PATCH /expenses/:id` leaves the store as it is, or replaces the expense
found by the identifier by one of the same group whose family name is the old
one or the name of a family of that group. -/
theorem updateExpense_effect (host : Host) (db : Db) (req : UpdateExpenseRequest) :
    ((updateExpense host db req).2 = db ∧ (updateExpense host db req).1.status ≠ 200) ∨
    ∃ expense ∈ db.expenses, ∃ updated : ExpenseDoc,
      expense.id = req.id ∧ updated.id = expense.id ∧ updated.group = expense.group ∧
      (updated.familyName = expense.familyName ∨
        ∃ f ∈ db.families, f.name = updated.familyName ∧ f.group = expense.group) ∧
      (∀ name, req.familyName = some name → name ≠ "" →
        ∃ f ∈ db.families, f.name = name ∧ f.group = expense.group) ∧
      (∃ group ∈ db.groups, group.id = expense.group ∧ group.status ≠ GroupStatus.closed) ∧
      (updateExpense host db req).2
        = { db with expenses := (db.expenses.map
              (fun e => if e.id = expense.id then updated else e)) } := by
  unfold updateExpense
  cases hf : db.expenses.find? (fun e => e.id = req.id) with
  | none => left; simp [fail]
  | some expense =>
    obtain ⟨hem, heid⟩ := find?_id_some _ _ _ hf
    simp only [decide_eq_true_eq] at heid
    simp only
    cases hg : db.groups.find? (fun g => g.id = expense.group) with
    | none => left; simp [fail]
    | some group =>
      obtain ⟨hgm, hgid⟩ := find?_id_some _ _ _ hg
      simp only [decide_eq_true_eq] at hgid
      simp only
      by_cases hclosed : group.status = GroupStatus.closed
      · left; simp [hclosed, fail]
      · simp only [hclosed, if_false]
        cases hu : expenseUpdates db group req with
        | error reply =>
          left
          exact ⟨rfl, by
            show reply.status ≠ 200
            rw [expenseUpdates_error db group req reply hu]
            decide⟩
        | ok updates =>
          obtain ⟨newAmount, newName⟩ := updates
          cases newName with
          | none =>
            cases newAmount with
            | none => left; simp [fail]
            | some a =>
              simp only
              cases he : host.expenseError
                  { expense with amount := (some a).getD expense.amount,
                                 familyName := (none : Option String).getD expense.familyName }
                with
              | some text => left; simp [fail]
              | none =>
                right
                exact ⟨expense, hem,
                  { expense with amount := (some a).getD expense.amount,
                                 familyName := (none : Option String).getD expense.familyName },
                  heid, rfl, rfl, Or.inl rfl,
                  fun name h1 h2 => absurd (expenseUpdates_given db group req _ _ hu name h1 h2)
                    (by simp),
                  ⟨group, hgm, hgid, hclosed⟩, rfl⟩
          | some name =>
            obtain ⟨f, hfm, hfn, hfg⟩ := expenseUpdates_name db group req newAmount name hu
            simp only
            cases he : host.expenseError
                { expense with amount := newAmount.getD expense.amount,
                               familyName := (some name).getD expense.familyName } with
            | some text => left; simp [fail]
            | none =>
              right
              refine ⟨expense, hem,
                { expense with amount := newAmount.getD expense.amount,
                               familyName := (some name).getD expense.familyName },
                heid, rfl, rfl, Or.inr ⟨f, hfm, ?_, ?_⟩, ?_, ⟨group, hgm, hgid, hclosed⟩, rfl⟩
              · simpa using hfn
              · rw [hfg, hgid]
              · intro name' h1 h2
                have := expenseUpdates_given db group req _ _ hu name' h1 h2
                simp only [Option.some.injEq] at this
                exact ⟨f, hfm, by rw [← this]; exact hfn, by rw [hfg, hgid]⟩

/-- `DELETE /expenses/:id` leaves the store as it is or removes expenses. -/
theorem deleteExpense_effect (db : Db) (req : DeleteExpenseRequest) :
    (deleteExpense db req).2 = db ∨
    ∃ expense ∈ db.expenses,
      (deleteExpense db req).2
        = { db with expenses := db.expenses.filter (fun e => e.id ≠ expense.id) } := by
  unfold deleteExpense
  cases hf : db.expenses.find? (fun e => e.id = req.id) with
  | none => left; simp [fail]
  | some expense =>
    obtain ⟨hem, _⟩ := find?_id_some _ _ _ hf
    simp only
    cases hg : db.groups.find? (fun g => g.id = expense.group) with
    | none => left; simp [fail]
    | some group =>
      simp only
      by_cases hclosed : group.status = GroupStatus.closed
      · left; simp [hclosed, fail]
      · right
        exact ⟨expense, hem, by simp [hclosed]⟩

/-- The group routes leave the families and the expenses as they are and do
not lower the counter. -/
theorem createGroup_effect (host : Host) (db : Db) (req : CreateGroupRequest) :
    (createGroup host db req).2.families = db.families ∧
    (createGroup host db req).2.expenses = db.expenses ∧
    db.nextId ≤ (createGroup host db req).2.nextId := by
  unfold createGroup
  by_cases hpw : req.password ≠ some host.password
  · simp [hpw]
  · by_cases hname : host.trim (req.name.getD "") = ""
    · simp [hpw, hname]
    · cases hp : host.groupPattern (host.trim (req.name.getD "")) with
      | none => simp [hpw, hname, hp]
      | some isMatch =>
        simp only [hpw, hname, hp, if_false]
        split_ifs <;> simp

theorem updateGroup_effect (host : Host) (db : Db) (req : UpdateGroupRequest) :
    (updateGroup host db req).2.families = db.families ∧
    (updateGroup host db req).2.expenses = db.expenses ∧
    db.nextId ≤ (updateGroup host db req).2.nextId := by
  unfold updateGroup
  cases hf : db.groups.find? (fun g => g.id = req.id) with
  | none => simp
  | some group =>
    simp only
    cases hn : nameUpdate host db group req with
    | error reply => simp
    | ok newName =>
      simp only
      cases hs : statusUpdate host group req with
      | error reply => simp
      | ok newStatus =>
        simp only
        split_ifs <;> simp

/-! ## The routes keep the store consistent -/

theorem consistent_empty (host : Host) : Consistent host emptyDb := by
  refine ⟨⟨by simp [emptyDb], by simp [emptyDb]⟩, ?_, ?_⟩
  · intro e he; simp [emptyDb] at he
  · simp [CaseUnique, emptyDb]

theorem consistent_of_same (host : Host) (db db' : Db) (h1 : db'.families = db.families)
    (h2 : db'.expenses = db.expenses) (h3 : db.nextId ≤ db'.nextId)
    (h : Consistent host db) : Consistent host db' := by
  obtain ⟨⟨a1, a2⟩, b, c⟩ := h
  refine ⟨⟨by rw [h1]; exact a1, ?_⟩, ?_, ?_⟩
  · intro f hf
    rw [h1] at hf
    exact lt_of_lt_of_le (a2 f hf) h3
  · intro e he
    rw [h2] at he
    rw [h1]
    exact b e he
  · unfold CaseUnique
    rw [h1]
    exact c

/-- With distinct identifiers, the family found by an identifier is the only
one that has it. -/
theorem family_eq_of_id (db : Db) (h : FreshIds db) (f g : FamilyDoc)
    (hf : f ∈ db.families) (hg : g ∈ db.families) (hid : f.id = g.id) : f = g :=
  List.inj_on_of_nodup_map h.1 hf hg hid

theorem consistent_addFamily (host : Host) (db : Db) (req : AddFamilyRequest)
    (h : Consistent host db) : Consistent host (addFamily host db req).2 := by
  rcases addFamily_effect host db req with ⟨hsame, _⟩ | ⟨fam, hid, _, _, _, _, _, hnew, heq⟩
  · rw [hsame]; exact h
  · obtain ⟨⟨a1, a2⟩, b, c⟩ := h
    rw [heq]
    refine ⟨⟨?_, ?_⟩, ?_, ?_⟩
    · show ((db.families ++ [fam]).map (fun f => f.id)).Nodup
      rw [List.map_append, List.nodup_append]
      refine ⟨a1, by simp, ?_⟩
      intro x hx1 hx2
      simp only [List.map_cons, List.map_nil, List.mem_singleton] at hx2
      simp only [List.mem_map] at hx1
      obtain ⟨f, hf, rfl⟩ := hx1
      have := a2 f hf
      omega
    · intro f hf
      show f.id < db.nextId + 1
      have hf' : f ∈ db.families ++ [fam] := hf
      simp only [List.mem_append, List.mem_singleton] at hf'
      rcases hf' with hf' | rfl
      · have := a2 f hf'; omega
      · omega
    · intro e he
      obtain ⟨f, hf, h1, h2⟩ := b e he
      exact ⟨f, List.mem_append_left _ hf, h1, h2⟩
    · show (db.families ++ [fam]).Pairwise _
      rw [List.pairwise_append]
      refine ⟨c, List.pairwise_singleton _ _, ?_⟩
      intro f hf g hg
      simp only [List.mem_singleton] at hg
      subst hg
      exact hnew f hf

theorem consistent_updateFamily (host : Host) (db : Db) (req : UpdateFamilyRequest)
    (h : Consistent host db) : Consistent host (updateFamily db req).2 := by
  rcases updateFamily_effect db req with ⟨hsame, _⟩ | ⟨family, hmem, members, _, _, _, heq⟩
  · rw [hsame]; exact h
  · obtain ⟨⟨a1, a2⟩, b, c⟩ := h
    have hkeep : ∀ f ∈ db.families,
        (if f.id = family.id then { family with members := members } else f).id = f.id ∧
        (if f.id = family.id then { family with members := members } else f).name = f.name ∧
        (if f.id = family.id then { family with members := members } else f).group
          = f.group := by
      intro f hf
      by_cases hid : f.id = family.id
      · have : f = family := family_eq_of_id db ⟨a1, a2⟩ f family hf hmem hid
        subst this
        simp
      · simp [hid]
    rw [heq]
    refine ⟨⟨?_, ?_⟩, ?_, ?_⟩
    · show ((db.families.map
        (fun f => if f.id = family.id then { family with members := members } else f)).map
        (fun f => f.id)).Nodup
      rw [List.map_map]
      have : db.families.map ((fun f => f.id) ∘
          (fun f => if f.id = family.id then { family with members := members } else f))
          = db.families.map (fun f => f.id) :=
        List.map_congr_left (fun f hf => (hkeep f hf).1)
      rw [this]
      exact a1
    · intro f hf
      have hf' : f ∈ db.families.map
          (fun f => if f.id = family.id then { family with members := members } else f) := hf
      simp only [List.mem_map] at hf'
      obtain ⟨g, hg, rfl⟩ := hf'
      rw [(hkeep g hg).1]
      exact a2 g hg
    · intro e he
      obtain ⟨f, hf, h1, h2⟩ := b e he
      refine ⟨_, List.mem_map_of_mem _ hf, ?_, ?_⟩
      · rw [(hkeep f hf).2.1]; exact h1
      · rw [(hkeep f hf).2.2]; exact h2
    · show (db.families.map _).Pairwise _
      rw [List.pairwise_map]
      apply List.Pairwise.imp_of_mem _ c
      intro f g hf hg hR
      rw [(hkeep f hf).2.1, (hkeep f hf).2.2, (hkeep g hg).2.1, (hkeep g hg).2.2]
      exact hR

theorem consistent_deleteFamily (host : Host) (db : Db) (req : DeleteFamilyRequest)
    (h : Consistent host db) : Consistent host (deleteFamily host db req).2 := by
  rcases deleteFamily_effect host db req with ⟨hsame, _⟩ | ⟨family, hmem, _, hnone, _, _, heq⟩
  · rw [hsame]; exact h
  · obtain ⟨⟨a1, a2⟩, b, c⟩ := h
    rw [heq]
    refine ⟨⟨?_, ?_⟩, ?_, ?_⟩
    · exact a1.sublist ((List.filter_sublist _).map _)
    · intro f hf
      exact a2 f (List.mem_of_mem_filter hf)
    · intro e he
      obtain ⟨f, hf, h1, h2⟩ := b e he
      refine ⟨f, ?_, h1, h2⟩
      show f ∈ db.families.filter (fun f => f.id ≠ family.id)
      rw [List.mem_filter]
      refine ⟨hf, ?_⟩
      simp only [ne_eq, decide_not, Bool.not_eq_true', decide_eq_false_iff_not]
      intro hid
      have : f = family := family_eq_of_id db ⟨a1, a2⟩ f family hf hmem hid
      subst this
      exact hnone e he ⟨h1.symm, h2.symm⟩
    · exact List.Pairwise.sublist (List.filter_sublist _) c

theorem consistent_addExpense (host : Host) (db : Db) (req : AddExpenseRequest)
    (h : Consistent host db) : Consistent host (addExpense host db req).2 := by
  rcases addExpense_effect host db req with ⟨hsame, _⟩ | ⟨expense, _, _, _, hfam, _, heq⟩
  · rw [hsame]; exact h
  · obtain ⟨⟨a1, a2⟩, b, c⟩ := h
    rw [heq]
    refine ⟨⟨a1, ?_⟩, ?_, c⟩
    · intro f hf
      show f.id < db.nextId + 1
      have := a2 f hf
      omega
    · intro e he
      have he' : e ∈ db.expenses ++ [expense] := he
      simp only [List.mem_append, List.mem_singleton] at he'
      rcases he' with he' | rfl
      · exact b e he'
      · exact hfam

theorem consistent_updateExpense (host : Host) (db : Db) (req : UpdateExpenseRequest)
    (h : Consistent host db) : Consistent host (updateExpense host db req).2 := by
  rcases updateExpense_effect host db req with
    ⟨hsame, _⟩ | ⟨expense, hmem, updated, _, _, hgrp, hname, _, _, heq⟩
  · rw [hsame]; exact h
  · obtain ⟨⟨a1, a2⟩, b, c⟩ := h
    rw [heq]
    refine ⟨⟨a1, a2⟩, ?_, c⟩
    intro e he
    have he' : e ∈ db.expenses.map (fun e => if e.id = expense.id then updated else e) := he
    simp only [List.mem_map] at he'
    obtain ⟨e0, he0, rfl⟩ := he'
    show ∃ f ∈ db.families, _
    by_cases hid : e0.id = expense.id
    · simp only [hid, if_true]
      rcases hname with hn | ⟨f, hf, h1, h2⟩
      · obtain ⟨f, hf, h1, h2⟩ := b expense hmem
        exact ⟨f, hf, by rw [hn]; exact h1, by rw [hgrp]; exact h2⟩
      · exact ⟨f, hf, h1, by rw [hgrp]; exact h2⟩
    · simp only [hid, if_false]
      exact b e0 he0

theorem consistent_deleteExpense (host : Host) (db : Db) (req : DeleteExpenseRequest)
    (h : Consistent host db) : Consistent host (deleteExpense db req).2 := by
  rcases deleteExpense_effect db req with hsame | ⟨expense, _, heq⟩
  · rw [hsame]; exact h
  · obtain ⟨⟨a1, a2⟩, b, c⟩ := h
    rw [heq]
    refine ⟨⟨a1, a2⟩, ?_, c⟩
    intro e he
    exact b e (List.mem_of_mem_filter he)

/-- Every route keeps the store consistent. -/
theorem consistent_handle (host : Host) (db : Db) (req : Request) (h : Consistent host db) :
    Consistent host (handle host db req).2 := by
  cases req with
  | addFamily r => exact consistent_addFamily host db r h
  | updateFamily r => exact consistent_updateFamily host db r h
  | deleteFamily r => exact consistent_deleteFamily host db r h
  | addExpense r => exact consistent_addExpense host db r h
  | updateExpense r => exact consistent_updateExpense host db r h
  | deleteExpense r => exact consistent_deleteExpense host db r h
  | createGroup r =>
    obtain ⟨h1, h2, h3⟩ := createGroup_effect host db r
    exact consistent_of_same host db _ h1 h2 h3 h
  | updateGroup r =>
    obtain ⟨h1, h2, h3⟩ := updateGroup_effect host db r
    exact consistent_of_same host db _ h1 h2 h3 h

/-- Every reachable store is consistent. -/
theorem reachable_consistent (host : Host) (db : Db) (h : Reachable host db) :
    Consistent host db := by
  induction h with
  | empty => exact consistent_empty host
  | step db req _ ih => exact consistent_handle host db req ih

theorem reachable_run (host : Host) (db : Db) (reqs : List Request) (h : Reachable host db) :
    Reachable host (run host db reqs) := by
  induction reqs generalizing db with
  | nil => exact h
  | cons req rest ih => exact ih _ (Reachable.step db req h)

/-! ## Properties of the reachable stores -/

theorem status_fail (status : ℕ) (text : String) : (fail status text).status = status := rfl

/-- No route changes the name or the group of a family. -/
theorem handle_keeps_family_names (host : Host) (db : Db) (hfresh : FreshIds db)
    (req : Request) :
    ∀ f ∈ db.families, ∀ g ∈ (handle host db req).2.families,
      g.id = f.id → g.name = f.name ∧ g.group = f.group := by
  have same : ∀ db' : Db, db'.families = db.families →
      ∀ f ∈ db.families, ∀ g ∈ db'.families, g.id = f.id → g.name = f.name ∧ g.group = f.group := by
    intro db' h f hf g hg hid
    rw [h] at hg
    have : g = f := family_eq_of_id db hfresh g f hg hf hid
    rw [this]
    exact ⟨rfl, rfl⟩
  cases req with
  | addFamily r =>
    rcases addFamily_effect host db r with ⟨hsame, _⟩ | ⟨fam, hid, _, _, _, _, _, _, heq⟩
    · exact same _ (by rw [show (handle host db (Request.addFamily r)).2 = db from hsame])
    · intro f hf g hg hgid
      have hg' : g ∈ db.families ++ [fam] := by
        have : (handle host db (Request.addFamily r)).2.families = db.families ++ [fam] := by
          show (addFamily host db r).2.families = _
          rw [heq]
        rw [this] at hg
        exact hg
      simp only [List.mem_append, List.mem_singleton] at hg'
      rcases hg' with hg' | rfl
      · have : g = f := family_eq_of_id db hfresh g f hg' hf hgid
        rw [this]
        exact ⟨rfl, rfl⟩
      · have := hfresh.2 f hf
        omega
  | updateFamily r =>
    rcases updateFamily_effect db r with ⟨hsame, _⟩ | ⟨family, hmem, members, _, _, _, heq⟩
    · exact same _ (by rw [show (handle host db (Request.updateFamily r)).2 = db from hsame])
    · intro f hf g hg hgid
      have hg' : g ∈ db.families.map
          (fun f => if f.id = family.id then { family with members := members } else f) := by
        have : (handle host db (Request.updateFamily r)).2.families = db.families.map
            (fun f => if f.id = family.id then { family with members := members } else f) := by
          show (updateFamily db r).2.families = _
          rw [heq]
        rw [this] at hg
        exact hg
      simp only [List.mem_map] at hg'
      obtain ⟨f0, hf0, rfl⟩ := hg'
      by_cases hid : f0.id = family.id
      · simp only [hid, if_true] at hgid ⊢
        have : family = f := family_eq_of_id db hfresh family f hmem hf hgid
        rw [← this]
        exact ⟨rfl, rfl⟩
      · simp only [hid, if_false] at hgid ⊢
        have : f0 = f := family_eq_of_id db hfresh f0 f hf0 hf hgid
        rw [this]
        exact ⟨rfl, rfl⟩
  | deleteFamily r =>
    rcases deleteFamily_effect host db r with ⟨hsame, _⟩ | ⟨family, _, _, _, _, _, heq⟩
    · exact same _ (by rw [show (handle host db (Request.deleteFamily r)).2 = db from hsame])
    · intro f hf g hg hgid
      have hg' : g ∈ db.families.filter (fun f => f.id ≠ family.id) := by
        have : (handle host db (Request.deleteFamily r)).2.families
            = db.families.filter (fun f => f.id ≠ family.id) := by
          show (deleteFamily host db r).2.families = _
          rw [heq]
        rw [this] at hg
        exact hg
      have : g = f := family_eq_of_id db hfresh g f (List.mem_of_mem_filter hg') hf hgid
      rw [this]
      exact ⟨rfl, rfl⟩
  | addExpense r =>
    rcases addExpense_effect host db r with ⟨hsame, _⟩ | ⟨expense, _, _, _, _, _, heq⟩
    · exact same _ (by rw [show (handle host db (Request.addExpense r)).2 = db from hsame])
    · exact same _ (by
        show (addExpense host db r).2.families = _
        rw [heq])
  | updateExpense r =>
    rcases updateExpense_effect host db r with ⟨hsame, _⟩ | ⟨_, _, _, _, _, _, _, _, _, heq⟩
    · exact same _ (by rw [show (handle host db (Request.updateExpense r)).2 = db from hsame])
    · exact same _ (by
        show (updateExpense host db r).2.families = _
        rw [heq])
  | deleteExpense r =>
    rcases deleteExpense_effect db r with hsame | ⟨_, _, heq⟩
    · exact same _ (by rw [show (handle host db (Request.deleteExpense r)).2 = db from hsame])
    · exact same _ (by
        show (deleteExpense db r).2.families = _
        rw [heq])
  | createGroup r => exact same _ (createGroup_effect host db r).1
  | updateGroup r => exact same _ (updateGroup_effect host db r).1

/-- With the requests handled one at a time: in every store reachable from the
empty one through the routes, every expense names, with exactly the same
string, a family of its own group, so that the expenses `GET /settlements`
reads for a group all name a family it reads; `POST /expenses` and
`PATCH /expenses/:id` leave the store unchanged and do not succeed when the
family named is unknown in the group; no route changes the name or the group of
a family; and `DELETE /families/:id` leaves the store unchanged and does not
succeed for a family that an expense of its group names. -/
theorem referential_one_at_a_time (host : Host) (db : Db) (hreach : Reachable host db) :
    (∀ e ∈ db.expenses, ∃ f ∈ db.families, f.name = e.familyName ∧ f.group = e.group) ∧
    (∀ group, ∀ e ∈ (groupStore db group).expenses,
      e.familyName ∈ (groupStore db group).families.map (fun f => f.name)) ∧
    (∀ req : AddExpenseRequest,
      (∀ f ∈ db.families, ¬ (f.name = req.familyName ∧ req.groupId = some f.group)) →
      (addExpense host db req).2 = db ∧ (addExpense host db req).1.status ≠ 201) ∧
    (∀ (req : UpdateExpenseRequest) (name : String),
      req.familyName = some name → name ≠ "" →
      (∀ e ∈ db.expenses, e.id = req.id →
        ∀ f ∈ db.families, ¬ (f.name = name ∧ f.group = e.group)) →
      (updateExpense host db req).2 = db ∧ (updateExpense host db req).1.status ≠ 200) ∧
    (∀ (req : Request), ∀ f ∈ db.families, ∀ g ∈ (handle host db req).2.families,
      g.id = f.id → g.name = f.name ∧ g.group = f.group) ∧
    (∀ (req : DeleteFamilyRequest), ∀ family ∈ db.families, family.id = req.id →
      (∃ e ∈ db.expenses, e.familyName = family.name ∧ e.group = family.group) →
      (deleteFamily host db req).2 = db ∧ (deleteFamily host db req).1.status ≠ 200) := by
  obtain ⟨hfresh, href, _⟩ := reachable_consistent host db hreach
  refine ⟨href, ?_, ?_, ?_, handle_keeps_family_names host db hfresh, ?_⟩
  · intro group e he
    simp only [groupStore, List.mem_map, List.mem_filter, decide_eq_true_eq] at he ⊢
    obtain ⟨e0, ⟨he0, hg⟩, rfl⟩ := he
    obtain ⟨f, hf, h1, h2⟩ := href e0 he0
    exact ⟨_, ⟨f, ⟨hf, by rw [h2, hg]⟩, rfl⟩, h1⟩
  · intro req hnone
    rcases addExpense_effect host db req with h | ⟨expense, _, hn, _, ⟨f, hf, h1, h2⟩,
      ⟨group, _, hgid, _, hreq⟩, _⟩
    · exact h
    · exact absurd ⟨by rw [h1, hn], by rw [hreq, hgid, h2]⟩ (hnone f hf)
  · intro req name hreq hname hnone
    rcases updateExpense_effect host db req with h | ⟨expense, hmem, _, hid, _, _, _, hgiven, _⟩
    · exact h
    · obtain ⟨f, hf, h1, h2⟩ := hgiven name hreq hname
      exact absurd ⟨h1, h2⟩ (hnone expense hmem hid f hf)
  · intro req family hmem hid ⟨e, he, h1, h2⟩
    rcases deleteFamily_effect host db req with h | ⟨family', hmem', hid', hnone, _⟩
    · exact h
    · have : family = family' :=
        family_eq_of_id db hfresh family family' hmem hmem' (by rw [hid, hid'])
      rw [← this] at hnone
      exact absurd ⟨h1, h2⟩ (hnone e he)

/-- With the requests handled one at a time: in every store reachable through
the routes no two families of one group have names that are equal ignoring
letter case; `POST /families` with a trimmed name that equals, ignoring case,
the name of a family of the group leaves the store unchanged and does not
succeed, with status 409 when the request passes the earlier checks (open group,
password, name, members); and a request that passes these checks is accepted
when no family of the same group has the name, whatever the families of other
groups are called. -/
theorem case_unique_one_at_a_time (host : Host) (db : Db) (hreach : Reachable host db) :
    CaseUnique host db ∧
    (∀ f ∈ db.families, ∀ g ∈ db.families,
      f.group = g.group → host.fold f.name = host.fold g.name → f = g) ∧
    (∀ (req : AddFamilyRequest), ∀ f ∈ db.families, req.groupId = some f.group →
      host.fold f.name = host.fold (host.trim (req.name.getD "")) →
      (addFamily host db req).2 = db ∧ (addFamily host db req).1.status ≠ 201 ∧
      (∀ group members, resolveGroup db req.groupId = Except.ok group →
        group.status ≠ GroupStatus.closed → req.password = some host.password →
        host.trim (req.name.getD "") ≠ "" → validMembers req.members = some members →
        (addFamily host db req).1 = fail 409 "Family already exists in this group.")) ∧
    (∀ (req : AddFamilyRequest) (group : GroupDoc) (members : ℕ),
      resolveGroup db req.groupId = Except.ok group →
      group.status ≠ GroupStatus.closed → req.password = some host.password →
      host.trim (req.name.getD "") ≠ "" → validMembers req.members = some members →
      (∀ f ∈ db.families, f.group = group.id →
        host.fold f.name ≠ host.fold (host.trim (req.name.getD ""))) →
      (addFamily host db req).1.status = 201 ∧
      (addFamily host db req).2.families
        = db.families ++ [{ id := db.nextId, name := host.trim (req.name.getD ""),
                            members := members, group := group.id }]) := by
  obtain ⟨hfresh, _, hcase⟩ := reachable_consistent host db hreach
  refine ⟨hcase, ?_, ?_, ?_⟩
  · intro f hf g hg hgrp hfold
    by_contra hne
    have hsymm : Symmetric (fun f g : FamilyDoc =>
        f.group = g.group → host.fold f.name ≠ host.fold g.name) := by
      intro a b h hba hab
      exact h hba.symm hab.symm
    exact (hcase.forall hsymm hf hg hne) hgrp hfold
  · intro req f hf hgid hfold
    rcases addFamily_effect host db req with h | ⟨fam, _, hname, _, _,
      ⟨group, _, hg1, _, hg2⟩, _, hnew, _⟩
    · refine ⟨h.1, h.2, ?_⟩
      intro group members hres hopen hpw hnm hval
      obtain ⟨_, hgroup⟩ := resolveGroup_ok db req.groupId group hres
      have hfg : f.group = group.id := by
        rw [hgid] at hgroup
        exact Option.some.inj hgroup
      unfold addFamily
      rw [hres]
      simp only [hopen, hpw, hnm, hval, if_false, ne_eq, not_true_eq_false]
      cases hfind : db.families.find?
          (fun f => host.fold f.name = host.fold (host.trim (req.name.getD ""))
            ∧ f.group = group.id) with
      | none =>
        rw [List.find?_eq_none] at hfind
        have := hfind f hf
        simp only [decide_eq_true_eq, not_and] at this
        exact absurd hfg (this hfold)
      | some existing =>
        have hex := List.find?_some hfind
        simp only [decide_eq_true_eq] at hex
        simp [hex.2]
    · exfalso
      have h1 : f.group = fam.group := by
        rw [hgid] at hg2
        have := Option.some.inj hg2
        rw [this, hg1]
      exact hnew f hf h1 (by rw [hname]; exact hfold)
  · intro req group members hres hopen hpw hnm hval hfree
    unfold addFamily
    rw [hres]
    simp only [hopen, hpw, hnm, hval, if_false, ne_eq, not_true_eq_false]
    cases hfind : db.families.find?
        (fun f => host.fold f.name = host.fold (host.trim (req.name.getD ""))
          ∧ f.group = group.id) with
    | none => exact ⟨rfl, rfl⟩
    | some existing =>
      have hex := List.find?_some hfind
      have hmem := List.mem_of_find?_eq_some hfind
      simp only [decide_eq_true_eq] at hex
      exact absurd hex.1 (hfree existing hmem hex.2)

/-! ## Families with balance 0 -/

/-- C24. Zero-balance families take no part: when family names are pairwise
distinct, a family whose balance is exactly 0 is neither the `from` nor the
`to` of any settlement; a family with `members = 0` that no expense names has
balance 0, and in Scenario D both balances are 0 and there is no settlement. -/
theorem zero_balance_takes_no_part (families : List Family) (expenses : List Expense)
    (hdistinct : (families.map (fun f => f.name)).Nodup) :
    (∀ b ∈ familyBalances families expenses, b.balance = 0 →
      ∀ s ∈ (settlementsOf families expenses).settlements,
        s.from_ ≠ b.family ∧ s.to_ ≠ b.family) ∧
    (∀ f ∈ families, f.members = 0 → (∀ e ∈ expenses, e.familyName ≠ f.name) →
      (familyBalance (perPersonShare families expenses) expenses f).share = 0 ∧
      (familyBalance (perPersonShare families expenses) expenses f).paid = 0 ∧
      (familyBalance (perPersonShare families expenses) expenses f).balance = 0) ∧
    settlementsOf unequalFamilies unequalExpenses
      = { totalExpenses := 40
          totalMembers := 2
          perPersonShare := 20
          familyBalances :=
            [{ family := "A", members := 0, share := 0, paid := 0, balance := 0 },
             { family := "B", members := 2, share := 40, paid := 40, balance := 0 }]
          settlements := [] } := by
  have hnd := familyBalances_nodup families expenses hdistinct
  refine ⟨?_, ?_, by decide!⟩
  · intro b hb hzero s hs
    obtain ⟨t, ht, rfl⟩ := (mem_settlements families expenses s).mp hs
    obtain ⟨⟨d, hd, h1, h2⟩, _, c, hc, h3, h4⟩ := transfers_mem families expenses t ht
    constructor
    · intro heq
      have : d = b := List.inj_on_of_nodup_map hnd hd hb (by rw [h1]; exact heq)
      rw [this, hzero] at h2
      exact lt_irrefl _ h2
    · intro heq
      have : c = b := List.inj_on_of_nodup_map hnd hc hb (by rw [h3]; exact heq)
      rw [this, hzero] at h4
      exact lt_irrefl _ h4
  · intro f _ hm hnone
    have hpaid : familyPaid expenses f = 0 := by
      rw [familyPaid_eq_sum]
      have : expenses.filter (fun e => e.familyName = f.name) = [] := by
        rw [List.filter_eq_nil_iff]
        intro e he
        simpa using hnone e he
      rw [this]; rfl
    simp only [familyBalance, hpaid, hm]
    simp

theorem zero_balance_takes_no_part_witness :
    (unequalFamilies.map (fun f => f.name)).Nodup ∧
    (∀ b ∈ familyBalances unequalFamilies unequalExpenses, b.balance = 0 →
      ∀ s ∈ (settlementsOf unequalFamilies unequalExpenses).settlements,
        s.from_ ≠ b.family ∧ s.to_ ≠ b.family) ∧
    (∀ b ∈ familyBalances unequalFamilies unequalExpenses, b.balance = 0) :=
  ⟨by decide!, (zero_balance_takes_no_part unequalFamilies unequalExpenses (by decide!)).1,
    by decide!⟩

/-! ## The passes of the loop body -/

theorem payDebtorSteps_nil (d : String) (r : ℚ) : payDebtorSteps d r [] = [] := by
  simp [payDebtorSteps]

theorem payDebtorSteps_skip (d : String) (r : ℚ) (c : FamilyBalance) (cs : List FamilyBalance)
    (h : r ≤ 0 ∨ c.balance ≤ 0) :
    payDebtorSteps d r (c :: cs) = payDebtorSteps d r cs := by
  rw [payDebtorSteps]; simp [h]

theorem payDebtorSteps_pay (d : String) (r : ℚ) (c : FamilyBalance) (cs : List FamilyBalance)
    (hr : 0 < r) (hc : 0 < c.balance) :
    payDebtorSteps d r (c :: cs)
      = { transfer := { from_ := d, to_ := c.family, amount := min r c.balance }
          remainingDebt := r
          credit := c.balance } :: payDebtorSteps d (r - min r c.balance) cs := by
  have h1 : ¬ (r ≤ 0 ∨ c.balance ≤ 0) := by
    push_neg; exact ⟨hr, hc⟩
  have h2 : min r c.balance > 0 := lt_min hr hc
  rw [payDebtorSteps]; simp only [h1, h2, if_true, if_false]

/-- The passes carry the transfers of the inner loop. -/
theorem payDebtorSteps_transfers (d : String) (cs : List FamilyBalance) (r : ℚ) :
    (payDebtorSteps d r cs).map (fun s => s.transfer) = (payDebtor d r cs).2.1 := by
  induction cs generalizing r with
  | nil => simp [payDebtorSteps_nil, payDebtor_nil]
  | cons c cs ih =>
    rcases payDebtor_cases d r c cs with ⟨hs, e⟩ | ⟨⟨hr, hc⟩, e⟩
    · rw [e, payDebtorSteps_skip d r c cs hs, ih]
    · rw [e, payDebtorSteps_pay d r c cs hr hc, List.map_cons, ih]

/-- The passes carry the transfers of the whole loop. -/
theorem settleSteps_transfers (ds cs : List FamilyBalance) :
    (settleSteps ds cs).map (fun s => s.transfer) = (settleLoop ds cs).2 := by
  induction ds generalizing cs with
  | nil => simp [settleSteps, settleLoop_nil]
  | cons d ds ih =>
    rw [settleLoop_cons]
    simp only [settleSteps, List.map_append, payDebtorSteps_transfers, ih]

/-- What one pass of the inner loop reads and transfers. -/
theorem payDebtorSteps_spec (d : String) (cs : List FamilyBalance) (r : ℚ) :
    ∀ s ∈ payDebtorSteps d r cs,
      0 < s.remainingDebt ∧ 0 < s.credit ∧
      s.transfer.amount = min s.remainingDebt s.credit ∧
      s.remainingDebt ≤ r ∧ s.transfer.from_ = d ∧
      ∃ c ∈ cs, c.family = s.transfer.to_ ∧ s.credit = c.balance := by
  induction cs generalizing r with
  | nil => intro s hs; simp [payDebtorSteps_nil] at hs
  | cons c cs ih =>
    intro s hs
    by_cases hskip : r ≤ 0 ∨ c.balance ≤ 0
    · rw [payDebtorSteps_skip d r c cs hskip] at hs
      obtain ⟨h1, h2, h3, h4, h5, x, hx, h6⟩ := ih r s hs
      exact ⟨h1, h2, h3, h4, h5, x, List.mem_cons_of_mem _ hx, h6⟩
    · push_neg at hskip
      rw [payDebtorSteps_pay d r c cs hskip.1 hskip.2] at hs
      simp only [List.mem_cons] at hs
      rcases hs with rfl | hs
      · exact ⟨hskip.1, hskip.2, rfl, le_refl _, rfl, c, List.mem_cons_self _ _, rfl, rfl⟩
      · obtain ⟨h1, h2, h3, h4, h5, x, hx, h6⟩ := ih _ s hs
        have hmin : 0 < min r c.balance := lt_min hskip.1 hskip.2
        exact ⟨h1, h2, h3, by linarith, h5, x, List.mem_cons_of_mem _ hx, h6⟩

/-- What one pass of the whole loop reads and transfers: the remaining debt is
at most the absolute balance of a listed debtor of that name, the credit at
most the balance of a listed creditor of that name. -/
theorem settleSteps_spec (ds cs : List FamilyBalance) :
    ∀ s ∈ settleSteps ds cs,
      0 < s.remainingDebt ∧ 0 < s.credit ∧
      s.transfer.amount = min s.remainingDebt s.credit ∧
      (∃ d ∈ ds, d.family = s.transfer.from_ ∧ s.remainingDebt ≤ |d.balance|) ∧
      ∃ c ∈ cs, c.family = s.transfer.to_ ∧ s.credit ≤ c.balance := by
  induction ds generalizing cs with
  | nil => intro s hs; simp [settleSteps] at hs
  | cons d ds ih =>
    intro s hs
    simp only [settleSteps, List.mem_append] at hs
    rcases hs with hs | hs
    · obtain ⟨h1, h2, h3, h4, h5, c, hc, h6, h7⟩ := payDebtorSteps_spec d.family cs _ s hs
      exact ⟨h1, h2, h3, ⟨d, List.mem_cons_self _ _, h5.symm, h4⟩, c, hc, h6, le_of_eq h7⟩
    · obtain ⟨h1, h2, h3, ⟨x, hx, h4, h5⟩, c', hc', h6, h7⟩ := ih _ s hs
      obtain ⟨c, hc, h8, h9⟩ := payDebtor_mem d.family cs _ c' hc'
      exact ⟨h1, h2, h3, ⟨x, List.mem_cons_of_mem _ hx, h4, h5⟩, c, hc, h8.trans h6,
        le_trans h7 h9⟩

/-! ## Count, pairs and bounds of the transfers -/

theorem transfersOf_nil_of_no_debtor (bs : List FamilyBalance) (h : debtors bs = []) :
    transfersOf bs = [] := by
  unfold transfersOf
  rw [h]; rfl

theorem transfersOf_nil_of_no_creditor (bs : List FamilyBalance) (h : creditors bs = []) :
    transfersOf bs = [] := by
  rw [List.eq_nil_iff_forall_not_mem]
  intro t ht
  obtain ⟨_, _, c, hc, _⟩ := settleLoop_transfer _ _ t ht
  rw [h] at hc
  simp at hc

/-- C26. Transfer-count bound: with `D ≥ 1` debtors and `C ≥ 1` creditors the
settlements list has at most `D + C - 1` entries, it is empty when `D = 0` or
`C = 0`, and every pass that makes a transfer transfers the smaller of the
remaining debt and the remaining credit it reads, which brings that debt or
that credit to exactly 0. -/
theorem transfer_count_bound (families : List Family) (expenses : List Expense) :
    (1 ≤ (debtors (familyBalances families expenses)).length →
      1 ≤ (creditors (familyBalances families expenses)).length →
      (settlementsOf families expenses).settlements.length
        ≤ (debtors (familyBalances families expenses)).length
          + (creditors (familyBalances families expenses)).length - 1) ∧
    ((debtors (familyBalances families expenses)).length = 0 ∨
        (creditors (familyBalances families expenses)).length = 0 →
      (settlementsOf families expenses).settlements = []) ∧
    (settleSteps (debtors (familyBalances families expenses))
        (creditors (familyBalances families expenses))).map (fun s => s.transfer)
      = transfers families expenses ∧
    (∀ s ∈ settleSteps (debtors (familyBalances families expenses))
        (creditors (familyBalances families expenses)),
      s.transfer.amount = min s.remainingDebt s.credit ∧
      (s.remainingDebt - s.transfer.amount = 0 ∨ s.credit - s.transfer.amount = 0)) := by
  refine ⟨?_, ?_, settleSteps_transfers _ _, ?_⟩
  · intro _ _
    rw [settlements_length]
    exact transfersOf_length_le _
  · intro h
    have : transfers families expenses = [] := by
      rcases h with h | h
      · exact transfersOf_nil_of_no_debtor _ (List.length_eq_zero.mp h)
      · exact transfersOf_nil_of_no_creditor _ (List.length_eq_zero.mp h)
    simp [settlementsOf, this]
  · intro s hs
    obtain ⟨_, _, h3, _⟩ := settleSteps_spec _ _ s hs
    refine ⟨h3, ?_⟩
    rw [h3]
    rcases le_total s.remainingDebt s.credit with h | h
    · left; rw [min_eq_left h]; ring
    · right; rw [min_eq_right h]; ring

/-- The inner loop pays the creditors in the order of the list, each at most
once. -/
theorem payDebtor_to_sublist (d : String) (cs : List FamilyBalance) (r : ℚ) :
    ((payDebtor d r cs).2.1.map (fun t => t.to_)).Sublist (cs.map (fun c => c.family)) := by
  induction cs generalizing r with
  | nil => simp [payDebtor_nil]
  | cons c cs ih =>
    rcases payDebtor_cases d r c cs with ⟨_, e⟩ | ⟨_, e⟩
    · rw [e]
      exact (ih r).trans (List.sublist_cons_self _ _)
    · rw [e]
      simp only [List.map_cons]
      exact (ih _).cons₂ _

/-- With distinct debtor names and distinct creditor names, no two transfers of
the loop have the same `from` and `to`. -/
theorem settleLoop_pairs_nodup (ds cs : List FamilyBalance)
    (hds : (ds.map (fun d => d.family)).Nodup) (hcs : (cs.map (fun c => c.family)).Nodup) :
    ((settleLoop ds cs).2.map (fun t => (t.from_, t.to_))).Nodup := by
  induction ds generalizing cs with
  | nil => simp [settleLoop_nil]
  | cons d ds ih =>
    simp only [List.map_cons, List.nodup_cons] at hds
    rw [settleLoop_cons]
    show (((payDebtor d.family |d.balance| cs).2.1
      ++ (settleLoop ds (payDebtor d.family |d.balance| cs).1).2).map
        (fun t => (t.from_, t.to_))).Nodup
    rw [List.map_append, List.nodup_append]
    refine ⟨?_, ?_, ?_⟩
    · have hto : ((payDebtor d.family |d.balance| cs).2.1.map (fun t => t.to_)).Nodup :=
        hcs.sublist (payDebtor_to_sublist d.family cs _)
      have : (payDebtor d.family |d.balance| cs).2.1.map (fun t => t.to_)
          = ((payDebtor d.family |d.balance| cs).2.1.map (fun t => (t.from_, t.to_))).map
              Prod.snd := by
        simp [List.map_map, Function.comp]
      rw [this] at hto
      exact List.Nodup.of_map _ hto
    · apply ih _ hds.2
      rw [payDebtor_families]
      exact hcs
    · intro p hp1 hp2
      simp only [List.mem_map] at hp1 hp2
      obtain ⟨t1, ht1, rfl⟩ := hp1
      obtain ⟨t2, ht2, heq⟩ := hp2
      have h1 := (payDebtor_transfer d.family cs _ t1 ht1).1
      obtain ⟨⟨x, hx, hxf⟩, _⟩ := settleLoop_transfer ds _ t2 ht2
      apply hds.1
      have hfrom : t2.from_ = t1.from_ := by
        have := congrArg Prod.fst heq
        exact this
      rw [← h1, ← hfrom, ← hxf]
      exact List.mem_map_of_mem _ hx

/-- C27. Each pair settles at most once: when family names are pairwise
distinct, no two records of the settlements list have the same `from` and the
same `to`. -/
theorem pair_settles_once (families : List Family) (expenses : List Expense)
    (hdistinct : (families.map (fun f => f.name)).Nodup) :
    ((settlementsOf families expenses).settlements.map (fun s => (s.from_, s.to_))).Nodup := by
  have hnd := familyBalances_nodup families expenses hdistinct
  have h := settleLoop_pairs_nodup (debtors (familyBalances families expenses))
    (creditors (familyBalances families expenses)) (debtors_nodup _ hnd) (creditors_nodup _ hnd)
  have heq : (settlementsOf families expenses).settlements.map (fun s => (s.from_, s.to_))
      = (transfers families expenses).map (fun t => (t.from_, t.to_)) := by
    simp [settlementsOf, List.map_map, Function.comp, emit]
  rw [heq]
  exact h

theorem pair_settles_once_witness :
    (fiveFamilies.map (fun f => f.name)).Nodup ∧
    (settlementsOf fiveFamilies fiveExpenses).settlements.length = 4 ∧
    ((settlementsOf fiveFamilies fiveExpenses).settlements.map
      (fun s => (s.from_, s.to_))).Nodup :=
  ⟨by decide!, by decide!, pair_settles_once fiveFamilies fiveExpenses (by decide!)⟩

theorem remainingDebts_nonneg (ds cs : List FamilyBalance) (hcs : ∀ c ∈ cs, 0 ≤ c.balance) :
    (∀ r ∈ remainingDebts ds cs, 0 ≤ r) ∧ ∀ c ∈ (settleLoop ds cs).1, 0 ≤ c.balance := by
  induction ds generalizing cs with
  | nil => exact ⟨by intro r hr; simp [remainingDebts] at hr, by simpa [settleLoop_nil] using hcs⟩
  | cons d ds ih =>
    obtain ⟨p1, _, _, p4, _⟩ := payDebtor_spec d.family cs |d.balance| (abs_nonneg _) hcs
    obtain ⟨i1, i2⟩ := ih _ p4
    refine ⟨?_, ?_⟩
    · intro r hr
      simp only [remainingDebts, List.mem_cons] at hr
      rcases hr with rfl | hr
      · exact p1
      · exact i1 r hr
    · rw [settleLoop_cons]
      exact i2

/-- C28. Unrounded transfers are positive and bounded: the unrounded amount
behind each settlement is greater than 0, is at most the absolute balance of a
listed debtor of the `from` name and at most the original balance of a listed
creditor of the `to` name; the remaining debt and the remaining credit are not
negative before or after any transfer, nor when the loop ends. -/
theorem transfers_positive_and_bounded (families : List Family) (expenses : List Expense) :
    (settleSteps (debtors (familyBalances families expenses))
        (creditors (familyBalances families expenses))).map (fun s => s.transfer)
      = transfers families expenses ∧
    (settlementsOf families expenses).settlements = (transfers families expenses).map emit ∧
    (∀ s ∈ settleSteps (debtors (familyBalances families expenses))
        (creditors (familyBalances families expenses)),
      0 < s.transfer.amount ∧
      (∃ d ∈ familyBalances families expenses, d.family = s.transfer.from_ ∧ d.balance < 0 ∧
        s.transfer.amount ≤ |d.balance|) ∧
      (∃ c ∈ familyBalances families expenses, c.family = s.transfer.to_ ∧ 0 < c.balance ∧
        s.transfer.amount ≤ c.balance) ∧
      0 < s.remainingDebt ∧ 0 < s.credit ∧
      0 ≤ s.remainingDebt - s.transfer.amount ∧ 0 ≤ s.credit - s.transfer.amount) ∧
    (∀ r ∈ remainingDebts (debtors (familyBalances families expenses))
        (creditors (familyBalances families expenses)), 0 ≤ r) ∧
    (∀ c ∈ (settleLoop (debtors (familyBalances families expenses))
        (creditors (familyBalances families expenses))).1, 0 ≤ c.balance) := by
  obtain ⟨hr, hc⟩ := remainingDebts_nonneg (debtors (familyBalances families expenses))
    (creditors (familyBalances families expenses)) (creditors_nonneg _)
  refine ⟨settleSteps_transfers _ _, rfl, ?_, hr, hc⟩
  intro s hs
  obtain ⟨h1, h2, h3, ⟨d, hd, h4, h5⟩, c, hcm, h6, h7⟩ := settleSteps_spec _ _ s hs
  rw [mem_debtors] at hd
  rw [mem_creditors] at hcm
  have hle1 : s.transfer.amount ≤ s.remainingDebt := by rw [h3]; exact min_le_left _ _
  have hle2 : s.transfer.amount ≤ s.credit := by rw [h3]; exact min_le_right _ _
  refine ⟨by rw [h3]; exact lt_min h1 h2, ⟨d, hd.1, h4, hd.2, le_trans hle1 h5⟩,
    ⟨c, hcm.1, h6, hcm.2, le_trans hle2 h7⟩, h1, h2, by linarith, by linarith⟩

/-! ## The order of the settlements -/

theorem mem_insertSorted {α : Type} (cmp : α → α → ℚ) (a x : α) (l : List α) :
    x ∈ insertSorted cmp a l ↔ x = a ∨ x ∈ l := by
  rw [(insertSorted_perm cmp a l).mem_iff, List.mem_cons]

/-- A comparator that compares a key puts the list in ascending order of the
key. -/
theorem sortBy_sorted {α : Type} (cmp : α → α → ℚ) (key : α → ℚ)
    (hcmp : ∀ a b, cmp a b ≤ 0 ↔ key a ≤ key b) (l : List α) :
    (sortBy cmp l).Pairwise (fun a b => key a ≤ key b) := by
  have hins : ∀ (a : α) (l : List α), l.Pairwise (fun a b => key a ≤ key b) →
      (insertSorted cmp a l).Pairwise (fun a b => key a ≤ key b) := by
    intro a l
    induction l with
    | nil => intro _; simp [insertSorted]
    | cons b l ih =>
      intro h
      rw [List.pairwise_cons] at h
      unfold insertSorted
      split_ifs with hab
      · rw [List.pairwise_cons]
        refine ⟨?_, List.pairwise_cons.mpr h⟩
        intro x hx
        simp only [List.mem_cons] at hx
        rcases hx with rfl | hx
        · exact (hcmp a x).mp hab
        · exact le_trans ((hcmp a b).mp hab) (h.1 x hx)
      · rw [List.pairwise_cons]
        refine ⟨?_, ih h.2⟩
        intro x hx
        rw [mem_insertSorted] at hx
        rcases hx with rfl | hx
        · have : ¬ key x ≤ key b := fun hle => hab ((hcmp x b).mpr hle)
          exact le_of_lt (not_le.mp this)
        · exact h.1 x hx
  induction l with
  | nil => exact List.Pairwise.nil
  | cons a l ih => exact hins a _ ih

/-- The sort is stable: the elements of one key keep their order. -/
theorem sortBy_stable {α : Type} (cmp : α → α → ℚ) (key : α → ℚ)
    (hcmp : ∀ a b, cmp a b ≤ 0 ↔ key a ≤ key b) (v : ℚ) (l : List α) :
    (sortBy cmp l).filter (fun a => key a = v) = l.filter (fun a => key a = v) := by
  have hins : ∀ (a : α) (l : List α),
      (insertSorted cmp a l).filter (fun a => key a = v)
        = (a :: l).filter (fun a => key a = v) := by
    intro a l
    induction l with
    | nil => simp [insertSorted]
    | cons b l ih =>
      unfold insertSorted
      split_ifs with hab
      · rfl
      · have hlt : key b < key a := by
          have : ¬ key a ≤ key b := fun hle => hab ((hcmp a b).mpr hle)
          exact not_le.mp this
        rw [List.filter_cons, ih]
        by_cases ha : key a = v
        · have hb : ¬ key b = v := by
            intro hb
            rw [ha, hb] at hlt
            exact lt_irrefl _ hlt
          simp [List.filter_cons, ha, hb]
        · by_cases hb : key b = v <;> simp [List.filter_cons, ha, hb]
  induction l with
  | nil => rfl
  | cons a l ih =>
    show (insertSorted cmp a (sortBy cmp l)).filter _ = _
    rw [hins, List.filter_cons, ih, List.filter_cons]

theorem debtors_sorted (bs : List FamilyBalance) :
    (debtors bs).Pairwise (fun a b => a.balance ≤ b.balance) :=
  sortBy_sorted (fun a b : FamilyBalance => a.balance - b.balance) (fun b => b.balance)
    (fun a b => by simp [sub_nonpos]) _

theorem creditors_sorted (bs : List FamilyBalance) :
    (creditors bs).Pairwise (fun a b => b.balance ≤ a.balance) := by
  have := sortBy_sorted (fun a b : FamilyBalance => b.balance - a.balance)
    (fun b => -b.balance) (fun a b => by simp [sub_nonpos])
    (bs.filter (fun f => f.balance > 0))
  exact this.imp (fun h => by linarith)

theorem debtors_stable (bs : List FamilyBalance) (v : ℚ) :
    (debtors bs).filter (fun b => b.balance = v)
      = (bs.filter (fun f => f.balance < 0)).filter (fun b => b.balance = v) :=
  sortBy_stable (fun a b : FamilyBalance => a.balance - b.balance) (fun b => b.balance)
    (fun a b => by simp [sub_nonpos]) v _

theorem creditors_stable (bs : List FamilyBalance) (v : ℚ) :
    (creditors bs).filter (fun b => b.balance = v)
      = (bs.filter (fun f => f.balance > 0)).filter (fun b => b.balance = v) := by
  have h := sortBy_stable (fun a b : FamilyBalance => b.balance - a.balance)
    (fun b => -b.balance) (fun a b => by simp [sub_nonpos]) (-v)
    (bs.filter (fun f => f.balance > 0))
  have hf : ∀ l : List FamilyBalance,
      l.filter (fun b => -b.balance = -v) = l.filter (fun b => b.balance = v) := by
    intro l
    apply List.filter_congr
    intro x _
    simp
  rw [hf, hf] at h
  exact h

/-- The transfers of the loop are the transfers of the first debtor, then
those of the second, and so on; each debtor pays creditors in the order of the
creditors list. -/
theorem settleLoop_grouped (ds cs : List FamilyBalance) :
    ∃ groups : List (List Transfer),
      (settleLoop ds cs).2 = groups.flatten ∧
      List.Forall₂ (fun d g => (∀ t ∈ g, t.from_ = d.family) ∧
        (g.map (fun t => t.to_)).Sublist (cs.map (fun c => c.family))) ds groups := by
  induction ds generalizing cs with
  | nil => exact ⟨[], rfl, List.Forall₂.nil⟩
  | cons d ds ih =>
    obtain ⟨groups, h1, h2⟩ := ih (payDebtor d.family |d.balance| cs).1
    rw [payDebtor_families] at h2
    refine ⟨(payDebtor d.family |d.balance| cs).2.1 :: groups, ?_, ?_⟩
    · rw [settleLoop_cons, List.flatten_cons, ← h1]
    · exact List.Forall₂.cons
        ⟨fun t ht => (payDebtor_transfer d.family cs _ t ht).1,
          payDebtor_to_sublist d.family cs _⟩ h2

/-- C23. Settlement order: the settlements are those of the first debtor, then
those of the second, and so on, with the debtors in ascending order of balance;
the settlements of one debtor go to creditors in the order of the creditors
list, which is in descending order of the original balances; and in both lists
the entries of one balance keep the order they have in `familyBalances`, which
is the order of the families. -/
theorem settlement_order (families : List Family) (expenses : List Expense) :
    (settlementsOf families expenses).settlements = (transfers families expenses).map emit ∧
    (∃ groups : List (List Transfer),
      transfers families expenses = groups.flatten ∧
      List.Forall₂ (fun d g => (∀ t ∈ g, t.from_ = d.family) ∧
        ∃ paid : List FamilyBalance,
          paid.Sublist (creditors (familyBalances families expenses)) ∧
          paid.Pairwise (fun a b => b.balance ≤ a.balance) ∧
          g.map (fun t => t.to_) = paid.map (fun c => c.family))
        (debtors (familyBalances families expenses)) groups) ∧
    (debtors (familyBalances families expenses)).Pairwise (fun a b => a.balance ≤ b.balance) ∧
    (creditors (familyBalances families expenses)).Pairwise
      (fun a b => b.balance ≤ a.balance) ∧
    (∀ v, (debtors (familyBalances families expenses)).filter (fun b => b.balance = v)
      = ((familyBalances families expenses).filter (fun f => f.balance < 0)).filter
          (fun b => b.balance = v)) ∧
    (∀ v, (creditors (familyBalances families expenses)).filter (fun b => b.balance = v)
      = ((familyBalances families expenses).filter (fun f => f.balance > 0)).filter
          (fun b => b.balance = v)) ∧
    (familyBalances families expenses).map (fun b => b.family)
      = families.map (fun f => f.name) := by
  refine ⟨rfl, ?_, debtors_sorted _, creditors_sorted _, debtors_stable _, creditors_stable _,
    familyBalances_names families expenses⟩
  obtain ⟨groups, h1, h2⟩ := settleLoop_grouped (debtors (familyBalances families expenses))
    (creditors (familyBalances families expenses))
  refine ⟨groups, h1, ?_⟩
  apply h2.imp
  rintro d g ⟨hfrom, hsub⟩
  refine ⟨hfrom, ?_⟩
  obtain ⟨paid, hp1, hp2⟩ := List.sublist_map_iff.mp hsub
  exact ⟨paid, hp1, (creditors_sorted _).sublist hp1, hp2⟩

/-! ## The nested loop and the two-cursor matching -/

theorem settleLoop_no_creditors (ds : List FamilyBalance) : (settleLoop ds []).2 = [] := by
  rw [List.eq_nil_iff_forall_not_mem]
  intro t ht
  obtain ⟨_, _, c, hc, _⟩ := settleLoop_transfer _ _ t ht
  simp at hc

/-- A creditor that is used up in front of the list changes no transfer. -/
theorem settleLoop_skip_used (ds : List FamilyBalance) (c : FamilyBalance)
    (cs : List FamilyBalance) (hc : c.balance ≤ 0) :
    (settleLoop ds (c :: cs)).2 = (settleLoop ds cs).2 := by
  induction ds generalizing cs with
  | nil => rfl
  | cons d ds ih =>
    rw [settleLoop_cons, settleLoop_cons, payDebtor_skip d.family _ c cs (Or.inr hc)]
    show (payDebtor d.family |d.balance| cs).2.1
      ++ (settleLoop ds (c :: (payDebtor d.family |d.balance| cs).1)).2 = _
    rw [ih]

theorem twoCursorFuel_nil (n : ℕ) (cs : List (String × ℚ)) : twoCursorFuel n [] cs = [] := by
  cases n <;> rfl

theorem twoCursorFuel_no_creditors (n : ℕ) (ds : List (String × ℚ)) :
    twoCursorFuel n ds [] = [] := by
  cases n with
  | zero => rfl
  | succ n => cases ds <;> rfl

/-- The nested loop from a debtor with debt `r` left, and from the start of a
debtor, is the two-cursor matching with enough fuel. -/
theorem nested_eq_twoCursorFuel (n : ℕ) :
    (∀ (ds cs : List FamilyBalance) (d : String) (r : ℚ), 0 < r →
      (∀ x ∈ ds, x.balance < 0) → (∀ c ∈ cs, 0 < c.balance) →
      ds.length + 1 + cs.length ≤ n →
      (payDebtor d r cs).2.1 ++ (settleLoop ds (payDebtor d r cs).1).2
        = twoCursorFuel n ((d, r) :: debtPairs ds) (creditPairs cs)) ∧
    (∀ (ds cs : List FamilyBalance),
      (∀ x ∈ ds, x.balance < 0) → (∀ c ∈ cs, 0 < c.balance) →
      ds.length + cs.length ≤ n →
      (settleLoop ds cs).2 = twoCursorFuel n (debtPairs ds) (creditPairs cs)) := by
  have outer : ∀ m : ℕ,
      (∀ (ds cs : List FamilyBalance) (d : String) (r : ℚ), 0 < r →
        (∀ x ∈ ds, x.balance < 0) → (∀ c ∈ cs, 0 < c.balance) →
        ds.length + 1 + cs.length ≤ m →
        (payDebtor d r cs).2.1 ++ (settleLoop ds (payDebtor d r cs).1).2
          = twoCursorFuel m ((d, r) :: debtPairs ds) (creditPairs cs)) →
      ∀ (ds cs : List FamilyBalance),
        (∀ x ∈ ds, x.balance < 0) → (∀ c ∈ cs, 0 < c.balance) →
        ds.length + cs.length ≤ m →
        (settleLoop ds cs).2 = twoCursorFuel m (debtPairs ds) (creditPairs cs) := by
    intro m hP ds cs hds hcs hlen
    cases ds with
    | nil => rw [settleLoop_nil]; simp [debtPairs, twoCursorFuel_nil]
    | cons d ds =>
      rw [settleLoop_cons]
      have hd : d.balance < 0 := hds d (List.mem_cons_self _ _)
      have := hP ds cs d.family |d.balance| (abs_pos.mpr (ne_of_lt hd))
        (fun x hx => hds x (List.mem_cons_of_mem _ hx)) hcs
        (by simp only [List.length_cons] at hlen; omega)
      simpa [debtPairs] using this
  induction n with
  | zero =>
    refine ⟨?_, ?_⟩
    · intro ds cs d r _ _ _ hlen
      omega
    · exact outer 0 (fun ds cs d r _ _ _ hlen => by omega)
  | succ n ih =>
    obtain ⟨ihP, ihQ⟩ := ih
    have hP : ∀ (ds cs : List FamilyBalance) (d : String) (r : ℚ), 0 < r →
        (∀ x ∈ ds, x.balance < 0) → (∀ c ∈ cs, 0 < c.balance) →
        ds.length + 1 + cs.length ≤ n + 1 →
        (payDebtor d r cs).2.1 ++ (settleLoop ds (payDebtor d r cs).1).2
          = twoCursorFuel (n + 1) ((d, r) :: debtPairs ds) (creditPairs cs) := by
      intro ds cs d r hr hds hcs hlen
      cases cs with
      | nil =>
        rw [payDebtor_nil]
        simp [settleLoop_no_creditors, creditPairs, twoCursorFuel]
      | cons c cs =>
        have hc : 0 < c.balance := hcs c (List.mem_cons_self _ _)
        have hcs' : ∀ x ∈ cs, 0 < x.balance := fun x hx => hcs x (List.mem_cons_of_mem _ hx)
        simp only [List.length_cons] at hlen
        rw [payDebtor_pay d r c cs hr hc]
        simp only [creditPairs, List.map_cons, twoCursorFuel, List.cons_append]
        congr 1
        rcases lt_trichotomy r c.balance with hlt | heq | hgt
        · have hmin : min r c.balance = r := min_eq_left (le_of_lt hlt)
          have h1 : r - min r c.balance = 0 := by rw [hmin]; ring
          have h2 : ¬ (c.balance - min r c.balance = 0) := by
            rw [hmin]; intro h; linarith
          rw [payDebtor_done d _ (le_of_eq h1) cs]
          simp only [h1, h2, if_true, if_false, List.nil_append]
          have := ihQ ds ({ c with balance := c.balance - min r c.balance } :: cs) hds
            (by
              intro x hx
              simp only [List.mem_cons] at hx
              rcases hx with rfl | hx
              · show 0 < c.balance - min r c.balance
                rw [hmin]; linarith
              · exact hcs' x hx)
            (by simp only [List.length_cons]; omega)
          simpa [creditPairs] using this
        · have hmin : min r c.balance = r := min_eq_left (le_of_eq heq)
          have h1 : r - min r c.balance = 0 := by rw [hmin]; ring
          have h2 : c.balance - min r c.balance = 0 := by rw [hmin, heq]; ring
          rw [payDebtor_done d _ (le_of_eq h1) cs]
          simp only [h1, h2, if_true, List.nil_append]
          rw [settleLoop_skip_used ds _ cs (le_of_eq rfl)]
          have := ihQ ds cs hds hcs' (by omega)
          simpa [creditPairs] using this
        · have hmin : min r c.balance = c.balance := min_eq_right (le_of_lt hgt)
          have h1 : ¬ (r - min r c.balance = 0) := by
            rw [hmin]; intro h; linarith
          have h2 : c.balance - min r c.balance = 0 := by rw [hmin]; ring
          simp only [h1, h2, if_true, if_false]
          rw [settleLoop_skip_used ds _ _ (le_of_eq rfl)]
          have := ihP ds cs d (r - min r c.balance) (by rw [hmin]; linarith) hds hcs'
            (by omega)
          simpa [creditPairs] using this
    exact ⟨hP, outer (n + 1) hP⟩

/-- C25. Nested loop equals two-cursor merge: for every list of debtors
(balance below 0) and every list of creditors (balance above 0), the nested
loop of the code makes exactly the transfers of the two-cursor matching, which
always has the fuel to run to its end; so the records emitted are the same, and
this holds for the debtors and creditors of the handler. -/
theorem nested_loop_eq_two_cursor (ds cs : List FamilyBalance)
    (hdebtors : ∀ d ∈ ds, d.balance < 0) (hcreditors : ∀ c ∈ cs, 0 < c.balance) :
    (settleLoop ds cs).2 = twoCursor (debtPairs ds) (creditPairs cs) ∧
    (settleLoop ds cs).2.map emit = (twoCursor (debtPairs ds) (creditPairs cs)).map emit ∧
    (∀ n, ds.length + cs.length ≤ n →
      twoCursorFuel n (debtPairs ds) (creditPairs cs)
        = twoCursor (debtPairs ds) (creditPairs cs)) ∧
    (∀ bs : List FamilyBalance,
      transfersOf bs = twoCursor (debtPairs (debtors bs)) (creditPairs (creditors bs))) := by
  have key : ∀ (ds cs : List FamilyBalance), (∀ d ∈ ds, d.balance < 0) →
      (∀ c ∈ cs, 0 < c.balance) →
      (settleLoop ds cs).2 = twoCursor (debtPairs ds) (creditPairs cs) := by
    intro ds cs h1 h2
    have := (nested_eq_twoCursorFuel (ds.length + cs.length)).2 ds cs h1 h2 (le_refl _)
    simpa [twoCursor, debtPairs, creditPairs] using this
  refine ⟨key ds cs hdebtors hcreditors, by rw [key ds cs hdebtors hcreditors], ?_, ?_⟩
  · intro n hn
    rw [← key ds cs hdebtors hcreditors]
    exact ((nested_eq_twoCursorFuel n).2 ds cs hdebtors hcreditors hn).symm
  · intro bs
    exact key _ _ (fun d hd => ((mem_debtors bs d).mp hd).2)
      (fun c hc => ((mem_creditors bs c).mp hc).2)

theorem nested_loop_eq_two_cursor_witness :
    (∀ d ∈ debtors (familyBalances fiveFamilies fiveExpenses), d.balance < 0) ∧
    (∀ c ∈ creditors (familyBalances fiveFamilies fiveExpenses), 0 < c.balance) ∧
    twoCursor (debtPairs (debtors (familyBalances fiveFamilies fiveExpenses)))
        (creditPairs (creditors (familyBalances fiveFamilies fiveExpenses)))
      = [⟨"C", "A", 4⟩, ⟨"D", "A", 2⟩, ⟨"D", "B", 1⟩, ⟨"E", "B", 3⟩] ∧
    (settleLoop (debtors (familyBalances fiveFamilies fiveExpenses))
        (creditors (familyBalances fiveFamilies fiveExpenses))).2
      = twoCursor (debtPairs (debtors (familyBalances fiveFamilies fiveExpenses)))
          (creditPairs (creditors (familyBalances fiveFamilies fiveExpenses))) :=
  ⟨by decide!, by decide!, by decide!,
    (nested_loop_eq_two_cursor _ _ (by decide!) (by decide!)).1⟩

/-! ## The balances with expenses of unlisted families -/

theorem sum_indicator_zero (n : String) (a : ℚ) (fs : List Family)
    (hn : n ∉ fs.map (fun f => f.name)) :
    (fs.map (fun f => if n = f.name then a else 0)).sum = 0 := by
  apply List.sum_eq_zero
  intro x hx
  simp only [List.mem_map] at hx
  obtain ⟨g, hg, rfl⟩ := hx
  have : n ≠ g.name := by
    intro h
    apply hn
    rw [h]
    exact List.mem_map_of_mem _ hg
  simp [this]

/-- With distinct names the paid amounts add up to the expenses of the listed
families. -/
theorem sum_familyPaid_listed (fs : List Family) (es : List Expense)
    (hd : (fs.map (fun f => f.name)).Nodup) :
    (fs.map (familyPaid es)).sum
      = ((es.filter (fun e => e.familyName ∈ fs.map (fun f => f.name))).map
          (fun e => e.amount)).sum := by
  induction es with
  | nil =>
    simp only [List.filter_nil, List.map_nil, List.sum_nil]
    apply List.sum_eq_zero
    intro x hx
    simp only [List.mem_map] at hx
    obtain ⟨f, _, rfl⟩ := hx
    simp [familyPaid]
  | cons e es ih =>
    have h1 : fs.map (familyPaid (e :: es))
        = fs.map (fun f => (if e.familyName = f.name then e.amount else 0) + familyPaid es f) := by
      apply List.map_congr_left
      intro f _
      exact familyPaid_cons e es f
    rw [h1, List.sum_map_add, ih]
    by_cases hl : e.familyName ∈ fs.map (fun f => f.name)
    · rw [sum_indicator e.familyName e.amount fs hd hl]
      simp only [List.filter_cons, hl, decide_True, if_true, List.map_cons, List.sum_cons]
    · rw [sum_indicator_zero e.familyName e.amount fs hl]
      simp only [List.filter_cons, hl, decide_False, Bool.false_eq_true, if_false, zero_add]

theorem totalExpenses_split (fs : List Family) (es : List Expense) :
    totalExpenses es
      = ((es.filter (fun e => e.familyName ∈ fs.map (fun f => f.name))).map
          (fun e => e.amount)).sum + orphanTotal fs es := by
  rw [totalExpenses_eq_sum]
  unfold orphanTotal
  induction es with
  | nil => simp
  | cons e es ih =>
    by_cases hl : e.familyName ∈ fs.map (fun f => f.name)
    · simp only [List.filter_cons, hl, decide_True, decide_not, Bool.not_true, if_true,
        Bool.false_eq_true, if_false, List.map_cons, List.sum_cons]
      simp only [decide_not] at ih
      rw [ih]; ring
    · simp only [List.filter_cons, hl, decide_False, decide_not, Bool.not_false, if_true,
        Bool.false_eq_true, if_false, List.map_cons, List.sum_cons]
      simp only [decide_not] at ih
      rw [ih]; ring

/-- With distinct names and at least one member, the balances add up to minus
the expenses of unlisted families. -/
theorem totalBalance_eq_neg_orphanTotal (fs : List Family) (es : List Expense)
    (hd : (fs.map (fun f => f.name)).Nodup) (hm : 0 < totalMembers fs) :
    totalBalance (familyBalances fs es) = - orphanTotal fs es := by
  have h0 : ((totalMembers fs : ℕ) : ℚ) ≠ 0 := by
    exact_mod_cast (Nat.pos_iff_ne_zero.mp hm)
  rw [totalBalance_familyBalances, sum_familyPaid_listed fs es hd, perPersonShare_eq, if_pos hm,
    div_mul_cancel₀ _ h0, totalExpenses_split fs es]
  ring

theorem totalDebt_nonneg (ds : List FamilyBalance) : 0 ≤ totalDebt ds := by
  apply List.sum_nonneg
  intro x hx
  simp only [List.mem_map] at hx
  obtain ⟨y, _, rfl⟩ := hx
  exact abs_nonneg _

/-- The accounts of the whole loop: what the creditors lose is what the debtors
pay, and the loop ends with the credit used up or with every debt paid. -/
theorem settleLoop_accounts (ds cs : List FamilyBalance) (hcs : ∀ c ∈ cs, 0 ≤ c.balance) :
    totalBalance (settleLoop ds cs).1 + totalDebt ds
      = totalBalance cs + (remainingDebts ds cs).sum ∧
    (totalBalance (settleLoop ds cs).1 = 0 ∨ ∀ r ∈ remainingDebts ds cs, r = 0) := by
  induction ds generalizing cs with
  | nil => simp [settleLoop_nil, totalDebt, remainingDebts]
  | cons d ds ih =>
    obtain ⟨p1, _, p3, p4, p5⟩ := payDebtor_spec d.family cs |d.balance| (abs_nonneg _) hcs
    obtain ⟨i1, i2⟩ := ih _ p4
    have hsplit : totalDebt (d :: ds) = |d.balance| + totalDebt ds := by
      simp [totalDebt]
    have hrem : (remainingDebts (d :: ds) cs).sum
        = (payDebtor d.family |d.balance| cs).2.2
          + (remainingDebts ds (payDebtor d.family |d.balance| cs).1).sum := by
      simp [remainingDebts]
    have hfin : (settleLoop (d :: ds) cs).1
        = (settleLoop ds (payDebtor d.family |d.balance| cs).1).1 := by
      rw [settleLoop_cons]
    rw [hfin, hsplit, hrem]
    refine ⟨by linarith, ?_⟩
    rcases i2 with i2 | i2
    · exact Or.inl i2
    · rcases p5 with p5 | p5
      · right
        intro r hr
        simp only [remainingDebts, List.mem_cons] at hr
        rcases hr with rfl | hr
        · exact p5
        · exact i2 r hr
      · left
        have hzero : (remainingDebts ds (payDebtor d.family |d.balance| cs).1).sum = 0 :=
          List.sum_eq_zero i2
        have hge : 0 ≤ totalBalance (settleLoop ds (payDebtor d.family |d.balance| cs).1).1 := by
          apply List.sum_nonneg
          intro x hx
          simp only [List.mem_map] at hx
          obtain ⟨y, hy, rfl⟩ := hx
          exact (remainingDebts_nonneg ds _ p4).2 y hy
        have := totalDebt_nonneg ds
        linarith

/-- C29, as the code has it. With pairwise distinct family names and
`totalMembers > 0`, the balances add up to minus the total amount of the
expenses of unlisted families; when that total is positive, the loop ends with
every creditor's working balance at 0, and the debts left to the debtors are
not negative and add up to that total, so that at least one debtor is left with
unsettled debt. -/
theorem orphan_expenses_leave_debt (families : List Family) (expenses : List Expense)
    (hdistinct : (families.map (fun f => f.name)).Nodup)
    (hmembers : 0 < totalMembers families) :
    totalBalance (familyBalances families expenses) = - orphanTotal families expenses ∧
    (0 < orphanTotal families expenses →
      (∀ c ∈ (settleLoop (debtors (familyBalances families expenses))
          (creditors (familyBalances families expenses))).1, c.balance = 0) ∧
      (remainingDebts (debtors (familyBalances families expenses))
          (creditors (familyBalances families expenses))).sum
        = orphanTotal families expenses ∧
      (∀ r ∈ remainingDebts (debtors (familyBalances families expenses))
          (creditors (familyBalances families expenses)), 0 ≤ r) ∧
      ∃ r ∈ remainingDebts (debtors (familyBalances families expenses))
          (creditors (familyBalances families expenses)), 0 < r) := by
  have hsum := totalBalance_eq_neg_orphanTotal families expenses hdistinct hmembers
  refine ⟨hsum, ?_⟩
  intro hpos
  obtain ⟨a1, a2⟩ := settleLoop_accounts (debtors (familyBalances families expenses))
    (creditors (familyBalances families expenses)) (creditors_nonneg _)
  obtain ⟨n1, n2⟩ := remainingDebts_nonneg (debtors (familyBalances families expenses))
    (creditors (familyBalances families expenses)) (creditors_nonneg _)
  have hsplit := totalBalance_split (familyBalances families expenses)
  rw [hsum, ← totalBalance_creditors] at hsplit
  have hdebt := totalDebt_debtors (familyBalances families expenses)
  have hge : 0 ≤ totalBalance (settleLoop (debtors (familyBalances families expenses))
      (creditors (familyBalances families expenses))).1 := by
    apply List.sum_nonneg
    intro x hx
    simp only [List.mem_map] at hx
    obtain ⟨y, hy, rfl⟩ := hx
    exact n2 y hy
  have hfinal : totalBalance (settleLoop (debtors (familyBalances families expenses))
      (creditors (familyBalances families expenses))).1 = 0 := by
    rcases a2 with a2 | a2
    · exact a2
    · have hz : (remainingDebts (debtors (familyBalances families expenses))
          (creditors (familyBalances families expenses))).sum = 0 := List.sum_eq_zero a2
      linarith
  have htotal : (remainingDebts (debtors (familyBalances families expenses))
      (creditors (familyBalances families expenses))).sum
        = orphanTotal families expenses := by
    linarith
  refine ⟨balance_zero_of_total_zero _ n2 hfinal, htotal, n1, ?_⟩
  by_contra hcon
  push_neg at hcon
  have hz : (remainingDebts (debtors (familyBalances families expenses))
      (creditors (familyBalances families expenses))).sum = 0 :=
    List.sum_eq_zero (fun r hr => le_antisymm (hcon r hr) (n1 r hr))
  linarith

theorem orphan_expenses_leave_debt_witness :
    (threeFamilies.map (fun f => f.name)).Nodup ∧ 0 < totalMembers threeFamilies ∧
    orphanTotal threeFamilies strayExpenses = 6 ∧
    totalBalance (familyBalances threeFamilies strayExpenses)
      = - orphanTotal threeFamilies strayExpenses :=
  ⟨by decide!, by decide!, by decide!,
    (orphan_expenses_leave_debt threeFamilies strayExpenses (by decide!) (by decide!)).1⟩

/-- C29 as stated fails: with an expense of 9 by `A` and an expense of 6 by an
unlisted family among three one-member families, the balances are +4, -5 and
-5; `B` pays 4 to `A` and is left with 1, `C` is left with 5. The unsettled
debts add up to 6 but no debtor is left with an unsettled debt of 6. -/
theorem no_debtor_owes_the_orphan_total :
    (threeFamilies.map (fun f => f.name)).Nodup ∧ 0 < totalMembers threeFamilies ∧
    orphanTotal threeFamilies strayExpenses = 6 ∧
    (familyBalances threeFamilies strayExpenses).map (fun b => b.balance) = [4, -5, -5] ∧
    (settlementsOf threeFamilies strayExpenses).settlements = [⟨"B", "A", "4.00"⟩] ∧
    remainingDebts (debtors (familyBalances threeFamilies strayExpenses))
        (creditors (familyBalances threeFamilies strayExpenses)) = [1, 5] ∧
    ¬ ∃ r ∈ remainingDebts (debtors (familyBalances threeFamilies strayExpenses))
        (creditors (familyBalances threeFamilies strayExpenses)),
      r = orphanTotal threeFamilies strayExpenses := by
  refine ⟨by decide!, by decide!, by decide!, by decide!, by decide!, by decide!, by decide!⟩

/-! ## Identifiers of groups and expenses, and member counts -/

theorem find?_eq_of_nodup {α : Type} (key : α → ℕ) (l : List α) (hnd : (l.map key).Nodup)
    (a : α) (ha : a ∈ l) (k : ℕ) (hk : key a = k) :
    l.find? (fun x => key x = k) = some a := by
  cases hf : l.find? (fun x => key x = k) with
  | none =>
    rw [List.find?_eq_none] at hf
    have := hf a ha
    simp [hk] at this
  | some b =>
    have hb := List.find?_some hf
    simp only [decide_eq_true_eq] at hb
    have : b = a := List.inj_on_of_nodup_map hnd (List.mem_of_find?_eq_some hf) ha
      (by rw [hb, hk])
    rw [this]

theorem validMembers_some (m : Option ℚ) (n : ℕ) :
    validMembers m = some n ↔
      ∃ q, m = some q ∧ (∃ k : ℤ, q = (k : ℚ)) ∧ 0 ≤ q ∧ q ≤ 10 ∧ (n : ℚ) = q := by
  unfold validMembers
  cases m with
  | none => simp
  | some q =>
    simp only [Option.some.injEq, exists_eq_left']
    by_cases hbad : ¬ q.isInt = true ∨ q < 0 ∨ q > 10
    · simp only [hbad, if_true]
      constructor
      · intro h; simp at h
      · rintro ⟨⟨k, hk⟩, h0, h10, _⟩
        exfalso
        rcases hbad with h | h | h
        · apply h
          rw [hk]
          simp [Rat.isInt]
        · linarith
        · linarith
    · simp only [hbad, if_false, Option.some.injEq]
      push_neg at hbad
      obtain ⟨hint, h0, h10⟩ := hbad
      have hden : q.den = 1 := by
        simpa [Rat.isInt] using hint
      have hq : ((q.num : ℤ) : ℚ) = q := (Rat.den_eq_one_iff q).mp hden
      have hnum : 0 ≤ q.num := Rat.num_nonneg.mpr h0
      have hcast : ((q.num.toNat : ℕ) : ℚ) = q := by
        have : ((q.num.toNat : ℕ) : ℤ) = q.num := Int.toNat_of_nonneg hnum
        calc ((q.num.toNat : ℕ) : ℚ) = (((q.num.toNat : ℕ) : ℤ) : ℚ) := by push_cast; rfl
          _ = ((q.num : ℤ) : ℚ) := by rw [this]
          _ = q := hq
      constructor
      · intro h
        rw [← h]
        exact ⟨⟨q.num, hq.symm⟩, h0, h10, hcast⟩
      · rintro ⟨_, _, _, hn⟩
        have : (q.num.toNat : ℚ) = (n : ℚ) := by rw [hcast, hn]
        exact_mod_cast this

theorem validMembers_le (m : Option ℚ) (n : ℕ) (h : validMembers m = some n) : n ≤ 10 := by
  obtain ⟨q, _, _, _, h10, hn⟩ := (validMembers_some m n).mp h
  have : (n : ℚ) ≤ 10 := by rw [hn]; exact h10
  exact_mod_cast this

/-- `POST /groups` leaves the store as it is, or appends one group with a
fresh identifier. -/
theorem createGroup_groups (host : Host) (db : Db) (req : CreateGroupRequest) :
    (createGroup host db req).2 = db ∨
    ∃ group : GroupDoc, group.id = db.nextId ∧
      (createGroup host db req).2
        = { db with groups := db.groups ++ [group], nextId := db.nextId + 1 } := by
  unfold createGroup
  by_cases hpw : req.password ≠ some host.password
  · left; simp [hpw]
  · by_cases hname : host.trim (req.name.getD "") = ""
    · left; simp [hpw, hname]
    · cases hp : host.groupPattern (host.trim (req.name.getD "")) with
      | none => left; simp [hpw, hname, hp]
      | some isMatch =>
        simp only [hpw, hname, hp, if_false]
        split_ifs
        · left; rfl
        · left; rfl
        · right
          exact ⟨_, rfl, rfl⟩

/-- `PATCH /groups/:id` leaves the store as it is, or replaces the group found
by the identifier by one of the same identifier. -/
theorem updateGroup_groups (host : Host) (db : Db) (req : UpdateGroupRequest) :
    (updateGroup host db req).2 = db ∨
    ∃ group ∈ db.groups, ∃ updated : GroupDoc, updated.id = group.id ∧
      (updateGroup host db req).2
        = { db with groups := (db.groups.map
              (fun g => if g.id = group.id then updated else g)) } := by
  unfold updateGroup
  cases hf : db.groups.find? (fun g => g.id = req.id) with
  | none => left; rfl
  | some group =>
    have hmem := List.mem_of_find?_eq_some hf
    simp only
    cases hn : nameUpdate host db group req with
    | error reply => left; rfl
    | ok newName =>
      simp only
      cases hs : statusUpdate host group req with
      | error reply => left; rfl
      | ok newStatus =>
        simp only
        split_ifs
        · left; rfl
        · left; rfl
        · right
          exact ⟨group, hmem,
            { group with
              name := newName.getD group.name
              description :=
                match req.description with
                | none => group.description
                | some text => some (host.trim text)
              status := newStatus.getD group.status }, rfl, rfl⟩

theorem docsFresh_of_same (db db' : Db) (h1 : db'.groups = db.groups)
    (h2 : db'.expenses = db.expenses) (h3 : db.nextId ≤ db'.nextId) (h : DocsFresh db) :
    DocsFresh db' := by
  obtain ⟨a, b, c, d⟩ := h
  refine ⟨by rw [h1]; exact a, ?_, by rw [h2]; exact c, ?_⟩
  · intro g hg
    rw [h1] at hg
    exact lt_of_lt_of_le (b g hg) h3
  · intro e he
    rw [h2] at he
    exact lt_of_lt_of_le (d e he) h3

theorem nodup_append_fresh {α : Type} (key : α → ℕ) (l : List α) (a : α) (n : ℕ)
    (hnd : (l.map key).Nodup) (hlt : ∀ x ∈ l, key x < n) (ha : key a = n) :
    ((l ++ [a]).map key).Nodup := by
  rw [List.map_append, List.nodup_append]
  refine ⟨hnd, by simp, ?_⟩
  intro x hx1 hx2
  simp only [List.map_cons, List.map_nil, List.mem_singleton] at hx2
  simp only [List.mem_map] at hx1
  obtain ⟨y, hy, rfl⟩ := hx1
  have := hlt y hy
  omega

theorem docsFresh_handle (host : Host) (db : Db) (req : Request) (h : DocsFresh db) :
    DocsFresh (handle host db req).2 := by
  obtain ⟨a, b, c, d⟩ := h
  cases req with
  | addFamily r =>
    rcases addFamily_effect host db r with ⟨hsame, _⟩ | ⟨fam, _, _, _, _, _, _, _, heq⟩
    · show DocsFresh (addFamily host db r).2
      rw [hsame]; exact ⟨a, b, c, d⟩
    · show DocsFresh (addFamily host db r).2
      rw [heq]
      exact docsFresh_of_same db _ rfl rfl (Nat.le_succ _) ⟨a, b, c, d⟩
  | updateFamily r =>
    rcases updateFamily_effect db r with ⟨hsame, _⟩ | ⟨_, _, _, _, _, _, heq⟩
    · show DocsFresh (updateFamily db r).2
      rw [hsame]; exact ⟨a, b, c, d⟩
    · show DocsFresh (updateFamily db r).2
      rw [heq]
      exact docsFresh_of_same db _ rfl rfl (le_refl _) ⟨a, b, c, d⟩
  | deleteFamily r =>
    rcases deleteFamily_effect host db r with ⟨hsame, _⟩ | ⟨_, _, _, _, _, _, heq⟩
    · show DocsFresh (deleteFamily host db r).2
      rw [hsame]; exact ⟨a, b, c, d⟩
    · show DocsFresh (deleteFamily host db r).2
      rw [heq]
      exact docsFresh_of_same db _ rfl rfl (le_refl _) ⟨a, b, c, d⟩
  | addExpense r =>
    rcases addExpense_effect host db r with ⟨hsame, _⟩ | ⟨expense, hid, _, _, _, _, heq⟩
    · show DocsFresh (addExpense host db r).2
      rw [hsame]; exact ⟨a, b, c, d⟩
    · show DocsFresh (addExpense host db r).2
      rw [heq]
      refine ⟨a, ?_, nodup_append_fresh (fun e => e.id) db.expenses expense db.nextId c d hid, ?_⟩
      · intro g hg
        have := b g hg
        show g.id < db.nextId + 1
        omega
      · intro e he
        have he' : e ∈ db.expenses ++ [expense] := he
        simp only [List.mem_append, List.mem_singleton] at he'
        show e.id < db.nextId + 1
        rcases he' with he' | rfl
        · have := d e he'; omega
        · omega
  | updateExpense r =>
    rcases updateExpense_effect host db r with
      ⟨hsame, _⟩ | ⟨expense, _, updated, _, hid, _, _, _, _, heq⟩
    · show DocsFresh (updateExpense host db r).2
      rw [hsame]; exact ⟨a, b, c, d⟩
    · show DocsFresh (updateExpense host db r).2
      rw [heq]
      have hkeep : ∀ e : ExpenseDoc,
          (if e.id = expense.id then updated else e).id = e.id := by
        intro e
        by_cases he : e.id = expense.id
        · simp only [he, if_true]; exact hid
        · simp only [he, if_false]
      refine ⟨a, b, ?_, ?_⟩
      · show ((db.expenses.map (fun e => if e.id = expense.id then updated else e)).map
          (fun e => e.id)).Nodup
        rw [List.map_map]
        have : db.expenses.map ((fun e => e.id) ∘
            (fun e => if e.id = expense.id then updated else e))
            = db.expenses.map (fun e => e.id) :=
          List.map_congr_left (fun e _ => hkeep e)
        rw [this]
        exact c
      · intro e he
        have he' : e ∈ db.expenses.map (fun e => if e.id = expense.id then updated else e) := he
        simp only [List.mem_map] at he'
        obtain ⟨e0, he0, rfl⟩ := he'
        rw [hkeep e0]
        exact d e0 he0
  | deleteExpense r =>
    rcases deleteExpense_effect db r with hsame | ⟨expense, _, heq⟩
    · show DocsFresh (deleteExpense db r).2
      rw [hsame]; exact ⟨a, b, c, d⟩
    · show DocsFresh (deleteExpense db r).2
      rw [heq]
      exact ⟨a, b, c.sublist ((List.filter_sublist _).map _),
        fun e he => d e (List.mem_of_mem_filter he)⟩
  | createGroup r =>
    rcases createGroup_groups host db r with hsame | ⟨group, hid, heq⟩
    · show DocsFresh (createGroup host db r).2
      rw [hsame]; exact ⟨a, b, c, d⟩
    · show DocsFresh (createGroup host db r).2
      rw [heq]
      refine ⟨nodup_append_fresh (fun g => g.id) db.groups group db.nextId a b hid, ?_, c, ?_⟩
      · intro g hg
        have hg' : g ∈ db.groups ++ [group] := hg
        simp only [List.mem_append, List.mem_singleton] at hg'
        show g.id < db.nextId + 1
        rcases hg' with hg' | rfl
        · have := b g hg'; omega
        · omega
      · intro e he
        have := d e he
        show e.id < db.nextId + 1
        omega
  | updateGroup r =>
    rcases updateGroup_groups host db r with hsame | ⟨group, _, updated, hid, heq⟩
    · show DocsFresh (updateGroup host db r).2
      rw [hsame]; exact ⟨a, b, c, d⟩
    · show DocsFresh (updateGroup host db r).2
      rw [heq]
      have hkeep : ∀ g : GroupDoc, (if g.id = group.id then updated else g).id = g.id := by
        intro g
        by_cases hg : g.id = group.id
        · simp only [hg, if_true]; exact hid
        · simp only [hg, if_false]
      refine ⟨?_, ?_, c, d⟩
      · show ((db.groups.map (fun g => if g.id = group.id then updated else g)).map
          (fun g => g.id)).Nodup
        rw [List.map_map]
        have : db.groups.map ((fun g => g.id) ∘
            (fun g => if g.id = group.id then updated else g))
            = db.groups.map (fun g => g.id) :=
          List.map_congr_left (fun g _ => hkeep g)
        rw [this]
        exact a
      · intro g hg
        have hg' : g ∈ db.groups.map (fun g => if g.id = group.id then updated else g) := hg
        simp only [List.mem_map] at hg'
        obtain ⟨g0, hg0, rfl⟩ := hg'
        rw [hkeep g0]
        exact b g0 hg0

/-- In every reachable store the identifiers of groups and of expenses are
distinct. -/
theorem reachable_docsFresh (host : Host) (db : Db) (h : Reachable host db) : DocsFresh db := by
  induction h with
  | empty => exact ⟨by simp [emptyDb], by simp [emptyDb], by simp [emptyDb], by simp [emptyDb]⟩
  | step db req _ ih => exact docsFresh_handle host db req ih

theorem membersBounded_handle (host : Host) (db : Db) (req : Request)
    (h : MembersBounded db) : MembersBounded (handle host db req).2 := by
  have same : ∀ db' : Db, db'.families = db.families → MembersBounded db' := by
    intro db' h1 f hf
    rw [h1] at hf
    exact h f hf
  cases req with
  | addFamily r =>
    rcases addFamily_effect host db r with ⟨hsame, _⟩ | ⟨fam, _, _, _, hval, _, _, _, heq⟩
    · exact same _ (by rw [show (handle host db (Request.addFamily r)).2 = db from hsame])
    · intro f hf
      have hf' : f ∈ db.families ++ [fam] := by
        have : (handle host db (Request.addFamily r)).2.families = db.families ++ [fam] := by
          show (addFamily host db r).2.families = _
          rw [heq]
        rw [this] at hf
        exact hf
      simp only [List.mem_append, List.mem_singleton] at hf'
      rcases hf' with hf' | rfl
      · exact h f hf'
      · exact validMembers_le _ _ hval
  | updateFamily r =>
    rcases updateFamily_effect db r with ⟨hsame, _⟩ | ⟨family, _, members, _, hval, _, heq⟩
    · exact same _ (by rw [show (handle host db (Request.updateFamily r)).2 = db from hsame])
    · intro f hf
      have hf' : f ∈ db.families.map
          (fun f => if f.id = family.id then { family with members := members } else f) := by
        have : (handle host db (Request.updateFamily r)).2.families = db.families.map
            (fun f => if f.id = family.id then { family with members := members } else f) := by
          show (updateFamily db r).2.families = _
          rw [heq]
        rw [this] at hf
        exact hf
      simp only [List.mem_map] at hf'
      obtain ⟨f0, hf0, rfl⟩ := hf'
      by_cases hid : f0.id = family.id
      · simp only [hid, if_true]
        exact validMembers_le _ _ hval
      · simp only [hid, if_false]
        exact h f0 hf0
  | deleteFamily r =>
    rcases deleteFamily_effect host db r with ⟨hsame, _⟩ | ⟨family, _, _, _, _, _, heq⟩
    · exact same _ (by rw [show (handle host db (Request.deleteFamily r)).2 = db from hsame])
    · intro f hf
      have hf' : f ∈ db.families.filter (fun f => f.id ≠ family.id) := by
        have : (handle host db (Request.deleteFamily r)).2.families
            = db.families.filter (fun f => f.id ≠ family.id) := by
          show (deleteFamily host db r).2.families = _
          rw [heq]
        rw [this] at hf
        exact hf
      exact h f (List.mem_of_mem_filter hf')
  | addExpense r =>
    rcases addExpense_effect host db r with ⟨hsame, _⟩ | ⟨expense, _, _, _, _, _, heq⟩
    · exact same _ (by rw [show (handle host db (Request.addExpense r)).2 = db from hsame])
    · exact same _ (by
        show (addExpense host db r).2.families = _
        rw [heq])
  | updateExpense r =>
    rcases updateExpense_effect host db r with ⟨hsame, _⟩ | ⟨_, _, _, _, _, _, _, _, _, heq⟩
    · exact same _ (by rw [show (handle host db (Request.updateExpense r)).2 = db from hsame])
    · exact same _ (by
        show (updateExpense host db r).2.families = _
        rw [heq])
  | deleteExpense r =>
    rcases deleteExpense_effect db r with hsame | ⟨_, _, heq⟩
    · exact same _ (by rw [show (handle host db (Request.deleteExpense r)).2 = db from hsame])
    · exact same _ (by
        show (deleteExpense db r).2.families = _
        rw [heq])
  | createGroup r => exact same _ (createGroup_effect host db r).1
  | updateGroup r => exact same _ (updateGroup_effect host db r).1

/-- In every reachable store every family has at most 10 members. -/
theorem reachable_membersBounded (host : Host) (db : Db) (h : Reachable host db) :
    MembersBounded db := by
  induction h with
  | empty => intro f hf; simp [emptyDb] at hf
  | step db req _ ih => exact membersBounded_handle host db req ih

/-! ## Validation of the member count -/

theorem find_family (host : Host) (db : Db) (hreach : Reachable host db) (family : FamilyDoc)
    (hmem : family ∈ db.families) (id : ℕ) (hid : family.id = id) :
    db.families.find? (fun f => f.id = id) = some family :=
  find?_eq_of_nodup (fun f => f.id) db.families (reachable_consistent host db hreach).1.1
    family hmem id hid

theorem find_group (host : Host) (db : Db) (hreach : Reachable host db) (group : GroupDoc)
    (hmem : group ∈ db.groups) (id : ℕ) (hid : group.id = id) :
    db.groups.find? (fun g => g.id = id) = some group :=
  find?_eq_of_nodup (fun g => g.id) db.groups (reachable_docsFresh host db hreach).1
    group hmem id hid

theorem find_expense (host : Host) (db : Db) (hreach : Reachable host db) (expense : ExpenseDoc)
    (hmem : expense ∈ db.expenses) (id : ℕ) (hid : expense.id = id) :
    db.expenses.find? (fun e => e.id = id) = some expense :=
  find?_eq_of_nodup (fun e => e.id) db.expenses (reachable_docsFresh host db hreach).2.2.1
    expense hmem id hid

theorem resolveGroup_of_mem (host : Host) (db : Db) (hreach : Reachable host db)
    (group : GroupDoc) (hmem : group ∈ db.groups) :
    resolveGroup db (some group.id) = Except.ok group := by
  unfold resolveGroup
  simp only [find_group host db hreach group hmem group.id rfl]

/-- C21. Member-count validation: a members value passes the test of
`POST /families` and `PATCH /families/:id` exactly when, after numeric
conversion, it is an integer between 0 and 10, and it is then stored as that
number; with a value that does not pass, no family is created or changed and
the route does not succeed, the response being `Members must be an integer
between 0 and 10.` once the earlier checks of the route pass; with a value that
passes and the other checks passed, the family is created or updated with it;
and every family of a reachable store has at most 10 members. -/
theorem members_validation (host : Host) (db : Db) (hreach : Reachable host db) :
    (∀ f ∈ db.families, f.members ≤ 10) ∧
    (∀ (m : Option ℚ) (n : ℕ), validMembers m = some n ↔
      ∃ q, m = some q ∧ (∃ k : ℤ, q = (k : ℚ)) ∧ 0 ≤ q ∧ q ≤ 10 ∧ (n : ℚ) = q) ∧
    (∀ req : AddFamilyRequest, validMembers req.members = none →
      (addFamily host db req).2 = db ∧ (addFamily host db req).1.status ≠ 201 ∧
      (∀ group, resolveGroup db req.groupId = Except.ok group →
        group.status ≠ GroupStatus.closed → req.password = some host.password →
        host.trim (req.name.getD "") ≠ "" →
        (addFamily host db req).1 = fail 400 "Members must be an integer between 0 and 10.")) ∧
    (∀ (req : AddFamilyRequest) (n : ℕ) (group : GroupDoc),
      validMembers req.members = some n →
      resolveGroup db req.groupId = Except.ok group →
      group.status ≠ GroupStatus.closed → req.password = some host.password →
      host.trim (req.name.getD "") ≠ "" →
      (∀ f ∈ db.families, f.group = group.id →
        host.fold f.name ≠ host.fold (host.trim (req.name.getD ""))) →
      addFamily host db req
        = ({ status := 201,
             body := Body.family { id := db.nextId, name := host.trim (req.name.getD ""),
                                   members := n, group := group.id } },
            { db with
              families := db.families ++ [{ id := db.nextId,
                                            name := host.trim (req.name.getD ""),
                                            members := n, group := group.id }]
              nextId := db.nextId + 1 })) ∧
    (∀ req : UpdateFamilyRequest, validMembers req.members = none →
      (updateFamily db req).2 = db ∧ (updateFamily db req).1.status ≠ 200 ∧
      (∀ family ∈ db.families, family.id = req.id →
        ∀ group ∈ db.groups, group.id = family.group → group.status ≠ GroupStatus.closed →
        (updateFamily db req).1 = fail 400 "Members must be an integer between 0 and 10.")) ∧
    (∀ (req : UpdateFamilyRequest) (n : ℕ), validMembers req.members = some n →
      ∀ family ∈ db.families, family.id = req.id →
      ∀ group ∈ db.groups, group.id = family.group → group.status ≠ GroupStatus.closed →
      updateFamily db req
        = ({ status := 200, body := Body.family { family with members := n } },
            { db with families := (db.families.map
                (fun f => if f.id = family.id then { family with members := n } else f)) })) := by
  refine ⟨reachable_membersBounded host db hreach, validMembers_some, ?_, ?_, ?_, ?_⟩
  · intro req hbad
    have h12 : (addFamily host db req).2 = db ∧ (addFamily host db req).1.status ≠ 201 := by
      rcases addFamily_effect host db req with h | ⟨fam, _, _, _, hval, _⟩
      · exact h
      · rw [hbad] at hval
        simp at hval
    refine ⟨h12.1, h12.2, ?_⟩
    intro group hres hopen hpw hname
    unfold addFamily
    rw [hres]
    simp only [hopen, hpw, hname, hbad, if_false, ne_eq, not_true_eq_false]
  · intro req n group hval hres hopen hpw hname hfree
    unfold addFamily
    rw [hres]
    simp only [hopen, hpw, hname, hval, if_false, ne_eq, not_true_eq_false]
    cases hfind : db.families.find?
        (fun f => host.fold f.name = host.fold (host.trim (req.name.getD ""))
          ∧ f.group = group.id) with
    | none => rfl
    | some existing =>
      have hex := List.find?_some hfind
      have hmem := List.mem_of_find?_eq_some hfind
      simp only [decide_eq_true_eq] at hex
      exact absurd hex.1 (hfree existing hmem hex.2)
  · intro req hbad
    have h12 : (updateFamily db req).2 = db ∧ (updateFamily db req).1.status ≠ 200 := by
      rcases updateFamily_effect db req with h | ⟨_, _, _, _, hval, _⟩
      · exact h
      · rw [hbad] at hval
        simp at hval
    refine ⟨h12.1, h12.2, ?_⟩
    intro family hmem hid group hgm hgid hopen
    unfold updateFamily
    simp only [find_family host db hreach family hmem req.id hid,
      find_group host db hreach group hgm family.group hgid, hopen, hbad, if_false]
  · intro req n hval family hmem hid group hgm hgid hopen
    unfold updateFamily
    simp only [find_family host db hreach family hmem req.id hid,
      find_group host db hreach group hgm family.group hgid, hopen, hval, if_false]

theorem members_validation_witness :
    Reachable sampleHost sampleDb ∧
    (∀ f ∈ sampleDb.families, f.members ≤ 10) ∧
    validMembers (some (7 / 2)) = none ∧ validMembers (some 11) = none ∧
    validMembers (some (-1)) = none ∧ validMembers none = none ∧
    validMembers (some 0) = some 0 ∧ validMembers (some 10) = some 10 ∧
    addFamily sampleHost sampleDb
        { groupId := some 0, password := some "123", name := some "Gamma",
          members := some (5 / 2) }
      = (fail 400 "Members must be an integer between 0 and 10.", sampleDb) :=
  ⟨reachable_run sampleHost emptyDb sampleRequests Reachable.empty,
    (members_validation sampleHost sampleDb
      (reachable_run sampleHost emptyDb sampleRequests Reachable.empty)).1,
    by decide!, by decide!, by decide!, by decide!, by decide!, by decide!, by decide!⟩

/-! ## Deleting a family -/

/-- C22. Delete family only if no expenses: in a reachable store, for a family
found by the identifier whose group is active and with the correct password,
`DELETE /families/:id` removes the family, and nothing else, when no expense of
the family's group has its name as `familyName`; otherwise the response is
`Cannot delete a family that has recorded expenses.` and the store is
unchanged; so the family is removed exactly when no such expense exists. -/
theorem delete_family_iff_no_expense (host : Host) (db : Db) (hreach : Reachable host db)
    (req : DeleteFamilyRequest) (family : FamilyDoc) (group : GroupDoc)
    (hfamily : family ∈ db.families) (hid : family.id = req.id)
    (hgroup : group ∈ db.groups) (hgid : group.id = family.group)
    (hactive : group.status = GroupStatus.active)
    (hpassword : req.password = some host.password) :
    ((∀ e ∈ db.expenses, ¬ (e.familyName = family.name ∧ e.group = family.group)) →
      deleteFamily host db req
        = (fail 200 "Family deleted successfully.",
            { db with families := db.families.filter (fun f => f.id ≠ family.id) }) ∧
      family ∉ (deleteFamily host db req).2.families ∧
      (∀ f ∈ db.families, f ≠ family → f ∈ (deleteFamily host db req).2.families) ∧
      (deleteFamily host db req).2.expenses = db.expenses) ∧
    ((∃ e ∈ db.expenses, e.familyName = family.name ∧ e.group = family.group) →
      deleteFamily host db req
        = (fail 400 "Cannot delete a family that has recorded expenses.", db)) ∧
    (family ∉ (deleteFamily host db req).2.families ↔
      ∀ e ∈ db.expenses, ¬ (e.familyName = family.name ∧ e.group = family.group)) := by
  have hfresh := (reachable_consistent host db hreach).1
  have hopen : group.status ≠ GroupStatus.closed := by rw [hactive]; decide
  have hdel : (∀ e ∈ db.expenses, ¬ (e.familyName = family.name ∧ e.group = family.group)) →
      deleteFamily host db req
        = (fail 200 "Family deleted successfully.",
            { db with families := db.families.filter (fun f => f.id ≠ family.id) }) := by
    intro hnone
    have hany : ¬ (db.expenses.any
        (fun e => e.familyName = family.name ∧ e.group = family.group) = true) := by
      rw [List.any_eq_true]
      rintro ⟨e, he, hp⟩
      exact hnone e he (by simpa using hp)
    unfold deleteFamily
    simp only [find_family host db hreach family hfamily req.id hid,
      find_group host db hreach group hgroup family.group hgid, hopen, hpassword, hany,
      if_false, ne_eq, not_true_eq_false, Bool.false_eq_true]
  have hkeep : (∃ e ∈ db.expenses, e.familyName = family.name ∧ e.group = family.group) →
      deleteFamily host db req
        = (fail 400 "Cannot delete a family that has recorded expenses.", db) := by
    rintro ⟨e, he, hp⟩
    have hany : db.expenses.any
        (fun e => e.familyName = family.name ∧ e.group = family.group) = true := by
      rw [List.any_eq_true]
      exact ⟨e, he, by simpa using hp⟩
    unfold deleteFamily
    simp only [find_family host db hreach family hfamily req.id hid,
      find_group host db hreach group hgroup family.group hgid, hopen, hpassword, hany,
      if_true, if_false, ne_eq, not_true_eq_false]
  have hgone : (∀ e ∈ db.expenses, ¬ (e.familyName = family.name ∧ e.group = family.group)) →
      family ∉ (deleteFamily host db req).2.families := by
    intro hnone
    rw [hdel hnone]
    show family ∉ db.families.filter (fun f => f.id ≠ family.id)
    simp [List.mem_filter]
  refine ⟨?_, hkeep, ?_⟩
  · intro hnone
    refine ⟨hdel hnone, hgone hnone, ?_, by rw [hdel hnone]⟩
    intro f hf hne
    rw [hdel hnone]
    show f ∈ db.families.filter (fun f => f.id ≠ family.id)
    rw [List.mem_filter]
    refine ⟨hf, ?_⟩
    simp only [ne_eq, decide_not, Bool.not_eq_true', decide_eq_false_iff_not]
    intro hfid
    exact hne (family_eq_of_id db hfresh f family hf hfamily hfid)
  · constructor
    · intro hout e he hp
      rw [hkeep ⟨e, he, hp⟩] at hout
      exact hout hfamily
    · exact hgone

theorem delete_family_iff_no_expense_witness :
    Reachable sampleHost widerDb ∧
    widerDb.families.map (fun f => f.name) = ["Alpha", "Beta", "Gamma"] ∧
    deleteFamily sampleHost widerDb { id := 4, password := some "123" }
      = (fail 200 "Family deleted successfully.",
          { widerDb with families := widerDb.families.filter (fun f => f.id ≠ 4) }) ∧
    deleteFamily sampleHost widerDb { id := 1, password := some "123" }
      = (fail 400 "Cannot delete a family that has recorded expenses.", widerDb) :=
  ⟨reachable_run sampleHost emptyDb _ Reachable.empty |> reachable_run sampleHost _ _,
    by decide!,
    ((delete_family_iff_no_expense sampleHost widerDb
      (reachable_run sampleHost emptyDb _ Reachable.empty |> reachable_run sampleHost _ _)
      { id := 4, password := some "123" }
      { id := 4, name := "Gamma", members := 0, group := 0 }
      { id := 0, name := "Trip", description := none, status := GroupStatus.active }
      (by decide!) rfl (by decide!) rfl rfl rfl).1 (by decide!)).1,
    (delete_family_iff_no_expense sampleHost widerDb
      (reachable_run sampleHost emptyDb _ Reachable.empty |> reachable_run sampleHost _ _)
      { id := 1, password := some "123" }
      { id := 1, name := "Alpha", members := 2, group := 0 }
      { id := 0, name := "Trip", description := none, status := GroupStatus.active }
      (by decide!) rfl (by decide!) rfl rfl rfl).2.1 (by decide!)⟩

/-! ## Closed groups -/

/-- C30. Closed groups are frozen: in a reachable store, for a group whose
status is `closed`, every `POST /families` and `POST /expenses` for the group
and every `PATCH` and `DELETE` of a family or an expense of the group gets the
response `Cannot modify a closed group.` and leaves the store unchanged,
whatever the password and the other fields of the request are. -/
theorem closed_group_frozen (host : Host) (db : Db) (hreach : Reachable host db)
    (group : GroupDoc) (hgroup : group ∈ db.groups)
    (hclosed : group.status = GroupStatus.closed) :
    (∀ req : AddFamilyRequest, req.groupId = some group.id →
      addFamily host db req = (fail 400 "Cannot modify a closed group.", db)) ∧
    (∀ req : UpdateFamilyRequest, ∀ family ∈ db.families, family.id = req.id →
      family.group = group.id →
      updateFamily db req = (fail 400 "Cannot modify a closed group.", db)) ∧
    (∀ req : DeleteFamilyRequest, ∀ family ∈ db.families, family.id = req.id →
      family.group = group.id →
      deleteFamily host db req = (fail 400 "Cannot modify a closed group.", db)) ∧
    (∀ req : AddExpenseRequest, req.groupId = some group.id →
      addExpense host db req = (fail 400 "Cannot modify a closed group.", db)) ∧
    (∀ req : UpdateExpenseRequest, ∀ expense ∈ db.expenses, expense.id = req.id →
      expense.group = group.id →
      updateExpense host db req = (fail 400 "Cannot modify a closed group.", db)) ∧
    (∀ req : DeleteExpenseRequest, ∀ expense ∈ db.expenses, expense.id = req.id →
      expense.group = group.id →
      deleteExpense db req = (fail 400 "Cannot modify a closed group.", db)) := by
  refine ⟨?_, ?_, ?_, ?_, ?_, ?_⟩
  · intro req hreq
    unfold addFamily
    rw [hreq, resolveGroup_of_mem host db hreach group hgroup]
    simp only [hclosed, if_true]
  · intro req family hmem hid hfg
    unfold updateFamily
    simp only [find_family host db hreach family hmem req.id hid,
      find_group host db hreach group hgroup family.group hfg.symm, hclosed, if_true]
  · intro req family hmem hid hfg
    unfold deleteFamily
    simp only [find_family host db hreach family hmem req.id hid,
      find_group host db hreach group hgroup family.group hfg.symm, hclosed, if_true]
  · intro req hreq
    unfold addExpense
    rw [hreq, resolveGroup_of_mem host db hreach group hgroup]
    simp only [hclosed, if_true]
  · intro req expense hmem hid heg
    unfold updateExpense
    simp only [find_expense host db hreach expense hmem req.id hid,
      find_group host db hreach group hgroup expense.group heg.symm, hclosed, if_true]
  · intro req expense hmem hid heg
    unfold deleteExpense
    simp only [find_expense host db hreach expense hmem req.id hid,
      find_group host db hreach group hgroup expense.group heg.symm, hclosed, if_true]

theorem closed_group_frozen_witness :
    Reachable sampleHost closedDb ∧
    closedDb.groups
      = [{ id := 0, name := "Trip", description := none, status := GroupStatus.closed }] ∧
    closedDb.families = sampleDb.families ∧ closedDb.expenses = sampleDb.expenses ∧
    addFamily sampleHost closedDb
        { groupId := some 0, password := some "123", name := some "Gamma", members := some 1 }
      = (fail 400 "Cannot modify a closed group.", closedDb) ∧
    deleteExpense closedDb { id := 3 }
      = (fail 400 "Cannot modify a closed group.", closedDb) :=
  ⟨reachable_run sampleHost emptyDb _ Reachable.empty |> reachable_run sampleHost _ _,
    by decide!, by decide!, by decide!,
    (closed_group_frozen sampleHost closedDb
      (reachable_run sampleHost emptyDb _ Reachable.empty |> reachable_run sampleHost _ _)
      { id := 0, name := "Trip", description := none, status := GroupStatus.closed }
      (by decide!) rfl).1 _ rfl,
    (closed_group_frozen sampleHost closedDb
      (reachable_run sampleHost emptyDb _ Reachable.empty |> reachable_run sampleHost _ _)
      { id := 0, name := "Trip", description := none, status := GroupStatus.closed }
      (by decide!) rfl).2.2.2.2.2 { id := 3 }
      { id := 3, description := "Hotel", amount := 100, familyName := "Alpha", group := 0 }
      (by decide!) rfl rfl⟩

/-! ## Rounding to binary64 -/

theorem pow2_pos (e : ℤ) : 0 < pow2 e := by
  unfold pow2
  split_ifs <;> positivity

theorem spacing_pos (x : ℚ) : 0 < spacing x := pow2_pos _

theorem roundHalfEven_nonneg (x : ℚ) (hx : 0 ≤ x) : 0 ≤ roundHalfEven x := by
  have hf : 0 ≤ ⌊x⌋ := Int.floor_nonneg.mpr hx
  unfold roundHalfEven
  split_ifs <;> omega

theorem binary64_zero : binary64 0 = 0 := by
  simp [binary64]

/-- Rounding does not make a number negative. -/
theorem binary64_nonneg (x : ℚ) (hx : 0 ≤ x) : 0 ≤ binary64 x := by
  unfold binary64
  split_ifs with h0 hneg
  · exact le_refl 0
  · exact absurd hneg (not_lt.mpr hx)
  · apply mul_nonneg
    · exact_mod_cast roundHalfEven_nonneg _ (div_nonneg hx (le_of_lt (spacing_pos x)))
    · exact le_of_lt (spacing_pos x)

/-- A number minus itself is 0 in the host language as well. -/
theorem sub64_self (a : ℚ) : F64.sub a a = 0 := by
  unfold F64.sub
  rw [sub_self, binary64_zero]

theorem sub64_nonneg (a b : ℚ) (h : b ≤ a) : 0 ≤ F64.sub a b :=
  binary64_nonneg _ (sub_nonneg.mpr h)

/-! ## The error of one rounding -/

theorem pow2_eq_zpow (e : ℤ) : pow2 e = (2 : ℚ) ^ e := by
  unfold pow2
  split_ifs with h
  · obtain ⟨n, rfl⟩ := Int.eq_ofNat_of_zero_le h
    simp
  · push_neg at h
    obtain ⟨n, hn⟩ := Int.eq_ofNat_of_zero_le (le_of_lt (neg_pos.mpr h))
    have he : e = -(n : ℤ) := by omega
    subst he
    simp [zpow_neg]

theorem pow2_add (a b : ℤ) : pow2 (a + b) = pow2 a * pow2 b := by
  rw [pow2_eq_zpow, pow2_eq_zpow, pow2_eq_zpow, zpow_add₀ (by norm_num)]

theorem pow2_le_pow2 (a b : ℤ) (h : a ≤ b) : pow2 a ≤ pow2 b := by
  rw [pow2_eq_zpow, pow2_eq_zpow]
  exact zpow_le_zpow_right₀ (by norm_num) h

theorem pow2_lt_pow2_iff (a b : ℤ) : pow2 a < pow2 b ↔ a < b := by
  rw [pow2_eq_zpow, pow2_eq_zpow]
  exact zpow_lt_zpow_iff_right₀ (by norm_num)

theorem pow2_natCast (n : ℕ) : pow2 (n : ℤ) = ((2 ^ n : ℕ) : ℚ) := by
  rw [pow2_eq_zpow]
  simp

/-- The halvings of `n ≥ 1` count the binary digits after the leading one. -/
theorem halvings_spec (fuel n : ℕ) (h1 : 1 ≤ n) (h2 : n < 2 ^ fuel) :
    2 ^ halvings fuel n ≤ n ∧ n < 2 ^ (halvings fuel n + 1) := by
  induction fuel generalizing n with
  | zero => simp at h2; omega
  | succ fuel ih =>
    unfold halvings
    by_cases hn : n < 2
    · simp only [hn, if_true]
      omega
    · simp only [hn, if_false]
      have hhalf : 1 ≤ n / 2 := by omega
      have hlt : n / 2 < 2 ^ fuel := by
        rw [pow_succ] at h2
        omega
      obtain ⟨i1, i2⟩ := ih (n / 2) hhalf hlt
      constructor
      · rw [pow_succ]
        omega
      · rw [pow_succ] at i2 ⊢
        rw [pow_succ]
        omega

theorem bitLength_spec (n : ℕ) (h1 : 1 ≤ n) :
    2 ^ bitLength n ≤ n ∧ n < 2 ^ (bitLength n + 1) :=
  halvings_spec n n h1 (Nat.lt_two_pow n)

/-- The exponent of a positive number brackets it between two powers of 2. -/
theorem exponentOf_spec (x : ℚ) (hx : 0 < x) :
    pow2 (exponentOf x) ≤ x ∧ x < pow2 (exponentOf x + 1) := by
  have hnum : 0 < x.num := Rat.num_pos.mpr hx
  have hden : 1 ≤ x.den := x.den_pos
  have hnat : 1 ≤ x.num.natAbs := by omega
  obtain ⟨a1, a2⟩ := bitLength_spec x.num.natAbs hnat
  obtain ⟨b1, b2⟩ := bitLength_spec x.den hden
  have hxd : x * (x.den : ℚ) = (x.num.natAbs : ℚ) := by
    have habs : ((x.num.natAbs : ℤ) : ℚ) = (x.num : ℚ) := by
      rw [Int.natAbs_of_nonneg (le_of_lt hnum)]
    rw [Rat.mul_den_eq_num, ← habs, Int.cast_natCast]
  have hdpos : (0 : ℚ) < (x.den : ℚ) := by exact_mod_cast hden
  have qa1 : ((2 ^ bitLength x.num.natAbs : ℕ) : ℚ) ≤ (x.num.natAbs : ℚ) := by exact_mod_cast a1
  have qa2 : (x.num.natAbs : ℚ) < ((2 ^ (bitLength x.num.natAbs + 1) : ℕ) : ℚ) := by
    exact_mod_cast a2
  have qb1 : ((2 ^ bitLength x.den : ℕ) : ℚ) ≤ (x.den : ℚ) := by exact_mod_cast b1
  have qb2 : (x.den : ℚ) < ((2 ^ (bitLength x.den + 1) : ℕ) : ℚ) := by exact_mod_cast b2
  rw [← pow2_natCast] at qa1 qa2 qb1 qb2
  -- the first estimate is off by at most one
  have hlow : pow2 ((bitLength x.num.natAbs : ℤ) - (bitLength x.den : ℤ) - 1) ≤ x := by
    have hsplit : pow2 ((bitLength x.num.natAbs : ℤ))
        = pow2 ((bitLength x.num.natAbs : ℤ) - (bitLength x.den : ℤ) - 1)
          * pow2 (((bitLength x.den + 1 : ℕ) : ℤ)) := by
      rw [← pow2_add]
      congr 1
      push_cast
      ring
    apply le_of_mul_le_mul_right _ hdpos
    rw [hxd]
    calc pow2 ((bitLength x.num.natAbs : ℤ) - (bitLength x.den : ℤ) - 1) * (x.den : ℚ)
        ≤ pow2 ((bitLength x.num.natAbs : ℤ) - (bitLength x.den : ℤ) - 1)
            * pow2 (((bitLength x.den + 1 : ℕ) : ℤ)) :=
          mul_le_mul_of_nonneg_left (le_of_lt qb2) (le_of_lt (pow2_pos _))
      _ = pow2 ((bitLength x.num.natAbs : ℤ)) := hsplit.symm
      _ ≤ (x.num.natAbs : ℚ) := qa1
  have hhigh : x < pow2 ((bitLength x.num.natAbs : ℤ) - (bitLength x.den : ℤ) + 1) := by
    have hsplit : pow2 (((bitLength x.num.natAbs + 1 : ℕ) : ℤ))
        = pow2 ((bitLength x.num.natAbs : ℤ) - (bitLength x.den : ℤ) + 1)
          * pow2 ((bitLength x.den : ℤ)) := by
      rw [← pow2_add]
      congr 1
      push_cast
      ring
    apply lt_of_mul_lt_mul_right _ (le_of_lt hdpos)
    rw [hxd]
    calc (x.num.natAbs : ℚ) < pow2 (((bitLength x.num.natAbs + 1 : ℕ) : ℤ)) := qa2
      _ = pow2 ((bitLength x.num.natAbs : ℤ) - (bitLength x.den : ℤ) + 1)
            * pow2 ((bitLength x.den : ℤ)) := hsplit
      _ ≤ pow2 ((bitLength x.num.natAbs : ℤ) - (bitLength x.den : ℤ) + 1) * (x.den : ℚ) :=
          mul_le_mul_of_nonneg_left qb1 (le_of_lt (pow2_pos _))
  unfold exponentOf
  simp only
  split_ifs with hlt
  · refine ⟨hlow, ?_⟩
    have : (bitLength x.num.natAbs : ℤ) - (bitLength x.den : ℤ) - 1 + 1
        = (bitLength x.num.natAbs : ℤ) - (bitLength x.den : ℤ) := by ring
    rw [this]
    exact hlt
  · exact ⟨not_lt.mp hlt, hhigh⟩

theorem roundHalfEven_error (z : ℚ) : |(roundHalfEven z : ℚ) - z| ≤ 1 / 2 := by
  have h1 : ((⌊z⌋ : ℤ) : ℚ) ≤ z := Int.floor_le z
  have h2 : z < ((⌊z⌋ : ℤ) : ℚ) + 1 := Int.lt_floor_add_one z
  unfold roundHalfEven
  rw [abs_le]
  split_ifs with c1 c2 c3
  · constructor <;> linarith
  · push_cast
    constructor <;> linarith
  · constructor <;> linarith
  · push_cast
    constructor <;> linarith

/-- Rounding to an integer does not pass an integer. -/
theorem roundHalfEven_le (z : ℚ) (n : ℤ) (h : z ≤ n) : roundHalfEven z ≤ n := by
  have h1 : ((⌊z⌋ : ℤ) : ℚ) ≤ z := Int.floor_le z
  have hfl : ⌊z⌋ ≤ n := by
    have : ((⌊z⌋ : ℤ) : ℚ) ≤ (n : ℚ) := le_trans h1 h
    exact_mod_cast this
  by_cases hlt : ⌊z⌋ < n
  · unfold roundHalfEven
    split_ifs <;> omega
  · have heq : ⌊z⌋ = n := le_antisymm hfl (not_lt.mp hlt)
    have hz : z = (n : ℚ) := by
      apply le_antisymm h
      rw [← heq]
      exact h1
    unfold roundHalfEven
    rw [heq, hz]
    simp

theorem spacing_of_pos (x : ℚ) (hx : 0 < x) :
    spacing x = pow2 (max (exponentOf x - 52) (-1074)) := by
  unfold spacing
  rw [abs_of_pos hx]

/-- The spacing of the values around `x > 0` is at most `x / 2 ^ 52`, or the
spacing of the smallest values. -/
theorem spacing_le (x : ℚ) (hx : 0 < x) : spacing x ≤ x / 2 ^ 52 + 1 / 2 ^ 1074 := by
  rw [spacing_of_pos x hx]
  have hpos : (0 : ℚ) < x / 2 ^ 52 := by positivity
  rcases le_total (exponentOf x - 52) (-1074) with h | h
  · rw [max_eq_right h]
    have : pow2 (-1074) = 1 / 2 ^ 1074 := by
      rw [pow2_eq_zpow]
      norm_num [zpow_neg]
    rw [this]
    linarith
  · rw [max_eq_left h]
    have hsplit : pow2 (exponentOf x - 52) = pow2 (exponentOf x) * pow2 (-52) := by
      rw [← pow2_add]
      congr 1
    have h52 : pow2 (-52) = 1 / 2 ^ 52 := by
      rw [pow2_eq_zpow]
      norm_num [zpow_neg]
    rw [hsplit, h52]
    have := (exponentOf_spec x hx).1
    have h1074 : (0 : ℚ) < 1 / 2 ^ 1074 := by positivity
    calc pow2 (exponentOf x) * (1 / 2 ^ 52) ≤ x * (1 / 2 ^ 52) :=
          mul_le_mul_of_nonneg_right this (by positivity)
      _ = x / 2 ^ 52 := by ring
      _ ≤ x / 2 ^ 52 + 1 / 2 ^ 1074 := by linarith

theorem binary64_of_pos (x : ℚ) (hx : 0 < x) :
    binary64 x = roundHalfEven (x / spacing x) * spacing x := by
  unfold binary64
  rw [if_neg (ne_of_gt hx), if_neg (not_lt.mpr (le_of_lt hx))]

/-- One rounding is off by at most half the spacing: a relative error of
`2 ^ (-53)`, or half the spacing of the smallest values. -/
theorem binary64_error (x : ℚ) (hx : 0 ≤ x) :
    |binary64 x - x| ≤ x / 2 ^ 53 + 1 / 2 ^ 1075 := by
  rcases eq_or_lt_of_le hx with h0 | hpos
  · rw [← h0, binary64_zero]
    norm_num
  · have hs := spacing_pos x
    have herr := roundHalfEven_error (x / spacing x)
    have hle := spacing_le x hpos
    rw [binary64_of_pos x hpos]
    have hx' : x = x / spacing x * spacing x := by
      field_simp
    have : (roundHalfEven (x / spacing x) : ℚ) * spacing x - x
        = ((roundHalfEven (x / spacing x) : ℚ) - x / spacing x) * spacing x := by
      rw [sub_mul, ← hx']
    rw [this, abs_mul, abs_of_pos hs]
    calc |(roundHalfEven (x / spacing x) : ℚ) - x / spacing x| * spacing x
        ≤ 1 / 2 * spacing x := mul_le_mul_of_nonneg_right herr (le_of_lt hs)
      _ ≤ 1 / 2 * (x / 2 ^ 52 + 1 / 2 ^ 1074) :=
          mul_le_mul_of_nonneg_left hle (by norm_num)
      _ = x / 2 ^ 53 + 1 / 2 ^ 1075 := by ring

/-! ## The values of the rounding -/

theorem isBinary64_zero : IsBinary64 0 := ⟨0, 0, by norm_num, by norm_num, by simp⟩

theorem isBinary64_neg (y : ℚ) (h : IsBinary64 y) : IsBinary64 (-y) := by
  obtain ⟨m, e, he, hm, rfl⟩ := h
  exact ⟨-m, e, he, by rwa [abs_neg], by push_cast; ring⟩

theorem isBinary64_abs (y : ℚ) (h : IsBinary64 y) : IsBinary64 |y| := by
  rcases abs_choice y with h' | h'
  · rw [h']; exact h
  · rw [h']; exact isBinary64_neg y h

theorem binary64_isBinary64_of_pos (x : ℚ) (hx : 0 < x) : IsBinary64 (binary64 x) := by
  have hs := spacing_pos x
  obtain ⟨_, hup⟩ := exponentOf_spec x hx
  refine ⟨roundHalfEven (x / spacing x), max (exponentOf x - 52) (-1074), le_max_right _ _,
    ?_, ?_⟩
  · have hnn : 0 ≤ roundHalfEven (x / spacing x) :=
      roundHalfEven_nonneg _ (div_nonneg (le_of_lt hx) (le_of_lt hs))
    rw [abs_of_nonneg hnn]
    have hbound : x / spacing x ≤ ((2 ^ 53 : ℤ) : ℚ) := by
      rw [div_le_iff₀ hs, spacing_of_pos x hx]
      have hsplit : pow2 (exponentOf x + 1) = ((2 ^ 53 : ℤ) : ℚ) * pow2 (exponentOf x - 52) := by
        have h53 : ((2 ^ 53 : ℤ) : ℚ) = pow2 53 := by
          rw [pow2_eq_zpow]
          norm_num
        rw [h53, ← pow2_add]
        congr 1
        ring
      calc x ≤ pow2 (exponentOf x + 1) := le_of_lt hup
        _ = ((2 ^ 53 : ℤ) : ℚ) * pow2 (exponentOf x - 52) := hsplit
        _ ≤ ((2 ^ 53 : ℤ) : ℚ) * pow2 (max (exponentOf x - 52) (-1074)) :=
            mul_le_mul_of_nonneg_left (pow2_le_pow2 _ _ (le_max_left _ _)) (by positivity)
    exact roundHalfEven_le _ _ hbound
  · rw [binary64_of_pos x hx, spacing_of_pos x hx]

theorem binary64_neg (x : ℚ) : binary64 (-x) = -binary64 x := by
  rcases lt_trichotomy x 0 with h | h | h
  · have hs : spacing (-x) = spacing x := by unfold spacing; rw [abs_neg]
    have hpos : 0 < -x := neg_pos.mpr h
    rw [binary64_of_pos (-x) hpos, hs]
    unfold binary64
    rw [if_neg (ne_of_lt h), if_pos h, neg_neg]
  · rw [h]; simp [binary64_zero]
  · have hs : spacing (-x) = spacing x := by unfold spacing; rw [abs_neg]
    have hneg : -x < 0 := neg_neg_of_pos h
    rw [binary64_of_pos x h]
    unfold binary64
    rw [if_neg (ne_of_lt hneg), if_pos hneg, neg_neg, hs]

/-- Every result of the rounding is one of its values. -/
theorem binary64_isBinary64 (x : ℚ) : IsBinary64 (binary64 x) := by
  rcases lt_trichotomy x 0 with h | h | h
  · have := binary64_isBinary64_of_pos (-x) (neg_pos.mpr h)
    rw [binary64_neg] at this
    have h2 := isBinary64_neg _ this
    rwa [neg_neg] at h2
  · rw [h, binary64_zero]; exact isBinary64_zero
  · exact binary64_isBinary64_of_pos x h

/-- Rounding a number does not pass a value of the rounding that lies above
it. -/
theorem binary64_le_of_isBinary64 (x y : ℚ) (hx : 0 ≤ x) (hxy : x ≤ y) (hy : IsBinary64 y) :
    binary64 x ≤ y := by
  rcases eq_or_lt_of_le hx with h0 | hpos
  · rw [← h0, binary64_zero]
    exact le_trans hx hxy
  · obtain ⟨m, e, he, hm, rfl⟩ := hy
    have hs := spacing_pos x
    obtain ⟨hlow, _⟩ := exponentOf_spec x hpos
    have hpe := pow2_pos e
    have hmpos : 0 < m := by
      have h1 : (0 : ℚ) < (m : ℚ) * pow2 e := lt_of_lt_of_le hpos hxy
      have h2 : (0 : ℚ) < (m : ℚ) := by
        by_contra hcon
        push_neg at hcon
        have : (m : ℚ) * pow2 e ≤ 0 := mul_nonpos_of_nonpos_of_nonneg hcon (le_of_lt hpe)
        linarith
      exact_mod_cast h2
    have hm' : m ≤ 2 ^ 53 := le_trans (le_abs_self m) hm
    rw [binary64_of_pos x hpos]
    by_cases hcase : max (exponentOf x - 52) (-1074) ≤ e
    · -- the value above lies on the grid around `x`
      obtain ⟨k, hk⟩ := Int.eq_ofNat_of_zero_le (sub_nonneg.mpr hcase)
      have hpow : pow2 e = ((2 ^ k : ℕ) : ℚ) * spacing x := by
        rw [spacing_of_pos x hpos, ← pow2_natCast, ← hk, ← pow2_add]
        congr 1
        ring
      have hint : x / spacing x ≤ ((m * (2 ^ k : ℕ) : ℤ) : ℚ) := by
        rw [div_le_iff₀ hs]
        push_cast
        calc x ≤ (m : ℚ) * pow2 e := hxy
          _ = (m : ℚ) * (2 : ℚ) ^ k * spacing x := by rw [hpow]; push_cast; ring
      have hr := roundHalfEven_le _ _ hint
      have hr' : (roundHalfEven (x / spacing x) : ℚ) ≤ ((m * (2 ^ k : ℕ) : ℤ) : ℚ) := by
        exact_mod_cast hr
      calc (roundHalfEven (x / spacing x) : ℚ) * spacing x
          ≤ ((m * (2 ^ k : ℕ) : ℤ) : ℚ) * spacing x :=
            mul_le_mul_of_nonneg_right hr' (le_of_lt hs)
        _ = (m : ℚ) * pow2 e := by rw [hpow]; push_cast; ring
    · -- the value above is the power of 2 that starts the range of `x`
      push_neg at hcase
      have hmax : max (exponentOf x - 52) (-1074) = exponentOf x - 52 := by
        apply max_eq_left
        by_contra hcon
        push_neg at hcon
        rw [max_eq_right (le_of_lt hcon)] at hcase
        omega
      rw [hmax] at hcase
      have hle : (m : ℚ) * pow2 e ≤ pow2 (exponentOf x) := by
        have h53 : ((2 ^ 53 : ℤ) : ℚ) = pow2 53 := by
          rw [pow2_eq_zpow]
          norm_num
        have hmq : (m : ℚ) ≤ ((2 ^ 53 : ℤ) : ℚ) := by exact_mod_cast hm'
        calc (m : ℚ) * pow2 e ≤ ((2 ^ 53 : ℤ) : ℚ) * pow2 e :=
              mul_le_mul_of_nonneg_right hmq (le_of_lt hpe)
          _ = pow2 (53 + e) := by rw [h53, ← pow2_add]
          _ ≤ pow2 (exponentOf x) := pow2_le_pow2 _ _ (by omega)
      have hxeq : x = pow2 (exponentOf x) := le_antisymm (le_trans hxy hle) hlow
      have hyeq : (m : ℚ) * pow2 e = pow2 (exponentOf x) :=
        le_antisymm hle (le_trans hlow hxy)
      have hsx : spacing x = pow2 (exponentOf x - 52) := by
        rw [spacing_of_pos x hpos, hmax]
      have hsplit : pow2 (exponentOf x) = ((2 ^ 52 : ℤ) : ℚ) * pow2 (exponentOf x - 52) := by
        have h52 : ((2 ^ 52 : ℤ) : ℚ) = pow2 52 := by
          rw [pow2_eq_zpow]
          norm_num
        rw [h52, ← pow2_add]
        congr 1
        ring
      have hint : x / spacing x ≤ ((2 ^ 52 : ℤ) : ℚ) := by
        rw [div_le_iff₀ hs, hsx, ← hsplit]
        exact le_of_eq hxeq
      have hr := roundHalfEven_le _ _ hint
      have hr' : (roundHalfEven (x / spacing x) : ℚ) ≤ ((2 ^ 52 : ℤ) : ℚ) := by
        exact_mod_cast hr
      rw [hyeq]
      calc (roundHalfEven (x / spacing x) : ℚ) * spacing x
          ≤ ((2 ^ 52 : ℤ) : ℚ) * spacing x := mul_le_mul_of_nonneg_right hr' (le_of_lt hs)
        _ = pow2 (exponentOf x) := by rw [hsx, ← hsplit]

/-! ## The loop in the numbers of the host language -/

theorem payDebtor64_nil (d : String) (r : ℚ) : F64.payDebtor d r [] = ([], [], r) := rfl

theorem payDebtor64_skip (d : String) (r : ℚ) (c : FamilyBalance) (cs : List FamilyBalance)
    (h : r ≤ 0 ∨ c.balance ≤ 0) :
    F64.payDebtor d r (c :: cs)
      = (c :: (F64.payDebtor d r cs).1, (F64.payDebtor d r cs).2.1,
          (F64.payDebtor d r cs).2.2) := by
  rw [F64.payDebtor]; simp [h]

theorem payDebtor64_pay (d : String) (r : ℚ) (c : FamilyBalance) (cs : List FamilyBalance)
    (hr : 0 < r) (hc : 0 < c.balance) :
    F64.payDebtor d r (c :: cs)
      = ({ c with balance := F64.sub c.balance (min r c.balance) }
            :: (F64.payDebtor d (F64.sub r (min r c.balance)) cs).1,
          { from_ := d, to_ := c.family, amount := min r c.balance }
            :: (F64.payDebtor d (F64.sub r (min r c.balance)) cs).2.1,
          (F64.payDebtor d (F64.sub r (min r c.balance)) cs).2.2) := by
  have h1 : ¬ (r ≤ 0 ∨ c.balance ≤ 0) := by
    push_neg; exact ⟨hr, hc⟩
  have h2 : min r c.balance > 0 := lt_min hr hc
  rw [F64.payDebtor]; simp only [h1, h2, if_true, if_false]

/-- A debtor with nothing left to pay leaves the creditors as they are. -/
theorem payDebtor64_done (d : String) (r : ℚ) (hr : r ≤ 0) (cs : List FamilyBalance) :
    F64.payDebtor d r cs = (cs, [], r) := by
  induction cs with
  | nil => rfl
  | cons c cs ih => rw [payDebtor64_skip d r c cs (Or.inl hr), ih]

/-- Creditors with nothing left to receive are left as they are. -/
theorem payDebtor64_idle (d : String) (r : ℚ) (cs : List FamilyBalance)
    (hcs : ∀ c ∈ cs, c.balance ≤ 0) : F64.payDebtor d r cs = (cs, [], r) := by
  induction cs with
  | nil => rfl
  | cons c cs ih =>
    rw [payDebtor64_skip d r c cs (Or.inr (hcs c (List.mem_cons_self _ _))),
      ih (fun x hx => hcs x (List.mem_cons_of_mem _ hx))]

/-- The two cases of one pass of the inner loop body. -/
theorem payDebtor64_cases (d : String) (r : ℚ) (c : FamilyBalance) (cs : List FamilyBalance) :
    ((r ≤ 0 ∨ c.balance ≤ 0) ∧
      F64.payDebtor d r (c :: cs)
        = (c :: (F64.payDebtor d r cs).1, (F64.payDebtor d r cs).2.1,
            (F64.payDebtor d r cs).2.2)) ∨
    ((0 < r ∧ 0 < c.balance) ∧
      F64.payDebtor d r (c :: cs)
        = ({ c with balance := F64.sub c.balance (min r c.balance) }
              :: (F64.payDebtor d (F64.sub r (min r c.balance)) cs).1,
            { from_ := d, to_ := c.family, amount := min r c.balance }
              :: (F64.payDebtor d (F64.sub r (min r c.balance)) cs).2.1,
            (F64.payDebtor d (F64.sub r (min r c.balance)) cs).2.2)) := by
  by_cases h : r ≤ 0 ∨ c.balance ≤ 0
  · exact Or.inl ⟨h, payDebtor64_skip d r c cs h⟩
  · push_neg at h
    exact Or.inr ⟨h, payDebtor64_pay d r c cs h.1 h.2⟩

/-- The end of one debtor's inner loop: nothing has become negative, and the
debt is paid or no creditor has credit left. -/
theorem payDebtor64_end (d : String) (cs : List FamilyBalance) (r : ℚ) (hr : 0 ≤ r)
    (hcs : ∀ c ∈ cs, 0 ≤ c.balance) :
    0 ≤ (F64.payDebtor d r cs).2.2 ∧
    (∀ c ∈ (F64.payDebtor d r cs).1, 0 ≤ c.balance) ∧
    ((F64.payDebtor d r cs).2.2 = 0 ∨ ∀ c ∈ (F64.payDebtor d r cs).1, c.balance = 0) := by
  induction cs generalizing r with
  | nil => exact ⟨hr, by simp [payDebtor64_nil], Or.inr (by simp [payDebtor64_nil])⟩
  | cons c cs ih =>
    have hc0 : 0 ≤ c.balance := hcs c (List.mem_cons_self _ _)
    have hcs' : ∀ x ∈ cs, 0 ≤ x.balance := fun x hx => hcs x (List.mem_cons_of_mem _ hx)
    rcases payDebtor64_cases d r c cs with ⟨hskip, e⟩ | ⟨⟨hrpos, hcpos⟩, e⟩
    · rw [e]
      obtain ⟨i1, i2, i3⟩ := ih r hr hcs'
      refine ⟨i1, ?_, ?_⟩
      · intro x hx
        rcases List.mem_cons.mp hx with rfl | hx
        · exact hc0
        · exact i2 x hx
      · rcases hskip with hr0 | hc
        · left
          show (F64.payDebtor d r cs).2.2 = 0
          rw [payDebtor64_done d r hr0 cs]
          exact le_antisymm hr0 hr
        · rcases i3 with h | h
          · exact Or.inl h
          · right
            intro x hx
            rcases List.mem_cons.mp hx with rfl | hx
            · exact le_antisymm hc hc0
            · exact h x hx
    · rw [e]
      have hr' : 0 ≤ F64.sub r (min r c.balance) := sub64_nonneg _ _ (min_le_left _ _)
      have hc' : 0 ≤ F64.sub c.balance (min r c.balance) := sub64_nonneg _ _ (min_le_right _ _)
      obtain ⟨i1, i2, i3⟩ := ih (F64.sub r (min r c.balance)) hr' hcs'
      refine ⟨i1, ?_, ?_⟩
      · intro x hx
        rcases List.mem_cons.mp hx with rfl | hx
        · exact hc'
        · exact i2 x hx
      · rcases le_total r c.balance with hle | hle
        · left
          show (F64.payDebtor d (F64.sub r (min r c.balance)) cs).2.2 = 0
          rw [min_eq_left hle, sub64_self, payDebtor64_done d 0 (le_refl 0) cs]
        · rcases i3 with h | h
          · exact Or.inl h
          · right
            intro x hx
            rcases List.mem_cons.mp hx with rfl | hx
            · show F64.sub c.balance (min r c.balance) = 0
              rw [min_eq_right hle, sub64_self]
            · exact h x hx

theorem settleLoop64_nil (cs : List FamilyBalance) : F64.settleLoop [] cs = (cs, []) := rfl

theorem settleLoop64_cons (d : FamilyBalance) (ds cs : List FamilyBalance) :
    F64.settleLoop (d :: ds) cs
      = ((F64.settleLoop ds (F64.payDebtor d.family |d.balance| cs).1).1,
          (F64.payDebtor d.family |d.balance| cs).2.1
            ++ (F64.settleLoop ds (F64.payDebtor d.family |d.balance| cs).1).2) := rfl

theorem remainingDebts64_cons (d : FamilyBalance) (ds cs : List FamilyBalance) :
    F64.remainingDebts (d :: ds) cs
      = (F64.payDebtor d.family |d.balance| cs).2.2
          :: F64.remainingDebts ds (F64.payDebtor d.family |d.balance| cs).1 := rfl

/-- Without credit the loop changes nothing. -/
theorem settleLoop64_idle (ds cs : List FamilyBalance) (hcs : ∀ c ∈ cs, c.balance ≤ 0) :
    F64.settleLoop ds cs = (cs, []) := by
  induction ds with
  | nil => rfl
  | cons d ds ih =>
    rw [settleLoop64_cons, payDebtor64_idle d.family _ cs hcs, ih]
    rfl

theorem remainingDebts64_length (ds cs : List FamilyBalance) :
    (F64.remainingDebts ds cs).length = ds.length := by
  induction ds generalizing cs with
  | nil => rfl
  | cons d ds ih => rw [remainingDebts64_cons, List.length_cons, ih, List.length_cons]

/-- The end of the loop: no remaining debt and no working balance is negative,
and every debt is paid or no creditor has credit left. -/
theorem settleLoop64_end (ds cs : List FamilyBalance) (hcs : ∀ c ∈ cs, 0 ≤ c.balance) :
    (∀ r ∈ F64.remainingDebts ds cs, 0 ≤ r) ∧
    (∀ c ∈ (F64.settleLoop ds cs).1, 0 ≤ c.balance) ∧
    ((∀ r ∈ F64.remainingDebts ds cs, r = 0) ∨
      ∀ c ∈ (F64.settleLoop ds cs).1, c.balance = 0) := by
  induction ds generalizing cs with
  | nil =>
    exact ⟨by intro r hr; simp [F64.remainingDebts] at hr, by simpa [settleLoop64_nil] using hcs,
      Or.inl (by intro r hr; simp [F64.remainingDebts] at hr)⟩
  | cons d ds ih =>
    obtain ⟨p1, p2, p3⟩ := payDebtor64_end d.family cs |d.balance| (abs_nonneg _) hcs
    obtain ⟨i1, i2, i3⟩ := ih (F64.payDebtor d.family |d.balance| cs).1 p2
    rw [settleLoop64_cons, remainingDebts64_cons]
    refine ⟨?_, i2, ?_⟩
    · intro r hr
      rcases List.mem_cons.mp hr with rfl | hr
      · exact p1
      · exact i1 r hr
    · rcases p3 with h0 | hall
      · rcases i3 with h | h
        · left
          intro r hr
          rcases List.mem_cons.mp hr with rfl | hr
          · exact h0
          · exact h r hr
        · exact Or.inr h
      · right
        show ∀ c ∈ (F64.settleLoop ds (F64.payDebtor d.family |d.balance| cs).1).1, c.balance = 0
        rw [settleLoop64_idle ds _ (fun c hc => le_of_eq (hall c hc))]
        exact hall

theorem mem_debtors64 (bs : List FamilyBalance) (b : FamilyBalance) :
    b ∈ F64.debtors bs ↔ b ∈ bs ∧ b.balance < 0 := by
  unfold F64.debtors
  rw [(sortBy_perm _ _).mem_iff]
  simp

theorem mem_creditors64 (bs : List FamilyBalance) (b : FamilyBalance) :
    b ∈ F64.creditors bs ↔ b ∈ bs ∧ 0 < b.balance := by
  unfold F64.creditors
  rw [(sortBy_perm _ _).mem_iff]
  simp

theorem creditors64_nonneg (bs : List FamilyBalance) : ∀ c ∈ F64.creditors bs, 0 ≤ c.balance :=
  fun c hc => le_of_lt ((mem_creditors64 bs c).mp hc).2

theorem payDebtor64_transfer (d : String) (cs : List FamilyBalance) (r : ℚ) :
    ∀ t ∈ (F64.payDebtor d r cs).2.1, t.from_ = d ∧ 0 < t.amount := by
  induction cs generalizing r with
  | nil => intro t ht; simp [payDebtor64_nil] at ht
  | cons c cs ih =>
    intro t ht
    rcases payDebtor64_cases d r c cs with ⟨_, h⟩ | ⟨⟨hr, hc⟩, h⟩
    · rw [h] at ht
      exact ih r t ht
    · rw [h] at ht
      simp only [List.mem_cons] at ht
      rcases ht with rfl | ht
      · exact ⟨rfl, lt_min hr hc⟩
      · exact ih _ t ht

theorem settleLoop64_transfer (ds cs : List FamilyBalance) :
    ∀ t ∈ (F64.settleLoop ds cs).2, 0 < t.amount := by
  induction ds generalizing cs with
  | nil => intro t ht; simp [settleLoop64_nil] at ht
  | cons d ds ih =>
    intro t ht
    rw [settleLoop64_cons] at ht
    simp only [List.mem_append] at ht
    rcases ht with ht | ht
    · exact (payDebtor64_transfer d.family cs _ t ht).2
    · exact ih _ t ht

/-! ## The accounts of the loop in the numbers of the host language -/

/-- The subtraction of lines 124 and 125, of an amount that is not above the
number it is taken from: the result is not negative, not above that number,
and off the exact difference by at most one rounding. -/
theorem sub64_account (r a : ℚ) (ha : 0 ≤ a) (har : a ≤ r) (hr : IsBinary64 r) :
    0 ≤ F64.sub r a ∧ F64.sub r a ≤ r ∧ IsBinary64 (F64.sub r a) ∧
    |F64.sub r a - (r - a)| ≤ r / 2 ^ 53 + 1 / 2 ^ 1075 := by
  have hx : 0 ≤ r - a := sub_nonneg.mpr har
  refine ⟨sub64_nonneg r a har, ?_, binary64_isBinary64 _, ?_⟩
  · exact binary64_le_of_isBinary64 (r - a) r hx (by linarith) hr
  · have h := binary64_error (r - a) hx
    have hle : (r - a) / 2 ^ 53 ≤ r / 2 ^ 53 := by
      apply div_le_div_of_nonneg_right _ (by positivity)
      linarith
    unfold F64.sub
    linarith

/-- The account of one debtor's inner loop: what is sent and what is left add
up to the debt, up to one rounding for each transfer. -/
theorem payDebtor64_account (d : String) (cs : List FamilyBalance) (r : ℚ) (hr : 0 ≤ r)
    (hgrid : IsBinary64 r) :
    (F64.payDebtor d r cs).2.2 ≤ r ∧
    |totalAmount (F64.payDebtor d r cs).2.1 + (F64.payDebtor d r cs).2.2 - r|
      ≤ ((F64.payDebtor d r cs).2.1.length : ℚ) * (r / 2 ^ 53 + 1 / 2 ^ 1075) := by
  induction cs generalizing r with
  | nil => simp [payDebtor64_nil, totalAmount]
  | cons c cs ih =>
    rcases payDebtor64_cases d r c cs with ⟨_, e⟩ | ⟨⟨hrpos, hcpos⟩, e⟩
    · rw [e]
      exact ih r hr hgrid
    · rw [e]
      have hapos : 0 < min r c.balance := lt_min hrpos hcpos
      obtain ⟨s1, s2, s3, s4⟩ := sub64_account r (min r c.balance) (le_of_lt hapos)
        (min_le_left _ _) hgrid
      obtain ⟨i1, i2⟩ := ih (F64.sub r (min r c.balance)) s1 s3
      refine ⟨le_trans i1 s2, ?_⟩
      have hunit : (0 : ℚ) ≤ 1 / 2 ^ 1075 := by positivity
      have hmono : F64.sub r (min r c.balance) / 2 ^ 53 + 1 / 2 ^ 1075
          ≤ r / 2 ^ 53 + 1 / 2 ^ 1075 := by
        have : F64.sub r (min r c.balance) / 2 ^ 53 ≤ r / 2 ^ 53 :=
          div_le_div_of_nonneg_right s2 (by positivity)
        linarith
      have hk : (0 : ℚ) ≤ ((F64.payDebtor d (F64.sub r (min r c.balance)) cs).2.1.length : ℚ) :=
        Nat.cast_nonneg _
      have i2' := le_trans i2 (mul_le_mul_of_nonneg_left hmono hk)
      simp only [totalAmount, List.map_cons, List.sum_cons, List.length_cons, Nat.cast_add,
        Nat.cast_one] at i2' ⊢
      rw [abs_le] at i2' s4 ⊢
      constructor <;> nlinarith [i2'.1, i2'.2, s4.1, s4.2]

theorem settleLoop64_from (ds cs : List FamilyBalance) :
    ∀ t ∈ (F64.settleLoop ds cs).2, ∃ d ∈ ds, d.family = t.from_ := by
  induction ds generalizing cs with
  | nil => intro t ht; simp [settleLoop64_nil] at ht
  | cons d ds ih =>
    intro t ht
    rw [settleLoop64_cons] at ht
    simp only [List.mem_append] at ht
    rcases ht with ht | ht
    · exact ⟨d, List.mem_cons_self _ _, ((payDebtor64_transfer d.family cs _ t ht).1).symm⟩
    · obtain ⟨x, hx, h⟩ := ih _ t ht
      exact ⟨x, List.mem_cons_of_mem _ hx, h⟩

theorem filter_from_eq_self (n : String) (ts : List Transfer) (h : ∀ t ∈ ts, t.from_ = n) :
    ts.filter (fun t => t.from_ = n) = ts := by
  rw [List.filter_eq_self]
  intro t ht
  simpa using h t ht

theorem filter_from_eq_nil (n : String) (ts : List Transfer) (h : ∀ t ∈ ts, t.from_ ≠ n) :
    ts.filter (fun t => t.from_ = n) = [] := by
  rw [List.filter_eq_nil_iff]
  intro t ht
  simpa using h t ht

/-- The account of every debtor, when the debtors have distinct names: what the
debtor sends and what it is left owing add up to its debt, up to one rounding
for each of its transfers. -/
theorem settleLoop64_sent (ds cs : List FamilyBalance)
    (hnd : (ds.map (fun d => d.family)).Nodup) (hgrid : ∀ d ∈ ds, IsBinary64 d.balance) :
    ∀ p ∈ ds.zip (F64.remainingDebts ds cs),
      |sentBy p.1.family (F64.settleLoop ds cs).2 + p.2 - abs p.1.balance|
        ≤ (((F64.settleLoop ds cs).2.filter (fun t => t.from_ = p.1.family)).length : ℚ)
            * (|p.1.balance| / 2 ^ 53 + 1 / 2 ^ 1075) := by
  induction ds generalizing cs with
  | nil => intro p hp; simp at hp
  | cons d ds ih =>
    simp only [List.map_cons, List.nodup_cons] at hnd
    intro p hp
    rw [remainingDebts64_cons, List.zip_cons_cons, List.mem_cons] at hp
    rw [settleLoop64_cons]
    show |sentBy p.1.family ((F64.payDebtor d.family |d.balance| cs).2.1
        ++ (F64.settleLoop ds (F64.payDebtor d.family |d.balance| cs).1).2) + p.2
          - abs p.1.balance|
      ≤ ((((F64.payDebtor d.family |d.balance| cs).2.1
          ++ (F64.settleLoop ds (F64.payDebtor d.family |d.balance| cs).1).2).filter
            (fun t => t.from_ = p.1.family)).length : ℚ) * _
    rw [sentBy_append, List.filter_append, List.length_append]
    rcases hp with rfl | hp
    · have hlater : ∀ t ∈ (F64.settleLoop ds (F64.payDebtor d.family |d.balance| cs).1).2,
          t.from_ ≠ d.family := by
        intro t ht habs
        obtain ⟨y, hy, hyt⟩ := settleLoop64_from ds _ t ht
        apply hnd.1
        rw [← habs, ← hyt]
        exact List.mem_map_of_mem _ hy
      have hown : ∀ t ∈ (F64.payDebtor d.family |d.balance| cs).2.1, t.from_ = d.family :=
        fun t ht => (payDebtor64_transfer d.family cs _ t ht).1
      have hacc := (payDebtor64_account d.family cs |d.balance| (abs_nonneg _)
        (isBinary64_abs _ (hgrid d (List.mem_cons_self _ _)))).2
      simp only
      rw [sentBy_eq_total _ _ hown, sentBy_eq_zero _ _ hlater, filter_from_eq_self _ _ hown,
        filter_from_eq_nil _ _ hlater]
      simpa using hacc
    · have hmem : p.1 ∈ ds := (List.of_mem_zip hp).1
      have hne : p.1.family ≠ d.family := by
        intro habs
        apply hnd.1
        rw [← habs]
        exact List.mem_map_of_mem _ hmem
      have hfirst : ∀ t ∈ (F64.payDebtor d.family |d.balance| cs).2.1,
          t.from_ ≠ p.1.family := by
        intro t ht habs
        exact hne (by rw [← habs, (payDebtor64_transfer d.family cs _ t ht).1])
      have hrec := ih (F64.payDebtor d.family |d.balance| cs).1 hnd.2
        (fun x hx => hgrid x (List.mem_cons_of_mem _ hx)) p hp
      rw [sentBy_eq_zero _ _ hfirst, filter_from_eq_nil _ _ hfirst]
      simpa using hrec

theorem receivedBy_cons (n : String) (t : Transfer) (ts : List Transfer) :
    receivedBy n (t :: ts) = (if t.to_ = n then t.amount else 0) + receivedBy n ts := by
  simp only [receivedBy, totalAmount]
  by_cases h : t.to_ = n
  · simp [List.filter_cons, h]
  · simp [List.filter_cons, h]

theorem creditOf_cons (n : String) (c : FamilyBalance) (cs : List FamilyBalance) :
    creditOf n (c :: cs) = (if c.family = n then c.balance else 0) + creditOf n cs := by
  simp only [creditOf, totalBalance]
  by_cases h : c.family = n
  · simp [List.filter_cons, h]
  · simp [List.filter_cons, h]

theorem count_to_cons (n : String) (t : Transfer) (ts : List Transfer) :
    (((t :: ts).filter (fun t => t.to_ = n)).length : ℚ)
      = (if t.to_ = n then 1 else 0) + ((ts.filter (fun t => t.to_ = n)).length : ℚ) := by
  by_cases h : t.to_ = n
  · simp [List.filter_cons, h, add_comm]
  · simp [List.filter_cons, h]

/-- The account of the creditors of one name in one debtor's inner loop: what
the name receives and what its entries keep add up to what they had, up to one
rounding for each transfer to the name. -/
theorem payDebtor64_credit (d n : String) (bound : ℚ) (cs : List FamilyBalance) (r : ℚ)
    (hcs : ∀ c ∈ cs, 0 ≤ c.balance ∧ IsBinary64 c.balance ∧ (c.family = n → c.balance ≤ bound)) :
    (∀ c ∈ (F64.payDebtor d r cs).1,
      0 ≤ c.balance ∧ IsBinary64 c.balance ∧ (c.family = n → c.balance ≤ bound)) ∧
    |receivedBy n (F64.payDebtor d r cs).2.1 + creditOf n (F64.payDebtor d r cs).1
        - creditOf n cs|
      ≤ (((F64.payDebtor d r cs).2.1.filter (fun t => t.to_ = n)).length : ℚ)
          * (bound / 2 ^ 53 + 1 / 2 ^ 1075) := by
  induction cs generalizing r with
  | nil => simp [payDebtor64_nil, receivedBy, totalAmount]
  | cons c cs ih =>
    have hc := hcs c (List.mem_cons_self _ _)
    have hcs' : ∀ x ∈ cs, 0 ≤ x.balance ∧ IsBinary64 x.balance ∧
        (x.family = n → x.balance ≤ bound) := fun x hx => hcs x (List.mem_cons_of_mem _ hx)
    rcases payDebtor64_cases d r c cs with ⟨_, e⟩ | ⟨⟨hrpos, hcpos⟩, e⟩
    · rw [e]
      obtain ⟨i1, i2⟩ := ih r hcs'
      refine ⟨?_, ?_⟩
      · intro x hx
        rcases List.mem_cons.mp hx with rfl | hx
        · exact hc
        · exact i1 x hx
      · simp only [creditOf_cons]
        have : receivedBy n (F64.payDebtor d r cs).2.1
            + ((if c.family = n then c.balance else 0) + creditOf n (F64.payDebtor d r cs).1)
            - ((if c.family = n then c.balance else 0) + creditOf n cs)
            = receivedBy n (F64.payDebtor d r cs).2.1 + creditOf n (F64.payDebtor d r cs).1
              - creditOf n cs := by ring
        rw [this]
        exact i2
    · rw [e]
      have hapos : 0 < min r c.balance := lt_min hrpos hcpos
      obtain ⟨s1, s2, s3, s4⟩ := sub64_account c.balance (min r c.balance) (le_of_lt hapos)
        (min_le_right _ _) hc.2.1
      obtain ⟨i1, i2⟩ := ih (F64.sub r (min r c.balance)) hcs'
      refine ⟨?_, ?_⟩
      · intro x hx
        rcases List.mem_cons.mp hx with rfl | hx
        · exact ⟨s1, s3, fun hn => le_trans s2 (hc.2.2 hn)⟩
        · exact i1 x hx
      · simp only [receivedBy_cons, creditOf_cons, count_to_cons]
        by_cases hn : c.family = n
        · have hb : c.balance ≤ bound := hc.2.2 hn
          have hmono : c.balance / 2 ^ 53 ≤ bound / 2 ^ 53 :=
            div_le_div_of_nonneg_right hb (by positivity)
          simp only [hn, if_true]
          rw [abs_le] at i2 s4 ⊢
          constructor <;> nlinarith [i2.1, i2.2, s4.1, s4.2]
        · simp only [hn, if_false]
          rw [abs_le] at i2 ⊢
          constructor <;> nlinarith [i2.1, i2.2]

/-- The account of the creditors of one name over the whole loop. -/
theorem settleLoop64_received (n : String) (bound : ℚ) (ds cs : List FamilyBalance)
    (hcs : ∀ c ∈ cs, 0 ≤ c.balance ∧ IsBinary64 c.balance ∧ (c.family = n → c.balance ≤ bound)) :
    |receivedBy n (F64.settleLoop ds cs).2 + creditOf n (F64.settleLoop ds cs).1
        - creditOf n cs|
      ≤ (((F64.settleLoop ds cs).2.filter (fun t => t.to_ = n)).length : ℚ)
          * (bound / 2 ^ 53 + 1 / 2 ^ 1075) := by
  induction ds generalizing cs with
  | nil => simp [settleLoop64_nil, receivedBy, totalAmount]
  | cons d ds ih =>
    obtain ⟨p1, p2⟩ := payDebtor64_credit d.family n bound cs |d.balance| hcs
    have i := ih (F64.payDebtor d.family |d.balance| cs).1 p1
    rw [settleLoop64_cons]
    show |receivedBy n ((F64.payDebtor d.family |d.balance| cs).2.1
        ++ (F64.settleLoop ds (F64.payDebtor d.family |d.balance| cs).1).2)
        + creditOf n (F64.settleLoop ds (F64.payDebtor d.family |d.balance| cs).1).1
        - creditOf n cs|
      ≤ ((((F64.payDebtor d.family |d.balance| cs).2.1
          ++ (F64.settleLoop ds (F64.payDebtor d.family |d.balance| cs).1).2).filter
            (fun t => t.to_ = n)).length : ℚ) * _
    rw [receivedBy_append, List.filter_append, List.length_append, Nat.cast_add]
    rw [abs_le] at p2 i ⊢
    constructor <;> nlinarith [p2.1, p2.2, i.1, i.2]

theorem familyBalances64_names (fs : List Family) (es : List Expense) :
    (F64.familyBalances fs es).map (fun b => b.family) = fs.map (fun f => f.name) := by
  simp [F64.familyBalances, F64.familyBalance, Function.comp]

theorem familyBalances64_isBinary64 (fs : List Family) (es : List Expense) :
    ∀ b ∈ F64.familyBalances fs es, IsBinary64 b.balance := by
  intro b hb
  simp only [F64.familyBalances, List.mem_map] at hb
  obtain ⟨f, _, rfl⟩ := hb
  exact binary64_isBinary64 _

theorem debtors64_nodup (bs : List FamilyBalance) (h : (bs.map (fun b => b.family)).Nodup) :
    ((F64.debtors bs).map (fun b => b.family)).Nodup := by
  unfold F64.debtors
  rw [((sortBy_perm _ _).map _).nodup_iff]
  exact nodup_filter_names bs _ h

theorem creditors64_nodup (bs : List FamilyBalance) (h : (bs.map (fun b => b.family)).Nodup) :
    ((F64.creditors bs).map (fun b => b.family)).Nodup := by
  unfold F64.creditors
  rw [((sortBy_perm _ _).map _).nodup_iff]
  exact nodup_filter_names bs _ h

theorem eq_of_family_eq (cs : List FamilyBalance) (h : (cs.map (fun b => b.family)).Nodup)
    (x c : FamilyBalance) (hx : x ∈ cs) (hc : c ∈ cs) (hname : x.family = c.family) : x = c := by
  induction cs with
  | nil => simp at hx
  | cons y cs ih =>
    simp only [List.map_cons, List.nodup_cons] at h
    rcases List.mem_cons.mp hx with rfl | hx' <;> rcases List.mem_cons.mp hc with rfl | hc'
    · rfl
    · exact absurd (by rw [hname]; exact List.mem_map_of_mem _ hc') h.1
    · exact absurd (by rw [← hname]; exact List.mem_map_of_mem _ hx') h.1
    · exact ih h.2 hx' hc'

/-- The account of every creditor of the handler, when family names are
distinct. -/
theorem creditors64_account (families : List Family) (expenses : List Expense)
    (hdistinct : (families.map (fun f => f.name)).Nodup) :
    ∀ c ∈ F64.creditors (F64.familyBalances families expenses),
      |receivedBy c.family (F64.transfers families expenses)
          + creditOf c.family
              (F64.settleLoop (F64.debtors (F64.familyBalances families expenses))
                (F64.creditors (F64.familyBalances families expenses))).1
          - c.balance|
        ≤ (((F64.transfers families expenses).filter
              (fun t => t.to_ = c.family)).length : ℚ)
            * (c.balance / 2 ^ 53 + 1 / 2 ^ 1075) := by
  intro c hc
  have hnames : ((F64.familyBalances families expenses).map (fun b => b.family)).Nodup := by
    rw [familyBalances64_names]
    exact hdistinct
  have hnd := creditors64_nodup _ hnames
  have hcs : ∀ x ∈ F64.creditors (F64.familyBalances families expenses),
      0 ≤ x.balance ∧ IsBinary64 x.balance ∧ (x.family = c.family → x.balance ≤ c.balance) := by
    intro x hx
    refine ⟨creditors64_nonneg _ x hx,
      familyBalances64_isBinary64 families expenses x ((mem_creditors64 _ x).mp hx).1, ?_⟩
    intro hname
    rw [eq_of_family_eq _ hnd x c hx hc hname]
  have h := settleLoop64_received c.family c.balance
    (F64.debtors (F64.familyBalances families expenses))
    (F64.creditors (F64.familyBalances families expenses)) hcs
  rw [creditOf_of_nodup _ hnd c hc] at h
  exact h

/-! ## Reconciliation -/

/-- C2, as the code has it. Debtor reconciliation. In exact arithmetic, for a
valid input, every family with a negative balance sends, over the unrounded
transfers whose `from` is that family, exactly the absolute value of its
balance, and every debtor's remaining debt is 0 when the loop ends. In the
arithmetic of the host language there is one remaining debt for each debtor,
none is negative, and a debtor is left with a remaining debt other than 0 only
when every creditor's working balance has reached 0; what a debtor sends and
the debt it is left with add up to the absolute value of its balance up to one
rounding for each of its transfers, a rounding being at most `2 ^ (-53)` of
that value plus `2 ^ (-1075)`. -/
theorem debtor_reconciliation (families : List Family) (expenses : List Expense)
    (hvalid : ValidInput families expenses) :
    ((∀ b ∈ familyBalances families expenses, b.balance < 0 →
        sentBy b.family (transfers families expenses) = |b.balance|) ∧
      (∀ r ∈ remainingDebts (debtors (familyBalances families expenses))
          (creditors (familyBalances families expenses)), r = 0)) ∧
    (F64.remainingDebts (F64.debtors (F64.familyBalances families expenses))
        (F64.creditors (F64.familyBalances families expenses))).length
      = (F64.debtors (F64.familyBalances families expenses)).length ∧
    (∀ r ∈ F64.remainingDebts (F64.debtors (F64.familyBalances families expenses))
        (F64.creditors (F64.familyBalances families expenses)), 0 ≤ r) ∧
    ((∃ r ∈ F64.remainingDebts (F64.debtors (F64.familyBalances families expenses))
        (F64.creditors (F64.familyBalances families expenses)), r ≠ 0) →
      ∀ c ∈ (F64.settleLoop (F64.debtors (F64.familyBalances families expenses))
          (F64.creditors (F64.familyBalances families expenses))).1, c.balance = 0) ∧
    (∀ p ∈ (F64.debtors (F64.familyBalances families expenses)).zip
        (F64.remainingDebts (F64.debtors (F64.familyBalances families expenses))
          (F64.creditors (F64.familyBalances families expenses))),
      |sentBy p.1.family (F64.transfers families expenses) + p.2 - abs p.1.balance|
        ≤ (((F64.transfers families expenses).filter
              (fun t => t.from_ = p.1.family)).length : ℚ)
            * (|p.1.balance| / 2 ^ 53 + 1 / 2 ^ 1075)) := by
  obtain ⟨h1, _, h3⟩ := settleLoop64_end (F64.debtors (F64.familyBalances families expenses))
    (F64.creditors (F64.familyBalances families expenses)) (creditors64_nonneg _)
  have hnames : ((F64.familyBalances families expenses).map (fun b => b.family)).Nodup := by
    rw [familyBalances64_names]
    exact hvalid.distinct
  refine ⟨debtors_settle_exactly families expenses hvalid, remainingDebts64_length _ _, h1, ?_,
    ?_⟩
  · rintro ⟨r, hr, hne⟩
    rcases h3 with h | h
    · exact absurd (h r hr) hne
    · exact h
  · exact settleLoop64_sent _ _ (debtors64_nodup _ hnames)
      (fun d hd => familyBalances64_isBinary64 families expenses d
        ((mem_debtors64 _ d).mp hd).1)

theorem debtor_reconciliation_witness :
    ValidInput residueFamilies residueExpenses ∧
    (∀ b ∈ familyBalances residueFamilies residueExpenses, b.balance < 0 →
      sentBy b.family (transfers residueFamilies residueExpenses) = |b.balance|) ∧
    F64.remainingDebts (F64.debtors (F64.familyBalances residueFamilies residueExpenses))
        (F64.creditors (F64.familyBalances residueFamilies residueExpenses)) = [0, 1 / 2 ^ 54] ∧
    (∀ c ∈ (F64.settleLoop (F64.debtors (F64.familyBalances residueFamilies residueExpenses))
        (F64.creditors (F64.familyBalances residueFamilies residueExpenses))).1,
      c.balance = 0) :=
  ⟨⟨by decide!, by decide!, by decide!, by decide!⟩,
    (debtor_reconciliation residueFamilies residueExpenses
      ⟨by decide!, by decide!, by decide!, by decide!⟩).1.1,
    by decide!,
    (debtor_reconciliation residueFamilies residueExpenses
      ⟨by decide!, by decide!, by decide!, by decide!⟩).2.2.2.1 (by decide!)⟩

/-- C2 as stated fails on the code: with families `A` (3 members), `B`, `C`
(2 members each) and `D` (1 member) and expenses of 0.30 by `B` and of 0.23 and
0.07 by `A`, the rounded balances are +0.07500000000000001, +0.14999999999999997,
-0.15000000000000002 and -0.07500000000000001; `C` pays `B` and then `A`, whose
credit is used up by `D`, and `D` is left with a debt of `2 ^ (-54)`: what `D`
sends is not the absolute value of its balance. -/
theorem debtor_left_with_residue :
    ValidInput residueFamilies residueExpenses ∧
    (F64.settlementsOf residueFamilies residueExpenses).settlements
      = [⟨"C", "B", "0.15"⟩, ⟨"C", "A", "0.00"⟩, ⟨"D", "A", "0.07"⟩] ∧
    (∃ b ∈ F64.familyBalances residueFamilies residueExpenses, b.family = "D" ∧ b.balance < 0 ∧
      sentBy b.family (F64.transfers residueFamilies residueExpenses) ≠ |b.balance|) ∧
    F64.debtors (F64.familyBalances residueFamilies residueExpenses)
      = (F64.familyBalances residueFamilies residueExpenses).drop 2 ∧
    F64.remainingDebts (F64.debtors (F64.familyBalances residueFamilies residueExpenses))
        (F64.creditors (F64.familyBalances residueFamilies residueExpenses)) = [0, 1 / 2 ^ 54] ∧
    ¬ ∀ r ∈ F64.remainingDebts (F64.debtors (F64.familyBalances residueFamilies residueExpenses))
        (F64.creditors (F64.familyBalances residueFamilies residueExpenses)), r = 0 := by
  refine ⟨⟨by decide!, by decide!, by decide!, by decide!⟩, by decide!, by decide!, by decide!,
    by decide!, by decide!⟩

/-- C3, as the code has it. Creditor reconciliation. In exact arithmetic, for
a valid input, every family with a positive balance receives, over the
unrounded transfers whose `to` is that family, exactly its balance, and when
the loop ends every creditor's working balance is 0. In the arithmetic of the
host language no working balance is negative when the loop ends, and a
creditor is left with a working balance other than 0 only when every debtor's
remaining debt has reached 0; what a creditor receives and the working balance
it is left with add up to its balance up to one rounding for each transfer it
receives, a rounding being at most `2 ^ (-53)` of that balance plus
`2 ^ (-1075)`. -/
theorem creditor_reconciliation (families : List Family) (expenses : List Expense)
    (hvalid : ValidInput families expenses) :
    ((∀ b ∈ familyBalances families expenses, 0 < b.balance →
        receivedBy b.family (transfers families expenses) = b.balance) ∧
      (∀ c ∈ (settleLoop (debtors (familyBalances families expenses))
          (creditors (familyBalances families expenses))).1, c.balance = 0)) ∧
    (∀ c ∈ (F64.settleLoop (F64.debtors (F64.familyBalances families expenses))
        (F64.creditors (F64.familyBalances families expenses))).1, 0 ≤ c.balance) ∧
    ((∃ c ∈ (F64.settleLoop (F64.debtors (F64.familyBalances families expenses))
        (F64.creditors (F64.familyBalances families expenses))).1, c.balance ≠ 0) →
      ∀ r ∈ F64.remainingDebts (F64.debtors (F64.familyBalances families expenses))
          (F64.creditors (F64.familyBalances families expenses)), r = 0) ∧
    (∀ c ∈ F64.creditors (F64.familyBalances families expenses),
      |receivedBy c.family (F64.transfers families expenses)
          + creditOf c.family
              (F64.settleLoop (F64.debtors (F64.familyBalances families expenses))
                (F64.creditors (F64.familyBalances families expenses))).1
          - c.balance|
        ≤ (((F64.transfers families expenses).filter
              (fun t => t.to_ = c.family)).length : ℚ)
            * (c.balance / 2 ^ 53 + 1 / 2 ^ 1075)) := by
  obtain ⟨_, h2, h3⟩ := settleLoop64_end (F64.debtors (F64.familyBalances families expenses))
    (F64.creditors (F64.familyBalances families expenses)) (creditors64_nonneg _)
  refine ⟨creditors_settle_exactly families expenses hvalid, h2, ?_,
    creditors64_account families expenses hvalid.distinct⟩
  rintro ⟨c, hc, hne⟩
  rcases h3 with h | h
  · exact h
  · exact absurd (h c hc) hne

theorem creditor_reconciliation_witness :
    ValidInput driftFamilies driftExpenses ∧
    (∀ b ∈ familyBalances driftFamilies driftExpenses, 0 < b.balance →
      receivedBy b.family (transfers driftFamilies driftExpenses) = b.balance) ∧
    (F64.settleLoop (F64.debtors (F64.familyBalances driftFamilies driftExpenses))
        (F64.creditors (F64.familyBalances driftFamilies driftExpenses))).1.map
      (fun c => (c.family, c.balance)) = [("C", 3 / 2 ^ 51)] ∧
    (∀ r ∈ F64.remainingDebts (F64.debtors (F64.familyBalances driftFamilies driftExpenses))
        (F64.creditors (F64.familyBalances driftFamilies driftExpenses)), r = 0) :=
  ⟨⟨by decide!, by decide!, by decide!, by decide!⟩,
    (creditor_reconciliation driftFamilies driftExpenses
      ⟨by decide!, by decide!, by decide!, by decide!⟩).1.1,
    by decide!,
    (creditor_reconciliation driftFamilies driftExpenses
      ⟨by decide!, by decide!, by decide!, by decide!⟩).2.2.1 (by decide!)⟩

/-- C3 as stated fails on the code: with families `A` (3 members), `B` and `C`
(2 members each) and expenses of 0.9 and 2.3 by `C`, 2 by `A` and 1.1 by `B`,
the rounded balance of `C` is 1.4000000000000001 and the two debtors owe
0.6999999999999995 and 0.6999999999999993; both pay `C` in full, and the
working balance of `C` ends at `3 * 2 ^ (-51)`, not at 0: what `C` receives is
not its balance. -/
theorem creditor_left_with_residue :
    ValidInput driftFamilies driftExpenses ∧
    (F64.settlementsOf driftFamilies driftExpenses).settlements
      = [⟨"B", "C", "0.70"⟩, ⟨"A", "C", "0.70"⟩] ∧
    (∃ b ∈ F64.familyBalances driftFamilies driftExpenses, b.family = "C" ∧ 0 < b.balance ∧
      receivedBy b.family (F64.transfers driftFamilies driftExpenses) ≠ b.balance) ∧
    (F64.settleLoop (F64.debtors (F64.familyBalances driftFamilies driftExpenses))
        (F64.creditors (F64.familyBalances driftFamilies driftExpenses))).1.map
      (fun c => (c.family, c.balance)) = [("C", 3 / 2 ^ 51)] ∧
    ¬ ∀ c ∈ (F64.settleLoop (F64.debtors (F64.familyBalances driftFamilies driftExpenses))
        (F64.creditors (F64.familyBalances driftFamilies driftExpenses))).1, c.balance = 0 := by
  refine ⟨⟨by decide!, by decide!, by decide!, by decide!⟩, by decide!, by decide!, by decide!,
    by decide!⟩

/-! ## Order of the input -/

/-- C8, as the code has it. Order of the input. For a valid input, the
handler in the arithmetic of the host language gives the same response on any
permutation of the stored families, because it reads them in ascending order of
name; in exact arithmetic it gives the same response on any permutation of the
families and any permutation of the expenses, equal balances included. -/
theorem settlements_order_independent (families families' : List Family)
    (expenses expenses' : List Expense) (hvalid : ValidInput families expenses)
    (hfamilies : families.Perm families') (hexpenses : expenses.Perm expenses') :
    (F64.getSettlements ⟨families, expenses⟩).1 = (F64.getSettlements ⟨families', expenses⟩).1 ∧
    (F64.getSettlements ⟨families, expenses'⟩).1
      = (F64.getSettlements ⟨families', expenses'⟩).1 ∧
    (getSettlements ⟨families, expenses⟩).1 = (getSettlements ⟨families', expenses'⟩).1 ∧
    (getSettlements ⟨families, expenses⟩).1.settlements
      = (getSettlements ⟨families', expenses'⟩).1.settlements := by
  have hsorted := getFamiliesSorted_eq_of_perm families families' hfamilies hvalid.distinct
  refine ⟨?_, ?_, response_order_independent_exactly families families' expenses expenses'
    hvalid hfamilies hexpenses⟩
  · show F64.settlementsOf (getFamiliesSorted families) expenses
      = F64.settlementsOf (getFamiliesSorted families') expenses
    rw [hsorted]
  · show F64.settlementsOf (getFamiliesSorted families) expenses'
      = F64.settlementsOf (getFamiliesSorted families') expenses'
    rw [hsorted]

theorem settlements_order_independent_witness :
    ValidInput tieFamilies tieExpenses ∧
    tieFamilies.Perm tieFamiliesShuffled ∧ tieExpenses.Perm tieExpensesShuffled ∧
    (F64.getSettlements ⟨tieFamilies, tieExpenses⟩).1
      = (F64.getSettlements ⟨tieFamiliesShuffled, tieExpenses⟩).1 ∧
    (getSettlements ⟨tieFamilies, tieExpenses⟩).1
      = (getSettlements ⟨tieFamiliesShuffled, tieExpensesShuffled⟩).1 ∧
    (F64.getSettlements ⟨tieFamilies, tieExpenses⟩).1.settlements
      = [⟨"C", "A", "20.00"⟩, ⟨"D", "B", "20.00"⟩] :=
  ⟨⟨by decide!, by decide!, by decide!, by decide!⟩, by decide!, by decide!,
    (settlements_order_independent tieFamilies tieFamiliesShuffled tieExpenses
      tieExpensesShuffled ⟨by decide!, by decide!, by decide!, by decide!⟩
      (by decide!) (by decide!)).1,
    (settlements_order_independent tieFamilies tieFamiliesShuffled tieExpenses
      tieExpensesShuffled ⟨by decide!, by decide!, by decide!, by decide!⟩
      (by decide!) (by decide!)).2.2.1,
    by decide!⟩

/-- C8 as stated fails on the code: with families `A` (1 member) and `B`
(3 members) and expenses of 1.7, 0.7 and 3.7 by `A`, the sum of lines 84 and
90-92 is 6.1 when the expenses are read in this order and 6.1000000000000005
when they are read in the reverse order; the transfer from `B` to `A` is
4.574999999999999 in the first case and 4.575 in the second, and the
settlements differ. -/
theorem expense_order_changes_settlement :
    ValidInput orderFamilies orderExpenses ∧
    orderExpenses.Perm orderExpenses.reverse ∧
    (F64.getSettlements ⟨orderFamilies, orderExpenses⟩).1.settlements
      = [⟨"B", "A", "4.57"⟩] ∧
    (F64.getSettlements ⟨orderFamilies, orderExpenses.reverse⟩).1.settlements
      = [⟨"B", "A", "4.58"⟩] ∧
    (F64.getSettlements ⟨orderFamilies, orderExpenses⟩).1.totalExpenses
      ≠ (F64.getSettlements ⟨orderFamilies, orderExpenses.reverse⟩).1.totalExpenses ∧
    (F64.getSettlements ⟨orderFamilies, orderExpenses⟩).1.settlements
      ≠ (F64.getSettlements ⟨orderFamilies, orderExpenses.reverse⟩).1.settlements := by
  refine ⟨⟨by decide!, by decide!, by decide!, by decide!⟩, by decide!, by decide!, by decide!,
    by decide!, by decide!⟩

/-! ## Scenarios in the numbers of the host language -/

theorem transfersOf64_single (bs : List FamilyBalance) (d c : FamilyBalance)
    (hdebtor : bs.filter (fun f => f.balance < 0) = [d])
    (hcreditor : bs.filter (fun f => f.balance > 0) = [c]) :
    F64.transfersOf bs
      = [{ from_ := d.family, to_ := c.family, amount := min |d.balance| c.balance }] := by
  have hd : d.balance < 0 := by
    have : d ∈ bs.filter (fun f => f.balance < 0) := by
      rw [hdebtor]; exact List.mem_cons_self _ _
    simpa using (List.mem_filter.mp this).2
  have hc : 0 < c.balance := by
    have : c ∈ bs.filter (fun f => f.balance > 0) := by
      rw [hcreditor]; exact List.mem_cons_self _ _
    simpa using (List.mem_filter.mp this).2
  unfold F64.transfersOf F64.debtors F64.creditors
  rw [hdebtor, hcreditor, sortBy_singleton, sortBy_singleton, settleLoop64_cons,
    settleLoop64_nil, payDebtor64_pay d.family |d.balance| c [] (abs_pos.mpr (ne_of_lt hd)) hc]
  simp [payDebtor64_nil]

theorem transfersOf64_of_balance_zero (bs : List FamilyBalance) (h : ∀ b ∈ bs, b.balance = 0) :
    F64.transfersOf bs = [] := by
  have hD : bs.filter (fun f => f.balance < 0) = [] := by
    rw [List.filter_eq_nil_iff]
    intro b hb
    simp [h b hb]
  unfold F64.transfersOf F64.debtors
  rw [hD]
  rfl

theorem totalExpenses64_nil : F64.totalExpenses [] = 0 := rfl

theorem perPersonShare64_no_expenses (fs : List Family) : F64.perPersonShare fs [] = 0 := by
  unfold F64.perPersonShare F64.perPersonShareChecked F64.divide
  rw [totalExpenses64_nil]
  split_ifs <;> simp [binary64_zero]

theorem mul64_zero (m : ℚ) : F64.mul 0 m = 0 := by
  unfold F64.mul
  rw [zero_mul, binary64_zero]

/-- C12, as the code has it. Single debtor and single creditor: for a valid
input, when the rounded balances have exactly one negative entry `d` and
exactly one positive entry `c`, the settlements of the code are the one record
from `d` to `c` whose amount is the smaller of the debtor's absolute balance
and the creditor's balance, written with 2 decimals; in exact arithmetic the
two are equal and the amount is the creditor's balance; and Scenario A gives
the response of the specification in both. -/
theorem single_debtor_single_creditor (families : List Family) (expenses : List Expense)
    (hvalid : ValidInput families expenses) :
    (∀ d c : FamilyBalance,
      (F64.familyBalances families expenses).filter (fun f => f.balance < 0) = [d] →
      (F64.familyBalances families expenses).filter (fun f => f.balance > 0) = [c] →
      (F64.settlementsOf families expenses).settlements
        = [{ from_ := d.family, to_ := c.family,
             amount := toFixed2 (min |d.balance| c.balance) }]) ∧
    (∀ d c : FamilyBalance,
      (familyBalances families expenses).filter (fun f => f.balance < 0) = [d] →
      (familyBalances families expenses).filter (fun f => f.balance > 0) = [c] →
      |d.balance| = c.balance ∧
      (settlementsOf families expenses).settlements
        = [{ from_ := d.family, to_ := c.family, amount := toFixed2 c.balance }]) ∧
    F64.settlementsOf sampleFamilies sampleExpenses
      = { totalExpenses := 100
          totalMembers := 4
          perPersonShare := 25
          familyBalances :=
            [{ family := "Alpha", members := 2, share := 50, paid := 100, balance := 50 },
             { family := "Beta", members := 2, share := 50, paid := 0, balance := -50 }]
          settlements := [{ from_ := "Beta", to_ := "Alpha", amount := "50.00" }] } ∧
    settlementsOf sampleFamilies sampleExpenses
      = { totalExpenses := 100
          totalMembers := 4
          perPersonShare := 25
          familyBalances :=
            [{ family := "Alpha", members := 2, share := 50, paid := 100, balance := 50 },
             { family := "Beta", members := 2, share := 50, paid := 0, balance := -50 }]
          settlements := [{ from_ := "Beta", to_ := "Alpha", amount := "50.00" }] } := by
  refine ⟨?_, ?_, by decide!, by decide!⟩
  · intro d c hd hc
    show (F64.transfersOf (F64.familyBalances families expenses)).map emit = _
    rw [transfersOf64_single _ d c hd hc]
    rfl
  · intro d c hd hc
    refine ⟨?_, (single_pair_exactly families expenses d c hvalid hd hc).1⟩
    have hsum := totalBalance_eq_zero families expenses hvalid.distinct hvalid.listed
      hvalid.members
    have hsplit := totalBalance_split (familyBalances families expenses)
    rw [hsum, hd, hc] at hsplit
    simp only [totalBalance, List.map_cons, List.map_nil, List.sum_cons, List.sum_nil,
      add_zero] at hsplit
    have hneg : d.balance < 0 := by
      have : d ∈ (familyBalances families expenses).filter (fun f => f.balance < 0) := by
        rw [hd]; exact List.mem_cons_self _ _
      simpa using (List.mem_filter.mp this).2
    rw [abs_of_neg hneg]
    linarith

theorem single_debtor_single_creditor_witness :
    ValidInput eighthFamilies eighthExpenses ∧
    (F64.familyBalances eighthFamilies eighthExpenses).map (fun b => (b.family, b.balance))
      = [("A", 1 / 8), ("B", -(1 / 8 - 1 / 2 ^ 56))] ∧
    (F64.settlementsOf eighthFamilies eighthExpenses).settlements
      = [{ from_ := "B", to_ := "A", amount := toFixed2 (min |-(1 / 8 - 1 / 2 ^ 56)| (1 / 8)) }] :=
  ⟨⟨by decide!, by decide!, by decide!, by decide!⟩, by decide!,
    (single_debtor_single_creditor eighthFamilies eighthExpenses
      ⟨by decide!, by decide!, by decide!, by decide!⟩).1
      { family := "B", members := 5, share := 1 / 8 - 1 / 2 ^ 56, paid := 0,
        balance := -(1 / 8 - 1 / 2 ^ 56) }
      { family := "A", members := 1, share := binary64 (binary64 (15 / 100) / 6),
        paid := binary64 (15 / 100), balance := 1 / 8 }
      (by decide!) (by decide!)⟩

/-- C12 as stated fails on the code: with families `A` (1 member) and `B`
(5 members) and one expense of 0.15 by `A`, the rounded balances are +0.125 for
`A` and -0.12499999999999999 for `B`; the one settlement has the amount
`"0.12"`, while the creditor's balance written with 2 decimals is `"0.13"`. -/
theorem single_pair_emits_smaller_amount :
    ValidInput eighthFamilies eighthExpenses ∧
    (F64.familyBalances eighthFamilies eighthExpenses).map (fun b => (b.family, b.balance))
      = [("A", 1 / 8), ("B", -(1 / 8 - 1 / 2 ^ 56))] ∧
    (F64.settlementsOf eighthFamilies eighthExpenses).settlements = [⟨"B", "A", "0.12"⟩] ∧
    toFixed2 (1 / 8) = "0.13" ∧
    (F64.settlementsOf eighthFamilies eighthExpenses).settlements
      ≠ [⟨"B", "A", toFixed2 (1 / 8)⟩] := by
  refine ⟨⟨by decide!, by decide!, by decide!, by decide!⟩, by decide!, by decide!, by decide!,
    by decide!⟩

/-- C13, as the code has it. Already-even groups: when the `paid` the code
computes for every family equals the `share` it computes, every balance is 0
and the settlements list is empty; this is so whenever there are no expenses
(then `perPersonShare = 0` as well) and in Scenarios B and C, where the sums
and the shares are exact. In exact arithmetic it is so whenever every family
paid its share. -/
theorem already_even (families : List Family) (expenses : List Expense)
    (heven : ∀ b ∈ F64.familyBalances families expenses, b.paid = b.share) :
    (∀ b ∈ F64.familyBalances families expenses, b.balance = 0) ∧
    (F64.settlementsOf families expenses).settlements = [] ∧
    (F64.perPersonShare families [] = 0 ∧
      (∀ b ∈ F64.familyBalances families [], b.paid = b.share ∧ b.balance = 0) ∧
      (F64.settlementsOf families []).settlements = []) ∧
    ((∀ b ∈ F64.familyBalances evenFamilies evenExpenses,
        b.paid = 30 ∧ b.share = 30 ∧ b.balance = 0) ∧
      (F64.settlementsOf evenFamilies evenExpenses).settlements = []) ∧
    (F64.totalMembers idleFamilies = 2 ∧ F64.perPersonShare idleFamilies [] = 0 ∧
      (∀ b ∈ F64.familyBalances idleFamilies [], b.balance = 0) ∧
      (F64.settlementsOf idleFamilies []).settlements = []) ∧
    ((∀ b ∈ familyBalances families expenses, b.paid = b.share) →
      (∀ b ∈ familyBalances families expenses, b.balance = 0) ∧
      (settlementsOf families expenses).settlements = []) := by
  have key : ∀ (fs : List Family) (es : List Expense),
      (∀ b ∈ F64.familyBalances fs es, b.paid = b.share) →
      (∀ b ∈ F64.familyBalances fs es, b.balance = 0) ∧
      (F64.settlementsOf fs es).settlements = [] := by
    intro fs es h
    have h0 : ∀ b ∈ F64.familyBalances fs es, b.balance = 0 := by
      intro b hb
      have hps := h b hb
      simp only [F64.familyBalances, List.mem_map] at hb
      obtain ⟨f, _, rfl⟩ := hb
      show F64.sub (F64.familyPaid es f) (F64.mul (F64.perPersonShare fs es) (f.members : ℚ)) = 0
      have : F64.familyPaid es f = F64.mul (F64.perPersonShare fs es) (f.members : ℚ) := hps
      rw [this, sub64_self]
    refine ⟨h0, ?_⟩
    simp [F64.settlementsOf, F64.transfers, transfersOf64_of_balance_zero _ h0]
  have hnone : ∀ b ∈ F64.familyBalances families [], b.paid = b.share := by
    intro b hb
    simp only [F64.familyBalances, List.mem_map] at hb
    obtain ⟨f, _, rfl⟩ := hb
    show F64.familyPaid [] f = F64.mul (F64.perPersonShare families []) (f.members : ℚ)
    rw [perPersonShare64_no_expenses, mul64_zero]
    rfl
  refine ⟨(key families expenses heven).1, (key families expenses heven).2,
    ⟨perPersonShare64_no_expenses families, ?_, (key families [] hnone).2⟩,
    ⟨by decide!, by decide!⟩, ⟨by decide!, by decide!, by decide!, by decide!⟩, ?_⟩
  · intro b hb
    exact ⟨hnone b hb, (key families [] hnone).1 b hb⟩
  · intro h
    exact ⟨(already_even_exactly families expenses h).1,
      (already_even_exactly families expenses h).2.1⟩

theorem already_even_witness :
    (∀ b ∈ F64.familyBalances evenFamilies evenExpenses, b.paid = b.share) ∧
    (∀ b ∈ F64.familyBalances evenFamilies evenExpenses, b.balance = 0) ∧
    (F64.settlementsOf evenFamilies evenExpenses).settlements = [] :=
  ⟨by decide!, (already_even evenFamilies evenExpenses (by decide!)).1,
    (already_even evenFamilies evenExpenses (by decide!)).2.1⟩

/-- C13 as stated fails on the code: families `A` and `B` (1 member each) and
`C` (5 members) pay 1.38 + 0.38, 1.37 + 0.39 and 8.80, which is 1.76 for each
member, so that every family's paid equals its share; the code adds the stored
amounts to 1.7599999999999998 for `A` and 1.7600000000000002 for `B`, the
shares are 1.76, and the response has the settlement from `A` to `B` with the
amount `"0.00"`. -/
theorem even_group_gets_a_settlement :
    (∀ b ∈ familyBalances headFamilies headAmounts, b.paid = b.share) ∧
    (∀ b ∈ familyBalances headFamilies headAmounts, b.balance = 0) ∧
    (F64.familyBalances headFamilies (stored headAmounts)).map (fun b => (b.family, b.balance))
      = [("A", -(1 / 2 ^ 52)), ("B", 1 / 2 ^ 52), ("C", 0)] ∧
    (F64.settlementsOf headFamilies (stored headAmounts)).settlements
      = [⟨"A", "B", "0.00"⟩] ∧
    (F64.settlementsOf headFamilies (stored headAmounts)).settlements ≠ [] := by
  refine ⟨by decide!, by decide!, by decide!, by decide!, by decide!⟩

/-! ## The emitted amounts in the numbers of the host language -/

/-- C17, as the code has it. Cent-level reconciliation of the emitted amounts.
In the code every unrounded transfer amount is greater than 0 and is emitted
rounded to cents on its own, so for every family the sum of the emitted amounts
grouped by `from` differs from the sum of the unrounded amounts of these
settlements by at most half a cent for each of them, and by less than one cent
when there is at most one; the same grouped by `to`. In exact arithmetic, for a
valid input, the unrounded amounts of a family add up to its deficit or to its
surplus, and the same bounds hold against these. In the arithmetic of the host
language the emitted amounts from a debtor, with the debt it is left with,
differ from its absolute balance by at most half a cent and one rounding for
each of its settlements, and the emitted amounts to a creditor, with the
working balance it is left with, from its balance likewise. -/
theorem emitted_reconciliation (families : List Family) (expenses : List Expense)
    (hvalid : ValidInput families expenses) :
    (F64.settlementsOf families expenses).settlements
      = (F64.transfers families expenses).map emit ∧
    (∀ t ∈ F64.transfers families expenses,
      0 < t.amount ∧ (emit t).amount = renderCents (roundCents t.amount).toNat) ∧
    (∀ n : String,
      |emittedSentBy n (F64.transfers families expenses)
          - sentBy n (F64.transfers families expenses)|
        ≤ (((F64.transfers families expenses).filter (fun t => t.from_ = n)).length : ℚ)
            / 200 ∧
      |emittedReceivedBy n (F64.transfers families expenses)
          - receivedBy n (F64.transfers families expenses)|
        ≤ (((F64.transfers families expenses).filter (fun t => t.to_ = n)).length : ℚ)
            / 200 ∧
      (((F64.transfers families expenses).filter (fun t => t.from_ = n)).length ≤ 1 →
        |emittedSentBy n (F64.transfers families expenses)
            - sentBy n (F64.transfers families expenses)| < 1 / 100) ∧
      (((F64.transfers families expenses).filter (fun t => t.to_ = n)).length ≤ 1 →
        |emittedReceivedBy n (F64.transfers families expenses)
            - receivedBy n (F64.transfers families expenses)| < 1 / 100)) ∧
    (∀ b ∈ familyBalances families expenses,
      sentBy b.family (transfers families expenses) = max (-b.balance) 0 ∧
      receivedBy b.family (transfers families expenses) = max b.balance 0 ∧
      |emittedSentBy b.family (transfers families expenses) - max (-b.balance) 0|
        ≤ (((transfers families expenses).filter (fun t => t.from_ = b.family)).length : ℚ)
            / 200 ∧
      |emittedReceivedBy b.family (transfers families expenses) - max b.balance 0|
        ≤ (((transfers families expenses).filter (fun t => t.to_ = b.family)).length : ℚ)
            / 200) ∧
    (∀ p ∈ (F64.debtors (F64.familyBalances families expenses)).zip
        (F64.remainingDebts (F64.debtors (F64.familyBalances families expenses))
          (F64.creditors (F64.familyBalances families expenses))),
      |emittedSentBy p.1.family (F64.transfers families expenses) + p.2 - abs p.1.balance|
        ≤ (((F64.transfers families expenses).filter
              (fun t => t.from_ = p.1.family)).length : ℚ)
            * (1 / 200 + |p.1.balance| / 2 ^ 53 + 1 / 2 ^ 1075)) ∧
    (∀ c ∈ F64.creditors (F64.familyBalances families expenses),
      |emittedReceivedBy c.family (F64.transfers families expenses)
          + creditOf c.family
              (F64.settleLoop (F64.debtors (F64.familyBalances families expenses))
                (F64.creditors (F64.familyBalances families expenses))).1
          - c.balance|
        ≤ (((F64.transfers families expenses).filter
              (fun t => t.to_ = c.family)).length : ℚ)
            * (1 / 200 + c.balance / 2 ^ 53 + 1 / 2 ^ 1075)) := by
  have hnames : ((F64.familyBalances families expenses).map (fun b => b.family)).Nodup := by
    rw [familyBalances64_names]
    exact hvalid.distinct
  refine ⟨rfl, ?_, ?_, ?_, ?_, ?_⟩
  rotate_left 3
  · intro p hp
    have hacc := settleLoop64_sent _ _ (debtors64_nodup _ hnames)
      (fun d hd => familyBalances64_isBinary64 families expenses d
        ((mem_debtors64 _ d).mp hd).1) p hp
    have hround := fixedValue_sum_error ((F64.transfers families expenses).filter
      (fun t => t.from_ = p.1.family))
    have hacc' : |sentBy p.1.family (F64.transfers families expenses) + p.2
        - abs p.1.balance|
        ≤ (((F64.transfers families expenses).filter
              (fun t => t.from_ = p.1.family)).length : ℚ)
            * (|p.1.balance| / 2 ^ 53 + 1 / 2 ^ 1075) := hacc
    have hround' : |emittedSentBy p.1.family (F64.transfers families expenses)
        - sentBy p.1.family (F64.transfers families expenses)|
        ≤ (((F64.transfers families expenses).filter
              (fun t => t.from_ = p.1.family)).length : ℚ) / 200 := hround
    rw [abs_le] at hacc' hround' ⊢
    constructor <;> nlinarith [hacc'.1, hacc'.2, hround'.1, hround'.2]
  · intro c hc
    have hacc := creditors64_account families expenses hvalid.distinct c hc
    have hround : |emittedReceivedBy c.family (F64.transfers families expenses)
        - receivedBy c.family (F64.transfers families expenses)|
        ≤ (((F64.transfers families expenses).filter
              (fun t => t.to_ = c.family)).length : ℚ) / 200 :=
      fixedValue_sum_error ((F64.transfers families expenses).filter
        (fun t => t.to_ = c.family))
    rw [abs_le] at hacc hround ⊢
    constructor <;> nlinarith [hacc.1, hacc.2, hround.1, hround.2]
  · intro t ht
    have hpos : 0 < t.amount := settleLoop64_transfer _ _ t ht
    exact ⟨hpos, toFixed2_of_pos t.amount hpos⟩
  · intro n
    have hs := fixedValue_sum_error ((F64.transfers families expenses).filter
      (fun t => t.from_ = n))
    have hr := fixedValue_sum_error ((F64.transfers families expenses).filter
      (fun t => t.to_ = n))
    refine ⟨hs, hr, ?_, ?_⟩
    · intro hlen
      have h1 : (((F64.transfers families expenses).filter (fun t => t.from_ = n)).length : ℚ)
          ≤ 1 := by exact_mod_cast hlen
      have h2 : |emittedSentBy n (F64.transfers families expenses)
          - sentBy n (F64.transfers families expenses)|
          ≤ (((F64.transfers families expenses).filter (fun t => t.from_ = n)).length : ℚ)
            / 200 := hs
      linarith
    · intro hlen
      have h1 : (((F64.transfers families expenses).filter (fun t => t.to_ = n)).length : ℚ)
          ≤ 1 := by exact_mod_cast hlen
      have h2 : |emittedReceivedBy n (F64.transfers families expenses)
          - receivedBy n (F64.transfers families expenses)|
          ≤ (((F64.transfers families expenses).filter (fun t => t.to_ = n)).length : ℚ)
            / 200 := hr
      linarith
  · intro b hb
    obtain ⟨h1, h2, _, _⟩ := emitted_reconciliation_exactly families expenses hvalid b hb
    exact ⟨sentBy_eq_deficit families expenses hvalid b hb,
      receivedBy_eq_surplus families expenses hvalid b hb, h1, h2⟩

theorem emitted_reconciliation_witness :
    ValidInput centFamilies (stored centAmounts) ∧
    sentBy "D" (F64.transfers centFamilies (stored centAmounts)) = 3 * binary64 (16 / 1000) ∧
    emittedSentBy "D" (F64.transfers centFamilies (stored centAmounts)) = 6 / 100 ∧
    |emittedSentBy "D" (F64.transfers centFamilies (stored centAmounts))
        - sentBy "D" (F64.transfers centFamilies (stored centAmounts))|
      ≤ (((F64.transfers centFamilies (stored centAmounts)).filter
          (fun t => t.from_ = "D")).length : ℚ) / 200 :=
  ⟨⟨by decide!, by decide!, by decide!, by decide!⟩, by decide!, by decide!,
    ((emitted_reconciliation centFamilies (stored centAmounts)
      ⟨by decide!, by decide!, by decide!, by decide!⟩).2.2.1 "D").1⟩

/-- C17 as stated fails on the code: with families `A`, `B`, `C` (1 member
each) and `D` (2 members) and expenses of 0.04 by each of `A`, `B` and `C`, the
rounded balance of `D` is -0.048; `D` pays 0.016 to each of the three, each
record is emitted as `"0.02"`, and the emitted amounts from `D` add up to 0.06,
which is more than one cent above its deficit. -/
theorem emitted_sum_off_by_more_than_a_cent :
    ValidInput centFamilies (stored centAmounts) ∧
    (F64.settlementsOf centFamilies (stored centAmounts)).settlements
      = [⟨"D", "A", "0.02"⟩, ⟨"D", "B", "0.02"⟩, ⟨"D", "C", "0.02"⟩] ∧
    (F64.familyBalances centFamilies (stored centAmounts)).map (fun b => (b.family, b.balance))
      = [("A", binary64 (16 / 1000)), ("B", binary64 (16 / 1000)),
         ("C", binary64 (16 / 1000)), ("D", -binary64 (48 / 1000))] ∧
    emittedSentBy "D" (F64.transfers centFamilies (stored centAmounts)) = 6 / 100 ∧
    ¬ (|emittedSentBy "D" (F64.transfers centFamilies (stored centAmounts))
          - binary64 (48 / 1000)| < 1 / 100) := by
  refine ⟨⟨by decide!, by decide!, by decide!, by decide!⟩, by decide!, by decide!,
    by decide!, by decide!⟩

/-! ## Runs of the handler in one process -/

theorem mem_freshRefs (first count x : ℕ) :
    x ∈ freshRefs first count ↔ first ≤ x ∧ x < first + count := by
  simp only [freshRefs, List.mem_map, List.mem_range]
  constructor
  · rintro ⟨i, hi, rfl⟩
    omega
  · rintro ⟨h1, h2⟩
    exact ⟨x - first, by omega, by omega⟩

theorem freshRefs_nodup (first count : ℕ) : (freshRefs first count).Nodup := by
  unfold freshRefs
  apply List.Nodup.map
  · intro a b hab
    simpa using hab
  · exact List.nodup_range count

/-- Reading the references of a block of objects gives the objects. -/
theorem map_readRef_freshRefs (before bs after : List FamilyBalance) :
    (freshRefs before.length bs.length).map (readRef (before ++ bs ++ after)) = bs := by
  apply List.ext_getElem?
  intro i
  by_cases hi : i < bs.length
  · have hr : (before ++ bs ++ after)[before.length + i]? = bs[i]? := by
      rw [List.append_assoc, List.getElem?_append_right (by omega)]
      have : before.length + i - before.length = i := by omega
      rw [this, List.getElem?_append_left hi]
    have hlt : i < (List.range bs.length).length := by simpa using hi
    simp only [freshRefs, List.map_map, List.getElem?_map]
    rw [List.getElem?_eq_getElem hlt, List.getElem_range]
    simp only [Option.map_some', Function.comp, readRef, List.getD_eq_getElem?_getD, hr,
      List.getElem?_eq_getElem hi, Option.getD_some]
  · have h1 : bs[i]? = none := by
      rw [List.getElem?_eq_none_iff]; omega
    rw [h1]
    simp only [freshRefs, List.map_map, List.getElem?_map, List.getElem?_range,
      Option.map_eq_none']
    rw [List.getElem?_eq_none_iff]
    simp only [List.length_range]
    omega

/-- The matching pass leaves every object that was in memory, and the objects
of `familyBalances`, as they were, and adds the copies. -/
theorem matchingPassIn_frame (memory bs : List FamilyBalance) :
    (matchingPassIn memory bs).1.length = memory.length + bs.length + bs.length ∧
    (matchingPassIn memory bs).1.take (memory.length + bs.length) = memory ++ bs := by
  obtain ⟨h1, h2⟩ := settleLoopRef_frame
    (debtorRefs (memory ++ bs ++ bs) (freshRefs (memory ++ bs).length bs.length))
    (creditorRefs (memory ++ bs ++ bs) (freshRefs (memory ++ bs).length bs.length))
    (memory ++ bs ++ bs)
  have hge : ∀ c ∈ creditorRefs (memory ++ bs ++ bs) (freshRefs (memory ++ bs).length bs.length),
      memory.length + bs.length ≤ c := by
    intro c hc
    rw [mem_creditorRefs, mem_freshRefs, List.length_append] at hc
    exact hc.1.1
  unfold matchingPassIn
  refine ⟨?_, ?_⟩
  · rw [h1]
    simp only [List.length_append]
  · rw [h2 _ hge]
    have : memory.length + bs.length = (memory ++ bs).length := by
      rw [List.length_append]
    rw [this, List.take_left]

/-- The matching pass in a process makes the transfers of the value model,
whatever the memory holds. -/
theorem matchingPassIn_transfers (memory bs : List FamilyBalance) :
    (matchingPassIn memory bs).2 = transfersOf bs := by
  have hnd : (creditorRefs (memory ++ bs ++ bs)
      (freshRefs (memory ++ bs).length bs.length)).Nodup := by
    unfold creditorRefs
    rw [(sortBy_perm _ _).nodup_iff]
    exact (freshRefs_nodup _ _).sublist (List.filter_sublist _)
  have hin : ∀ c ∈ creditorRefs (memory ++ bs ++ bs)
      (freshRefs (memory ++ bs).length bs.length), c < (memory ++ bs ++ bs).length := by
    intro c hc
    rw [mem_creditorRefs, mem_freshRefs] at hc
    rw [List.length_append]
    exact hc.1.2
  have hdis : ∀ d ∈ debtorRefs (memory ++ bs ++ bs)
      (freshRefs (memory ++ bs).length bs.length),
      d ∉ creditorRefs (memory ++ bs ++ bs) (freshRefs (memory ++ bs).length bs.length) := by
    intro d hd hc
    rw [mem_debtorRefs] at hd
    rw [mem_creditorRefs] at hc
    exact lt_asymm hd.2 hc.2
  have hcopies : (freshRefs (memory ++ bs).length bs.length).map (readRef (memory ++ bs ++ bs))
      = bs := by
    have := map_readRef_freshRefs (memory ++ bs) bs []
    simpa using this
  unfold matchingPassIn transfersOf
  rw [settleLoopRef_refines _ _ _ hnd hin hdis, map_readRef_debtorRefs,
    map_readRef_creditorRefs, hcopies]

/-- The objects of `familyBalances` read back after the loop. -/
theorem matchingPassIn_balances (memory bs : List FamilyBalance) :
    (freshRefs memory.length bs.length).map (readRef (matchingPassIn memory bs).1) = bs := by
  obtain ⟨hlen, htake⟩ := matchingPassIn_frame memory bs
  have hsplit : (matchingPassIn memory bs).1
      = memory ++ bs ++ (matchingPassIn memory bs).1.drop (memory.length + bs.length) := by
    rw [← htake, List.take_append_drop]
  rw [hsplit]
  exact map_readRef_freshRefs memory bs _

/-- A run in a process gives the response of the value model, whatever the
memory holds. -/
theorem getSettlementsIn_response (process : Process) :
    (getSettlementsIn process).1 = (getSettlements process.store).1 := by
  show ({ totalExpenses := _, totalMembers := _, perPersonShare := _, familyBalances := _,
          settlements := _ } : Response) = settlementsOf _ _
  unfold settlementsOf transfers
  rw [matchingPassIn_balances, matchingPassIn_transfers]

theorem getFamiliesSorted_length (l : List Family) : (getFamiliesSorted l).length = l.length :=
  (getFamiliesSorted_perm l).length_eq

/-- C9. Idempotence: a run of the handler in a process leaves the database as
it found it and leaves in memory, untouched, every object that was there, with
the objects of `familyBalances` and their copies after them (two for each
family, the copies with the `balance` fields the loop wrote); a second run in
the process the first run left gives the same response, with the same
`totalExpenses`, `totalMembers`, `perPersonShare`, `familyBalances` and
`settlements`, and so does a run in any other memory. In Scenario A the first
run leaves four objects, the copy of `Alpha` with balance 0, and the second run
answers as the first. -/
theorem getSettlements_idempotent (process : Process) :
    (getSettlementsIn (getSettlementsIn process).2).1 = (getSettlementsIn process).1 ∧
    ((getSettlementsIn (getSettlementsIn process).2).1.totalExpenses
        = (getSettlementsIn process).1.totalExpenses ∧
      (getSettlementsIn (getSettlementsIn process).2).1.totalMembers
        = (getSettlementsIn process).1.totalMembers ∧
      (getSettlementsIn (getSettlementsIn process).2).1.perPersonShare
        = (getSettlementsIn process).1.perPersonShare ∧
      (getSettlementsIn (getSettlementsIn process).2).1.familyBalances
        = (getSettlementsIn process).1.familyBalances ∧
      (getSettlementsIn (getSettlementsIn process).2).1.settlements
        = (getSettlementsIn process).1.settlements) ∧
    (getSettlementsIn process).2.store = process.store ∧
    (getSettlementsIn process).2.memory.take process.memory.length = process.memory ∧
    (getSettlementsIn process).2.memory.length
      = process.memory.length + 2 * process.store.families.length ∧
    (∀ memory : List FamilyBalance,
      (getSettlementsIn { store := process.store, memory := memory }).1
        = (getSettlementsIn process).1) ∧
    (getSettlementsIn process).1 = (getSettlements process.store).1 ∧
    ((getSettlementsIn { store := sampleStore, memory := [] }).2.memory
        = [{ family := "Alpha", members := 2, share := 50, paid := 100, balance := 50 },
           { family := "Beta", members := 2, share := 50, paid := 0, balance := -50 },
           { family := "Alpha", members := 2, share := 50, paid := 100, balance := 0 },
           { family := "Beta", members := 2, share := 50, paid := 0, balance := -50 }] ∧
      (getSettlementsIn (getSettlementsIn { store := sampleStore, memory := [] }).2).2.memory.length
        = 8 ∧
      (getSettlementsIn (getSettlementsIn { store := sampleStore, memory := [] }).2).1.settlements
        = [{ from_ := "Beta", to_ := "Alpha", amount := "50.00" }]) := by
  have hsame : ∀ p q : Process, p.store = q.store →
      (getSettlementsIn p).1 = (getSettlementsIn q).1 := by
    intro p q h
    rw [getSettlementsIn_response, getSettlementsIn_response, h]
  have hstore : (getSettlementsIn process).2.store = process.store := rfl
  have h12 := hsame (getSettlementsIn process).2 process hstore
  obtain ⟨hlen, htake⟩ := matchingPassIn_frame process.memory
    (familyBalances (getFamiliesSorted process.store.families) process.store.expenses)
  refine ⟨h12, ⟨by rw [h12], by rw [h12], by rw [h12], by rw [h12], by rw [h12]⟩, hstore, ?_, ?_,
    ?_, getSettlementsIn_response process, by decide!, by decide!, by decide!⟩
  · show (matchingPassIn process.memory _).1.take process.memory.length = process.memory
    have h := congrArg (List.take process.memory.length) htake
    rw [List.take_take, Nat.min_eq_left (Nat.le_add_right _ _), List.take_left] at h
    exact h
  · show (matchingPassIn process.memory _).1.length = _
    rw [hlen]
    simp only [familyBalances, List.length_map, getFamiliesSorted_length]
    omega
  · intro memory
    exact hsame _ _ rfl

/-! ## Overlapping requests -/

/-- `POST /families` handled in one piece is its checks followed at once by its
save. -/
theorem addFamily_checks_save (host : Host) (db : Db) (req : AddFamilyRequest) :
    addFamily host db req
      = match addFamilyChecks host db req with
        | Except.error reply => (reply, db)
        | Except.ok pending => save host db pending := by
  unfold addFamily addFamilyChecks
  cases hres : resolveGroup db req.groupId with
  | error reply => rfl
  | ok group =>
    simp only
    by_cases hclosed : group.status = GroupStatus.closed
    · simp only [hclosed, if_true]
    · by_cases hpw : req.password ≠ some host.password
      · simp only [hclosed, hpw, if_true, if_false, ne_eq, not_false_eq_true]
      · by_cases hname : host.trim (req.name.getD "") = ""
        · simp only [hclosed, hpw, hname, if_true, if_false]
        · cases hval : validMembers req.members with
          | none => simp only [hclosed, hpw, hname, if_false]
          | some members =>
            simp only [hclosed, hpw, hname, if_false]
            cases hfind : db.families.find?
                (fun f => host.fold f.name = host.fold (host.trim (req.name.getD ""))
                  ∧ f.group = group.id) with
            | none =>
              have hany : ¬ (db.families.any
                  (fun f => f.group = group.id ∧ f.name = host.trim (req.name.getD ""))
                  = true) := by
                rw [List.any_eq_true]
                rintro ⟨f, hf, hp⟩
                simp only [decide_eq_true_eq] at hp
                rw [List.find?_eq_none] at hfind
                have := hfind f hf
                simp only [decide_eq_true_eq, not_and] at this
                exact this (by rw [hp.2]) hp.1
              simp only [save, hany, if_false, Bool.false_eq_true]
            | some existing =>
              have hex := List.find?_some hfind
              simp only [decide_eq_true_eq] at hex
              simp only [hex.2, ne_eq, not_true_eq_false, if_false]

/-- `POST /expenses` handled in one piece is its checks followed at once by its
save. -/
theorem addExpense_checks_save (host : Host) (db : Db) (req : AddExpenseRequest) :
    addExpense host db req
      = match addExpenseChecks db req with
        | Except.error reply => (reply, db)
        | Except.ok pending => save host db pending := by
  unfold addExpense addExpenseChecks
  cases hres : resolveGroup db req.groupId with
  | error reply => rfl
  | ok group =>
    simp only
    by_cases hclosed : group.status = GroupStatus.closed
    · simp only [hclosed, if_true]
    · simp only [hclosed, if_false]
      cases hfind : db.families.find?
          (fun f => f.name = req.familyName ∧ f.group = group.id) with
      | none => rfl
      | some found => rfl

theorem overlap_family_at_once (host : Host) (db : Db) (req : AddFamilyRequest) :
    overlap host { db := db, waiting := [] } [Event.familyChecks req, Event.save]
      = { db := (addFamily host db req).2, waiting := [] } := by
  rw [addFamily_checks_save]
  simp only [overlap, List.foldl_cons, List.foldl_nil, step]
  cases addFamilyChecks host db req with
  | error reply => rfl
  | ok pending => rfl

theorem overlap_expense_at_once (host : Host) (db : Db) (req : AddExpenseRequest) :
    overlap host { db := db, waiting := [] } [Event.expenseChecks req, Event.save]
      = { db := (addExpense host db req).2, waiting := [] } := by
  rw [addExpense_checks_save]
  simp only [overlap, List.foldl_cons, List.foldl_nil, step]
  cases addExpenseChecks db req with
  | error reply => rfl
  | ok pending => rfl

/-- Requests handled one after the other are a run of the server in which no
handler waits. -/
theorem overlap_requests (host : Host) (db : Db) (requests : List Request) :
    overlap host { db := db, waiting := [] } (requests.map Event.request)
      = { db := run host db requests, waiting := [] } := by
  induction requests generalizing db with
  | nil => rfl
  | cons req rest ih =>
    simp only [List.map_cons, overlap, List.foldl_cons, step, run]
    exact ih (handle host db req).2

/-- C19, as the code has it. Referential invariant of the store, for requests
handled one at a time: in every store reachable from the empty one through the
routes when each request is handled from its first line to its last before the
next, every expense names, with exactly the same string, a family of its own
group, so that the expenses `GET /settlements` reads for a group all name a
family it reads; `POST /expenses` and `PATCH /expenses/:id` leave the store
unchanged and do not succeed when the family named is unknown in the group; no
route changes the name or the group of a family; `DELETE /families/:id` leaves
the store unchanged and does not succeed for a family that an expense of its
group names; and a `POST /expenses` whose save follows its checks at once is
the route handled in one piece. -/
theorem referential_invariant (host : Host) (db : Db) (hreach : Reachable host db) :
    (∀ e ∈ db.expenses, ∃ f ∈ db.families, f.name = e.familyName ∧ f.group = e.group) ∧
    (∀ group, ∀ e ∈ (groupStore db group).expenses,
      e.familyName ∈ (groupStore db group).families.map (fun f => f.name)) ∧
    (∀ req : AddExpenseRequest,
      (∀ f ∈ db.families, ¬ (f.name = req.familyName ∧ req.groupId = some f.group)) →
      (addExpense host db req).2 = db ∧ (addExpense host db req).1.status ≠ 201) ∧
    (∀ (req : UpdateExpenseRequest) (name : String),
      req.familyName = some name → name ≠ "" →
      (∀ e ∈ db.expenses, e.id = req.id →
        ∀ f ∈ db.families, ¬ (f.name = name ∧ f.group = e.group)) →
      (updateExpense host db req).2 = db ∧ (updateExpense host db req).1.status ≠ 200) ∧
    (∀ (req : Request), ∀ f ∈ db.families, ∀ g ∈ (handle host db req).2.families,
      g.id = f.id → g.name = f.name ∧ g.group = f.group) ∧
    (∀ (req : DeleteFamilyRequest), ∀ family ∈ db.families, family.id = req.id →
      (∃ e ∈ db.expenses, e.familyName = family.name ∧ e.group = family.group) →
      (deleteFamily host db req).2 = db ∧ (deleteFamily host db req).1.status ≠ 200) ∧
    (∀ req : AddExpenseRequest,
      overlap host { db := db, waiting := [] } [Event.expenseChecks req, Event.save]
        = { db := (addExpense host db req).2, waiting := [] }) ∧
    (∀ requests : List Request,
      Referential
        (overlap host { db := db, waiting := [] } (requests.map Event.request)).db) := by
  obtain ⟨h1, h2, h3, h4, h5, h6⟩ := referential_one_at_a_time host db hreach
  refine ⟨h1, h2, h3, h4, h5, h6, overlap_expense_at_once host db, ?_⟩
  intro requests
  rw [overlap_requests]
  exact (reachable_consistent host _ (reachable_run host db requests hreach)).2.1

theorem referential_invariant_witness :
    Reachable sampleHost sampleDb ∧
    sampleDb.expenses
      = [{ id := 3, description := "Hotel", amount := 100, familyName := "Alpha", group := 0 }] ∧
    (∀ e ∈ sampleDb.expenses,
      ∃ f ∈ sampleDb.families, f.name = e.familyName ∧ f.group = e.group) :=
  ⟨reachable_run sampleHost emptyDb sampleRequests Reachable.empty, by decide!,
    (referential_invariant sampleHost sampleDb
      (reachable_run sampleHost emptyDb sampleRequests Reachable.empty)).1⟩

/-- C19 as stated fails on the code: in a store reached through the routes,
with the families `Alpha`, `Beta` and `Gamma` in one group and no expense of
`Gamma`, a `POST /expenses` for `Gamma` finds the family at line 50; before it
saves, a `DELETE /families/:id` for `Gamma` finds no expense at line 197 and
deletes the family; the expense is then saved, and it names a family that the
group does not have. -/
theorem expense_outlives_family :
    Reachable sampleHost widerDb ∧
    Referential widerDb ∧
    widerDb.families.map (fun f => (f.id, f.name)) = [(1, "Alpha"), (2, "Beta"), (4, "Gamma")] ∧
    (overlap sampleHost { db := widerDb, waiting := [] } deleteBeforeSave).db.families.map
      (fun f => f.name) = ["Alpha", "Beta"] ∧
    (overlap sampleHost { db := widerDb, waiting := [] } deleteBeforeSave).db.expenses.map
      (fun e => (e.familyName, e.group)) = [("Alpha", 0), ("Gamma", 0)] ∧
    ¬ Referential (overlap sampleHost { db := widerDb, waiting := [] } deleteBeforeSave).db := by
  refine ⟨reachable_run sampleHost emptyDb _ Reachable.empty |> reachable_run sampleHost _ _,
    by unfold Referential; decide!, by decide!, by decide!, by decide!,
    by unfold Referential; decide!⟩

/-- C20, as the code has it. Case-insensitive family-name uniqueness, for
requests handled one at a time: in every store reachable through the routes
when each request is handled from its first line to its last before the next,
no two families of one group have names that are equal ignoring letter case;
`POST /families` with a trimmed name that equals, ignoring case, the name of a
family of the group leaves the store unchanged and does not succeed, with
status 409 when the request passes the earlier checks; a request that passes
these checks is accepted when no family of the same group has the name,
whatever the families of other groups are called; and a `POST /families` whose
save follows its checks at once is the route handled in one piece. -/
theorem family_names_case_unique (host : Host) (db : Db) (hreach : Reachable host db) :
    CaseUnique host db ∧
    (∀ f ∈ db.families, ∀ g ∈ db.families,
      f.group = g.group → host.fold f.name = host.fold g.name → f = g) ∧
    (∀ (req : AddFamilyRequest), ∀ f ∈ db.families, req.groupId = some f.group →
      host.fold f.name = host.fold (host.trim (req.name.getD "")) →
      (addFamily host db req).2 = db ∧ (addFamily host db req).1.status ≠ 201 ∧
      (∀ group members, resolveGroup db req.groupId = Except.ok group →
        group.status ≠ GroupStatus.closed → req.password = some host.password →
        host.trim (req.name.getD "") ≠ "" → validMembers req.members = some members →
        (addFamily host db req).1 = fail 409 "Family already exists in this group.")) ∧
    (∀ (req : AddFamilyRequest) (group : GroupDoc) (members : ℕ),
      resolveGroup db req.groupId = Except.ok group →
      group.status ≠ GroupStatus.closed → req.password = some host.password →
      host.trim (req.name.getD "") ≠ "" → validMembers req.members = some members →
      (∀ f ∈ db.families, f.group = group.id →
        host.fold f.name ≠ host.fold (host.trim (req.name.getD ""))) →
      (addFamily host db req).1.status = 201 ∧
      (addFamily host db req).2.families
        = db.families ++ [{ id := db.nextId, name := host.trim (req.name.getD ""),
                            members := members, group := group.id }]) ∧
    (∀ req : AddFamilyRequest,
      overlap host { db := db, waiting := [] } [Event.familyChecks req, Event.save]
        = { db := (addFamily host db req).2, waiting := [] }) ∧
    (∀ requests : List Request,
      CaseUnique host
        (overlap host { db := db, waiting := [] } (requests.map Event.request)).db) := by
  obtain ⟨h1, h2, h3, h4⟩ := case_unique_one_at_a_time host db hreach
  refine ⟨h1, h2, h3, h4, overlap_family_at_once host db, ?_⟩
  intro requests
  rw [overlap_requests]
  exact (reachable_consistent host _ (reachable_run host db requests hreach)).2.2

theorem family_names_case_unique_witness :
    Reachable sampleHost sampleDb ∧
    sampleDb.families
      = [{ id := 1, name := "Alpha", members := 2, group := 0 },
         { id := 2, name := "Beta", members := 2, group := 0 }] ∧
    CaseUnique sampleHost sampleDb ∧
    addFamily sampleHost sampleDb
        { groupId := some 0, password := some "123", name := some " ALPHA", members := some 3 }
      = (fail 409 "Family already exists in this group.", sampleDb) :=
  ⟨reachable_run sampleHost emptyDb sampleRequests Reachable.empty, by decide!,
    (family_names_case_unique sampleHost sampleDb
      (reachable_run sampleHost emptyDb sampleRequests Reachable.empty)).1, by decide!⟩

/-- C20 as stated fails on the code: in a store reached through the routes,
two `POST /families` for the names `Gamma` and `GAMMA` in one group both look
for a family of the name at line 107 before either has saved; neither finds
one, the unique index compares the exact names, and both families are
saved. -/
theorem two_spellings_are_saved :
    Reachable sampleHost sampleDb ∧
    CaseUnique sampleHost sampleDb ∧
    (overlap sampleHost { db := sampleDb, waiting := [] } twoSpellings).db.families.map
      (fun f => (f.name, f.group)) = [("Alpha", 0), ("Beta", 0), ("Gamma", 0), ("GAMMA", 0)] ∧
    sampleHost.fold "Gamma" = sampleHost.fold "GAMMA" ∧
    ¬ CaseUnique sampleHost
        (overlap sampleHost { db := sampleDb, waiting := [] } twoSpellings).db := by
  refine ⟨reachable_run sampleHost emptyDb sampleRequests Reachable.empty,
    by unfold CaseUnique; decide!, by decide!, by decide!, by unfold CaseUnique; decide!⟩

end TourCostSharing
